import Mathlib

/-!
# Edge-set topology modifier (SOFA): shallow embedding

Embedding of `SofaKernel/modules/SofaBaseTopology/EdgeSetTopologyModifier.cpp`.

* `sofa::helper::vector` is a `List`; an access outside the vector is undefined
  behaviour in the source and is `none` (container level) or
  `Outcome.outOfBounds` (modifier level) here.
* Indices (`PointID`, `EdgeID`, `size_t`) are natural numbers; the one place
  where the source relies on unsigned wrap-around, the decrement of a `size_t`
  loop bound, is `decr`.
* The modifier state carries a `trace` of the calls made to collaborators
  outside the modifier (propagation to consumers, the physical point move),
  each with the container as it stood at the call, and the list of reported
  `messages`.
* `CHECK_TOPOLOGY`, a compile-time switch of the source, is a parameter.
* Methods of the container and of the point-level modifier, whose sources are
  not part of the embedded file, are modelled from the specification; each such
  definition says so.
-/

namespace Sofa

abbrev PointID := Nat

abbrev EdgeID := Nat

/-- An edge is the ordered pair `(e[0], e[1])` of its endpoints. -/
abbrev Edge := PointID × PointID

/-- Coefficients (`SReal` in the source) are taken as exact rationals. -/
abbrev SReal := ℚ

/-- Kind tag of a `TopologyElemID` (only `EDGE` is tested by the modifier). -/
inductive TopologyObjectType where
  | POINT
  | EDGE
  | TRIANGLE
  | QUAD
  | TETRAHEDRON
  | HEXAHEDRON
  deriving DecidableEq, Repr

structure TopologyElemID where
  type : TopologyObjectType
  index : Nat
  deriving DecidableEq, Repr

/-- Modelled from the spec: the change records of `TopologyChange.h` (not part of the
sources at hand), section 3: `PrimitivesAdded{count, newPrimitives, newIndices,
ancestors?, coefficients?}`, `PrimitivesRemoved{indices}`,
`PrimitivesMoved{removingIndices}`, `PrimitivesMoved{addingIndices, newPrimitives}`.
An optional field that a constructor call does not supply is the empty list. -/
inductive TopologyChange where
  | PointsAdded (nVertices : Nat) (ancestorsList : List (List PointID))
      (coefs : List (List SReal))
  | PointsRemoved (indices : List PointID)
  | EdgesAdded (nEdges : Nat) (edgeArray : List Edge) (edgeIndexArray : List EdgeID)
      (ancestorsList : List (List EdgeID)) (coefs : List (List SReal))
  | EdgesRemoved (indices : List EdgeID)
  | EdgesMoved_Removing (edgesAroundVertexMoved : List EdgeID)
  | EdgesMoved_Adding (edgesAroundVertexMoved : List EdgeID) (edgeArray2Moved : List Edge)
  deriving DecidableEq, Repr

/-- The part of `EdgeSetTopologyContainer` that the modifier reads and writes:
the number of points, the edge array `d_edge`, the shell `m_edgesAroundVertex`,
the queue of pending change records and the dirty flag of the edge level. -/
structure EdgeSetTopologyContainer where
  nbPoints : Nat
  d_edge : List Edge
  m_edgesAroundVertex : List (List EdgeID)
  m_changeList : List TopologyChange
  m_edgeTopologyDirty : Bool
  deriving DecidableEq, Repr

/-- Calls to collaborators outside the modifier, with the container as it stood
at the moment of the call. -/
inductive Event where
  | propagated (seen : EdgeSetTopologyContainer)
  | pointsMoved (id : List PointID) (ancestors : List (List PointID))
      (coefs : List (List SReal)) (seen : EdgeSetTopologyContainer)
  deriving DecidableEq, Repr

/-- Reports made through `msg_error`, `msg_warning` and `dmsg_warning`. -/
inductive Message where
  | invalidEdge (e : Edge)
  | edgeAlreadyExists (e : Edge)
  | edgeArrayEmpty
  | outOfBound (i : EdgeID)
  deriving DecidableEq, Repr

structure EdgeSetTopologyModifier where
  m_container : EdgeSetTopologyContainer
  trace : List Event
  messages : List Message
  deriving DecidableEq, Repr

/-- Result of a modifier operation: it ran to its end, or it made an access
outside a vector (undefined behaviour); `s` is then the state reached before the
step that made the access. -/
inductive Outcome where
  | done (s : EdgeSetTopologyModifier)
  | outOfBounds (s : EdgeSetTopologyModifier)
  deriving DecidableEq, Repr

/-- The state an operation ended in, or reached before failing. -/
def Outcome.state : Outcome → EdgeSetTopologyModifier
  | .done s => s
  | .outOfBounds s => s

/-- Sequencing of two operations: the second runs only if the first ran to its end. -/
def Outcome.andThen (o : Outcome) (f : EdgeSetTopologyModifier → Outcome) : Outcome :=
  match o with
  | .done s => f s
  | .outOfBounds s => .outOfBounds s

/-! ## Vector helpers -/

/-- `std::vector::resize(n)` with fill value `d`. -/
def resize {α : Type} (l : List α) (n : Nat) (d : α) : List α :=
  l.take n ++ List.replicate (n - l.length) d

/-- `std::sort(begin, end, std::greater<>())`. -/
def sortDescending (l : List Nat) : List Nat :=
  l.insertionSort (fun a b => b ≤ a)

/-- `--x` on a `size_t`: wraps around at zero. -/
def decr (x : Nat) : Nat :=
  if x = 0 then 2 ^ 64 - 1 else x - 1

/-- `std::replace(begin, end, old, new)`. -/
def replaceAll (l : List Nat) (old new : Nat) : List Nat :=
  l.map (fun x => if x = old then new else x)

/-- `erase(std::remove(begin, end, v), end)`. -/
def eraseAll (l : List Nat) (v : Nat) : List Nat :=
  l.filter (fun x => x != v)

/-- `shells[p] = f(shells[p])`, an access outside the array being `none`. -/
def updateShell (shells : List (List EdgeID)) (p : PointID)
    (f : List EdgeID → List EdgeID) : Option (List (List EdgeID)) :=
  match shells[p]? with
  | none => none
  | some sh => some (shells.set p (f sh))

/-! ## Container -/

namespace EdgeSetTopologyContainer

def getNbPoints (c : EdgeSetTopologyContainer) : Nat := c.nbPoints

def getNumberOfEdges (c : EdgeSetTopologyContainer) : Nat := c.d_edge.length

def hasEdges (c : EdgeSetTopologyContainer) : Bool := !c.d_edge.isEmpty

/-- Modelled from the spec: `hasShell()` of the container, whose source is not at hand.
The shell counts as built when the per-point array `m_edgesAroundVertex` is not empty. -/
def hasEdgesAroundVertex (c : EdgeSetTopologyContainer) : Bool :=
  !c.m_edgesAroundVertex.isEmpty

def getEdge (c : EdgeSetTopologyContainer) (i : EdgeID) : Option Edge := c.d_edge[i]?

def setEdgeTopologyToDirty (c : EdgeSetTopologyContainer) : EdgeSetTopologyContainer :=
  { c with m_edgeTopologyDirty := true }

def cleanEdgeTopologyFromDirty (c : EdgeSetTopologyContainer) : EdgeSetTopologyContainer :=
  { c with m_edgeTopologyDirty := false }

def addTopologyChange (c : EdgeSetTopologyContainer) (r : TopologyChange) :
    EdgeSetTopologyContainer :=
  { c with m_changeList := c.m_changeList ++ [r] }

def resetTopologyChangeList (c : EdgeSetTopologyContainer) : EdgeSetTopologyContainer :=
  { c with m_changeList := [] }

/-- The indices of the edges of `edges` that have `p` as an endpoint, ascending. -/
def incidentEdges (edges : List Edge) (p : PointID) : List EdgeID :=
  (List.range edges.length).filter
    (fun i => match edges[i]? with
      | some e => e.1 == p || e.2 == p
      | none => false)

/-- Modelled from the spec: `buildShell()` of the container (`createEdgesAroundVertexArray`,
whose source is not at hand): an O(primitives) rebuild after which the shell of every
point holds the indices of its incident edges. -/
def createEdgesAroundVertexArray (c : EdgeSetTopologyContainer) : EdgeSetTopologyContainer :=
  { c with m_edgesAroundVertex :=
      (List.range c.nbPoints).map (fun p => incidentEdges c.d_edge p) }

/-- Modelled from the spec: `getEdgesAroundVertexArray()` of the container (source not at
hand); the shell is "built lazily on first use". -/
def getEdgesAroundVertexArray (c : EdgeSetTopologyContainer) : EdgeSetTopologyContainer :=
  if c.hasEdgesAroundVertex then c else c.createEdgesAroundVertexArray

/-- `InvalidID`, the value no edge index equals. -/
abbrev InvalidID : Option EdgeID := none

/-- Modelled from the spec: `getEdgeIndex(v1, v2)` of the container (source not at hand):
the index of a stored edge joining `v1` and `v2`, in either orientation, or `InvalidID`
when there is none (section 4.1, duplicate detection). -/
def getEdgeIndex (c : EdgeSetTopologyContainer) (v1 v2 : PointID) : Option EdgeID :=
  let i := c.d_edge.findIdx (fun e => e == (v1, v2) || e == (v2, v1))
  if i < c.d_edge.length then some i else InvalidID

end EdgeSetTopologyContainer

/-! ## Modifier: steps shared by the edit operations -/

namespace EdgeSetTopologyModifier

def report (s : EdgeSetTopologyModifier) (m : Message) : EdgeSetTopologyModifier :=
  { s with messages := s.messages ++ [m] }

def addTopologyChange (s : EdgeSetTopologyModifier) (r : TopologyChange) :
    EdgeSetTopologyModifier :=
  { s with m_container := s.m_container.addTopologyChange r }

/-- `EdgeSetTopologyModifier::propagateTopologicalEngineChanges`; the update of the
engines themselves is outside the model. -/
def propagateTopologicalEngineChanges (s : EdgeSetTopologyModifier) :
    EdgeSetTopologyModifier :=
  if s.m_container.m_changeList.isEmpty then s
  else if !s.m_container.m_edgeTopologyDirty then s
  else { s with m_container := s.m_container.cleanEdgeTopologyFromDirty }

/-- Modelled from the spec: `propagateTopologicalChangesWithoutReset` of the point-level
modifier (source not at hand): the propagation pass, a synchronous fan-out to every
registered consumer (section 5), engines included (section 2). It is recorded in the
trace together with the container the consumers see. -/
def propagateTopologicalChangesWithoutReset (s : EdgeSetTopologyModifier) :
    EdgeSetTopologyModifier :=
  propagateTopologicalEngineChanges
    { s with trace := s.trace ++ [Event.propagated s.m_container] }

/-- Modelled from the spec: `propagateTopologicalChanges` of the point-level modifier
(source not at hand): the propagation pass, after which the queue of change records is
cleared (sections 2 and 3). -/
def propagateTopologicalChanges (s : EdgeSetTopologyModifier) : EdgeSetTopologyModifier :=
  let s1 := propagateTopologicalChangesWithoutReset s
  { s1 with m_container := s1.m_container.resetTopologyChangeList }

/-- Modelled from the spec: `addPointsWarning` of the point-level modifier (source not at
hand): enqueues the record of the added points with their ancestors and coefficients. -/
def addPointsWarning (s : EdgeSetTopologyModifier) (nPoints : Nat)
    (ancestors : List (List PointID)) (coefs : List (List SReal)) : EdgeSetTopologyModifier :=
  s.addTopologyChange (.PointsAdded nPoints ancestors coefs)

/-- Modelled from the spec: `removePointsWarning` of the point-level modifier (source not
at hand), taken to follow the edge-level `removeEdgesWarning`: the index list is sorted
in place in descending order (section 4.3, bulk removal) and the removal record is
enqueued. The sorted list is returned next to the state. -/
def removePointsWarning (s : EdgeSetTopologyModifier) (indices : List PointID) :
    EdgeSetTopologyModifier × List PointID :=
  (s.addTopologyChange (.PointsRemoved (sortDescending indices)), sortDescending indices)

/-! ## addEdgeProcess, addEdgesProcess, addEdgesWarning -/

/-- `EdgeSetTopologyModifier::addEdgeProcess`, lines 67-104. `CHECK_TOPOLOGY` is a
compile-time switch of the source and a parameter here. -/
def addEdgeProcess (CHECK_TOPOLOGY : Bool) (s : EdgeSetTopologyModifier) (e : Edge) :
    Outcome :=
  let c := s.m_container
  if CHECK_TOPOLOGY && e.1 == e.2 then
    .done (s.report (.invalidEdge e))
  else if CHECK_TOPOLOGY && c.hasEdgesAroundVertex
      && (c.getEdgeIndex e.1 e.2 != EdgeSetTopologyContainer.InvalidID) then
    .done (s.report (.edgeAlreadyExists e))
  else if c.hasEdgesAroundVertex then
    let edgeId := c.getNumberOfEdges
    match updateShell c.m_edgesAroundVertex e.1 (fun sh => sh ++ [edgeId]) with
    | none => .outOfBounds s
    | some shells0 =>
      match updateShell shells0 e.2 (fun sh => sh ++ [edgeId]) with
      | none => .outOfBounds s
      | some shells1 =>
        .done { s with m_container :=
          { c with m_edgesAroundVertex := shells1, d_edge := c.d_edge ++ [e] } }
  else
    .done { s with m_container := { c with d_edge := c.d_edge ++ [e] } }

def addEdgesProcess (CHECK_TOPOLOGY : Bool) (s : EdgeSetTopologyModifier) :
    List Edge → Outcome
  | [] => .done s
  | e :: rest =>
    match addEdgeProcess CHECK_TOPOLOGY s e with
    | .done s1 => addEdgesProcess CHECK_TOPOLOGY s1 rest
    | .outOfBounds s1 => .outOfBounds s1

/-- `addEdgesWarning(nEdges)`, lines 116-123. -/
def addEdgesWarning_count (s : EdgeSetTopologyModifier) (nEdges : Nat) :
    EdgeSetTopologyModifier :=
  addTopologyChange { s with m_container := s.m_container.setEdgeTopologyToDirty }
    (.EdgesAdded nEdges [] [] [] [])

/-- `addEdgesWarning(nEdges, edgesList, edgesIndexList)`, lines 126-135. -/
def addEdgesWarning (s : EdgeSetTopologyModifier) (nEdges : Nat) (edgesList : List Edge)
    (edgesIndexList : List EdgeID) : EdgeSetTopologyModifier :=
  addTopologyChange { s with m_container := s.m_container.setEdgeTopologyToDirty }
    (.EdgesAdded nEdges edgesList edgesIndexList [] [])

/-- `addEdgesWarning(nEdges, edgesList, edgesIndexList, ancestors)`, lines 138-148. -/
def addEdgesWarning_ancestors (s : EdgeSetTopologyModifier) (nEdges : Nat)
    (edgesList : List Edge) (edgesIndexList : List EdgeID)
    (ancestors : List (List EdgeID)) : EdgeSetTopologyModifier :=
  addTopologyChange { s with m_container := s.m_container.setEdgeTopologyToDirty }
    (.EdgesAdded nEdges edgesList edgesIndexList ancestors [])

/-- `addEdgesWarning(nEdges, edgesList, edgesIndexList, ancestors, baryCoefs)`,
lines 151-162. -/
def addEdgesWarning_baryCoefs (s : EdgeSetTopologyModifier) (nEdges : Nat)
    (edgesList : List Edge) (edgesIndexList : List EdgeID)
    (ancestors : List (List EdgeID)) (baryCoefs : List (List SReal)) :
    EdgeSetTopologyModifier :=
  addTopologyChange { s with m_container := s.m_container.setEdgeTopologyToDirty }
    (.EdgesAdded nEdges edgesList edgesIndexList ancestors baryCoefs)

/-- `removeEdgesWarning`, lines 196-206. The argument is sorted in place, so the sorted
list is returned next to the state. -/
def removeEdgesWarning (s : EdgeSetTopologyModifier) (edges : List EdgeID) :
    EdgeSetTopologyModifier × List EdgeID :=
  (addTopologyChange { s with m_container := s.m_container.setEdgeTopologyToDirty }
      (.EdgesRemoved (sortDescending edges)),
    sortDescending edges)

/-! ## Point-level steps -/

/-- `EdgeSetTopologyModifier::addPointsProcess`, lines 279-286. The parent method
(not at hand) is modelled from the spec as raising the number of points by `nPoints`. -/
def addPointsProcess (s : EdgeSetTopologyModifier) (nPoints : Nat) :
    EdgeSetTopologyModifier :=
  let c := s.m_container
  let c1 := { c with nbPoints := c.nbPoints + nPoints }
  if c1.hasEdgesAroundVertex then
    let shells := resize c1.m_edgesAroundVertex c1.getNbPoints []
    { s with m_container := { c1 with m_edgesAroundVertex := shells } }
  else
    { s with m_container := c1 }

/-- Inner loop of `removePointsProcess`, lines 305-313: every edge listed in the shell of
`lastPoint` has its endpoint `lastPoint` rewritten to `newIndex`. -/
def relinkEdges (lastPoint newIndex : PointID) : List Edge → List EdgeID → Option (List Edge)
  | edges, [] => some edges
  | edges, edgeId :: rest =>
    match edges[edgeId]? with
    | none => none
    | some e =>
      relinkEdges lastPoint newIndex
        (edges.set edgeId (if e.1 = lastPoint then (newIndex, e.2) else (e.1, newIndex))) rest

/-- Outer loop of `removePointsProcess`, lines 301-317. -/
def removePointsLoop : List PointID → Nat → EdgeSetTopologyContainer →
    Option EdgeSetTopologyContainer
  | [], _, c => some c
  | index :: rest, lastPoint, c =>
    match c.m_edgesAroundVertex[lastPoint]? with
    | none => none
    | some shellLast =>
      match relinkEdges lastPoint index c.d_edge shellLast with
      | none => none
      | some edges1 =>
        if index < c.m_edgesAroundVertex.length then
          removePointsLoop rest (decr lastPoint)
            { c with d_edge := edges1,
                     m_edgesAroundVertex := c.m_edgesAroundVertex.set index shellLast }
        else none

/-- `EdgeSetTopologyModifier::removePointsProcess`, lines 288-325. The parent method
(not at hand) is modelled from the spec as lowering the number of points by the number
of removed indices. -/
def removePointsProcess (s : EdgeSetTopologyModifier) (indices : List PointID)
    (_removeDOF : Bool) : Outcome :=
  let c := s.m_container
  let parent := fun (c1 : EdgeSetTopologyContainer) =>
    Outcome.done { s with m_container := { c1 with nbPoints := c1.nbPoints - indices.length } }
  if c.hasEdges then
    let c0 := if !c.hasEdgesAroundVertex then c.createEdgesAroundVertexArray else c
    match removePointsLoop indices (decr c0.getNbPoints) c0 with
    | none => .outOfBounds s
    | some c1 =>
      if indices.length ≤ c1.m_edgesAroundVertex.length then
        let shells := resize c1.m_edgesAroundVertex
          (c1.m_edgesAroundVertex.length - indices.length) []
        parent { c1 with m_edgesAroundVertex := shells }
      else .outOfBounds s
  else
    parent c

/-! ## removeEdgesProcess -/

/-- One pass through the body of the loop of `removeEdgesProcess`, lines 229-267, for the
entry `index` of the list and the current `lastEdgeIndex`; `vertexToBeRemoved` is
threaded through. -/
def removeEdgeAt (removeIsolatedItems : Bool) (c : EdgeSetTopologyContainer)
    (index lastEdgeIndex : Nat) (vertexToBeRemoved : List PointID) :
    Option (EdgeSetTopologyContainer × List PointID) :=
  let compact := fun (c1 : EdgeSetTopologyContainer) (v : List PointID) =>
    match c1.d_edge[lastEdgeIndex]? with
    | none => none
    | some q =>
      if index < c1.d_edge.length then
        some ({ c1 with d_edge := resize (c1.d_edge.set index q) lastEdgeIndex (0, 0) }, v)
      else none
  if c.hasEdgesAroundVertex then
    match c.d_edge[index]?, c.d_edge[lastEdgeIndex]? with
    | some e, some q =>
      match c.m_edgesAroundVertex[e.1]? with
      | none => none
      | some shell0 =>
        let shells0 := c.m_edgesAroundVertex.set e.1 (eraseAll shell0 index)
        let v0 := if removeIsolatedItems && (eraseAll shell0 index).isEmpty
          then vertexToBeRemoved ++ [e.1] else vertexToBeRemoved
        match shells0[e.2]? with
        | none => none
        | some shell1 =>
          let shells1 := shells0.set e.2 (eraseAll shell1 index)
          let v1 := if removeIsolatedItems && (eraseAll shell1 index).isEmpty
            then v0 ++ [e.2] else v0
          if index < lastEdgeIndex then
            match updateShell shells1 q.1 (fun sh => replaceAll sh lastEdgeIndex index) with
            | none => none
            | some shells2 =>
              match updateShell shells2 q.2 (fun sh => replaceAll sh lastEdgeIndex index) with
              | none => none
              | some shells3 => compact { c with m_edgesAroundVertex := shells3 } v1
          else compact { c with m_edgesAroundVertex := shells1 } v1
    | _, _ => none
  else compact c vertexToBeRemoved

/-- The loop of `removeEdgesProcess`, lines 227-268: `lastEdgeIndex` is decremented after
every pass. -/
def removeEdgesLoop (removeIsolatedItems : Bool) : List EdgeID → Nat →
    EdgeSetTopologyContainer → List PointID → Option (EdgeSetTopologyContainer × List PointID)
  | [], _, c, v => some (c, v)
  | index :: rest, lastEdgeIndex, c, v =>
    match removeEdgeAt removeIsolatedItems c index lastEdgeIndex v with
    | none => none
    | some (c1, v1) => removeEdgesLoop removeIsolatedItems rest (decr lastEdgeIndex) c1 v1

/-- `EdgeSetTopologyModifier::removeEdgesProcess`, lines 209-277. `d_propagateToDOF` is a
field of the modifier that only the point-level removal reads; it is a parameter. -/
def removeEdgesProcess (s : EdgeSetTopologyModifier) (indices : List EdgeID)
    (removeIsolatedItems : Bool) (d_propagateToDOF : Bool) : Outcome :=
  if !s.m_container.hasEdges then
    .done (s.report .edgeArrayEmpty)
  else
    let c0 := if removeIsolatedItems && !s.m_container.hasEdgesAroundVertex
      then s.m_container.createEdgesAroundVertexArray else s.m_container
    match removeEdgesLoop removeIsolatedItems indices (decr c0.getNumberOfEdges) c0 [] with
    | none => .outOfBounds { s with m_container := c0 }
    | some (c1, vertexToBeRemoved) =>
      let s1 := { s with m_container := c1 }
      if !vertexToBeRemoved.isEmpty then
        let w := removePointsWarning s1 vertexToBeRemoved
        removePointsProcess (propagateTopologicalChanges w.1) w.2 d_propagateToDOF
      else .done s1

/-! ## splitEdgesProcess -/

/-- The loop of `splitEdgesProcess`, lines 525-544 (and 582-599): for the `i`-th listed
edge `(p1, p2)` it yields the ancestor pair `v[i] = (p1, p2)` of the new point
`nbPoints + i`, the new edges `(p1, nbPoints + i)` and `(nbPoints + i, p2)`, and their
indices `nbEdges`, `nbEdges + 1`. The result is `(v, edges, edgesIndex)`. -/
def splitEdgesLoop (c : EdgeSetTopologyContainer) : List EdgeID → Nat → Nat →
    Option (List (List PointID) × List Edge × List EdgeID)
  | [], _, _ => some ([], [], [])
  | index :: rest, i, nbEdges =>
    match c.getEdge index with
    | none => none
    | some e =>
      match splitEdgesLoop c rest (i + 1) (nbEdges + 2) with
      | none => none
      | some (v, edges, edgesIndex) =>
        some ([e.1, e.2] :: v,
          (e.1, c.getNbPoints + i) :: (c.getNbPoints + i, e.2) :: edges,
          nbEdges :: (nbEdges + 1) :: edgesIndex)

/-- The steps of `splitEdgesProcess` after its loop, lines 546-561 (and 601-616). -/
def splitEdgesTail (CHECK_TOPOLOGY : Bool) (s : EdgeSetTopologyModifier)
    (indices : List EdgeID) (v : List (List PointID)) (edges : List Edge)
    (edgesIndex : List EdgeID) (baryCoefs : List (List SReal))
    (removeIsolatedPoints d_propagateToDOF : Bool) : Outcome :=
  match addEdgesProcess CHECK_TOPOLOGY (addPointsProcess s indices.length) edges with
  | .outOfBounds s1 => .outOfBounds s1
  | .done s1 =>
    let s2 := addPointsWarning s1 indices.length v baryCoefs
    let s3 := addEdgesWarning s2 edges.length edges edgesIndex
    let w := removeEdgesWarning s3 indices
    removeEdgesProcess (propagateTopologicalChanges w.1) w.2 removeIsolatedPoints
      d_propagateToDOF

/-- `splitEdgesProcess(indices, removeIsolatedPoints)`, lines 507-562. -/
def splitEdgesProcess (CHECK_TOPOLOGY : Bool) (s : EdgeSetTopologyModifier)
    (indices : List EdgeID) (removeIsolatedPoints d_propagateToDOF : Bool) : Outcome :=
  if !s.m_container.hasEdges then .done s
  else
    match splitEdgesLoop s.m_container indices 0 s.m_container.getNumberOfEdges with
    | none => .outOfBounds s
    | some (v, edges, edgesIndex) =>
      splitEdgesTail CHECK_TOPOLOGY s indices v edges edgesIndex
        (List.replicate indices.length [1 / 2, 1 / 2]) removeIsolatedPoints d_propagateToDOF

/-- `splitEdgesProcess(indices, baryCoefs, removeIsolatedPoints)`, lines 565-617. -/
def splitEdgesProcess_baryCoefs (CHECK_TOPOLOGY : Bool) (s : EdgeSetTopologyModifier)
    (indices : List EdgeID) (baryCoefs : List (List SReal))
    (removeIsolatedPoints d_propagateToDOF : Bool) : Outcome :=
  if !s.m_container.hasEdges then .done s
  else
    match splitEdgesLoop s.m_container indices 0 s.m_container.getNumberOfEdges with
    | none => .outOfBounds s
    | some (v, edges, edgesIndex) =>
      splitEdgesTail CHECK_TOPOLOGY s indices v edges edgesIndex baryCoefs
        removeIsolatedPoints d_propagateToDOF

/-! ## removeEdges, addEdges -/

/-- The filter loop of `removeEdges`, lines 624-631: an entry at or beyond the number of
edges is reported and dropped. -/
def filterEdgeIds (s : EdgeSetTopologyModifier) :
    List EdgeID → EdgeSetTopologyModifier × List EdgeID
  | [] => (s, [])
  | id :: rest =>
    if id ≥ s.m_container.getNumberOfEdges then
      filterEdgeIds (s.report (.outOfBound id)) rest
    else
      let r := filterEdgeIds s rest
      (r.1, id :: r.2)

/-- `EdgeSetTopologyModifier::removeEdges`, lines 619-651 (`checkTopology` only reads). -/
def removeEdges (s : EdgeSetTopologyModifier) (edgeIds : List EdgeID)
    (removeIsolatedPoints resetTopoChange d_propagateToDOF : Bool) : Outcome :=
  let f := filterEdgeIds s edgeIds
  let w := removeEdgesWarning f.1 f.2
  let s1 := if resetTopoChange then propagateTopologicalChanges w.1
    else propagateTopologicalChangesWithoutReset w.1
  removeEdgesProcess s1 w.2 removeIsolatedPoints d_propagateToDOF

/-- `addEdges(edges)`, lines 671-698. -/
def addEdges (CHECK_TOPOLOGY : Bool) (s : EdgeSetTopologyModifier) (edges : List Edge) :
    Outcome :=
  let nEdges := s.m_container.getNumberOfEdges
  match addEdgesProcess CHECK_TOPOLOGY s edges with
  | .outOfBounds s1 => .outOfBounds s1
  | .done s1 =>
    let edgesIndex := (List.range edges.length).map (fun i => nEdges + i)
    .done (propagateTopologicalChanges (addEdgesWarning s1 edges.length edges edgesIndex))

/-! ## movePointsProcess -/

/-- Step 1 of `movePointsProcess`, lines 840-861: the edges around the moved points,
each listed once, in order of first appearance. -/
def collectEdgesAroundVertex (shells : List (List EdgeID)) :
    List PointID → List EdgeID → Option (List EdgeID)
  | [], acc => some acc
  | p :: rest, acc =>
    match shells[p]? with
    | none => none
    | some edgesAroundVertex =>
      collectEdgesAroundVertex shells rest
        (edgesAroundVertex.foldl (fun a e => if a.contains e then a else a ++ [e]) acc)

/-- The loop of lines 878-879: `edgeArray[i] = getEdgeArray()[ list[i] ]`. -/
def lookupEdges (edges : List Edge) : List EdgeID → Option (List Edge)
  | [] => some []
  | i :: rest =>
    match edges[i]?, lookupEdges edges rest with
    | some e, some es => some (e :: es)
    | _, _ => none

/-- `EdgeSetTopologyModifier::movePointsProcess`, lines 828-883. The physical move of the
point-level modifier (not at hand) is recorded in the trace. -/
def movePointsProcess (s : EdgeSetTopologyModifier) (id : List PointID)
    (ancestors : List (List PointID)) (coefs : List (List SReal)) (_moveDOF : Bool) :
    Outcome :=
  let s0 := if id.isEmpty then s
    else { s with m_container := s.m_container.getEdgesAroundVertexArray }
  match collectEdgesAroundVertex s0.m_container.m_edgesAroundVertex id [] with
  | none => .outOfBounds s0
  | some collected =>
    let edgesAroundVertex2Move := sortDescending collected
    let s1 := propagateTopologicalChanges
      (s0.addTopologyChange (.EdgesMoved_Removing edgesAroundVertex2Move))
    let s2 := { s1 with trace := s1.trace ++ [Event.pointsMoved id ancestors coefs s1.m_container] }
    match lookupEdges s2.m_container.d_edge edgesAroundVertex2Move with
    | none => .outOfBounds s2
    | some edgeArray =>
      .done (s2.addTopologyChange (.EdgesMoved_Adding edgesAroundVertex2Move edgeArray))

end EdgeSetTopologyModifier

/-! ## Sample meshes -/

/-- The path on four points, edges `(0,1)`, `(1,2)`, `(2,3)`, shell not built. -/
def pathMesh : EdgeSetTopologyModifier :=
  { m_container :=
      { nbPoints := 4, d_edge := [(0, 1), (1, 2), (2, 3)], m_edgesAroundVertex := [],
        m_changeList := [], m_edgeTopologyDirty := false },
    trace := [], messages := [] }

/-- The same path with its shell built. -/
def pathMeshShell : EdgeSetTopologyModifier :=
  { pathMesh with m_container :=
      { pathMesh.m_container with m_edgesAroundVertex := [[0], [0, 1], [1, 2], [2]] } }

/-- One point carrying the degenerate edge `(0, 0)`, shell built. -/
def loopMeshShell : EdgeSetTopologyModifier :=
  { m_container :=
      { nbPoints := 1, d_edge := [(0, 0)], m_edgesAroundVertex := [[0, 0]],
        m_changeList := [], m_edgeTopologyDirty := false },
    trace := [], messages := [] }

/-! ## Predicates on meshes -/

/-- Every endpoint of every edge is a point of the mesh. -/
def ValidEdges (c : EdgeSetTopologyContainer) : Prop :=
  ∀ e ∈ c.d_edge, e.1 < c.nbPoints ∧ e.2 < c.nbPoints

instance (c : EdgeSetTopologyContainer) : Decidable (ValidEdges c) :=
  inferInstanceAs (Decidable (∀ e ∈ c.d_edge, e.1 < c.nbPoints ∧ e.2 < c.nbPoints))

/-- The shell array, when built, has one entry for every endpoint in use: no edge refers
to a point outside it. -/
def ShellCovers (c : EdgeSetTopologyContainer) : Prop :=
  c.hasEdgesAroundVertex = true →
    ∀ e ∈ c.d_edge, e.1 < c.m_edgesAroundVertex.length ∧ e.2 < c.m_edgesAroundVertex.length

instance (c : EdgeSetTopologyContainer) : Decidable (ShellCovers c) :=
  inferInstanceAs (Decidable (c.hasEdgesAroundVertex = true →
    ∀ e ∈ c.d_edge, e.1 < c.m_edgesAroundVertex.length ∧ e.2 < c.m_edgesAroundVertex.length))

/-- Two index lists with the same members. -/
def SameMembers (a b : List Nat) : Prop :=
  (∀ x ∈ a, x ∈ b) ∧ (∀ x ∈ b, x ∈ a)

instance (a b : List Nat) : Decidable (SameMembers a b) :=
  inferInstanceAs (Decidable ((∀ x ∈ a, x ∈ b) ∧ (∀ x ∈ b, x ∈ a)))

/-- There is one shell for every point, and the shell of `p` holds exactly the indices of
the edges that have `p` as an endpoint. -/
def ShellExact (c : EdgeSetTopologyContainer) : Prop :=
  c.m_edgesAroundVertex.length = c.nbPoints ∧
  ∀ p < c.nbPoints,
    SameMembers (c.m_edgesAroundVertex.getD p [])
      (EdgeSetTopologyContainer.incidentEdges c.d_edge p)

instance (c : EdgeSetTopologyContainer) : Decidable (ShellExact c) :=
  inferInstanceAs (Decidable (c.m_edgesAroundVertex.length = c.nbPoints ∧
    ∀ p < c.nbPoints,
      SameMembers (c.m_edgesAroundVertex.getD p [])
        (EdgeSetTopologyContainer.incidentEdges c.d_edge p)))

/-- Shell consistency: the shell of every point is exactly the set of indices of the edges
having that point as an endpoint, every endpoint being a point (so that every edge is
listed in the shells of both its endpoints). -/
def ShellConsistent (c : EdgeSetTopologyContainer) : Prop :=
  ShellExact c ∧ ValidEdges c

instance (c : EdgeSetTopologyContainer) : Decidable (ShellConsistent c) :=
  inferInstanceAs (Decidable (ShellExact c ∧ ValidEdges c))

/-- The edge `e` is stored in `edges` in one of its two orientations. -/
def Joined (edges : List Edge) (e : Edge) : Prop :=
  e ∈ edges ∨ (e.2, e.1) ∈ edges

instance (edges : List Edge) (e : Edge) : Decidable (Joined edges e) :=
  inferInstanceAs (Decidable (e ∈ edges ∨ (e.2, e.1) ∈ edges))

/-- The edge `e` passes the tests of `addEdgeProcess`: consistency checking is off, or `e`
has two different endpoints and no stored edge joins them. -/
def NotRejected (CHECK_TOPOLOGY : Bool) (c : EdgeSetTopologyContainer) (e : Edge) : Prop :=
  CHECK_TOPOLOGY = false ∨ (e.1 ≠ e.2 ∧ ¬ Joined c.d_edge e)

instance (b : Bool) (c : EdgeSetTopologyContainer) (e : Edge) :
    Decidable (NotRejected b c e) :=
  inferInstanceAs (Decidable (b = false ∨ (e.1 ≠ e.2 ∧ ¬ Joined c.d_edge e)))

/-- The edge `e` is appended by `addEdgeProcess`: consistency checking is off, or `e` has
two different endpoints and, when a shell is built, no stored edge joins them. -/
def Accepted (CHECK_TOPOLOGY : Bool) (c : EdgeSetTopologyContainer) (e : Edge) : Prop :=
  CHECK_TOPOLOGY = false ∨
    (e.1 ≠ e.2 ∧ (c.hasEdgesAroundVertex = true → ¬ Joined c.d_edge e))

instance (b : Bool) (c : EdgeSetTopologyContainer) (e : Edge) : Decidable (Accepted b c e) :=
  inferInstanceAs (Decidable (b = false ∨
    (e.1 ≠ e.2 ∧ (c.hasEdgesAroundVertex = true → ¬ Joined c.d_edge e))))

/-- Every edge of the batch is appended by `addEdgesProcess`: each one is accepted at its
turn, the edges before it having been appended. -/
def AllAccepted (CHECK_TOPOLOGY : Bool) (c : EdgeSetTopologyContainer) : List Edge → Prop
  | [] => True
  | e :: rest =>
    Accepted CHECK_TOPOLOGY c e ∧
      AllAccepted CHECK_TOPOLOGY { c with d_edge := c.d_edge ++ [e] } rest

instance instDecidableAllAccepted (b : Bool) :
    (c : EdgeSetTopologyContainer) → (l : List Edge) → Decidable (AllAccepted b c l)
  | _, [] => isTrue trivial
  | c, e :: rest =>
    match (inferInstance : Decidable (Accepted b c e)),
      instDecidableAllAccepted b { c with d_edge := c.d_edge ++ [e] } rest with
    | isTrue h1, isTrue h2 => isTrue ⟨h1, h2⟩
    | isFalse h1, _ => isFalse (fun h => h1 h.1)
    | _, isFalse h2 => isFalse (fun h => h2 h.2)

/-! ## Functions used to state the properties -/

/-- The shell of `p` after one pass of the removal loop for the entry `index`, written
from the shell before: the index is erased at the endpoints of the removed edge `e`, and
`lastEdgeIndex` is renamed to `index` at the endpoints of the last edge `q` when the two
indices differ. -/
def shellAfterRemoval (sh : List EdgeID) (p : PointID) (e q : Edge)
    (index lastEdgeIndex : Nat) : List EdgeID :=
  let b := if p = e.1 ∨ p = e.2 then eraseAll sh index else sh
  if index < lastEdgeIndex ∧ (p = q.1 ∨ p = q.2) then replaceAll b lastEdgeIndex index else b

/-- The edges of `edges` at the positions that `ids` does not list, in order. -/
def edgesNotListed (edges : List Edge) (ids : List Nat) : List Edge :=
  ((List.range edges.length).filter (fun j => decide (j ∉ ids))).filterMap (fun j => edges[j]?)


/-! ## renumberPointsProcess, swapEdgesProcess, fuseEdgesProcess -/

namespace EdgeSetTopologyModifier

/-- The loop of lines 338-341: `m_edgesAroundVertex[i] = edgesAroundVertex_cp[ index[i] ]`
for the entries of `index` from position `i` on. -/
def renumberShells (edgesAroundVertex_cp : List (List EdgeID)) :
    List PointID → Nat → List (List EdgeID) → Option (List (List EdgeID))
  | [], _, shells => some shells
  | x :: rest, i, shells =>
    match edgesAroundVertex_cp[x]? with
    | none => none
    | some sh =>
      if i < shells.length then
        renumberShells edgesAroundVertex_cp rest (i + 1) (shells.set i sh)
      else none

/-- The loop of lines 344-364: both endpoints of every edge are looked up in `inv_index`
and written back in place, first endpoint first. -/
def renumberEdges (inv_index : List PointID) : List Edge → Option (List Edge)
  | [] => some []
  | e :: rest =>
    match inv_index[e.1]?, inv_index[e.2]? with
    | some p0, some p1 =>
      match renumberEdges inv_index rest with
      | none => none
      | some rest1 => some ((p0, p1) :: rest1)
    | _, _ => none

/-- `EdgeSetTopologyModifier::renumberPointsProcess`, lines 327-372. The parent method
(not at hand) renumbers the degrees of freedom, which are outside the model. -/
def renumberPointsProcess (s : EdgeSetTopologyModifier) (index inv_index : List PointID)
    (_renumberDOF : Bool) : Outcome :=
  let c := s.m_container
  if c.hasEdges then
    let shells :=
      if c.hasEdgesAroundVertex then
        renumberShells c.m_edgesAroundVertex index 0 c.m_edgesAroundVertex
      else some c.m_edgesAroundVertex
    match shells with
    | none => .outOfBounds s
    | some shells1 =>
      match renumberEdges inv_index c.d_edge with
      | none => .outOfBounds { s with m_container := { c with m_edgesAroundVertex := shells1 } }
      | some edges1 =>
        .done { s with m_container :=
          { c with m_edgesAroundVertex := shells1, d_edge := edges1 } }
  else .done s

/-- The loops of lines 424-428 and 492-496: the two entries of every pair, in order. -/
def pairIndices : List (List EdgeID) → Option (List EdgeID)
  | [] => some []
  | pair :: rest =>
    match pair[0]?, pair[1]?, pairIndices rest with
    | some i1, some i2, some l => some (i1 :: i2 :: l)
    | _, _, _ => none

/-- The steps of `swapEdgesProcess` and of `fuseEdgesProcess` after their first loop,
lines 416-435 and 484-503, the same in both: the new edges `v` are added, the addition is
announced with the ancestors, the removal of the old edges is announced, both records are
propagated, and the old edges are removed. -/
def replaceEdgesTail (CHECK_TOPOLOGY : Bool) (s : EdgeSetTopologyModifier)
    (edgesPairs : List (List EdgeID)) (v : List Edge) (edgeIndexList : List EdgeID)
    (ancestorsArray : List (List EdgeID)) (removeIsolatedItems d_propagateToDOF : Bool) :
    Outcome :=
  match addEdgesProcess CHECK_TOPOLOGY s v with
  | .outOfBounds s1 => .outOfBounds s1
  | .done s1 =>
    let s2 := addEdgesWarning_ancestors s1 v.length v edgeIndexList ancestorsArray
    match pairIndices edgesPairs with
    | none => .outOfBounds s2
    | some indices =>
      let w := removeEdgesWarning s2 indices
      removeEdgesProcess (propagateTopologicalChanges w.1) w.2 removeIsolatedItems
        d_propagateToDOF

/-- The loop of `swapEdgesProcess`, lines 392-414: for the pair `(i1, i2)` of the edges
`(p11, p12)` and `(p21, p22)` it yields the edges `(p11, p21)` and `(p12, p22)`, their
indices `nbEdges`, `nbEdges + 1`, and one ancestor list `[i1, i2]`. The result is
`(v, edgeIndexList, ancestorsArray)`. -/
def swapEdgesLoop (c : EdgeSetTopologyContainer) : List (List EdgeID) → Nat →
    Option (List Edge × List EdgeID × List (List EdgeID))
  | [], _ => some ([], [], [])
  | pair :: rest, nbEdges =>
    match pair[0]?, pair[1]? with
    | some i1, some i2 =>
      match c.getEdge i1, c.getEdge i2 with
      | some e1, some e2 =>
        match swapEdgesLoop c rest (nbEdges + 2) with
        | none => none
        | some (v, edgeIndexList, ancestorsArray) =>
          some ((e1.1, e2.1) :: (e1.2, e2.2) :: v,
            nbEdges :: (nbEdges + 1) :: edgeIndexList,
            [i1, i2] :: ancestorsArray)
      | _, _ => none
    | _, _ => none

/-- `EdgeSetTopologyModifier::swapEdgesProcess`, lines 375-436. The call
`removeEdgesProcess(indices)` of line 435 leaves the second argument to its default, which
the header (not at hand) declares; it is the parameter `removeIsolatedItems`. -/
def swapEdgesProcess (CHECK_TOPOLOGY : Bool) (s : EdgeSetTopologyModifier)
    (edgesPairs : List (List EdgeID)) (removeIsolatedItems d_propagateToDOF : Bool) :
    Outcome :=
  if !s.m_container.hasEdges then .done s
  else
    match swapEdgesLoop s.m_container edgesPairs s.m_container.getNumberOfEdges with
    | none => .outOfBounds s
    | some (v, edgeIndexList, ancestorsArray) =>
      replaceEdgesTail CHECK_TOPOLOGY s edgesPairs v edgeIndexList ancestorsArray
        removeIsolatedItems d_propagateToDOF

/-- The edge that `fuseEdgesProcess` builds from the edges `e1` and `e2` of a pair,
lines 462-471: `(e1[0], e2[1])`, or `(e2[0], e1[1])` when `e1[0] == e2[1]`. -/
def fusedEdge (e1 e2 : Edge) : Edge :=
  if e1.1 = e2.2 then (e2.1, e1.2) else (e1.1, e2.2)

/-- The loop of `fuseEdgesProcess`, lines 457-481; the result is
`(v, edgeIndexList, ancestorsArray)`. -/
def fuseEdgesLoop (c : EdgeSetTopologyContainer) : List (List EdgeID) → Nat →
    Option (List Edge × List EdgeID × List (List EdgeID))
  | [], _ => some ([], [], [])
  | pair :: rest, nbEdges =>
    match pair[0]?, pair[1]? with
    | some i1, some i2 =>
      match c.getEdge i1, c.getEdge i2 with
      | some e1, some e2 =>
        match fuseEdgesLoop c rest (nbEdges + 1) with
        | none => none
        | some (v, edgeIndexList, ancestorsArray) =>
          some (fusedEdge e1 e2 :: v, nbEdges :: edgeIndexList, [i1, i2] :: ancestorsArray)
      | _, _ => none
    | _, _ => none

/-- `EdgeSetTopologyModifier::fuseEdgesProcess`, lines 439-504. -/
def fuseEdgesProcess (CHECK_TOPOLOGY : Bool) (s : EdgeSetTopologyModifier)
    (edgesPairs : List (List EdgeID)) (removeIsolatedPoints d_propagateToDOF : Bool) :
    Outcome :=
  if !s.m_container.hasEdges then .done s
  else
    match fuseEdgesLoop s.m_container edgesPairs s.m_container.getNumberOfEdges with
    | none => .outOfBounds s
    | some (v, edgeIndexList, ancestorsArray) =>
      replaceEdgesTail CHECK_TOPOLOGY s edgesPairs v edgeIndexList ancestorsArray
        removeIsolatedPoints d_propagateToDOF

end EdgeSetTopologyModifier

/-! ## Functions used to state the properties of swap, fuse and renumbering -/

/-- The edge stored at index `i` (`(0, 0)` outside the array). -/
def edgeAt (c : EdgeSetTopologyContainer) (i : EdgeID) : Edge :=
  c.d_edge.getD i (0, 0)

/-- A list of index pairs, as the vector of two-element vectors that `swapEdgesProcess`
and `fuseEdgesProcess` take. -/
def asVectors (pairs : List (EdgeID × EdgeID)) : List (List EdgeID) :=
  pairs.map (fun p => [p.1, p.2])

/-- The two entries of every pair, in order. -/
def flatten (pairs : List (EdgeID × EdgeID)) : List EdgeID :=
  pairs.flatMap (fun p => [p.1, p.2])

/-- The edges that a swap of `pairs` builds: `(p11, p21)` and `(p12, p22)` for every pair
of the edges `(p11, p12)` and `(p21, p22)`. -/
def swappedEdges (c : EdgeSetTopologyContainer) (pairs : List (EdgeID × EdgeID)) :
    List Edge :=
  pairs.flatMap (fun p =>
    [((edgeAt c p.1).1, (edgeAt c p.2).1), ((edgeAt c p.1).2, (edgeAt c p.2).2)])

/-- The edges that a fuse of `pairs` builds. -/
def fusedEdges (c : EdgeSetTopologyContainer) (pairs : List (EdgeID × EdgeID)) :
    List Edge :=
  pairs.map (fun p => EdgeSetTopologyModifier.fusedEdge (edgeAt c p.1) (edgeAt c p.2))

/-! ## Sample meshes for swap and fuse -/

/-- Three points, the edges `(0, 1)` and `(2, 1)` both ending in point 1, shell not
built. -/
def convergingMesh : EdgeSetTopologyModifier :=
  { m_container :=
      { nbPoints := 3, d_edge := [(0, 1), (2, 1)], m_edgesAroundVertex := [],
        m_changeList := [], m_edgeTopologyDirty := false },
    trace := [], messages := [] }

/-- Three points, the edges `(0, 1)` and `(0, 2)` both starting in point 0, shell not
built. -/
def divergingMesh : EdgeSetTopologyModifier :=
  { m_container :=
      { nbPoints := 3, d_edge := [(0, 1), (0, 2)], m_edgesAroundVertex := [],
        m_changeList := [], m_edgeTopologyDirty := false },
    trace := [], messages := [] }

/-- Four points, the disjoint edges `(0, 1)` and `(2, 3)`, shell built. -/
def twoEdgesMeshShell : EdgeSetTopologyModifier :=
  { m_container :=
      { nbPoints := 4, d_edge := [(0, 1), (2, 3)], m_edgesAroundVertex := [[0], [0], [1], [1]],
        m_changeList := [], m_edgeTopologyDirty := false },
    trace := [], messages := [] }

/-- Eight points, the disjoint edges `(0, 1)`, `(2, 3)`, `(4, 5)`, `(6, 7)`, shell not
built. -/
def fourEdgesMesh : EdgeSetTopologyModifier :=
  { m_container :=
      { nbPoints := 8, d_edge := [(0, 1), (2, 3), (4, 5), (6, 7)], m_edgesAroundVertex := [],
        m_changeList := [], m_edgeTopologyDirty := false },
    trace := [], messages := [] }

/-- Two points joined by the two edges `(0, 1)` and `(1, 0)`, shell built. -/
def parallelMeshShell : EdgeSetTopologyModifier :=
  { m_container :=
      { nbPoints := 2, d_edge := [(0, 1), (1, 0)], m_edgesAroundVertex := [[0, 1], [0, 1]],
        m_changeList := [], m_edgeTopologyDirty := false },
    trace := [], messages := [] }

/-- The edge `e` with both endpoints looked up in `inv_index` (`0` outside the array). -/
def renumbered (inv_index : List PointID) (e : Edge) : Edge :=
  (inv_index.getD e.1 0, inv_index.getD e.2 0)

/-- `index` and `inv_index` are mutually inverse permutations of `[0, n)`. -/
def MutuallyInverse (index inv_index : List PointID) (n : Nat) : Prop :=
  index.length = n ∧ inv_index.length = n ∧
  ∀ p < n, (index.getD p 0 < n ∧ inv_index.getD (index.getD p 0) 0 = p) ∧
    (inv_index.getD p 0 < n ∧ index.getD (inv_index.getD p 0) 0 = p)

instance (index inv_index : List PointID) (n : Nat) :
    Decidable (MutuallyInverse index inv_index n) :=
  inferInstanceAs (Decidable (index.length = n ∧ inv_index.length = n ∧
    ∀ p < n, (index.getD p 0 < n ∧ inv_index.getD (index.getD p 0) 0 = p) ∧
      (inv_index.getD p 0 < n ∧ index.getD (inv_index.getD p 0) 0 = p)))

/-- The value of `lastEdgeIndex` in pass `i` of the loop of `removeEdgesProcess` on `n`
edges, lines 226-227: it starts as `n - 1` and is decremented after every pass. -/
def lastEdgeIndexAt (n i : Nat) : Nat :=
  decr^[i] (decr n)

/-! ## Predicates used for the removal of isolated points -/

/-- No edge of `edges` has `p` as an endpoint. -/
def Isolated (edges : List Edge) (p : PointID) : Prop :=
  ∀ e ∈ edges, e.1 ≠ p ∧ e.2 ≠ p

instance (edges : List Edge) (p : PointID) : Decidable (Isolated edges p) :=
  inferInstanceAs (Decidable (∀ e ∈ edges, e.1 ≠ p ∧ e.2 ≠ p))

/-- Every edge has two different endpoints. -/
def NonDegenerate (c : EdgeSetTopologyContainer) : Prop :=
  ∀ e ∈ c.d_edge, e.1 ≠ e.2

instance (c : EdgeSetTopologyContainer) : Decidable (NonDegenerate c) :=
  inferInstanceAs (Decidable (∀ e ∈ c.d_edge, e.1 ≠ e.2))

/-- The point `p` is an endpoint of one of the edges of `edges` at the indices `ids`. -/
def EndpointOfListed (edges : List Edge) (ids : List EdgeID) (p : PointID) : Prop :=
  ∃ i ∈ ids, ∃ e, edges[i]? = some e ∧ (e.1 = p ∨ e.2 = p)

/-! ## Removal of connected components -/

/-- `std::sort(begin, end)`. -/
def sortAscending (l : List Nat) : List Nat :=
  l.insertionSort (fun a b => a ≤ b)

namespace EdgeSetTopologyContainer

/-- Modelled from the spec: `getNumberOfElements()` of the container (source not at
hand): the count of the primitives of the level (section 5, query surface), for the edge
level the number of edges. -/
def getNumberOfElements (c : EdgeSetTopologyContainer) : Nat :=
  c.d_edge.length

/-- Two edges are neighbours when they have an endpoint in common. -/
def adjacent (e f : Edge) : Bool :=
  e.1 == f.1 || e.1 == f.2 || e.2 == f.1 || e.2 == f.2

/-- One round of the traversal: the indices not found so far whose edge is a neighbour of
a found edge are appended, in ascending order. -/
def growConnected (edges : List Edge) (found : List EdgeID) : List EdgeID :=
  found ++ (List.range edges.length).filter (fun j =>
    !found.contains j && found.any (fun i =>
      match edges[i]?, edges[j]? with
      | some e, some f => adjacent e f
      | _, _ => false))

/-- Modelled from the spec: `getConnectedElement(seed)` of the container (source not at
hand), which "computes the full connected set containing `seed` (via shell-based graph
traversal)" (section 4.3): the seed, then round after round the neighbours of what was
found, as many rounds as there are edges. -/
def getConnectedElement (c : EdgeSetTopologyContainer) (seed : EdgeID) : List EdgeID :=
  (growConnected c.d_edge)^[c.d_edge.length] [seed]

end EdgeSetTopologyContainer

namespace EdgeSetTopologyModifier

/-- `removeItems`, lines 653-656: `removeEdges(items)`, whose two further arguments take
the defaults declared in the header (not at hand); they are parameters. -/
def removeItems (s : EdgeSetTopologyModifier) (items : List EdgeID)
    (removeIsolatedPoints resetTopoChange d_propagateToDOF : Bool) : Outcome :=
  removeEdges s items removeIsolatedPoints resetTopoChange d_propagateToDOF

/-- `removeConnectedComponents`, lines 887-898; `getConnectedElement` is the method of the
container, a parameter. The container pointer is taken to be set. -/
def removeConnectedComponents (getConnectedElement : EdgeID → List EdgeID)
    (s : EdgeSetTopologyModifier) (elemID : EdgeID)
    (removeIsolatedPoints resetTopoChange d_propagateToDOF : Bool) : Outcome :=
  removeItems s (getConnectedElement elemID) removeIsolatedPoints resetTopoChange
    d_propagateToDOF

/-- The search of lines 944-951 in the sorted list, from position `i` on: the first
position whose entry differs from it, or the size of the list. -/
def otherEdgeID : List Nat → Nat → Nat
  | [], i => i
  | x :: rest, i => if x != i then i else otherEdgeID rest (i + 1)

/-- The `while` loop of `removeIsolatedElements`, lines 941-968. The source loop has no
bound of its own; `fuel` bounds the number of passes, and the result is `none` when the
loop has not ended within it. The result is `(elemMax, elemToRemove)` at the exit. -/
def removeIsolatedLoop (getConnectedElement : EdgeID → List EdgeID) (nbr scaleElem : Nat) :
    Nat → List EdgeID → List EdgeID → List EdgeID → Option (List EdgeID × List EdgeID)
  | 0, elemAll, elemMax, elemToRemove =>
    if elemAll.length < nbr then none else some (elemMax, elemToRemove)
  | fuel + 1, elemAll, elemMax, elemToRemove =>
    if elemAll.length < nbr then
      let sorted := sortAscending elemAll
      let elem := getConnectedElement (otherEdgeID sorted 0)
      if elemMax.length < elem.length then
        removeIsolatedLoop getConnectedElement nbr scaleElem fuel (elem ++ sorted) elem
          (if elemMax.length ≤ scaleElem then elemMax ++ elemToRemove else elemToRemove)
      else
        removeIsolatedLoop getConnectedElement nbr scaleElem fuel (elem ++ sorted) elemMax
          (if elem.length ≤ scaleElem then elem ++ elemToRemove else elemToRemove)
    else some (elemMax, elemToRemove)

/-- `removeIsolatedElements(scaleElem)`, lines 921-973; `getConnectedElement` is the method
of the container, a parameter. The container pointer is taken to be set; the result is
`none` when the loop has not ended within `fuel` passes. -/
def removeIsolatedElements (getConnectedElement : EdgeID → List EdgeID)
    (s : EdgeSetTopologyModifier) (scaleElem fuel : Nat)
    (removeIsolatedPoints resetTopoChange d_propagateToDOF : Bool) : Option Outcome :=
  let nbr := s.m_container.getNumberOfElements
  let elemAll := getConnectedElement 0
  if nbr = elemAll.length then some (.done s)
  else
    let scaleElem1 := if scaleElem = 0 then nbr else scaleElem
    match removeIsolatedLoop getConnectedElement nbr scaleElem1 fuel elemAll elemAll [] with
    | none => none
    | some (_, elemToRemove) =>
      some (removeItems s elemToRemove removeIsolatedPoints resetTopoChange d_propagateToDOF)

end EdgeSetTopologyModifier

/-- The contract of `getConnectedElement` on a mesh of `n` elements: for every element
`i`, the list returned for `i` has no repetition, holds `i`, holds only elements of the
mesh, and is, up to its order, the list returned for each of its members. The lists
returned are the connected components. -/
def Components (getConnectedElement : EdgeID → List EdgeID) (n : Nat) : Prop :=
  ∀ i < n, i ∈ getConnectedElement i ∧ (getConnectedElement i).Nodup ∧
    ∀ j ∈ getConnectedElement i, j < n ∧
      (getConnectedElement j).Perm (getConnectedElement i)

instance (getConnectedElement : EdgeID → List EdgeID) (n : Nat) :
    Decidable (Components getConnectedElement n) :=
  inferInstanceAs (Decidable (∀ i < n, i ∈ getConnectedElement i ∧
    (getConnectedElement i).Nodup ∧
    ∀ j ∈ getConnectedElement i, j < n ∧
      (getConnectedElement j).Perm (getConnectedElement i)))

/-- What the loop of `removeIsolatedElements` keeps true of `elemAll`, `elemMax` and
`elemToRemove`: the elements visited so far are distinct elements of the mesh and make up
whole components; `elemMax` is one of these components and none of them is larger;
`elemToRemove` lists once each the visited elements outside `elemMax` whose component has
at most `scaleElem` elements. -/
def VisitedInv (getConnectedElement : EdgeID → List EdgeID) (n scaleElem : Nat)
    (elemAll elemMax elemToRemove : List EdgeID) : Prop :=
  elemAll.Nodup
  ∧ (∀ j ∈ elemAll, j < n ∧ ∀ k ∈ getConnectedElement j, k ∈ elemAll)
  ∧ (∃ m ∈ elemAll, elemMax = getConnectedElement m)
  ∧ (∀ j ∈ elemAll, (getConnectedElement j).length ≤ elemMax.length)
  ∧ elemToRemove.Nodup
  ∧ ∀ j : Nat, j ∈ elemToRemove ↔
      j ∈ elemAll ∧ j ∉ elemMax ∧ (getConnectedElement j).length ≤ scaleElem

/-- Eight points and five edges in three connected components: edges 0 and 2
(`(0, 1)`, `(1, 4)`), edges 1 and 3 (`(2, 3)`, `(3, 5)`), and edge 4 (`(6, 7)`); shell not
built. -/
def threeComponentsMesh : EdgeSetTopologyModifier :=
  { m_container :=
      { nbPoints := 8, d_edge := [(0, 1), (2, 3), (1, 4), (3, 5), (6, 7)],
        m_edgesAroundVertex := [], m_changeList := [], m_edgeTopologyDirty := false },
    trace := [], messages := [] }

/-! ## Sample meshes for the error cases -/

/-- Two points and no edge, shell not built, nothing pending. -/
def noEdgesMesh : EdgeSetTopologyModifier :=
  { m_container :=
      { nbPoints := 2, d_edge := [], m_edgesAroundVertex := [],
        m_changeList := [], m_edgeTopologyDirty := false },
    trace := [], messages := [] }

/-! ## addEdgesWarning from ancestor elements -/

/-- Modelled from the spec: `EdgeAncestorElem` of `TopologyElementInfo.h` (not at hand):
the source elements a new edge was derived from, "an ordered list of source-primitive
indices (from the same or a different level)" (section 3). -/
structure EdgeAncestorElem where
  srcElems : List TopologyElemID
  deriving DecidableEq, Repr

namespace EdgeSetTopologyModifier

/-- The inner loop of lines 178-183: the indices of the source elements that are of edge
type and whose index is not `InvalidID`, in order. `InvalidID`, a constant of the index
type declared outside the file, is a parameter. -/
def retainedAncestors (InvalidID : Nat) (elem : EdgeAncestorElem) : List EdgeID :=
  (elem.srcElems.filter
    (fun src => src.type == TopologyObjectType.EDGE && src.index != InvalidID)).map
    (fun src => src.index)

/-- Lines 184-187: `ancestors.size()` copies of `1.0/ancestors.size()` when the ancestor
list is not empty, no coefficient otherwise. `quotient k` is the value of the
floating-point expression `1.0/k` stored in an `SReal`; the floating-point type and its
division are declared outside the file, so the quotient is a parameter. -/
def ancestorCoefs (quotient : Nat → SReal) (ancestors : List EdgeID) : List SReal :=
  if ancestors.isEmpty then []
  else List.replicate ancestors.length (quotient ancestors.length)

/-- `addEdgesWarning(nEdges, edgesList, edgesIndexList, ancestorElems)`, lines 164-193.
The loop reads `ancestorElems[i]` for every `i < nEdges`. The record is built from the
ancestor and coefficient lists; its copy of `ancestorElems` is not modelled. -/
def addEdgesWarning_ancestorElems (quotient : Nat → SReal) (InvalidID : Nat)
    (s : EdgeSetTopologyModifier) (nEdges : Nat) (edgesList : List Edge)
    (edgesIndexList : List EdgeID) (ancestorElems : List EdgeAncestorElem) : Outcome :=
  let s1 := { s with m_container := s.m_container.setEdgeTopologyToDirty }
  if nEdges ≤ ancestorElems.length then
    let ancestors := (ancestorElems.take nEdges).map (retainedAncestors InvalidID)
    let baryCoefs := ancestors.map (ancestorCoefs quotient)
    .done (addTopologyChange s1
      (.EdgesAdded nEdges edgesList edgesIndexList ancestors baryCoefs))
  else .outOfBounds s1

end EdgeSetTopologyModifier

/-! ## Floating-point quotient -/

/-- The integer part of the binary logarithm of `k` (`0` for `k < 2`); `fuel` bounds the
recursion. -/
def log2Floor : Nat → Nat → Nat
  | 0, _ => 0
  | fuel + 1, k => if k < 2 then 0 else log2Floor fuel (k / 2) + 1

/-- Modelled from IEEE 754, the arithmetic of the source's `double` (not part of the
repository): the value of `1.0/k` for `k >= 1`, the quotient rounded to the nearest number
with `p` significant bits (`p = 53` for `double`, `p = 24` for `float`). With
`2^L <= k < 2^(L+1)` the quotient lies in `(2^-(L+1), 2^-L]`; it is exact when `k = 2^L`,
and otherwise the nearest multiple of `2^-(p+L)`, no tie being possible. -/
def roundedQuotient (p k : Nat) : SReal :=
  let L := log2Floor k k
  if k = 2 ^ L then 1 / (2 ^ L : ℚ)
  else (((2 ^ (p + L + 1) + k) / (2 * k) : Nat) : ℚ) / (2 ^ (p + L) : ℚ)

/-- The value of `1.0/k` in double precision. -/
def doubleQuotient (k : Nat) : SReal :=
  roundedQuotient 53 k

/-! ## Sample ancestor elements -/

/-- Ten source elements of edge type with valid indices, the ancestors of one new edge. -/
def tenAncestors : EdgeAncestorElem :=
  { srcElems := (List.range 10).map (fun i => { type := .EDGE, index := i }) }

/-- Four source elements of one new edge, two of which are retained: an edge, a point, an
edge with the invalid index, an edge. -/
def mixedAncestors : EdgeAncestorElem :=
  { srcElems := [{ type := .EDGE, index := 0 }, { type := .POINT, index := 1 },
      { type := .EDGE, index := 4294967295 }, { type := .EDGE, index := 2 }] }

/-! ## Sample states after a move -/

/-- The path with its shell after `movePointsProcess([1])`. -/
def movedPathMesh : EdgeSetTopologyModifier :=
  { m_container := { pathMeshShell.m_container with
      m_changeList := [TopologyChange.EdgesMoved_Adding [1, 0] [(1, 2), (0, 1)]] },
    trace := [Event.propagated { pathMeshShell.m_container with
        m_changeList := [TopologyChange.EdgesMoved_Removing [1, 0]] },
      Event.pointsMoved [1] [] [] pathMeshShell.m_container],
    messages := [] }

/-! ## The component kept by removeIsolatedElements -/

/-- What the loop of `removeIsolatedElements` keeps true of `elemMax` besides its size:
`elemMax` is the list returned for its lowest element `m`, every element up to `m` has
been visited, and every visited element outside `elemMax` whose component has the size of
`elemMax` is above `m`:
among the visited components of largest size, `elemMax` is the one found first. -/
def KeptFirst (getConnectedElement : EdgeID → List EdgeID)
    (elemAll elemMax : List EdgeID) : Prop :=
  ∃ m : Nat, m ∈ elemMax ∧ elemMax = getConnectedElement m
    ∧ (∀ k : Nat, k ∈ elemMax → m ≤ k)
    ∧ (∀ k : Nat, k ≤ m → k ∈ elemAll)
    ∧ ∀ j : Nat, j ∈ elemAll → (getConnectedElement j).length = elemMax.length →
        j ∉ elemMax → m < j

/-! ## resortCuthillMckee -/

/-- Modelled from the spec: the graph of section 4.5, "an undirected graph whose vertices
are points and whose edges are the current edge-level primitives" (the adjacency list of
the graph library, not at hand): for every vertex the list of its neighbours, one entry
per incident edge, in the order of insertion. -/
structure Graph where
  adj : List (List Nat)
  deriving DecidableEq, Repr

namespace Graph

/-- Modelled from the spec: `add_edge(u, v, G)` of the graph library: the vertex set grows
to hold `u` and `v`, and each of the two becomes a neighbour of the other. -/
def add_edge (u v : Nat) (G : Graph) : Graph :=
  let adj0 := resize G.adj (max G.adj.length (max u v + 1)) []
  let adj1 := adj0.set u (adj0.getD u [] ++ [v])
  { adj := adj1.set v (adj1.getD v [] ++ [u]) }

def num_vertices (G : Graph) : Nat :=
  G.adj.length

def degree (G : Graph) (v : Nat) : Nat :=
  (G.adj.getD v []).length

/-- The vertices of `vs` not in `seen`, each once, in order of first appearance. -/
def unseen (seen vs : List Nat) : List Nat :=
  (vs.foldl (fun a v => if (seen ++ a).contains v then a else a ++ [v]) [])

/-- The vertices by increasing degree (stable). -/
def sortByDegree (G : Graph) (vs : List Nat) : List Nat :=
  vs.insertionSort (fun a b => G.degree a ≤ G.degree b)

/-- One round of a breadth-first traversal: the neighbours of the frontier not reached so
far. -/
def nextLevel (G : Graph) (reached frontier : List Nat) : List Nat :=
  unseen reached (frontier.flatMap (fun u => G.adj.getD u []))

/-- The number of rounds needed to reach every vertex connected to the frontier, and the
last non-empty level; `fuel` bounds the number of rounds. -/
def lastLevel (G : Graph) : Nat → List Nat → List Nat → Nat × List Nat
  | 0, _, frontier => (0, frontier)
  | fuel + 1, reached, frontier =>
    let next := nextLevel G reached frontier
    if next.isEmpty then (0, frontier)
    else ((lastLevel G fuel (reached ++ next) next).1 + 1,
      (lastLevel G fuel (reached ++ next) next).2)

/-- The eccentricity of `r` in its component. -/
def eccentricity (G : Graph) (r : Nat) : Nat :=
  (lastLevel G G.num_vertices [r] [r]).1

/-- A vertex of least degree among the vertices farthest from `r` (`r` itself when it has
no neighbour). -/
def farthest (G : Graph) (r : Nat) : Nat :=
  (sortByDegree G (lastLevel G G.num_vertices [r] [r]).2).headD r

/-- Modelled from the spec: the "heuristic pseudo-peripheral start vertex" of section 4.5:
starting from `r`, move to a vertex of least degree among the farthest ones as long as
that increases the eccentricity. -/
def find_starting_node (G : Graph) : Nat → Nat → Nat
  | 0, r => r
  | fuel + 1, r =>
    if G.eccentricity r < G.eccentricity (G.farthest r) then
      find_starting_node G fuel (G.farthest r)
    else r

/-- The breadth-first traversal of the ordering: the vertex at the head of the queue is
output, and its neighbours not met so far join the queue by increasing degree. `met` holds
the vertices output or queued. -/
def traverse (G : Graph) : Nat → List Nat → List Nat → List Nat × List Nat
  | 0, _, met => ([], met)
  | _ + 1, [], met => ([], met)
  | fuel + 1, u :: queue, met =>
    let fresh := sortByDegree G (unseen met (G.adj.getD u []))
    let r := traverse G fuel (queue ++ fresh) (met ++ fresh)
    (u :: r.1, r.2)

/-- The traversal of every component, by increasing lowest vertex: `vs` are the vertices
still to be looked at, `met` the vertices already output. -/
def orderComponents (G : Graph) : List Nat → List Nat → List Nat
  | [], _ => []
  | v :: vs, met =>
    if met.contains v then orderComponents G vs met
    else
      let start := find_starting_node G G.num_vertices v
      let r := traverse G G.num_vertices [start] (met ++ [start])
      r.1 ++ orderComponents G vs r.2

/-- Modelled from the spec: `cuthill_mckee_ordering(G, out)` of the graph library (not at
hand), the "breadth-first elimination from a heuristic pseudo-peripheral start vertex" of
section 4.5: the vertices in the order in which they are written to the output. -/
def cuthill_mckee_ordering (G : Graph) : List Nat :=
  orderComponents G (List.range G.num_vertices) []

/-- Modelled from the spec: `bandwidth(G, perm)` of the graph library (not at hand): "the
maximum index distance between connected points" (glossary) under the labelling `perm`. -/
def bandwidth (G : Graph) (perm : List Nat) : Nat :=
  ((List.range G.num_vertices).flatMap (fun u => (G.adj.getD u []).map (fun v =>
    (perm.getD u 0 - perm.getD v 0) + (perm.getD v 0 - perm.getD u 0)))).foldl max 0

end Graph

namespace EdgeSetTopologyModifier

/-- What `resortCuthillMckee` hands back: the array `inverse_permutation` written through
the reference argument, and the bandwidth it logs. -/
structure Reordering where
  inverse_permutation : List Nat
  bandwidth : Nat
  deriving DecidableEq, Repr

/-- The loop of lines 819-820: `perm[inv_perm[c]] = c` for every position `c`. -/
def invertPermutation : List Nat → Nat → List Nat → Option (List Nat)
  | [], _, perm => some perm
  | v :: rest, c, perm =>
    if v < perm.length then invertPermutation rest (c + 1) (perm.set v c) else none

/-- `EdgeSetTopologyModifier::resortCuthillMckee`, lines 783-823. The graph is built from
the edge array, the ordering is written into `inv_perm` from its last position backwards
(`inv_perm.rbegin()`), `inverse_permutation` is a copy of `inv_perm`, and `perm` is its
inverse. The container is only read. The result is `none` when the graph has no vertex
(`perm[0]` is then outside the array) or when an access is outside an array. -/
def resortCuthillMckee (s : EdgeSetTopologyModifier) :
    Option (EdgeSetTopologyModifier × Reordering) :=
  let G := s.m_container.d_edge.foldl (fun G e => Graph.add_edge e.1 e.2 G) { adj := [] }
  let n := G.num_vertices
  let order := G.cuthill_mckee_ordering
  if order.length ≤ n then
    let inv_perm := List.replicate (n - order.length) 0 ++ order.reverse
    match invertPermutation inv_perm 0 (List.replicate n 0) with
    | none => none
    | some perm =>
      if n = 0 then none
      else some (s, { inverse_permutation := inv_perm, bandwidth := G.bandwidth perm })
  else none

end EdgeSetTopologyModifier

/-- The 10-point path graph of the scenario: edges `(0,1)`, `(1,2)`, ..., `(8,9)`, shell
not built. -/
def pathGraph10 : EdgeSetTopologyModifier :=
  { m_container :=
      { nbPoints := 10,
        d_edge := [(0, 1), (1, 2), (2, 3), (3, 4), (4, 5), (5, 6), (6, 7), (7, 8), (8, 9)],
        m_edgesAroundVertex := [], m_changeList := [], m_edgeTopologyDirty := false },
    trace := [], messages := [] }

/-- The position of `v` in `l` (the length of `l` when `v` is not in it). -/
def positionOf (l : List Nat) (v : Nat) : Nat :=
  l.findIdx (fun x => x == v)

/-! ## Hexa2TetraTopologicalMapping -/

/-- Modelled from the spec: a coarse-level primitive (section 3), a hexahedron given by
its point indices. -/
structure Hexahedron where
  vertices : List PointID
  deriving DecidableEq, Repr

/-- Modelled from the spec: a fine-level primitive produced by the decomposition of a
coarse primitive (section 4.4): the tetrahedron in slot `slot` of the fixed decomposition
of the hexahedron `origin`. -/
structure Tetrahedron where
  origin : Hexahedron
  slot : Nat
  deriving DecidableEq, Repr

/-- Modelled from the spec: the cross-level mapping of section 4.4 (its source,
`Hexa2TetraTopologicalMapping.cpp`, is not at hand): the coarse array, the fine array and
the "correspondence table from each fine-level primitive to the coarse-level primitive it
was generated from", one entry per fine primitive. -/
structure Hexa2TetraTopologicalMapping where
  hexahedra : List Hexahedron
  tetrahedra : List Tetrahedron
  correspondence : List Nat
  deriving DecidableEq, Repr

/-- Modelled from the spec: `removeAt(index)` of section 4.1, "swap the primitive at
`index` with the primitive at `count-1`, then shrink by one". -/
def swapRemove {α : Type} (l : List α) (i : Nat) : List α :=
  match l.getLast? with
  | none => l
  | some last => (l.set i last).take (l.length - 1)

namespace Hexa2TetraTopologicalMapping

/-- Modelled from the spec: the decomposition of one coarse primitive "into its fixed set
of fine primitives" (section 4.4), `slots` of them. -/
def decompose (slots : Nat) (h : Hexahedron) : List Tetrahedron :=
  (List.range slots).map (fun k => { origin := h, slot := k })

/-- Modelled from the spec: a coarse addition "triggers decomposition-and-add at the fine
level with ancestry pointing at the new coarse primitive" (section 4.4). -/
def addHexahedron (slots : Nat) (m : Hexa2TetraTopologicalMapping) (h : Hexahedron) :
    Hexa2TetraTopologicalMapping :=
  { hexahedra := m.hexahedra ++ [h],
    tetrahedra := m.tetrahedra ++ decompose slots h,
    correspondence := m.correspondence ++ List.replicate slots m.hexahedra.length }

/-- Modelled from the spec: `init()`: "on initialization it fully decomposes every coarse
primitive into its fixed set of fine primitives and populates the correspondence table 1:1
per decomposition slot" (section 4.4). -/
def init (slots : Nat) (hexahedra : List Hexahedron) : Hexa2TetraTopologicalMapping :=
  hexahedra.foldl (addHexahedron slots)
    { hexahedra := [], tetrahedra := [], correspondence := [] }

/-- The fine-level removal for the coarse index `h`: the fine indices below `i` are
scanned from the highest down, and every fine primitive "whose correspondence entry names
a removed coarse index" (section 4.4) is removed by swap-with-last, in the fine array and
in the table alike. -/
def removeTetrahedraOf (h : Nat) :
    Nat → List Tetrahedron × List Nat → List Tetrahedron × List Nat
  | 0, st => st
  | i + 1, (tetrahedra, table) =>
    if table[i]? = some h then
      removeTetrahedraOf h i (swapRemove tetrahedra i, swapRemove table i)
    else removeTetrahedraOf h i (tetrahedra, table)

/-- Modelled from the spec: the translation of the removal of the coarse primitive `h`
(section 4.4): the fine primitives generated from `h` are removed first; then the coarse
array is compacted, and the entries of the table that name the last coarse index, which
the compaction moves to `h`, are fixed up (section 4.1). The removal of an index outside
the coarse array is undefined (`none`). -/
def removeHexahedron (m : Hexa2TetraTopologicalMapping) (h : Nat) :
    Option Hexa2TetraTopologicalMapping :=
  if h < m.hexahedra.length then
    let fine := removeTetrahedraOf h m.correspondence.length (m.tetrahedra, m.correspondence)
    some { hexahedra := swapRemove m.hexahedra h,
           tetrahedra := fine.1,
           correspondence := fine.2.map
             (fun x => if x = m.hexahedra.length - 1 then h else x) }
  else none

/-- Modelled from the spec: `getFromIndex(fineIndex)`, "the public query exposed to
callers needing the originating coarse primitive; it fails (reports invalid) when given an
out-of-range or stale index" (section 4.4). The invalid index is `none`. -/
def getFromIndex (m : Hexa2TetraTopologicalMapping) (ind : Nat) : Option Nat :=
  m.correspondence[ind]?

end Hexa2TetraTopologicalMapping

/-- A change of the coarse level that the mapping translates. -/
inductive CoarseChange where
  | added (h : Hexahedron)
  | removed (index : Nat)
  deriving DecidableEq, Repr

namespace Hexa2TetraTopologicalMapping

/-- Modelled from the spec: `updateTopologicalMappingTopDown()` for one coarse record
(section 4.4). -/
def update (slots : Nat) (m : Hexa2TetraTopologicalMapping) :
    CoarseChange → Option Hexa2TetraTopologicalMapping
  | .added h => some (addHexahedron slots m h)
  | .removed index => removeHexahedron m index

/-- The translation of a sequence of coarse records, in order. -/
def updateAll (slots : Nat) (m : Hexa2TetraTopologicalMapping) :
    List CoarseChange → Option Hexa2TetraTopologicalMapping
  | [] => some m
  | c :: rest =>
    match update slots m c with
    | none => none
    | some m1 => updateAll slots m1 rest

end Hexa2TetraTopologicalMapping

/-- Correspondence integrity (section 6): the table has one entry per live fine primitive,
and every entry is the index of the live coarse primitive that the fine primitive was
generated from. -/
def CorrespondenceIntegrity (m : Hexa2TetraTopologicalMapping) : Prop :=
  m.correspondence.length = m.tetrahedra.length
  ∧ ∀ (t : Nat) (tet : Tetrahedron), m.tetrahedra[t]? = some tet →
      ∃ h : Nat, m.correspondence[t]? = some h ∧ m.hexahedra[h]? = some tet.origin

/-- Two hexahedra of a sample coarse mesh, and a third one added later. -/
def hexaA : Hexahedron := { vertices := [0, 1, 2, 3, 4, 5, 6, 7] }

def hexaB : Hexahedron := { vertices := [4, 5, 6, 7, 8, 9, 10, 11] }

def hexaC : Hexahedron := { vertices := [8, 9, 10, 11, 12, 13, 14, 15] }

/-- The mapping of `hexaA` and `hexaB`, two tetrahedra per hexahedron, after `hexaC` has
been added and the hexahedron of index `0` removed. -/
def sampleMapping : Hexa2TetraTopologicalMapping :=
  { hexahedra := [hexaC, hexaB],
    tetrahedra := [{ origin := hexaC, slot := 0 }, { origin := hexaC, slot := 1 },
      { origin := hexaB, slot := 0 }, { origin := hexaB, slot := 1 }],
    correspondence := [0, 0, 1, 1] }

/-! ## Predicates used for the removal of points -/

/-- The number of endpoints of the edge of index `j` that are the point `p`. -/
def endpointCount (edges : List Edge) (j p : Nat) : Nat :=
  match edges[j]? with
  | none => 0
  | some e => (if e.1 = p then 1 else 0) + (if e.2 = p then 1 else 0)

/-- Shell consistency with multiplicity, as `addEdgeProcess` builds the shells (lines
95-99): the shell array has one entry per point, and the shell of every point lists the
index of every edge once for each endpoint of the edge that is the point, and nothing
else. -/
def ShellCounts (c : EdgeSetTopologyContainer) : Prop :=
  c.m_edgesAroundVertex.length = c.nbPoints ∧
  ∀ p < c.nbPoints,
    (∀ j ∈ c.m_edgesAroundVertex.getD p [], j < c.d_edge.length) ∧
    ∀ j < c.d_edge.length,
      (c.m_edgesAroundVertex.getD p []).count j = endpointCount c.d_edge j p

instance (c : EdgeSetTopologyContainer) : Decidable (ShellCounts c) :=
  inferInstanceAs (Decidable (c.m_edgesAroundVertex.length = c.nbPoints ∧
    ∀ p < c.nbPoints,
      (∀ j ∈ c.m_edgesAroundVertex.getD p [], j < c.d_edge.length) ∧
      ∀ j < c.d_edge.length,
        (c.m_edgesAroundVertex.getD p []).count j = endpointCount c.d_edge j p))

/-- The index at which the point `q` is found after the swap-with-last compaction for the
removed `indices`, `lastPoint` being the last point before it: at every step the point
that is then the last one takes the removed index. -/
def newPointIndex : List PointID → Nat → Nat → Nat
  | [], _, q => q
  | index :: rest, lastPoint, q =>
    newPointIndex rest (lastPoint - 1) (if q = lastPoint then index else q)

/-- The edge `e` with the endpoint `lastPoint` renamed to `index`. -/
def renameEndpoint (lastPoint index : Nat) (e : Edge) : Edge :=
  (if e.1 = lastPoint then index else e.1, if e.2 = lastPoint then index else e.2)

/-- What the loop of `removePointsProcess` keeps true while `cnt` points are left: the
shell array covers them, every endpoint is one of them, and their shells are consistent
with the edge array. -/
def RemovalInv (cnt : Nat) (c : EdgeSetTopologyContainer) : Prop :=
  cnt ≤ c.m_edgesAroundVertex.length
  ∧ (∀ e ∈ c.d_edge, e.1 < cnt ∧ e.2 < cnt)
  ∧ ∀ p : Nat, p < cnt →
      (∀ j ∈ c.m_edgesAroundVertex.getD p [], j < c.d_edge.length) ∧
      ∀ j : Nat, j < c.d_edge.length →
        (c.m_edgesAroundVertex.getD p []).count j = endpointCount c.d_edge j p

/-- Three points, no edge, the shell array built (three empty shells): what is left of a
mesh with a built shell array when its last edge has been removed. -/
def edgelessShellMesh : EdgeSetTopologyModifier :=
  { m_container :=
      { nbPoints := 3, d_edge := [], m_edgesAroundVertex := [[], [], []],
        m_changeList := [], m_edgeTopologyDirty := false },
    trace := [], messages := [] }

/-- Five points, the edges `(0, 4)`, `(4, 4)`, `(2, 0)`, the shell array built, a loop
being listed twice; the points `1` and `3` are isolated. -/
def starLoopMeshShell : EdgeSetTopologyModifier :=
  { m_container :=
      { nbPoints := 5, d_edge := [(0, 4), (4, 4), (2, 0)],
        m_edgesAroundVertex := [[0, 2], [], [2], [], [0, 1, 1]],
        m_changeList := [], m_edgeTopologyDirty := false },
    trace := [], messages := [] }

/-! ## Sample mesh with degenerate edges only -/

/-- Three points, each carrying a degenerate edge: `(0, 0)`, `(1, 1)`, `(2, 2)`; the shell
array built as `addEdgeProcess` builds it, every edge listed twice at its point. -/
def threeLoopsMesh : EdgeSetTopologyModifier :=
  { m_container :=
      { nbPoints := 3, d_edge := [(0, 0), (1, 1), (2, 2)],
        m_edgesAroundVertex := [[0, 0], [1, 1], [2, 2]],
        m_changeList := [], m_edgeTopologyDirty := false },
    trace := [], messages := [] }
/-! ## Basic facts -/

theorem getEdgeIndex_eq_InvalidID (c : EdgeSetTopologyContainer) (v1 v2 : PointID)
    (h : ¬ Joined c.d_edge (v1, v2)) :
    c.getEdgeIndex v1 v2 = EdgeSetTopologyContainer.InvalidID := by
  unfold EdgeSetTopologyContainer.getEdgeIndex
  have hall : ∀ x ∈ c.d_edge, (x == (v1, v2) || x == (v2, v1)) = false := by
    intro x hx
    rcases hxe : (x == (v1, v2) || x == (v2, v1)) with _ | _
    · rfl
    · exfalso
      apply h
      simp only [Bool.or_eq_true, beq_iff_eq] at hxe
      rcases hxe with rfl | rfl
      · exact Or.inl hx
      · exact Or.inr hx
  simp [List.findIdx_eq_length_of_false hall]

theorem updateShell_of_lt (shells : List (List EdgeID)) (p : PointID)
    (f : List EdgeID → List EdgeID) (hp : p < shells.length) :
    updateShell shells p f = some (shells.set p (f shells[p])) := by
  unfold updateShell
  simp [List.getElem?_eq_getElem hp]

theorem hasEdgesAroundVertex_eq_false_iff (c : EdgeSetTopologyContainer) :
    c.hasEdgesAroundVertex = false ↔ c.m_edgesAroundVertex = [] := by
  unfold EdgeSetTopologyContainer.hasEdgesAroundVertex
  cases c.m_edgesAroundVertex <;> simp

/-- What `addEdgeProcess` does with an edge that passes its tests and whose endpoints
the shell array covers: the edge is appended, and its index is pushed onto the shells of
its two endpoints when the shell is built. -/
theorem NotRejected.accepted {b : Bool} {c : EdgeSetTopologyContainer} {e : Edge}
    (h : NotRejected b c e) : Accepted b c e := by
  rcases h with h | ⟨h1, h2⟩
  · exact Or.inl h
  · exact Or.inr ⟨h1, fun _ => h2⟩

theorem addEdgeProcess_accept (CHECK_TOPOLOGY : Bool) (s : EdgeSetTopologyModifier)
    (e : Edge) (hrej : Accepted CHECK_TOPOLOGY s.m_container e)
    (hcov : s.m_container.hasEdgesAroundVertex = true →
      e.1 < s.m_container.m_edgesAroundVertex.length ∧
      e.2 < s.m_container.m_edgesAroundVertex.length) :
    ∃ shells, EdgeSetTopologyModifier.addEdgeProcess CHECK_TOPOLOGY s e
      = .done { s with m_container :=
          { s.m_container with m_edgesAroundVertex := shells,
                               d_edge := s.m_container.d_edge ++ [e] } }
      ∧ shells.length = s.m_container.m_edgesAroundVertex.length
      ∧ (s.m_container.hasEdgesAroundVertex = false → shells = [])
      ∧ ∀ p, shells.getD p [] =
          if s.m_container.hasEdgesAroundVertex = true ∧ (p = e.1 ∨ p = e.2) then
            s.m_container.m_edgesAroundVertex.getD p []
              ++ (if p = e.1 ∧ p = e.2 then [s.m_container.d_edge.length,
                    s.m_container.d_edge.length] else [s.m_container.d_edge.length])
          else s.m_container.m_edgesAroundVertex.getD p [] := by
  have h1 : (CHECK_TOPOLOGY && e.1 == e.2) = false := by
    rcases hrej with h | ⟨h, _⟩
    · simp [h]
    · simp [h]
  have h2 : (CHECK_TOPOLOGY && s.m_container.hasEdgesAroundVertex
      && (s.m_container.getEdgeIndex e.1 e.2 != EdgeSetTopologyContainer.InvalidID)) = false := by
    rcases hrej with h | ⟨_, h⟩
    · simp [h]
    · by_cases hb : s.m_container.hasEdgesAroundVertex = true
      · have := getEdgeIndex_eq_InvalidID s.m_container e.1 e.2 (h hb)
        simp [this]
      · have hb' : s.m_container.hasEdgesAroundVertex = false := by simpa using hb
        simp [hb']
  unfold EdgeSetTopologyModifier.addEdgeProcess
  simp only [h1, h2, Bool.false_eq_true, if_false]
  by_cases hs : s.m_container.hasEdgesAroundVertex = true
  · obtain ⟨l1, l2⟩ := hcov hs
    simp only [hs, if_true]
    rw [updateShell_of_lt _ _ _ l1]
    simp only
    rw [updateShell_of_lt _ _ _ (by simpa using l2)]
    refine ⟨_, rfl, by simp, by simp [hs], ?_⟩
    intro p
    simp only [true_and, EdgeSetTopologyContainer.getNumberOfEdges, List.getD_eq_getElem?_getD,
      List.getElem?_set, List.length_set, List.getElem_set]
    by_cases hp1 : p = e.1 <;> by_cases hp2 : p = e.2
    · subst hp1
      have hp2' : e.2 = e.1 := hp2.symm
      simp [hp2', l1, List.getElem?_eq_getElem l1]
    · subst hp1
      have : ¬ e.2 = e.1 := fun h => hp2 h.symm
      simp [this, hp2, l1, List.getElem?_eq_getElem l1]
    · subst hp2
      have : ¬ e.1 = e.2 := fun h => hp1 h.symm
      simp [this, hp1, l2, List.getElem?_eq_getElem l2]
    · have a1 : ¬ e.1 = p := fun h => hp1 h.symm
      have a2 : ¬ e.2 = p := fun h => hp2 h.symm
      simp [hp1, hp2, a1, a2]
  · have hs' : s.m_container.hasEdgesAroundVertex = false := by simpa using hs
    have hnil := (hasEdgesAroundVertex_eq_false_iff _).1 hs'
    simp only [hs', Bool.false_eq_true, if_false]
    refine ⟨[], ?_, by simp [hnil], fun _ => rfl, ?_⟩
    · rw [← hnil]
    · intro p; simp [hnil]

theorem getD_set_shell (shells : List (List EdgeID)) (i p : Nat) (a : List EdgeID) :
    (shells.set i a).getD p [] = if p = i ∧ i < shells.length then a else shells.getD p [] := by
  simp only [List.getD_eq_getElem?_getD, List.getElem?_set]
  by_cases hp : p = i
  · subst hp
    by_cases h : p < shells.length
    · simp [h]
    · simp [h, List.getElem?_eq_none (Nat.le_of_not_lt h)]
  · have : ¬ i = p := fun h => hp h.symm
    simp [hp, this]

theorem getElem?_eq_some_getD (shells : List (List EdgeID)) (p : Nat)
    (h : p < shells.length) : shells[p]? = some (shells.getD p []) := by
  simp [List.getD_eq_getElem?_getD, List.getElem?_eq_getElem h]

theorem updateShell_getD (shells : List (List EdgeID)) (p : PointID)
    (f : List EdgeID → List EdgeID) (hp : p < shells.length) :
    updateShell shells p f = some (shells.set p (f (shells.getD p []))) := by
  unfold updateShell
  rw [getElem?_eq_some_getD shells p hp]

theorem resize_of_le {α : Type} (l : List α) (n : Nat) (d : α) (h : n ≤ l.length) :
    resize l n d = l.take n := by
  unfold resize
  simp [Nat.sub_eq_zero_of_le h]

theorem eraseAll_eraseAll (l : List Nat) (v : Nat) : eraseAll (eraseAll l v) v = eraseAll l v := by
  unfold eraseAll; simp [List.filter_filter]

theorem replaceAll_replaceAll (l : List Nat) (a b : Nat) (h : b ≠ a) :
    replaceAll (replaceAll l a b) a b = replaceAll l a b := by
  unfold replaceAll
  simp only [List.map_map]
  apply List.map_congr_left
  intro x _
  by_cases hx : x = a
  · simp [hx, h]
  · simp [hx]

theorem removeEdgeAt_spec (rii : Bool) (c : EdgeSetTopologyContainer) (index last : Nat)
    (v : List PointID) (e q : Edge)
    (he : c.d_edge[index]? = some e) (hq : c.d_edge[last]? = some q)
    (hcov : ShellCovers c) :
    ∃ shells v1, EdgeSetTopologyModifier.removeEdgeAt rii c index last v
        = some ({ c with m_edgesAroundVertex := shells,
                         d_edge := (c.d_edge.set index q).take last }, v1)
      ∧ shells.length = c.m_edgesAroundVertex.length
      ∧ (∀ p, shells.getD p [] =
          shellAfterRemoval (c.m_edgesAroundVertex.getD p []) p e q index last)
      ∧ (rii = false → v1 = v)
      ∧ (∀ p ∈ v1, p ∈ v ∨ ((p = e.1 ∨ p = e.2) ∧
          eraseAll (c.m_edgesAroundVertex.getD p []) index = [])) := by
  have hi : index < c.d_edge.length := (List.getElem?_eq_some.1 he).1
  have hl : last < c.d_edge.length := (List.getElem?_eq_some.1 hq).1
  have hres : resize (c.d_edge.set index q) last (0, 0) = (c.d_edge.set index q).take last :=
    resize_of_le _ _ _ (by simp; omega)
  unfold EdgeSetTopologyModifier.removeEdgeAt
  by_cases hs : c.hasEdgesAroundVertex = true
  · have he_mem : e ∈ c.d_edge := List.mem_iff_getElem?.2 ⟨_, he⟩
    have hq_mem : q ∈ c.d_edge := List.mem_iff_getElem?.2 ⟨_, hq⟩
    obtain ⟨e1, e2⟩ := hcov hs e he_mem
    obtain ⟨q1, q2⟩ := hcov hs q hq_mem
    simp only [hs, if_true, he, hq, hi, hres]
    rw [getElem?_eq_some_getD _ _ e1]
    simp only
    rw [getElem?_eq_some_getD _ _ (by simpa using e2)]
    simp only
    have hv : ∀ p ∈ (if (rii && (eraseAll ((c.m_edgesAroundVertex.set e.1
          (eraseAll (c.m_edgesAroundVertex.getD e.1 []) index)).getD e.2 []) index).isEmpty) = true
        then (if (rii && (eraseAll (c.m_edgesAroundVertex.getD e.1 []) index).isEmpty) = true
          then v ++ [e.1] else v) ++ [e.2]
        else if (rii && (eraseAll (c.m_edgesAroundVertex.getD e.1 []) index).isEmpty) = true
          then v ++ [e.1] else v),
        p ∈ v ∨ ((p = e.1 ∨ p = e.2) ∧
          eraseAll (c.m_edgesAroundVertex.getD p []) index = []) := by
      intro p hp
      simp only [getD_set_shell, e1, and_true] at hp
      by_cases h12 : e.2 = e.1
      · simp only [h12, if_true, eraseAll_eraseAll] at hp
        split_ifs at hp with ha
        · simp only [Bool.and_eq_true, List.isEmpty_iff] at ha
          simp only [List.append_assoc, List.mem_append, List.mem_singleton] at hp
          rcases hp with hp | hp | hp
          · exact Or.inl hp
          · exact Or.inr ⟨Or.inl hp, by rw [hp]; exact ha.2⟩
          · exact Or.inr ⟨Or.inl hp, by rw [hp]; exact ha.2⟩
        · exact Or.inl hp
      · simp only [h12, if_false] at hp
        split_ifs at hp with ha hb hb
        · simp only [Bool.and_eq_true, List.isEmpty_iff] at ha hb
          simp only [List.append_assoc, List.mem_append, List.mem_singleton] at hp
          rcases hp with hp | hp | hp
          · exact Or.inl hp
          · exact Or.inr ⟨Or.inl hp, by rw [hp]; exact hb.2⟩
          · exact Or.inr ⟨Or.inr hp, by rw [hp]; exact ha.2⟩
        · simp only [Bool.and_eq_true, List.isEmpty_iff] at ha
          simp only [List.mem_append, List.mem_singleton] at hp
          rcases hp with hp | hp
          · exact Or.inl hp
          · exact Or.inr ⟨Or.inr hp, by rw [hp]; exact ha.2⟩
        · simp only [Bool.and_eq_true, List.isEmpty_iff] at hb
          simp only [List.mem_append, List.mem_singleton] at hp
          rcases hp with hp | hp
          · exact Or.inl hp
          · exact Or.inr ⟨Or.inl hp, by rw [hp]; exact hb.2⟩
        · exact Or.inl hp
    have hvf : rii = false → (if (rii && (eraseAll ((c.m_edgesAroundVertex.set e.1
          (eraseAll (c.m_edgesAroundVertex.getD e.1 []) index)).getD e.2 []) index).isEmpty) = true
        then (if (rii && (eraseAll (c.m_edgesAroundVertex.getD e.1 []) index).isEmpty) = true
          then v ++ [e.1] else v) ++ [e.2]
        else if (rii && (eraseAll (c.m_edgesAroundVertex.getD e.1 []) index).isEmpty) = true
          then v ++ [e.1] else v) = v := by
      intro h; simp [h]
    by_cases hlt : index < last
    · simp only [hlt, if_true]
      rw [updateShell_getD _ _ _ (by simpa using q1)]
      simp only
      rw [updateShell_getD _ _ _ (by simpa using q2)]
      refine ⟨_, _, rfl, by simp, ?_, hvf, hv⟩
      intro p
      have hne : index ≠ last := Nat.ne_of_lt hlt
      simp only [getD_set_shell, List.length_set, e1, e2, q1, q2, and_true]
      unfold shellAfterRemoval
      obtain ⟨a, b⟩ := e
      obtain ⟨x, y⟩ := q
      simp only
      rcases eq_or_ne p a with rfl | h1 <;> rcases eq_or_ne p b with rfl | h2 <;>
        rcases eq_or_ne p x with rfl | h3 <;> rcases eq_or_ne p y with rfl | h4 <;>
        simp [*, Ne.symm (a := p), hlt, eraseAll_eraseAll, replaceAll_replaceAll, hne]
    · simp only [hlt, if_false]
      refine ⟨_, _, rfl, by simp, ?_, hvf, hv⟩
      intro p
      simp only [getD_set_shell, List.length_set, e1, e2, and_true]
      unfold shellAfterRemoval
      obtain ⟨a, b⟩ := e
      simp only
      rcases eq_or_ne p a with rfl | h1 <;> rcases eq_or_ne p b with rfl | h2 <;>
        simp [*, hlt, eraseAll_eraseAll]
  · have hs' : c.hasEdgesAroundVertex = false := by simpa using hs
    have hnil := (hasEdgesAroundVertex_eq_false_iff _).1 hs'
    simp only [hs', Bool.false_eq_true, if_false, hq, hi, hres, if_true]
    refine ⟨[], v, ?_, by simp [hnil], ?_, fun _ => rfl, fun p hp => Or.inl hp⟩
    · rw [← hnil]
    · intro p
      simp [hnil, shellAfterRemoval, eraseAll, replaceAll]



theorem getElem?_swapRemove {α : Type} (l : List α) (i last j : Nat) (q : α)
    (hi : i < l.length) :
    ((l.set i q).take last)[j]? =
      if j < last then (if j = i then some q else l[j]?) else none := by
  rw [List.getElem?_take]
  by_cases hj : j < last
  · simp only [hj, if_true, List.getElem?_set]
    by_cases hji : j = i
    · subst hji; simp [hi]
    · have : ¬ i = j := fun h => hji h.symm
      simp [hji, this]
  · simp [hj]

theorem set_append_singleton_perm {α : Type} (l : List α) (i : Nat) (q e : α)
    (he : l[i]? = some e) : (l.set i q ++ [e]).Perm (l ++ [q]) := by
  induction l generalizing i with
  | nil => simp at he
  | cons x xs ih =>
    cases i with
    | zero =>
      simp only [List.getElem?_cons_zero, Option.some.injEq] at he
      subst he
      simp only [List.set_cons_zero, List.cons_append]
      exact (List.perm_append_singleton x (q :: xs)).trans
        (List.Perm.cons x (List.perm_append_singleton q xs).symm)
    | succ k =>
      simp only [List.getElem?_cons_succ] at he
      simp only [List.set_cons_succ, List.cons_append]
      exact List.Perm.cons x (ih k he)

theorem swapRemove_perm {α : Type} (l : List α) (i : Nat) (q e : α)
    (he : l[i]? = some e) (hq : l[l.length - 1]? = some q) :
    ((l.set i q).take (l.length - 1) ++ [e]).Perm l := by
  have hlast : l.getLast? = some q := by
    rw [List.getLast?_eq_getElem?]; exact hq
  obtain ⟨front, hsplit⟩ : ∃ front, l = front ++ [q] :=
    ⟨l.dropLast, (List.dropLast_append_getLast? q hlast).symm⟩
  subst hsplit
  have hi : i < front.length + 1 := by
    have := (List.getElem?_eq_some.1 he).1
    simpa using this
  simp only [List.length_append, List.length_singleton, Nat.add_sub_cancel]
  by_cases hlt : i < front.length
  · rw [List.set_append_left _ _ hlt]
    have h2 : (front.set i q ++ [q]).take front.length = front.set i q := by
      have : front.length = (front.set i q).length := by simp
      rw [this, List.take_left']
      rfl
    rw [h2]
    rw [List.getElem?_append_left hlt] at he
    exact set_append_singleton_perm front i q e he
  · have hieq : i = front.length := by omega
    subst hieq
    have heq : e = q := by
      simp at he
      exact he.symm
    subst heq
    rw [List.set_append_right _ _ (Nat.le_refl _)]
    simp



theorem decr_of_pos (n : Nat) (h : 0 < n) : decr n = n - 1 := by
  unfold decr
  have : n ≠ 0 := Nat.pos_iff_ne_zero.1 h
  simp [this]

theorem mem_swapRemove {α : Type} (l : List α) (i last : Nat) (q x : α) (hq : q ∈ l)
    (hx : x ∈ (l.set i q).take last) : x ∈ l := by
  have h1 : x ∈ l.set i q := List.mem_of_mem_take hx
  rcases List.mem_or_eq_of_mem_set h1 with h | h
  · exact h
  · rw [h]; exact hq

theorem removeEdgesLoop_spec (rii : Bool) (Inv : EdgeSetTopologyContainer → Prop)
    (hInv : ∀ (c : EdgeSetTopologyContainer) (index : Nat) (v : List PointID)
      (c1 : EdgeSetTopologyContainer) (v1 : List PointID), Inv c → index < c.d_edge.length →
      EdgeSetTopologyModifier.removeEdgeAt rii c index (c.d_edge.length - 1) v = some (c1, v1) →
      Inv c1) :
    ∀ (ids : List Nat) (c : EdgeSetTopologyContainer) (v : List PointID),
      ids.Pairwise (fun a b => b < a) → (∀ i ∈ ids, i < c.d_edge.length) → ShellCovers c →
      Inv c →
      ∃ c1 v1, EdgeSetTopologyModifier.removeEdgesLoop rii ids (decr c.d_edge.length) c v
          = some (c1, v1)
        ∧ c1.d_edge.length = c.d_edge.length - ids.length
        ∧ (c1.d_edge ++ ids.filterMap (fun i => c.d_edge[i]?)).Perm c.d_edge
        ∧ (∀ j, (∀ i ∈ ids, j < i) → c1.d_edge[j]? = c.d_edge[j]?)
        ∧ c1.nbPoints = c.nbPoints ∧ c1.m_changeList = c.m_changeList
        ∧ c1.m_edgeTopologyDirty = c.m_edgeTopologyDirty
        ∧ c1.m_edgesAroundVertex.length = c.m_edgesAroundVertex.length
        ∧ ShellCovers c1 ∧ (rii = false → v1 = v) ∧ Inv c1 := by
  intro ids
  induction ids with
  | nil =>
    intro c v _ _ hcov hinv
    exact ⟨c, v, rfl, by simp, by simp, fun _ _ => rfl, rfl, rfl, rfl, rfl, hcov,
      fun _ => rfl, hinv⟩
  | cons i rest ih =>
    intro c v hpw hrange hcov hinv
    have hi : i < c.d_edge.length := hrange i (List.mem_cons_self _ _)
    have hpos : 0 < c.d_edge.length := Nat.lt_of_le_of_lt (Nat.zero_le _) hi
    have hlast : c.d_edge.length - 1 < c.d_edge.length := by omega
    obtain ⟨hlt_rest, hpw_rest⟩ := List.pairwise_cons.1 hpw
    obtain ⟨e, he⟩ : ∃ e, c.d_edge[i]? = some e := ⟨_, List.getElem?_eq_getElem hi⟩
    obtain ⟨q, hq⟩ : ∃ q, c.d_edge[c.d_edge.length - 1]? = some q :=
      ⟨_, List.getElem?_eq_getElem hlast⟩
    have hq_mem : q ∈ c.d_edge := List.mem_iff_getElem?.2 ⟨_, hq⟩
    obtain ⟨shells, v1, hstep, hlen, -, hvf, -⟩ :=
      removeEdgeAt_spec rii c i (c.d_edge.length - 1) v e q he hq hcov
    have hinv1 := hInv c i v _ _ hinv hi hstep
    obtain ⟨cA, hc1⟩ : ∃ cA : EdgeSetTopologyContainer,
        { c with m_edgesAroundVertex := shells
                 d_edge := (c.d_edge.set i q).take (c.d_edge.length - 1) } = cA := ⟨_, rfl⟩
    rw [hc1] at hstep hinv1
    have hA_edges : cA.d_edge = (c.d_edge.set i q).take (c.d_edge.length - 1) := by
      rw [← hc1]
    have hA_shells : cA.m_edgesAroundVertex = shells := by rw [← hc1]
    have hA_len : cA.d_edge.length = c.d_edge.length - 1 := by
      rw [hA_edges]; simp
    have hA_cov : ShellCovers cA := by
      intro hs e he_mem
      rw [hA_edges] at he_mem
      have hmem : e ∈ c.d_edge :=
        mem_swapRemove _ _ _ _ _ hq_mem he_mem
      have hs0 : c.hasEdgesAroundVertex = true := by
        unfold EdgeSetTopologyContainer.hasEdgesAroundVertex at hs ⊢
        rw [hA_shells] at hs
        cases hsh : shells with
        | nil => rw [hsh] at hs; simp at hs
        | cons a b =>
          rw [hsh] at hlen
          cases hc : c.m_edgesAroundVertex with
          | nil => rw [hc] at hlen; simp at hlen
          | cons _ _ => simp
      have := hcov hs0 e hmem
      rw [hA_shells, hlen]
      exact this
    have hrange_rest : ∀ j ∈ rest, j < cA.d_edge.length := by
      intro j hj
      have := hlt_rest j hj
      omega
    obtain ⟨c2, v2, hloop, h2len, h2perm, h2below, h2nb, h2cl, h2d, h2sl, h2cov, h2vf, h2inv⟩ :=
      ih cA v1 hpw_rest hrange_rest hA_cov hinv1
    have hA_below : ∀ j, j < i → cA.d_edge[j]? = c.d_edge[j]? := by
      intro j hj
      rw [hA_edges, getElem?_swapRemove _ _ _ _ _ hi]
      have h1 : j < c.d_edge.length - 1 := by omega
      have h2 : ¬ j = i := by omega
      simp [h1, h2]
    refine ⟨c2, v2, ?_, ?_, ?_, ?_, ?_, ?_, ?_, ?_, h2cov, ?_, h2inv⟩
    · unfold EdgeSetTopologyModifier.removeEdgesLoop
      rw [decr_of_pos _ hpos, hstep]
      simp only
      rw [← hA_len]
      exact hloop
    · rw [h2len, hA_len]; simp; omega
    · have hcongr : rest.filterMap (fun k => cA.d_edge[k]?)
          = rest.filterMap (fun k => c.d_edge[k]?) := by
        apply List.filterMap_congr
        intro k hk
        exact hA_below k (hlt_rest k hk)
      rw [hcongr] at h2perm
      have hstepperm := swapRemove_perm c.d_edge i _ _ he hq
      rw [← hA_edges] at hstepperm
      simp only [List.filterMap_cons, he]
      refine List.Perm.trans ?_ hstepperm
      refine List.Perm.trans ?_ (List.Perm.append_right [e] h2perm)
      rw [List.append_assoc]
      exact List.Perm.append_left _ (List.perm_append_singleton _ _).symm
    · intro j hj
      have hji : j < i := hj i (List.mem_cons_self _ _)
      rw [h2below j (fun k hk => hj k (List.mem_cons_of_mem _ hk)), hA_below j hji]
    · rw [h2nb, ← hc1]
    · rw [h2cl, ← hc1]
    · rw [h2d, ← hc1]
    · rw [h2sl, hA_shells, hlen]
    · intro hf
      rw [h2vf hf, hvf hf]



theorem sortDescending_perm (l : List Nat) : (sortDescending l).Perm l :=
  List.perm_insertionSort _ l

theorem sortDescending_sorted (l : List Nat) :
    (sortDescending l).Pairwise (fun a b => b ≤ a) :=
  List.sorted_insertionSort (fun a b => b ≤ a) l

theorem sortDescending_strict (l : List Nat) (h : l.Nodup) :
    (sortDescending l).Pairwise (fun a b => b < a) := by
  have h1 := sortDescending_sorted l
  have h2 : (sortDescending l).Nodup := (sortDescending_perm l).nodup_iff.2 h
  exact List.Pairwise.imp₂ (fun a b hle hne => Nat.lt_of_le_of_ne hle (Ne.symm hne)) h1 h2

theorem filterMap_range_getElem? {α : Type} (l : List α) :
    (List.range l.length).filterMap (fun j => l[j]?) = l := by
  induction l with
  | nil => rfl
  | cons x xs ih =>
    rw [List.length_cons, List.range_succ_eq_map, List.filterMap_cons]
    simp only [List.getElem?_cons_zero, List.filterMap_map]
    congr 1
    have : ((fun j => (x :: xs)[j]?) ∘ Nat.succ) = (fun j => xs[j]?) := by
      funext j; simp
    rw [this]
    exact ih

theorem listed_append_notListed_perm (edges : List Edge) (ids : List Nat)
    (hnd : ids.Nodup) (hr : ∀ i ∈ ids, i < edges.length) :
    (ids.filterMap (fun j => edges[j]?) ++ edgesNotListed edges ids).Perm edges := by
  have h1 : ids.Perm ((List.range edges.length).filter (fun j => decide (j ∈ ids))) := by
    rw [List.perm_ext_iff_of_nodup hnd ((List.nodup_range _).filter _)]
    intro a
    simp only [List.mem_filter, List.mem_range, decide_eq_true_eq]
    exact ⟨fun h => ⟨hr a h, h⟩, fun h => h.2⟩
  have h2 := List.filter_append_perm (fun j => decide (j ∈ ids)) (List.range edges.length)
  have h3 : ((List.range edges.length).filter (fun j => !decide (j ∈ ids)))
      = (List.range edges.length).filter (fun j => decide (j ∉ ids)) := by
    apply List.filter_congr
    intro x _
    simp
  rw [h3] at h2
  have h4 := (List.Perm.append_right _ h1).trans h2
  have h5 := List.Perm.filterMap (fun j => edges[j]?) h4
  rw [List.filterMap_append, filterMap_range_getElem?] at h5
  exact h5

theorem filterEdgeIds_spec : ∀ (ids : List Nat) (s : EdgeSetTopologyModifier),
    (EdgeSetTopologyModifier.filterEdgeIds s ids).2
        = ids.filter (fun i => decide (i < s.m_container.d_edge.length))
      ∧ (EdgeSetTopologyModifier.filterEdgeIds s ids).1.m_container = s.m_container
      ∧ (EdgeSetTopologyModifier.filterEdgeIds s ids).1.trace = s.trace := by
  intro ids
  induction ids with
  | nil => intro s; exact ⟨rfl, rfl, rfl⟩
  | cons i rest ih =>
    intro s
    unfold EdgeSetTopologyModifier.filterEdgeIds
    by_cases h : i ≥ s.m_container.getNumberOfEdges
    · have h' : ¬ i < s.m_container.d_edge.length := by
        unfold EdgeSetTopologyContainer.getNumberOfEdges at h; omega
      obtain ⟨a, b, c⟩ := ih (s.report (.outOfBound i))
      simp only [h, if_true, List.filter_cons, h', decide_False, Bool.false_eq_true, if_false]
      exact ⟨a, b, c⟩
    · have h' : i < s.m_container.d_edge.length := by
        unfold EdgeSetTopologyContainer.getNumberOfEdges at h; omega
      obtain ⟨a, b, c⟩ := ih s
      simp only [h, if_false, List.filter_cons, h', decide_True, if_true]
      exact ⟨by rw [a], b, c⟩

theorem propagate_container (s : EdgeSetTopologyModifier) (reset : Bool) :
    let s1 := if reset then EdgeSetTopologyModifier.propagateTopologicalChanges s
      else EdgeSetTopologyModifier.propagateTopologicalChangesWithoutReset s
    s1.m_container.d_edge = s.m_container.d_edge
      ∧ s1.m_container.m_edgesAroundVertex = s.m_container.m_edgesAroundVertex
      ∧ s1.m_container.nbPoints = s.m_container.nbPoints
      ∧ s1.trace = s.trace ++ [Event.propagated s.m_container]
      ∧ s1.messages = s.messages
      ∧ s1.m_container.m_changeList = (if reset then [] else s.m_container.m_changeList) := by
  cases reset <;>
    simp only [EdgeSetTopologyModifier.propagateTopologicalChanges,
      EdgeSetTopologyModifier.propagateTopologicalChangesWithoutReset,
      EdgeSetTopologyModifier.propagateTopologicalEngineChanges,
      EdgeSetTopologyContainer.resetTopologyChangeList,
      EdgeSetTopologyContainer.cleanEdgeTopologyFromDirty] <;>
    split_ifs <;> simp



theorem removeEdgesProcess_false (s : EdgeSetTopologyModifier) (ids : List Nat) (dof : Bool)
    (c1 : EdgeSetTopologyContainer) (hne : s.m_container.hasEdges = true)
    (hloop : EdgeSetTopologyModifier.removeEdgesLoop false ids
      (decr s.m_container.d_edge.length) s.m_container [] = some (c1, [])) :
    EdgeSetTopologyModifier.removeEdgesProcess s ids false dof
      = .done { s with m_container := c1 } := by
  unfold EdgeSetTopologyModifier.removeEdgesProcess
  simp [hne, EdgeSetTopologyContainer.getNumberOfEdges, hloop]

theorem hasEdges_iff (c : EdgeSetTopologyContainer) :
    c.hasEdges = true ↔ 0 < c.d_edge.length := by
  unfold EdgeSetTopologyContainer.hasEdges
  cases c.d_edge <;> simp

theorem ShellCovers_congr (c c1 : EdgeSetTopologyContainer)
    (h1 : c1.d_edge = c.d_edge) (h2 : c1.m_edgesAroundVertex = c.m_edgesAroundVertex)
    (h : ShellCovers c) : ShellCovers c1 := by
  unfold ShellCovers EdgeSetTopologyContainer.hasEdgesAroundVertex at *
  rw [h1, h2]
  exact h

theorem edgesNotListed_filter (edges : List Edge) (ids : List Nat) :
    edgesNotListed edges (ids.filter (fun i => decide (i < edges.length)))
      = edgesNotListed edges ids := by
  unfold edgesNotListed
  congr 1
  apply List.filter_congr
  intro j hj
  have hj' : j < edges.length := List.mem_range.1 hj
  simp [List.mem_filter, hj']

theorem mem_incidentEdges (edges : List Edge) (p i : Nat) :
    i ∈ EdgeSetTopologyContainer.incidentEdges edges p
      ↔ ∃ e, edges[i]? = some e ∧ (e.1 = p ∨ e.2 = p) := by
  unfold EdgeSetTopologyContainer.incidentEdges
  simp only [List.mem_filter, List.mem_range]
  constructor
  · rintro ⟨hi, h⟩
    rw [List.getElem?_eq_getElem hi] at h
    simp only [Bool.or_eq_true, beq_iff_eq] at h
    exact ⟨_, List.getElem?_eq_getElem hi, h⟩
  · rintro ⟨e, he, h⟩
    have hi := (List.getElem?_eq_some.1 he).1
    refine ⟨hi, ?_⟩
    rw [he]
    simpa using h

theorem ShellExact_iff (c : EdgeSetTopologyContainer) :
    ShellExact c ↔ c.m_edgesAroundVertex.length = c.nbPoints ∧
      ∀ p : Nat, p < c.nbPoints → ∀ j : Nat, j ∈ c.m_edgesAroundVertex.getD p []
        ↔ ∃ e, c.d_edge[j]? = some e ∧ (e.1 = p ∨ e.2 = p) := by
  unfold ShellExact SameMembers
  constructor
  · rintro ⟨h1, h2⟩
    refine ⟨h1, fun p hp j => ?_⟩
    rw [← mem_incidentEdges]
    exact ⟨fun h => (h2 p hp).1 j h, fun h => (h2 p hp).2 j h⟩
  · rintro ⟨h1, h2⟩
    refine ⟨h1, fun p hp => ⟨fun j hj => ?_, fun j hj => ?_⟩⟩
    · rw [mem_incidentEdges]; exact (h2 p hp j).1 hj
    · rw [mem_incidentEdges] at hj; exact (h2 p hp j).2 hj

theorem mem_eraseAll (l : List Nat) (v j : Nat) : j ∈ eraseAll l v ↔ j ∈ l ∧ j ≠ v := by
  unfold eraseAll
  simp [List.mem_filter]

theorem mem_replaceAll (l : List Nat) (a b j : Nat) :
    j ∈ replaceAll l a b ↔ (j ∈ l ∧ j ≠ a) ∨ (j = b ∧ a ∈ l) := by
  unfold replaceAll
  simp only [List.mem_map]
  constructor
  · rintro ⟨x, hx, rfl⟩
    by_cases h : x = a
    · subst h; simp [hx]
    · simp [h, hx]
  · rintro (⟨h1, h2⟩ | ⟨h1, h2⟩)
    · exact ⟨j, h1, by simp [h2]⟩
    · exact ⟨a, h2, by simp [h1]⟩

theorem removeEdgeAt_consistent (rii : Bool) (c : EdgeSetTopologyContainer) (index : Nat)
    (v : List PointID) (c1 : EdgeSetTopologyContainer) (v1 : List PointID)
    (hinv : ShellConsistent c) (hi : index < c.d_edge.length)
    (hstep : EdgeSetTopologyModifier.removeEdgeAt rii c index (c.d_edge.length - 1) v
      = some (c1, v1)) :
    ShellConsistent c1 := by
  obtain ⟨hcons, hvalid⟩ := hinv
  obtain ⟨hlenS, hmem⟩ := (ShellExact_iff c).1 hcons
  have hcov : ShellCovers c := by
    intro _ e he
    rw [hlenS]
    exact hvalid e he
  have hlast : c.d_edge.length - 1 < c.d_edge.length := by omega
  obtain ⟨e, he⟩ : ∃ e, c.d_edge[index]? = some e := ⟨_, List.getElem?_eq_getElem hi⟩
  obtain ⟨q, hq⟩ : ∃ q, c.d_edge[c.d_edge.length - 1]? = some q :=
    ⟨_, List.getElem?_eq_getElem hlast⟩
  have hq_mem : q ∈ c.d_edge := List.mem_iff_getElem?.2 ⟨_, hq⟩
  obtain ⟨shells, v2, hspec, hlen, hshell, -, -⟩ :=
    removeEdgeAt_spec rii c index (c.d_edge.length - 1) v e q he hq hcov
  rw [hspec] at hstep
  have hc1 := (Prod.mk.inj (Option.some.inj hstep)).1
  subst hc1
  constructor
  · rw [ShellExact_iff]
    refine ⟨by simp only; rw [hlen, hlenS], ?_⟩
    intro p hp j
    simp only
    rw [hshell p, getElem?_swapRemove _ _ _ _ _ hi]
    have hA := hmem p hp
    have hiA : index ∈ c.m_edgesAroundVertex.getD p [] ↔ (e.1 = p ∨ e.2 = p) := by
      rw [hA index, he]; simp
    have hlA : c.d_edge.length - 1 ∈ c.m_edgesAroundVertex.getD p [] ↔ (q.1 = p ∨ q.2 = p) := by
      rw [hA (c.d_edge.length - 1), hq]; simp
    have hrange : j ∈ c.m_edgesAroundVertex.getD p [] → j < c.d_edge.length := by
      intro hj
      obtain ⟨e', he', -⟩ := (hA j).1 hj
      exact (List.getElem?_eq_some.1 he').1
    have hB : j ∈ (if p = e.1 ∨ p = e.2 then eraseAll (c.m_edgesAroundVertex.getD p []) index
        else c.m_edgesAroundVertex.getD p []) ↔ j ∈ c.m_edgesAroundVertex.getD p [] ∧ j ≠ index := by
      by_cases hpe : p = e.1 ∨ p = e.2
      · simp only [hpe, if_true, mem_eraseAll]
      · simp only [hpe, if_false]
        constructor
        · intro hj
          refine ⟨hj, ?_⟩
          rintro rfl
          apply hpe
          rcases hiA.1 hj with h | h
          · exact Or.inl h.symm
          · exact Or.inr h.symm
        · exact fun h => h.1
    have hqp : (∃ e', some q = some e' ∧ (e'.1 = p ∨ e'.2 = p)) ↔ (q.1 = p ∨ q.2 = p) := by
      simp
    have hnone : ¬ ∃ e', (none : Option Edge) = some e' ∧ (e'.1 = p ∨ e'.2 = p) := by
      simp
    unfold shellAfterRemoval
    simp only
    by_cases hcond : index < c.d_edge.length - 1 ∧ (p = q.1 ∨ p = q.2)
    · obtain ⟨hlt, hpq⟩ := hcond
      have hpq' : q.1 = p ∨ q.2 = p := hpq.imp Eq.symm Eq.symm
      simp only [hlt, hpq, and_self, if_true]
      rw [mem_replaceAll, hB]
      have hlB : c.d_edge.length - 1 ∈ (if p = e.1 ∨ p = e.2
          then eraseAll (c.m_edgesAroundVertex.getD p []) index
          else c.m_edgesAroundVertex.getD p []) := by
        by_cases hpe : p = e.1 ∨ p = e.2
        · simp only [hpe, if_true, mem_eraseAll]
          exact ⟨hlA.2 hpq', by omega⟩
        · simp only [hpe, if_false]
          exact hlA.2 hpq'
      by_cases hjl : j < c.d_edge.length - 1
      · by_cases hji : j = index
        · rw [if_pos hjl, if_pos hji, hqp]
          exact ⟨fun _ => hpq', fun _ => Or.inr ⟨hji, hlB⟩⟩
        · rw [if_pos hjl, if_neg hji, ← hA j]
          constructor
          · rintro (⟨⟨h1, _⟩, _⟩ | ⟨h1, _⟩)
            · exact h1
            · exact absurd h1 hji
          · intro h
            exact Or.inl ⟨⟨h, hji⟩, Nat.ne_of_lt hjl⟩
      · rw [if_neg hjl]
        simp only [hnone, iff_false]
        rintro (⟨⟨h1, _⟩, h3⟩ | ⟨h1, _⟩)
        · have := hrange h1
          omega
        · omega
    · simp only [hcond, if_false]
      rw [hB]
      by_cases hjl : j < c.d_edge.length - 1
      · by_cases hji : j = index
        · rw [if_pos hjl, if_pos hji, hqp]
          constructor
          · intro h; exact absurd hji h.2
          · intro h
            exfalso
            apply hcond
            exact ⟨by omega, h.imp Eq.symm Eq.symm⟩
        · rw [if_pos hjl, if_neg hji, ← hA j]
          exact ⟨fun h => h.1, fun h => ⟨h, hji⟩⟩
      · rw [if_neg hjl]
        simp only [hnone, iff_false]
        rintro ⟨h1, h2⟩
        have hr := hrange h1
        have hjeq : j = c.d_edge.length - 1 := by omega
        have hil : index < c.d_edge.length - 1 := by omega
        apply hcond
        refine ⟨hil, ?_⟩
        rw [hjeq] at h1
        exact (hlA.1 h1).imp Eq.symm Eq.symm
  · intro e' he'
    exact hvalid e' (mem_swapRemove _ _ _ _ _ hq_mem he')

theorem ShellConsistent.covers {c : EdgeSetTopologyContainer} (h : ShellConsistent c) :
    ShellCovers c := by
  intro _ e he
  rw [h.1.1]
  exact h.2 e he

theorem hasEdgesAroundVertex_of_length (c c1 : EdgeSetTopologyContainer)
    (h : c1.m_edgesAroundVertex.length = c.m_edgesAroundVertex.length) :
    c1.hasEdgesAroundVertex = c.hasEdgesAroundVertex := by
  unfold EdgeSetTopologyContainer.hasEdgesAroundVertex
  cases h1 : c1.m_edgesAroundVertex <;> cases h2 : c.m_edgesAroundVertex <;>
    simp [h1, h2] at h ⊢

theorem getElem?_append_singleton {α : Type} (l : List α) (e : α) (j : Nat) :
    (l ++ [e])[j]? = if j < l.length then l[j]? else if j = l.length then some e else none := by
  by_cases h : j < l.length
  · simp [h, List.getElem?_append_left h]
  · rw [List.getElem?_append_right (Nat.le_of_not_lt h)]
    by_cases h2 : j = l.length
    · simp [h2]
    · have : j - l.length ≠ 0 := by omega
      simp only [h, h2, if_false]
      cases hk : j - l.length with
      | zero => exact absurd hk this
      | succ k => simp

theorem getEdgeIndex_ne_InvalidID (c : EdgeSetTopologyContainer) (v1 v2 : PointID)
    (h : Joined c.d_edge (v1, v2)) :
    c.getEdgeIndex v1 v2 ≠ EdgeSetTopologyContainer.InvalidID := by
  unfold EdgeSetTopologyContainer.getEdgeIndex
  have hlt : c.d_edge.findIdx (fun e => e == (v1, v2) || e == (v2, v1)) < c.d_edge.length := by
    apply List.findIdx_lt_length_of_exists
    rcases h with h | h
    · exact ⟨_, h, by simp⟩
    · exact ⟨_, h, by simp⟩
  simp [hlt]

theorem removePointsProcess_trace (s : EdgeSetTopologyModifier) (indices : List PointID)
    (dof : Bool) :
    (EdgeSetTopologyModifier.removePointsProcess s indices dof).state.trace = s.trace := by
  unfold EdgeSetTopologyModifier.removePointsProcess
  simp only
  split_ifs <;> (try split) <;> (try split_ifs) <;> rfl

theorem propagateTopologicalChanges_trace (s : EdgeSetTopologyModifier) :
    (EdgeSetTopologyModifier.propagateTopologicalChanges s).trace
      = s.trace ++ [Event.propagated s.m_container] :=
  (propagate_container s true).2.2.2.1

/-- The trace only grows during `removeEdgesProcess`, also when the call ends in an access
outside a vector. -/
theorem removeEdgesProcess_trace (s : EdgeSetTopologyModifier) (ids : List EdgeID)
    (rii dof : Bool) :
    ∃ rest, (EdgeSetTopologyModifier.removeEdgesProcess s ids rii dof).state.trace
      = s.trace ++ rest := by
  unfold EdgeSetTopologyModifier.removeEdgesProcess
  by_cases h : s.m_container.hasEdges = true
  · simp only [h, Bool.not_true, Bool.false_eq_true, if_false]
    split
    · exact ⟨[], by simp [Outcome.state]⟩
    · split_ifs
      · rw [removePointsProcess_trace, propagateTopologicalChanges_trace]
        exact ⟨_, rfl⟩
      · exact ⟨[], by simp [Outcome.state]⟩
  · simp only [h, Bool.not_false, if_true]
    exact ⟨[], by simp [Outcome.state, EdgeSetTopologyModifier.report]⟩

/-- Frame of `addEdgeProcess`: when a built shell array covers the endpoints of `e` the
call runs to its end, touching nothing but the edge array, the contents of the shells and
the messages. -/
theorem addEdgeProcess_total (CHECK_TOPOLOGY : Bool) (s : EdgeSetTopologyModifier) (e : Edge)
    (hcov : s.m_container.hasEdgesAroundVertex = true →
      e.1 < s.m_container.m_edgesAroundVertex.length ∧
      e.2 < s.m_container.m_edgesAroundVertex.length) :
    ∃ s1, EdgeSetTopologyModifier.addEdgeProcess CHECK_TOPOLOGY s e = .done s1
      ∧ s1.trace = s.trace
      ∧ s1.m_container.m_changeList = s.m_container.m_changeList
      ∧ s1.m_container.m_edgeTopologyDirty = s.m_container.m_edgeTopologyDirty
      ∧ s1.m_container.nbPoints = s.m_container.nbPoints
      ∧ s1.m_container.m_edgesAroundVertex.length = s.m_container.m_edgesAroundVertex.length
      ∧ (Accepted CHECK_TOPOLOGY s.m_container e →
          s1.m_container.d_edge = s.m_container.d_edge ++ [e] ∧ s1.messages = s.messages)
      ∧ (¬ Accepted CHECK_TOPOLOGY s.m_container e →
          s1.m_container = s.m_container) := by
  by_cases hrej : Accepted CHECK_TOPOLOGY s.m_container e
  · obtain ⟨shells, hrun, hlen, -, -⟩ := addEdgeProcess_accept CHECK_TOPOLOGY s e hrej hcov
    exact ⟨_, hrun, rfl, rfl, rfl, rfl, hlen, fun _ => ⟨rfl, rfl⟩, fun h => absurd hrej h⟩
  · have hck : CHECK_TOPOLOGY = true := by
      cases CHECK_TOPOLOGY
      · exact absurd (Or.inl rfl) hrej
      · rfl
    have hdone : ∃ m, EdgeSetTopologyModifier.addEdgeProcess CHECK_TOPOLOGY s e
        = .done (s.report m) := by
      unfold EdgeSetTopologyModifier.addEdgeProcess
      by_cases hdeg : e.1 = e.2
      · exact ⟨.invalidEdge e, by simp [hck, hdeg]⟩
      · have hbj : s.m_container.hasEdgesAroundVertex = true ∧ Joined s.m_container.d_edge e := by
          by_contra hcon
          apply hrej
          right
          refine ⟨hdeg, fun hb hj => hcon ⟨hb, hj⟩⟩
        have hidx := getEdgeIndex_ne_InvalidID s.m_container e.1 e.2 hbj.2
        refine ⟨.edgeAlreadyExists e, ?_⟩
        simp only [hck, Bool.true_and, beq_iff_eq, hdeg, if_false, hbj.1, bne_iff_ne, ne_eq,
          hidx, not_false_eq_true, if_true]
    obtain ⟨m, hm⟩ := hdone
    exact ⟨_, hm, rfl, rfl, rfl, rfl, rfl, fun h => absurd h hrej, fun _ => rfl⟩

theorem AllAccepted_congr (b : Bool) : ∀ (edges : List Edge) (c c1 : EdgeSetTopologyContainer),
    c.d_edge = c1.d_edge → c.hasEdgesAroundVertex = c1.hasEdgesAroundVertex →
    AllAccepted b c edges → AllAccepted b c1 edges := by
  intro edges
  induction edges with
  | nil => intro _ _ _ _ _; trivial
  | cons e rest ih =>
    intro c c1 hd hs h
    obtain ⟨h1, h2⟩ := h
    refine ⟨?_, ?_⟩
    · unfold Accepted at h1 ⊢
      rw [← hd, ← hs]
      exact h1
    · refine ih _ _ ?_ ?_ h2
      · show c.d_edge ++ [e] = c1.d_edge ++ [e]
        rw [hd]
      · exact hs

/-- Frame of `addEdgesProcess`. -/
theorem addEdgesProcess_total (CHECK_TOPOLOGY : Bool) :
    ∀ (edges : List Edge) (s : EdgeSetTopologyModifier),
    (s.m_container.hasEdgesAroundVertex = true → ∀ e ∈ edges,
      e.1 < s.m_container.m_edgesAroundVertex.length ∧
      e.2 < s.m_container.m_edgesAroundVertex.length) →
    ∃ s1, EdgeSetTopologyModifier.addEdgesProcess CHECK_TOPOLOGY s edges = .done s1
      ∧ s1.trace = s.trace
      ∧ s1.m_container.m_changeList = s.m_container.m_changeList
      ∧ s1.m_container.m_edgeTopologyDirty = s.m_container.m_edgeTopologyDirty
      ∧ s1.m_container.nbPoints = s.m_container.nbPoints
      ∧ s1.m_container.m_edgesAroundVertex.length = s.m_container.m_edgesAroundVertex.length
      ∧ (AllAccepted CHECK_TOPOLOGY s.m_container edges →
          s1.m_container.d_edge = s.m_container.d_edge ++ edges ∧ s1.messages = s.messages) := by
  intro edges
  induction edges with
  | nil =>
    intro s _
    exact ⟨s, rfl, rfl, rfl, rfl, rfl, rfl, fun _ => ⟨by simp, rfl⟩⟩
  | cons e rest ih =>
    intro s hcov
    obtain ⟨s1, h1, t1, c1, d1, n1, l1, a1, -⟩ := addEdgeProcess_total CHECK_TOPOLOGY s e
      (fun hb => hcov hb e (List.mem_cons_self _ _))
    have hb1 := hasEdgesAroundVertex_of_length s.m_container s1.m_container l1
    obtain ⟨s2, h2, t2, c2, d2, n2, l2, a2⟩ := ih s1 (fun hb e' he' => by
      rw [l1]
      exact hcov (by rw [← hb1]; exact hb) e' (List.mem_cons_of_mem _ he'))
    refine ⟨s2, ?_, by rw [t2, t1], by rw [c2, c1], by rw [d2, d1], by rw [n2, n1],
      by rw [l2, l1], ?_⟩
    · unfold EdgeSetTopologyModifier.addEdgesProcess
      rw [h1]
      exact h2
    · intro hall
      obtain ⟨hacc, hrest⟩ := hall
      obtain ⟨e1, m1⟩ := a1 hacc
      have hrest' : AllAccepted CHECK_TOPOLOGY s1.m_container rest :=
        AllAccepted_congr CHECK_TOPOLOGY rest
          { s.m_container with d_edge := s.m_container.d_edge ++ [e] } s1.m_container
          e1.symm hb1.symm hrest
      obtain ⟨e2, m2⟩ := a2 hrest'
      exact ⟨by rw [e2, e1]; simp, by rw [m2, m1]⟩

theorem mem_foldl_pushNew (sh : List Nat) : ∀ (acc : List Nat) (i : Nat),
    i ∈ sh.foldl (fun a e => if a.contains e then a else a ++ [e]) acc → i ∈ acc ∨ i ∈ sh := by
  induction sh with
  | nil => intro acc i h; exact Or.inl h
  | cons x xs ih =>
    intro acc i h
    simp only [List.foldl_cons] at h
    rcases ih _ i h with h1 | h1
    · split_ifs at h1
      · exact Or.inl h1
      · simp only [List.mem_append, List.mem_singleton] at h1
        rcases h1 with h2 | h2
        · exact Or.inl h2
        · exact Or.inr (by rw [h2]; exact List.mem_cons_self _ _)
    · exact Or.inr (List.mem_cons_of_mem _ h1)

theorem collectEdgesAroundVertex_spec (shells : List (List EdgeID)) :
    ∀ (id : List Nat) (acc : List Nat), (∀ p ∈ id, p < shells.length) →
    ∃ collected, EdgeSetTopologyModifier.collectEdgesAroundVertex shells id acc = some collected
      ∧ ∀ i ∈ collected, i ∈ acc ∨ ∃ sh ∈ shells, i ∈ sh := by
  intro id
  induction id with
  | nil => intro acc _; exact ⟨acc, rfl, fun i hi => Or.inl hi⟩
  | cons p rest ih =>
    intro acc hid
    have hp : p < shells.length := hid p (List.mem_cons_self _ _)
    obtain ⟨collected, hrun, hmem⟩ :=
      ih (shells[p].foldl (fun a e => if a.contains e then a else a ++ [e]) acc)
        (fun q hq => hid q (List.mem_cons_of_mem _ hq))
    refine ⟨collected, ?_, ?_⟩
    · unfold EdgeSetTopologyModifier.collectEdgesAroundVertex
      rw [List.getElem?_eq_getElem hp]
      exact hrun
    · intro i hi
      rcases hmem i hi with h | h
      · rcases mem_foldl_pushNew _ _ _ h with h1 | h1
        · exact Or.inl h1
        · exact Or.inr ⟨shells[p], List.getElem_mem _, h1⟩
      · exact Or.inr h

theorem lookupEdges_total (edges : List Edge) : ∀ (l : List Nat),
    (∀ i ∈ l, i < edges.length) →
    ∃ es, EdgeSetTopologyModifier.lookupEdges edges l = some es := by
  intro l
  induction l with
  | nil => intro _; exact ⟨[], rfl⟩
  | cons i rest ih =>
    intro h
    obtain ⟨es, hes⟩ := ih (fun j hj => h j (List.mem_cons_of_mem _ hj))
    have hi : i < edges.length := h i (List.mem_cons_self _ _)
    refine ⟨edges[i] :: es, ?_⟩
    unfold EdgeSetTopologyModifier.lookupEdges
    rw [List.getElem?_eq_getElem hi, hes]

theorem ShellExact.entries_lt {c : EdgeSetTopologyContainer} (h : ShellExact c) :
    ∀ sh ∈ c.m_edgesAroundVertex, ∀ i ∈ sh, i < c.d_edge.length := by
  intro sh hsh i hi
  obtain ⟨hlen, hmem⟩ := (ShellExact_iff c).1 h
  obtain ⟨p, hp⟩ := List.mem_iff_getElem?.1 hsh
  have hpl : p < c.m_edgesAroundVertex.length := (List.getElem?_eq_some.1 hp).1
  have hgd : c.m_edgesAroundVertex.getD p [] = sh := by
    simp [List.getD_eq_getElem?_getD, hp]
  have := (hmem p (by rw [← hlen]; exact hpl) i).1 (by rw [hgd]; exact hi)
  obtain ⟨e, he, -⟩ := this
  exact (List.getElem?_eq_some.1 he).1

theorem createEdgesAroundVertexArray_exact (c : EdgeSetTopologyContainer) :
    ShellExact c.createEdgesAroundVertexArray := by
  unfold ShellExact EdgeSetTopologyContainer.createEdgesAroundVertexArray
  refine ⟨by simp, ?_⟩
  intro p hp
  simp only at hp ⊢
  have : ((List.range c.nbPoints).map
      (fun p => EdgeSetTopologyContainer.incidentEdges c.d_edge p)).getD p []
      = EdgeSetTopologyContainer.incidentEdges c.d_edge p := by
    simp [List.getD_eq_getElem?_getD, List.getElem?_map, List.getElem?_range hp]
  rw [this]
  exact ⟨fun _ h => h, fun _ h => h⟩

theorem splitEdgesLoop_spec (c : EdgeSetTopologyContainer) :
    ∀ (indices : List Nat) (i nbEdges : Nat), (∀ k ∈ indices, k < c.d_edge.length) →
    ∃ v edges edgesIndex,
      EdgeSetTopologyModifier.splitEdgesLoop c indices i nbEdges = some (v, edges, edgesIndex)
      ∧ v = indices.map (fun k => [(c.d_edge.getD k (0, 0)).1, (c.d_edge.getD k (0, 0)).2])
      ∧ edges.length = 2 * indices.length
      ∧ edgesIndex = List.range' nbEdges (2 * indices.length)
      ∧ (∀ j k, indices[j]? = some k →
          edges[2 * j]? = some ((c.d_edge.getD k (0, 0)).1, c.nbPoints + (i + j))
          ∧ edges[2 * j + 1]? = some (c.nbPoints + (i + j), (c.d_edge.getD k (0, 0)).2)) := by
  intro indices
  induction indices with
  | nil =>
    intro i nb _
    exact ⟨[], [], [], rfl, rfl, rfl, rfl, fun j k h => by simp at h⟩
  | cons k rest ih =>
    intro i nb hr
    have hk : k < c.d_edge.length := hr k (List.mem_cons_self _ _)
    obtain ⟨v, edges, idx, hrun, hv, hlen, hidx, hedges⟩ :=
      ih (i + 1) (nb + 2) (fun j hj => hr j (List.mem_cons_of_mem _ hj))
    have hget : c.getEdge k = some (c.d_edge.getD k (0, 0)) := by
      unfold EdgeSetTopologyContainer.getEdge
      simp [List.getD_eq_getElem?_getD, List.getElem?_eq_getElem hk]
    refine ⟨[(c.d_edge.getD k (0, 0)).1, (c.d_edge.getD k (0, 0)).2] :: v,
      ((c.d_edge.getD k (0, 0)).1, c.getNbPoints + i)
        :: (c.getNbPoints + i, (c.d_edge.getD k (0, 0)).2) :: edges,
      nb :: (nb + 1) :: idx, ?_, ?_, ?_, ?_, ?_⟩
    · unfold EdgeSetTopologyModifier.splitEdgesLoop
      rw [hget]
      simp only [hrun]
    · rw [hv]; rfl
    · simp only [List.length_cons, hlen]; omega
    · rw [hidx]
      have : 2 * (k :: rest).length = (2 * rest.length) + 1 + 1 := by
        simp only [List.length_cons]; omega
      rw [this, List.range'_succ, List.range'_succ]
    · intro j k' hj
      cases j with
      | zero =>
        simp only [List.getElem?_cons_zero, Option.some.injEq] at hj
        subst hj
        simp [EdgeSetTopologyContainer.getNbPoints]
      | succ j' =>
        simp only [List.getElem?_cons_succ] at hj
        obtain ⟨h1, h2⟩ := hedges j' k' hj
        have e1 : 2 * (j' + 1) = (2 * j') + 1 + 1 := by omega
        have e2 : 2 * (j' + 1) + 1 = (2 * j' + 1) + 1 + 1 := by omega
        have e3 : i + 1 + j' = i + (j' + 1) := by omega
        rw [e2, e1]
        simp only [List.getElem?_cons_succ]
        rw [h1, h2, e3]
        exact ⟨rfl, rfl⟩

theorem length_resize {α : Type} (l : List α) (n : Nat) (d : α) : (resize l n d).length = n := by
  unfold resize
  simp only [List.length_append, List.length_take, List.length_replicate]
  omega

theorem addPointsProcess_spec (s : EdgeSetTopologyModifier) (nPoints : Nat) :
    (EdgeSetTopologyModifier.addPointsProcess s nPoints).trace = s.trace
    ∧ (EdgeSetTopologyModifier.addPointsProcess s nPoints).messages = s.messages
    ∧ (EdgeSetTopologyModifier.addPointsProcess s nPoints).m_container.m_changeList
        = s.m_container.m_changeList
    ∧ (EdgeSetTopologyModifier.addPointsProcess s nPoints).m_container.d_edge
        = s.m_container.d_edge
    ∧ (EdgeSetTopologyModifier.addPointsProcess s nPoints).m_container.nbPoints
        = s.m_container.nbPoints + nPoints
    ∧ ((EdgeSetTopologyModifier.addPointsProcess s nPoints).m_container.hasEdgesAroundVertex
        = true →
      (EdgeSetTopologyModifier.addPointsProcess s nPoints).m_container.m_edgesAroundVertex.length
        = s.m_container.nbPoints + nPoints)
    ∧ (s.m_container.hasEdgesAroundVertex = false →
      (EdgeSetTopologyModifier.addPointsProcess s nPoints).m_container.m_edgesAroundVertex = []) := by
  unfold EdgeSetTopologyModifier.addPointsProcess
  by_cases hb : s.m_container.hasEdgesAroundVertex = true
  · have hb' : EdgeSetTopologyContainer.hasEdgesAroundVertex
        { s.m_container with nbPoints := s.m_container.nbPoints + nPoints } = true := hb
    simp only [hb', if_true]
    refine ⟨trivial, trivial, trivial, trivial, trivial, fun _ => ?_, fun h => ?_⟩
    · simp only [length_resize, EdgeSetTopologyContainer.getNbPoints]
    · rw [hb] at h; exact absurd h (by simp)
  · have hb0 : s.m_container.hasEdgesAroundVertex = false := by simpa using hb
    have hb' : EdgeSetTopologyContainer.hasEdgesAroundVertex
        { s.m_container with nbPoints := s.m_container.nbPoints + nPoints } = false := hb0
    simp only [hb', Bool.false_eq_true, if_false]
    refine ⟨trivial, trivial, trivial, trivial, trivial, fun h => ?_, fun _ => ?_⟩
    · exact h.elim
    · exact (hasEdgesAroundVertex_eq_false_iff _).1 hb0

/-- The records that the steps after the loop of `splitEdgesProcess` hand to the
consumers: the added points with their ancestors and coefficients, the added edges
without ancestors, the removed edges. -/
theorem splitEdgesTail_record (CHECK_TOPOLOGY : Bool) (s : EdgeSetTopologyModifier)
    (indices : List Nat) (v : List (List PointID)) (edges : List Edge)
    (edgesIndex : List EdgeID) (baryCoefs : List (List SReal)) (rip dof : Bool)
    (hcov : ∀ e ∈ edges, e.1 < s.m_container.nbPoints + indices.length
      ∧ e.2 < s.m_container.nbPoints + indices.length) :
    ∃ seen rest,
      (EdgeSetTopologyModifier.splitEdgesTail CHECK_TOPOLOGY s indices v edges edgesIndex
        baryCoefs rip dof).state.trace = s.trace ++ Event.propagated seen :: rest
      ∧ seen.m_changeList = s.m_container.m_changeList ++
          [TopologyChange.PointsAdded indices.length v baryCoefs,
           TopologyChange.EdgesAdded edges.length edges edgesIndex [] [],
           TopologyChange.EdgesRemoved (sortDescending indices)] := by
  obtain ⟨a1, -, a3, -, -, a6, -⟩ := addPointsProcess_spec s indices.length
  obtain ⟨s1, h1, t1, c1, -, -, -, -⟩ := addEdgesProcess_total CHECK_TOPOLOGY edges
    (EdgeSetTopologyModifier.addPointsProcess s indices.length)
    (fun hb e he => by rw [a6 hb]; exact hcov e he)
  obtain ⟨w, hw⟩ : ∃ w, w = EdgeSetTopologyModifier.removeEdgesWarning
    (EdgeSetTopologyModifier.addEdgesWarning
      (EdgeSetTopologyModifier.addPointsWarning s1 indices.length v baryCoefs)
      edges.length edges edgesIndex) indices := ⟨_, rfl⟩
  have hw_changes : w.1.m_container.m_changeList = s.m_container.m_changeList ++
      [TopologyChange.PointsAdded indices.length v baryCoefs,
       TopologyChange.EdgesAdded edges.length edges edgesIndex [] [],
       TopologyChange.EdgesRemoved (sortDescending indices)] := by
    rw [hw, ← a3, ← c1]
    simp [EdgeSetTopologyModifier.removeEdgesWarning, EdgeSetTopologyModifier.addEdgesWarning,
      EdgeSetTopologyModifier.addPointsWarning, EdgeSetTopologyModifier.addTopologyChange,
      EdgeSetTopologyContainer.addTopologyChange,
      EdgeSetTopologyContainer.setEdgeTopologyToDirty]
  have hw_trace : w.1.trace = s.trace := by
    rw [hw, ← a1, ← t1]; rfl
  obtain ⟨rest, hrest⟩ := removeEdgesProcess_trace
    (EdgeSetTopologyModifier.propagateTopologicalChanges w.1) w.2 rip dof
  refine ⟨w.1.m_container, rest, ?_, hw_changes⟩
  unfold EdgeSetTopologyModifier.splitEdgesTail
  simp only [h1, ← hw]
  rw [hrest, propagateTopologicalChanges_trace, hw_trace]
  simp

theorem splitEdgesLoop_bounds (c : EdgeSetTopologyContainer) (indices : List Nat)
    (edges : List Edge) (hvalid : ValidEdges c)
    (hrange : ∀ k ∈ indices, k < c.d_edge.length)
    (hlen : edges.length = 2 * indices.length)
    (hedges : ∀ j k, indices[j]? = some k →
      edges[2 * j]? = some ((c.d_edge.getD k (0, 0)).1, c.nbPoints + (0 + j))
      ∧ edges[2 * j + 1]? = some (c.nbPoints + (0 + j), (c.d_edge.getD k (0, 0)).2)) :
    ∀ e ∈ edges, e.1 < c.nbPoints + indices.length ∧ e.2 < c.nbPoints + indices.length := by
  intro e he
  obtain ⟨t, ht⟩ := List.mem_iff_getElem?.1 he
  have htl : t < edges.length := (List.getElem?_eq_some.1 ht).1
  have hj : t / 2 < indices.length := by omega
  obtain ⟨h1, h2⟩ := hedges (t / 2) indices[t / 2] (List.getElem?_eq_getElem hj)
  have hk : indices[t / 2] < c.d_edge.length := hrange _ (List.getElem_mem _)
  have hmem : c.d_edge.getD indices[t / 2] (0, 0) ∈ c.d_edge := by
    rw [List.getD_eq_getElem?_getD, List.getElem?_eq_getElem hk]
    exact List.getElem_mem _
  obtain ⟨v1, v2⟩ := hvalid _ hmem
  have hjn : c.nbPoints + (0 + t / 2) < c.nbPoints + indices.length := by omega
  have b1 := Nat.lt_of_lt_of_le v1 (Nat.le_add_right c.nbPoints indices.length)
  have b2 := Nat.lt_of_lt_of_le v2 (Nat.le_add_right c.nbPoints indices.length)
  rcases Nat.mod_two_eq_zero_or_one t with hpar | hpar
  · have : 2 * (t / 2) = t := by omega
    rw [this, ht] at h1
    have he' := Option.some.inj h1
    rw [he']
    exact ⟨b1, hjn⟩
  · have : 2 * (t / 2) + 1 = t := by omega
    rw [this, ht] at h2
    have he' := Option.some.inj h2
    rw [he']
    exact ⟨hjn, b2⟩

/-- `removeEdgesProcess` when the loop leaves no vertex to be removed. -/
theorem removeEdgesProcess_noIsolated (s : EdgeSetTopologyModifier) (ids : List Nat)
    (rii dof : Bool) (c1 : EdgeSetTopologyContainer) (hne : s.m_container.hasEdges = true)
    (hloop : EdgeSetTopologyModifier.removeEdgesLoop rii ids
      (decr (if rii && !s.m_container.hasEdgesAroundVertex
        then s.m_container.createEdgesAroundVertexArray else s.m_container).d_edge.length)
      (if rii && !s.m_container.hasEdgesAroundVertex
        then s.m_container.createEdgesAroundVertexArray else s.m_container) []
      = some (c1, [])) :
    EdgeSetTopologyModifier.removeEdgesProcess s ids rii dof
      = .done { s with m_container := c1 } := by
  unfold EdgeSetTopologyModifier.removeEdgesProcess
  simp only [hne, Bool.not_true, Bool.false_eq_true, if_false,
    EdgeSetTopologyContainer.getNumberOfEdges, hloop]
  simp

/-- Removing the single edge `index` when both its endpoints keep another edge in their
shell: swap with last, no point is removed. -/
theorem removeEdgesProcess_single (s : EdgeSetTopologyModifier) (index : Nat)
    (rii dof : Bool) (e q : Edge)
    (he : s.m_container.d_edge[index]? = some e)
    (hq : s.m_container.d_edge[s.m_container.d_edge.length - 1]? = some q)
    (hcov : ∀ x ∈ s.m_container.d_edge, x.1 < s.m_container.nbPoints ∧ x.2 < s.m_container.nbPoints)
    (hlen : s.m_container.hasEdgesAroundVertex = true →
      s.m_container.m_edgesAroundVertex.length = s.m_container.nbPoints)
    (hkeep : rii = true → ∀ p, p = e.1 ∨ p = e.2 →
      ∃ j, j ≠ index ∧ j ∈ (if rii && !s.m_container.hasEdgesAroundVertex
        then s.m_container.createEdgesAroundVertexArray
        else s.m_container).m_edgesAroundVertex.getD p []) :
    ∃ s1, EdgeSetTopologyModifier.removeEdgesProcess s [index] rii dof = .done s1
      ∧ s1.m_container.d_edge
          = (s.m_container.d_edge.set index q).take (s.m_container.d_edge.length - 1)
      ∧ s1.m_container.nbPoints = s.m_container.nbPoints
      ∧ (s1.m_container.hasEdgesAroundVertex = true →
          s1.m_container.m_edgesAroundVertex.length = s.m_container.nbPoints)
      ∧ (rii = false → s1.m_container.m_edgesAroundVertex.length
          = s.m_container.m_edgesAroundVertex.length) := by
  have hi : index < s.m_container.d_edge.length := (List.getElem?_eq_some.1 he).1
  have hpos : 0 < s.m_container.d_edge.length := Nat.lt_of_le_of_lt (Nat.zero_le _) hi
  obtain ⟨c0, hc0⟩ : ∃ c0, c0 = (if rii && !s.m_container.hasEdgesAroundVertex
    then s.m_container.createEdgesAroundVertexArray else s.m_container) := ⟨_, rfl⟩
  rw [← hc0] at hkeep
  have h0_edges : c0.d_edge = s.m_container.d_edge := by
    rw [hc0]; split_ifs <;> rfl
  have h0_nb : c0.nbPoints = s.m_container.nbPoints := by
    rw [hc0]; split_ifs <;> rfl
  have h0_len : c0.hasEdgesAroundVertex = true →
      c0.m_edgesAroundVertex.length = s.m_container.nbPoints := by
    intro hb
    rw [hc0] at hb ⊢
    split_ifs at hb ⊢ with hc
    · exact (createEdgesAroundVertexArray_exact s.m_container).1
    · exact hlen hb
  have h0_cov : ShellCovers c0 := by
    intro hb x hx
    rw [h0_edges] at hx
    rw [h0_len hb]
    exact hcov x hx
  rw [← h0_edges] at he hq
  obtain ⟨shells, v1, hstep, hshl, -, hvf, hv⟩ :=
    removeEdgeAt_spec rii c0 index (c0.d_edge.length - 1) [] e q he hq h0_cov
  have hv1 : v1 = [] := by
    cases hr : rii with
    | false => exact hvf hr
    | true =>
      cases hv1 : v1 with
      | nil => rfl
      | cons p rest =>
        exfalso
        rcases hv p (by rw [hv1]; exact List.mem_cons_self _ _) with h | ⟨hp, hempty⟩
        · simp at h
        · obtain ⟨j, hj1, hj2⟩ := hkeep hr p hp
          have : j ∈ eraseAll (c0.m_edgesAroundVertex.getD p []) index :=
            (mem_eraseAll _ _ _).2 ⟨hj2, hj1⟩
          rw [hempty] at this
          simp at this
  rw [hv1] at hstep
  obtain ⟨cA, hcA⟩ : ∃ cA : EdgeSetTopologyContainer,
      { c0 with
        m_edgesAroundVertex := shells
        d_edge := (c0.d_edge.set index q).take (c0.d_edge.length - 1) } = cA := ⟨_, rfl⟩
  rw [hcA] at hstep
  have hloop : EdgeSetTopologyModifier.removeEdgesLoop rii [index]
      (decr c0.d_edge.length) c0 [] = some (cA, []) := by
    unfold EdgeSetTopologyModifier.removeEdgesLoop
    rw [decr_of_pos _ (by rw [h0_edges]; exact hpos), hstep]
    simp only
    unfold EdgeSetTopologyModifier.removeEdgesLoop
    rfl
  rw [hc0] at hloop
  refine ⟨_, removeEdgesProcess_noIsolated s [index] rii dof cA ((hasEdges_iff _).2 hpos) hloop,
    ?_, ?_, ?_, ?_⟩
  · show cA.d_edge = _
    rw [← hcA, ← h0_edges]
  · show cA.nbPoints = _
    rw [← hcA, ← h0_nb]
  · show cA.hasEdgesAroundVertex = true → cA.m_edgesAroundVertex.length = _
    intro hb
    have e1 : cA.m_edgesAroundVertex = shells := by rw [← hcA]
    rw [e1, hshl]
    apply h0_len
    rw [← hb]
    exact hasEdgesAroundVertex_of_length _ _ (by rw [e1, hshl])
  · show rii = false → cA.m_edgesAroundVertex.length = _
    intro hr
    have e1 : cA.m_edgesAroundVertex = shells := by rw [← hcA]
    have e2 : c0 = s.m_container := by rw [hc0, hr]; rfl
    rw [e1, hshl, e2]

theorem set_take_append_two {α : Type} (l : List α) (k : Nat) (x y : α) (hk : k < l.length) :
    ((l ++ [x, y]).set k y).take ((l ++ [x, y]).length - 1) = l.set k y ++ [x] := by
  rw [List.set_append_left _ _ hk]
  have h1 : (l.set k y ++ [x, y]) = (l.set k y ++ [x]) ++ [y] := by simp
  have h2 : (l ++ [x, y]).length - 1 = (l.set k y ++ [x]).length := by simp
  rw [h1, h2, List.take_left']
  rfl

theorem count_set_append {α : Type} [BEq α] [LawfulBEq α] (l : List α) (k : Nat) (e x y z : α)
    (he : l[k]? = some e) (hx : y ≠ z) (hy : x ≠ z) (hz : e = z) :
    (l.set k y ++ [x]).count z + 1 = l.count z := by
  have hp := set_append_singleton_perm l k y e he
  have hc := hp.countP_eq (fun t => t == z)
  have e1 : (e == z) = true := by simp [hz]
  have e2 : (y == z) = false := by simp [hx]
  have e3 : (x == z) = false := by simp [hy]
  simp only [List.countP_append, List.countP_cons, List.countP_nil, e1, e2, if_true,
    Bool.false_eq_true, if_false] at hc
  show List.countP (fun t => t == z) (l.set k y ++ [x]) + 1 = List.countP (fun t => t == z) l
  simp only [List.countP_append, List.countP_cons, List.countP_nil, e3, Bool.false_eq_true,
    if_false]
  omega


/-! ## Facts on swap, fuse and renumbering -/

theorem getEdge_eq_edgeAt (c : EdgeSetTopologyContainer) (i : Nat)
    (h : i < c.d_edge.length) : c.getEdge i = some (edgeAt c i) := by
  unfold EdgeSetTopologyContainer.getEdge edgeAt
  rw [List.getD_eq_getElem?_getD, List.getElem?_eq_getElem h]
  rfl

theorem edgeAt_of_getElem? (c : EdgeSetTopologyContainer) (i : Nat) (e : Edge)
    (h : c.d_edge[i]? = some e) : edgeAt c i = e := by
  unfold edgeAt
  rw [List.getD_eq_getElem?_getD, h]
  rfl

theorem pairIndices_spec (pairs : List (EdgeID × EdgeID)) :
    EdgeSetTopologyModifier.pairIndices (asVectors pairs) = some (flatten pairs) := by
  induction pairs with
  | nil => rfl
  | cons p rest ih =>
    have ih1 : EdgeSetTopologyModifier.pairIndices (List.map (fun p => [p.1, p.2]) rest)
        = some (flatten rest) := ih
    simp [asVectors, flatten, EdgeSetTopologyModifier.pairIndices, ih1]

theorem swapEdgesLoop_spec (c : EdgeSetTopologyContainer) :
    ∀ (pairs : List (EdgeID × EdgeID)) (n : Nat),
      (∀ p ∈ pairs, p.1 < c.d_edge.length ∧ p.2 < c.d_edge.length) →
      EdgeSetTopologyModifier.swapEdgesLoop c (asVectors pairs) n
        = some (swappedEdges c pairs, List.range' n (2 * pairs.length), asVectors pairs) := by
  intro pairs
  induction pairs with
  | nil => intro n _; rfl
  | cons p rest ih =>
    intro n h
    have h1 := h p (List.mem_cons_self _ _)
    have ih1 : EdgeSetTopologyModifier.swapEdgesLoop c (List.map (fun p => [p.1, p.2]) rest)
        (n + 2) = _ := ih (n + 2) (fun q hq => h q (List.mem_cons_of_mem _ hq))
    have e2 : 2 * (rest.length + 1) = (2 * rest.length + 1) + 1 := by omega
    simp only [asVectors, List.map_cons, EdgeSetTopologyModifier.swapEdgesLoop,
      List.getElem?_cons_zero, List.getElem?_cons_succ, getEdge_eq_edgeAt c _ h1.1,
      getEdge_eq_edgeAt c _ h1.2, ih1, swappedEdges, List.flatMap_cons, List.length_cons, e2,
      List.range'_succ]
    rfl

theorem fuseEdgesLoop_spec (c : EdgeSetTopologyContainer) :
    ∀ (pairs : List (EdgeID × EdgeID)) (n : Nat),
      (∀ p ∈ pairs, p.1 < c.d_edge.length ∧ p.2 < c.d_edge.length) →
      EdgeSetTopologyModifier.fuseEdgesLoop c (asVectors pairs) n
        = some (fusedEdges c pairs, List.range' n pairs.length, asVectors pairs) := by
  intro pairs
  induction pairs with
  | nil => intro n _; rfl
  | cons p rest ih =>
    intro n h
    have h1 := h p (List.mem_cons_self _ _)
    have ih1 : EdgeSetTopologyModifier.fuseEdgesLoop c (List.map (fun p => [p.1, p.2]) rest)
        (n + 1) = _ := ih (n + 1) (fun q hq => h q (List.mem_cons_of_mem _ hq))
    simp only [asVectors, List.map_cons, EdgeSetTopologyModifier.fuseEdgesLoop,
      List.getElem?_cons_zero, List.getElem?_cons_succ, getEdge_eq_edgeAt c _ h1.1,
      getEdge_eq_edgeAt c _ h1.2, ih1, fusedEdges, List.length_cons, List.range'_succ]
theorem nodup_length_le (l : List Nat) (n : Nat) (hnd : l.Nodup) (hr : ∀ i ∈ l, i < n) :
    l.length ≤ n := by
  have h : l.Subperm (List.range n) :=
    List.subperm_of_subset hnd (fun i hi => List.mem_range.2 (hr i hi))
  simpa using h.length_le

theorem removeEdgesProcess_sorted_spec (s : EdgeSetTopologyModifier) (ids : List Nat)
    (dof : Bool) (hne : s.m_container.hasEdges = true) (hcov : ShellCovers s.m_container)
    (hnd : ids.Nodup) (hr : ∀ i ∈ ids, i < s.m_container.d_edge.length) :
    ∃ s1, EdgeSetTopologyModifier.removeEdgesProcess s (sortDescending ids) false dof
        = .done s1
      ∧ s1.trace = s.trace ∧ s1.messages = s.messages
      ∧ s1.m_container.d_edge.length = s.m_container.d_edge.length - ids.length
      ∧ (s1.m_container.d_edge ++ ids.filterMap (fun i => s.m_container.d_edge[i]?)).Perm
          s.m_container.d_edge
      ∧ s1.m_container.nbPoints = s.m_container.nbPoints
      ∧ s1.m_container.m_changeList = s.m_container.m_changeList
      ∧ s1.m_container.m_edgeTopologyDirty = s.m_container.m_edgeTopologyDirty
      ∧ s1.m_container.m_edgesAroundVertex.length = s.m_container.m_edgesAroundVertex.length
      ∧ ShellCovers s1.m_container := by
  have hsorted := sortDescending_strict ids hnd
  have hrange : ∀ i ∈ sortDescending ids, i < s.m_container.d_edge.length :=
    fun i hi => hr i ((sortDescending_perm ids).mem_iff.1 hi)
  obtain ⟨c1, v1, hloop, hlen, hperm, -, hp, hc, hd, hsl, hcov1, hvf, -⟩ :=
    removeEdgesLoop_spec false (fun _ => True) (fun _ _ _ _ _ _ _ _ => trivial)
      (sortDescending ids) s.m_container [] hsorted hrange hcov trivial
  rw [hvf rfl] at hloop
  refine ⟨_, removeEdgesProcess_false s _ dof c1 hne hloop, rfl, rfl, ?_, ?_, hp, hc, hd, hsl,
    hcov1⟩
  · show c1.d_edge.length = _
    rw [hlen, (sortDescending_perm ids).length_eq]
  · show (c1.d_edge ++ _).Perm _
    exact (List.Perm.append_left _
      (List.Perm.filterMap _ (sortDescending_perm ids)).symm).trans hperm

theorem replaceEdgesTail_spec (CHECK_TOPOLOGY : Bool) (s : EdgeSetTopologyModifier)
    (pairs : List (EdgeID × EdgeID)) (v : List Edge) (edgeIndexList : List EdgeID)
    (ancestorsArray : List (List EdgeID)) (dof : Bool)
    (hne : s.m_container.hasEdges = true) (hcov : ShellCovers s.m_container)
    (hv : s.m_container.hasEdgesAroundVertex = true → ∀ e ∈ v,
      e.1 < s.m_container.m_edgesAroundVertex.length ∧
      e.2 < s.m_container.m_edgesAroundVertex.length)
    (hacc : AllAccepted CHECK_TOPOLOGY s.m_container v)
    (hnd : (flatten pairs).Nodup)
    (hr : ∀ i ∈ flatten pairs, i < s.m_container.d_edge.length) :
    ∃ s1 seen, EdgeSetTopologyModifier.replaceEdgesTail CHECK_TOPOLOGY s (asVectors pairs) v
        edgeIndexList ancestorsArray false dof = .done s1
      ∧ s1.trace = s.trace ++ [Event.propagated seen]
      ∧ seen.m_changeList = s.m_container.m_changeList ++
          [TopologyChange.EdgesAdded v.length v edgeIndexList ancestorsArray [],
           TopologyChange.EdgesRemoved (sortDescending (flatten pairs))]
      ∧ seen.d_edge = s.m_container.d_edge ++ v
      ∧ s1.messages = s.messages
      ∧ s1.m_container.d_edge.length + (flatten pairs).length
          = s.m_container.d_edge.length + v.length
      ∧ (s1.m_container.d_edge ++ (flatten pairs).filterMap (fun i => s.m_container.d_edge[i]?)).Perm
          (s.m_container.d_edge ++ v)
      ∧ s1.m_container.nbPoints = s.m_container.nbPoints
      ∧ s1.m_container.m_edgesAroundVertex.length = s.m_container.m_edgesAroundVertex.length
      ∧ ShellCovers s1.m_container := by
  obtain ⟨sa, hadd, hat, hac, -, hap, hal, hae⟩ := addEdgesProcess_total CHECK_TOPOLOGY v s hv
  obtain ⟨hae1, hae2⟩ := hae hacc
  unfold EdgeSetTopologyModifier.replaceEdgesTail
  rw [hadd]
  simp only [pairIndices_spec, EdgeSetTopologyModifier.removeEdgesWarning]
  generalize hw : EdgeSetTopologyModifier.addTopologyChange
    { EdgeSetTopologyModifier.addEdgesWarning_ancestors sa v.length v edgeIndexList
        ancestorsArray with
      m_container := (EdgeSetTopologyModifier.addEdgesWarning_ancestors sa v.length v
        edgeIndexList ancestorsArray).m_container.setEdgeTopologyToDirty }
    (TopologyChange.EdgesRemoved (sortDescending (flatten pairs))) = w
  have hw_edges : w.m_container.d_edge = s.m_container.d_edge ++ v := by
    rw [← hw, ← hae1]; rfl
  have hw_shells : w.m_container.m_edgesAroundVertex = sa.m_container.m_edgesAroundVertex := by
    rw [← hw]; rfl
  have hw_points : w.m_container.nbPoints = s.m_container.nbPoints := by
    rw [← hw, ← hap]; rfl
  have hw_changes : w.m_container.m_changeList = s.m_container.m_changeList ++
      [TopologyChange.EdgesAdded v.length v edgeIndexList ancestorsArray [],
       TopologyChange.EdgesRemoved (sortDescending (flatten pairs))] := by
    rw [← hw, ← hac]
    simp [EdgeSetTopologyModifier.addTopologyChange,
      EdgeSetTopologyModifier.addEdgesWarning_ancestors,
      EdgeSetTopologyContainer.addTopologyChange,
      EdgeSetTopologyContainer.setEdgeTopologyToDirty]
  have hw_trace : w.trace = s.trace := by
    rw [← hw, ← hat]; rfl
  have hw_msg : w.messages = s.messages := by
    rw [← hw, ← hae2]; rfl
  obtain ⟨p1, p2, p3, p4, p5, -⟩ := propagate_container w true
  simp only [if_true] at p1 p2 p3 p4 p5
  generalize EdgeSetTopologyModifier.propagateTopologicalChanges w = sp at p1 p2 p3 p4 p5
  have hcovp : ShellCovers sp.m_container := by
    intro hb e he
    rw [p2, hw_shells, hal]
    have hb1 : s.m_container.hasEdgesAroundVertex = true := by
      unfold EdgeSetTopologyContainer.hasEdgesAroundVertex at hb ⊢
      rw [p2, hw_shells] at hb
      cases hs : s.m_container.m_edgesAroundVertex with
      | nil =>
        rw [hs] at hal
        rw [List.length_eq_zero.1 hal] at hb
        exact absurd hb (by decide)
      | cons a b => rfl
    rw [p1, hw_edges] at he
    rcases List.mem_append.1 he with he | he
    · exact hcov hb1 e he
    · exact hv hb1 e he
  have hnep : sp.m_container.hasEdges = true := by
    rw [hasEdges_iff] at hne ⊢
    rw [p1, hw_edges, List.length_append]
    omega
  have hrp : ∀ i ∈ flatten pairs, i < sp.m_container.d_edge.length := by
    intro i hi
    rw [p1, hw_edges, List.length_append]
    exact Nat.lt_of_lt_of_le (hr i hi) (Nat.le_add_right _ _)
  obtain ⟨s1, hrem, ht, hm, hlen, hperm, hp, -, -, hsl, hcov1⟩ :=
    removeEdgesProcess_sorted_spec sp (flatten pairs) dof hnep hcovp hnd hrp
  refine ⟨s1, w.m_container, hrem, ?_, hw_changes, hw_edges, ?_, ?_, ?_, ?_, ?_, hcov1⟩
  · rw [ht, p4, hw_trace]
  · rw [hm, p5, hw_msg]
  · rw [hlen, p1, hw_edges, List.length_append]
    have : (flatten pairs).length ≤ s.m_container.d_edge.length := by
      exact nodup_length_le _ _ hnd hr
    omega
  · rw [p1, hw_edges] at hperm
    have e1 : (flatten pairs).filterMap (fun i => (s.m_container.d_edge ++ v)[i]?)
        = (flatten pairs).filterMap (fun i => s.m_container.d_edge[i]?) := by
      apply List.filterMap_congr
      intro i hi
      rw [List.getElem?_append_left (hr i hi)]
    rw [e1] at hperm
    exact hperm
  · rw [hp, p3, hw_points]
  · rw [hsl, p2, hw_shells, hal]

theorem length_flatten (pairs : List (EdgeID × EdgeID)) :
    (flatten pairs).length = 2 * pairs.length := by
  induction pairs with
  | nil => rfl
  | cons p rest ih =>
    have : (flatten rest).length = 2 * rest.length := ih
    simp only [flatten, List.flatMap_cons, List.length_append, List.length_cons,
      List.length_nil] at this ⊢
    omega

theorem length_swappedEdges (c : EdgeSetTopologyContainer) (pairs : List (EdgeID × EdgeID)) :
    (swappedEdges c pairs).length = 2 * pairs.length := by
  induction pairs with
  | nil => rfl
  | cons p rest ih =>
    have : (swappedEdges c rest).length = 2 * rest.length := ih
    simp only [swappedEdges, List.flatMap_cons, List.length_append, List.length_cons,
      List.length_nil] at this ⊢
    omega

/-! ## Split of one edge -/

theorem splitEdgesProcess_single (CHECK_TOPOLOGY : Bool) (s : EdgeSetTopologyModifier)
    (k a b : Nat) (removeIsolatedPoints d_propagateToDOF : Bool)
    (hk : s.m_container.d_edge[k]? = some (a, b))
    (hvalid : ValidEdges s.m_container)
    (hcheck : CHECK_TOPOLOGY = false ∨ s.m_container.hasEdgesAroundVertex = false ∨ a ≠ b) :
    ∃ s1, EdgeSetTopologyModifier.splitEdgesProcess CHECK_TOPOLOGY s [k]
        removeIsolatedPoints d_propagateToDOF = .done s1
      ∧ s1.m_container.nbPoints = s.m_container.nbPoints + 1
      ∧ s1.m_container.d_edge
          = s.m_container.d_edge.set k (s.m_container.nbPoints, b)
              ++ [(a, s.m_container.nbPoints)]
      ∧ (s1.m_container.hasEdgesAroundVertex = true →
          s1.m_container.m_edgesAroundVertex.length = s.m_container.nbPoints + 1)
      ∧ (removeIsolatedPoints = false → s.m_container.hasEdgesAroundVertex = false →
          s1.m_container.hasEdgesAroundVertex = false) := by
  have hkl : k < s.m_container.d_edge.length := (List.getElem?_eq_some.1 hk).1
  have hpos : 0 < s.m_container.d_edge.length := Nat.lt_of_le_of_lt (Nat.zero_le _) hkl
  have hne : s.m_container.hasEdges = true := (hasEdges_iff _).2 hpos
  have hab_mem : (a, b) ∈ s.m_container.d_edge := List.mem_iff_getElem?.2 ⟨_, hk⟩
  obtain ⟨ha, hb⟩ : a < s.m_container.nbPoints ∧ b < s.m_container.nbPoints :=
    hvalid _ hab_mem
  obtain ⟨a1, -, a3, a4, a5, a6, a7⟩ := addPointsProcess_spec s 1
  obtain ⟨sA, hsA⟩ : ∃ sA, sA = EdgeSetTopologyModifier.addPointsProcess s 1 := ⟨_, rfl⟩
  rw [← hsA] at a1 a3 a4 a5 a6 a7
  have hP : ∀ x ∈ s.m_container.d_edge,
      x.1 ≠ s.m_container.nbPoints ∧ x.2 ≠ s.m_container.nbPoints :=
    fun x hx => ⟨Nat.ne_of_lt (hvalid x hx).1, Nat.ne_of_lt (hvalid x hx).2⟩
  -- the first new edge is appended
  have hacc1 : Accepted CHECK_TOPOLOGY sA.m_container (a, s.m_container.nbPoints) := by
    right
    refine ⟨Nat.ne_of_lt ha, fun _ hj => ?_⟩
    rw [a4] at hj
    rcases hj with h | h
    · exact (hP _ h).2 rfl
    · exact (hP _ h).1 rfl
  obtain ⟨shells1, hrun1, hlen1, -, hget1⟩ := addEdgeProcess_accept CHECK_TOPOLOGY sA
    (a, s.m_container.nbPoints) hacc1
    (fun hb => by rw [a6 hb]; exact ⟨Nat.lt_succ_of_lt ha, Nat.lt_succ_self _⟩)
  obtain ⟨sB, hsB⟩ : ∃ sB : EdgeSetTopologyModifier,
      { sA with m_container :=
          { sA.m_container with
            m_edgesAroundVertex := shells1
            d_edge := sA.m_container.d_edge ++ [(a, s.m_container.nbPoints)] } } = sB :=
    ⟨_, rfl⟩
  rw [hsB] at hrun1
  have hB_edges : sB.m_container.d_edge
      = s.m_container.d_edge ++ [(a, s.m_container.nbPoints)] := by
    rw [← hsB, ← a4]
  have hB_shells : sB.m_container.m_edgesAroundVertex = shells1 := by rw [← hsB]
  have hB_built : sB.m_container.hasEdgesAroundVertex = sA.m_container.hasEdgesAroundVertex :=
    hasEdgesAroundVertex_of_length _ _ (by rw [hB_shells, hlen1])
  have hA_built : sA.m_container.hasEdgesAroundVertex = true →
      s.m_container.hasEdgesAroundVertex = true := by
    intro h
    cases hs : s.m_container.hasEdgesAroundVertex with
    | true => rfl
    | false =>
      have := a7 hs
      rw [(hasEdgesAroundVertex_eq_false_iff _).2 this] at h
      exact absurd h (by simp)
  -- the second new edge is appended
  have hacc2 : Accepted CHECK_TOPOLOGY sB.m_container (s.m_container.nbPoints, b) := by
    by_cases hc : CHECK_TOPOLOGY = false
    · exact Or.inl hc
    · right
      refine ⟨fun h => Nat.ne_of_lt hb h.symm, fun hbuilt hj => ?_⟩
      have hsb : s.m_container.hasEdgesAroundVertex = true :=
        hA_built (by rw [← hB_built]; exact hbuilt)
      have hne_ab : a ≠ b := by
        rcases hcheck with h | h | h
        · exact absurd h hc
        · rw [hsb] at h; exact absurd h (by simp)
        · exact h
      rw [hB_edges] at hj
      rcases hj with h | h
      · simp only [List.mem_append, List.mem_singleton, Prod.mk.injEq] at h
        rcases h with h | ⟨h, -⟩
        · exact (hP _ h).1 rfl
        · exact Nat.ne_of_lt ha h.symm
      · simp only [List.mem_append, List.mem_singleton, Prod.mk.injEq] at h
        rcases h with h | ⟨h, -⟩
        · exact (hP _ h).2 rfl
        · exact hne_ab h.symm
  obtain ⟨shells2, hrun2, hlen2, -, hget2⟩ := addEdgeProcess_accept CHECK_TOPOLOGY sB
    (s.m_container.nbPoints, b) hacc2
    (fun hbuilt => by
      rw [hB_shells, hlen1, a6 (by rw [← hB_built]; exact hbuilt)]
      exact ⟨Nat.lt_succ_self _, Nat.lt_succ_of_lt hb⟩)
  obtain ⟨sC, hsC⟩ : ∃ sC : EdgeSetTopologyModifier,
      { sB with m_container :=
          { sB.m_container with
            m_edgesAroundVertex := shells2
            d_edge := sB.m_container.d_edge ++ [(s.m_container.nbPoints, b)] } } = sC :=
    ⟨_, rfl⟩
  rw [hsC] at hrun2
  have hC_edges : sC.m_container.d_edge
      = s.m_container.d_edge ++ [(a, s.m_container.nbPoints), (s.m_container.nbPoints, b)] := by
    rw [← hsC]
    show sB.m_container.d_edge ++ _ = _
    rw [hB_edges]; simp
  have hC_shells : sC.m_container.m_edgesAroundVertex = shells2 := by rw [← hsC]
  have hC_nb : sC.m_container.nbPoints = s.m_container.nbPoints + 1 := by
    rw [← hsC, ← hsB, ← a5]
  have hadd : EdgeSetTopologyModifier.addEdgesProcess CHECK_TOPOLOGY sA
      [(a, s.m_container.nbPoints), (s.m_container.nbPoints, b)] = .done sC := by
    unfold EdgeSetTopologyModifier.addEdgesProcess
    rw [hrun1]
    simp only
    unfold EdgeSetTopologyModifier.addEdgesProcess
    rw [hrun2]
    simp only
    unfold EdgeSetTopologyModifier.addEdgesProcess
    rfl
  -- the loop of the split and the warnings
  have hloop : EdgeSetTopologyModifier.splitEdgesLoop s.m_container [k] 0
      s.m_container.d_edge.length
      = some ([[a, b]], [(a, s.m_container.nbPoints), (s.m_container.nbPoints, b)],
          [s.m_container.d_edge.length, s.m_container.d_edge.length + 1]) := by
    simp [EdgeSetTopologyModifier.splitEdgesLoop, EdgeSetTopologyContainer.getEdge, hk,
      EdgeSetTopologyContainer.getNbPoints]
  obtain ⟨w, hw⟩ : ∃ w, w = EdgeSetTopologyModifier.removeEdgesWarning
    (EdgeSetTopologyModifier.addEdgesWarning
      (EdgeSetTopologyModifier.addPointsWarning sC 1 [[a, b]] [[1 / 2, 1 / 2]])
      2 [(a, s.m_container.nbPoints), (s.m_container.nbPoints, b)]
      [s.m_container.d_edge.length, s.m_container.d_edge.length + 1]) [k] := ⟨_, rfl⟩
  have hw2 : w.2 = [k] := by rw [hw]; rfl
  have hw_edges : w.1.m_container.d_edge = sC.m_container.d_edge := by rw [hw]; rfl
  have hw_shells : w.1.m_container.m_edgesAroundVertex = sC.m_container.m_edgesAroundVertex := by
    rw [hw]; rfl
  have hw_nb : w.1.m_container.nbPoints = sC.m_container.nbPoints := by rw [hw]; rfl
  obtain ⟨p1, p2, p3, -, -, -⟩ := propagate_container w.1 true
  simp only [if_true] at p1 p2 p3
  obtain ⟨sp, hsp⟩ : ∃ sp, sp = EdgeSetTopologyModifier.propagateTopologicalChanges w.1 :=
    ⟨_, rfl⟩
  rw [← hsp] at p1 p2 p3
  rw [hw_edges, hC_edges] at p1
  rw [hw_shells, hC_shells] at p2
  rw [hw_nb, hC_nb] at p3
  have hrun : EdgeSetTopologyModifier.splitEdgesProcess CHECK_TOPOLOGY s [k]
      removeIsolatedPoints d_propagateToDOF
      = EdgeSetTopologyModifier.removeEdgesProcess sp [k] removeIsolatedPoints
          d_propagateToDOF := by
    unfold EdgeSetTopologyModifier.splitEdgesProcess
    simp only [hne, Bool.not_true, Bool.false_eq_true, if_false,
      EdgeSetTopologyContainer.getNumberOfEdges, hloop]
    unfold EdgeSetTopologyModifier.splitEdgesTail
    simp only [List.length_singleton, ← hsA, hadd]
    rw [hsp, ← hw2, hw]
    rfl
  -- the removal of the split edge
  have hp_len : sp.m_container.d_edge.length = s.m_container.d_edge.length + 2 := by
    rw [p1]; simp
  have he : sp.m_container.d_edge[k]? = some (a, b) := by
    rw [p1, List.getElem?_append_left hkl]; exact hk
  have hn : sp.m_container.d_edge[s.m_container.d_edge.length]?
      = some (a, s.m_container.nbPoints) := by
    rw [p1, List.getElem?_append_right (Nat.le_refl _)]; simp
  have hq : sp.m_container.d_edge[sp.m_container.d_edge.length - 1]?
      = some (s.m_container.nbPoints, b) := by
    rw [hp_len, p1,
      List.getElem?_append_right (by omega : s.m_container.d_edge.length
        ≤ s.m_container.d_edge.length + 2 - 1)]
    have : s.m_container.d_edge.length + 2 - 1 - s.m_container.d_edge.length = 1 := by omega
    rw [this]; rfl
  have hcov : ∀ x ∈ sp.m_container.d_edge,
      x.1 < sp.m_container.nbPoints ∧ x.2 < sp.m_container.nbPoints := by
    intro x hx
    rw [p1] at hx
    rw [p3]
    simp only [List.mem_append, List.mem_cons, List.mem_singleton, List.not_mem_nil,
      or_false] at hx
    rcases hx with h | h | h
    · exact ⟨Nat.lt_succ_of_lt (hvalid x h).1, Nat.lt_succ_of_lt (hvalid x h).2⟩
    · rw [h]; exact ⟨Nat.lt_succ_of_lt ha, Nat.lt_succ_self _⟩
    · rw [h]; exact ⟨Nat.lt_succ_self _, Nat.lt_succ_of_lt hb⟩
  have hp_builtA : sp.m_container.hasEdgesAroundVertex = true →
      sA.m_container.hasEdgesAroundVertex = true := by
    intro h
    rw [← hB_built, ← h]
    exact hasEdgesAroundVertex_of_length _ _ (by rw [p2, hlen2])
  have hlen : sp.m_container.hasEdgesAroundVertex = true →
      sp.m_container.m_edgesAroundVertex.length = sp.m_container.nbPoints := by
    intro h
    rw [p2, hlen2, hB_shells, hlen1, a6 (hp_builtA h), p3]
  have hkeep : removeIsolatedPoints = true → ∀ p, p = (a, b).1 ∨ p = (a, b).2 →
      ∃ j, j ≠ k ∧ j ∈ (if removeIsolatedPoints && !sp.m_container.hasEdgesAroundVertex
        then sp.m_container.createEdgesAroundVertexArray
        else sp.m_container).m_edgesAroundVertex.getD p [] := by
    intro hr p hp
    simp only at hp
    by_cases hbuilt : sp.m_container.hasEdgesAroundVertex = true
    · simp only [hbuilt, Bool.not_true, Bool.and_false, Bool.false_eq_true, if_false]
      have hbA := hp_builtA hbuilt
      have hbB : sB.m_container.hasEdgesAroundVertex = true := by rw [hB_built]; exact hbA
      have hmemA : s.m_container.d_edge.length ∈ shells1.getD a [] := by
        rw [hget1 a]
        simp only [hbA, true_or, and_self, if_true, List.mem_append]
        right
        split_ifs <;> simp [← a4]
      rw [p2]
      rcases hp with hp | hp
      · refine ⟨s.m_container.d_edge.length, Nat.ne_of_gt hkl, ?_⟩
        rw [hp, hget2 a, hB_shells]
        split_ifs <;> first | exact hmemA | exact List.mem_append_left _ hmemA
      · refine ⟨sB.m_container.d_edge.length, ?_, ?_⟩
        · rw [hB_edges]; simp; omega
        · rw [hp, hget2 b]
          simp only [hbB, or_true, and_self, if_true, List.mem_append]
          right
          split_ifs <;> simp
    · have hbuilt' : sp.m_container.hasEdgesAroundVertex = false := by simpa using hbuilt
      simp only [hr, hbuilt', Bool.not_false, Bool.and_self, if_true]
      obtain ⟨-, hmem⟩ := (ShellExact_iff _).1
        (createEdgesAroundVertexArray_exact sp.m_container)
      have hpP : p < sp.m_container.createEdgesAroundVertexArray.nbPoints := by
        show p < sp.m_container.nbPoints
        rw [p3]
        rcases hp with hp | hp
        · rw [hp]; exact Nat.lt_succ_of_lt ha
        · rw [hp]; exact Nat.lt_succ_of_lt hb
      rcases hp with hp | hp
      · refine ⟨s.m_container.d_edge.length, Nat.ne_of_gt hkl, ?_⟩
        rw [hmem p hpP]
        exact ⟨_, hn, Or.inl hp.symm⟩
      · refine ⟨sp.m_container.d_edge.length - 1, by rw [hp_len]; omega, ?_⟩
        rw [hmem p hpP]
        exact ⟨_, hq, Or.inr hp.symm⟩
  obtain ⟨s1, hdone, hfin, hnb, hsl, hsu⟩ := removeEdgesProcess_single sp k removeIsolatedPoints
    d_propagateToDOF (a, b) (s.m_container.nbPoints, b) he hq hcov hlen hkeep
  have hfin' : s1.m_container.d_edge
      = s.m_container.d_edge.set k (s.m_container.nbPoints, b)
          ++ [(a, s.m_container.nbPoints)] := by
    rw [hfin, p1]
    exact set_take_append_two _ _ _ _ hkl
  refine ⟨s1, by rw [hrun]; exact hdone, by rw [hnb, p3], hfin', fun h => by rw [hsl h, p3],
    fun hr hs => ?_⟩
  rw [hasEdgesAroundVertex_eq_false_iff]
  apply List.length_eq_zero.1
  rw [hsu hr, p2, hlen2, hB_shells, hlen1, a7 hs]
  rfl

theorem renumberEdges_spec (inv_index : List PointID) :
    ∀ edges : List Edge, (∀ e ∈ edges, e.1 < inv_index.length ∧ e.2 < inv_index.length) →
      EdgeSetTopologyModifier.renumberEdges inv_index edges
        = some (edges.map (renumbered inv_index)) := by
  intro edges
  induction edges with
  | nil => intro _; rfl
  | cons e rest ih =>
    intro h
    obtain ⟨h1, h2⟩ := h e (List.mem_cons_self _ _)
    have ih1 := ih (fun x hx => h x (List.mem_cons_of_mem _ hx))
    unfold EdgeSetTopologyModifier.renumberEdges
    rw [List.getElem?_eq_getElem h1, List.getElem?_eq_getElem h2, ih1]
    simp [renumbered, List.getD_eq_getElem?_getD, List.getElem?_eq_getElem h1,
      List.getElem?_eq_getElem h2]

theorem renumberShells_spec (cp : List (List EdgeID)) :
    ∀ (index : List PointID) (i : Nat) (shells : List (List EdgeID)),
      i + index.length ≤ shells.length → (∀ x ∈ index, x < cp.length) →
      ∃ shells1, EdgeSetTopologyModifier.renumberShells cp index i shells = some shells1
        ∧ shells1.length = shells.length
        ∧ ∀ p : Nat, shells1.getD p [] =
            if i ≤ p ∧ p < i + index.length then cp.getD (index.getD (p - i) 0) []
            else shells.getD p [] := by
  intro index
  induction index with
  | nil =>
    intro i shells _ _
    refine ⟨shells, rfl, rfl, fun p => ?_⟩
    have : ¬ (i ≤ p ∧ p < i + ([] : List PointID).length) := by
      simp only [List.length_nil]; omega
    rw [if_neg this]
  | cons x rest ih =>
    intro i shells hlen hx
    have hx1 : x < cp.length := hx x (List.mem_cons_self _ _)
    have hi : i < shells.length := by
      simp only [List.length_cons] at hlen; omega
    obtain ⟨shells1, hrun, hl, hget⟩ := ih (i + 1) (shells.set i cp[x])
      (by simp only [List.length_cons, List.length_set] at hlen ⊢; omega)
      (fun y hy => hx y (List.mem_cons_of_mem _ hy))
    refine ⟨shells1, ?_, ?_, fun p => ?_⟩
    · unfold EdgeSetTopologyModifier.renumberShells
      rw [List.getElem?_eq_getElem hx1]
      simp only [hi, if_true]
      exact hrun
    · rw [hl, List.length_set]
    · rw [hget p]
      by_cases hp : p = i
      · subst hp
        have h1 : ¬ (p + 1 ≤ p ∧ p < p + 1 + rest.length) := by omega
        have h2 : p ≤ p ∧ p < p + (x :: rest).length := by
          simp only [List.length_cons]; omega
        rw [if_neg h1, if_pos h2, Nat.sub_self]
        simp [List.getD_eq_getElem?_getD, List.getElem?_set, hi,
          List.getElem?_eq_getElem hx1]
      · by_cases hr : i + 1 ≤ p ∧ p < i + 1 + rest.length
        · have h2 : i ≤ p ∧ p < i + (x :: rest).length := by
            simp only [List.length_cons]; omega
          rw [if_pos hr, if_pos h2]
          have e1 : p - i = (p - (i + 1)) + 1 := by omega
          rw [e1]
          simp [List.getD_eq_getElem?_getD]
        · have h2 : ¬ (i ≤ p ∧ p < i + (x :: rest).length) := by
            simp only [List.length_cons]; omega
          rw [if_neg hr, if_neg h2]
          have hne : ¬ i = p := fun h => hp h.symm
          simp [List.getD_eq_getElem?_getD, List.getElem?_set, hne]

/-! ## Facts on sorted removal batches -/

theorem strictDescending_bound :
    ∀ (l : List Nat) (n : Nat), l.Pairwise (fun a b => b < a) → (∀ x ∈ l, x < n) →
      ∀ (i x : Nat), l[i]? = some x → x + i + 1 ≤ n := by
  intro l
  induction l with
  | nil => intro n _ _ i x h; simp at h
  | cons y rest ih =>
    intro n hp hr i x h
    cases i with
    | zero =>
      simp only [List.getElem?_cons_zero, Option.some.injEq] at h
      have := hr y (List.mem_cons_self _ _)
      omega
    | succ i =>
      simp only [List.getElem?_cons_succ] at h
      obtain ⟨h1, h2⟩ := List.pairwise_cons.1 hp
      have := ih y h2 h1 i x h
      have := hr y (List.mem_cons_self _ _)
      omega

theorem lastEdgeIndexAt_eq (n : Nat) : ∀ i : Nat, i < n → lastEdgeIndexAt n i = n - 1 - i := by
  intro i
  induction i with
  | zero =>
    intro h
    show decr n = _
    rw [decr_of_pos n h]
    rfl
  | succ i ih =>
    intro h
    have h1 := ih (by omega)
    unfold lastEdgeIndexAt at h1 ⊢
    rw [Function.iterate_succ_apply', h1, decr_of_pos _ (by omega)]
    omega

/-! ## Facts on the queue of isolated points -/

theorem removeEdgeAt_queue (c : EdgeSetTopologyContainer) (index last : Nat)
    (v : List PointID) (e q : Edge) (c1 : EdgeSetTopologyContainer) (v1 : List PointID)
    (he : c.d_edge[index]? = some e) (hq : c.d_edge[last]? = some q)
    (hcov : ShellCovers c) (hs : c.hasEdgesAroundVertex = true) (hne : e.1 ≠ e.2)
    (hstep : EdgeSetTopologyModifier.removeEdgeAt true c index last v = some (c1, v1)) :
    v1 = v ++ (if eraseAll (c.m_edgesAroundVertex.getD e.1 []) index = [] then [e.1] else [])
      ++ (if eraseAll (c.m_edgesAroundVertex.getD e.2 []) index = [] then [e.2] else []) := by
  have hi : index < c.d_edge.length := (List.getElem?_eq_some.1 he).1
  have hl : last < c.d_edge.length := (List.getElem?_eq_some.1 hq).1
  have hres : resize (c.d_edge.set index q) last (0, 0) = (c.d_edge.set index q).take last :=
    resize_of_le _ _ _ (by simp; omega)
  have he_mem : e ∈ c.d_edge := List.mem_iff_getElem?.2 ⟨_, he⟩
  have hq_mem : q ∈ c.d_edge := List.mem_iff_getElem?.2 ⟨_, hq⟩
  obtain ⟨e1, e2⟩ := hcov hs e he_mem
  obtain ⟨q1, q2⟩ := hcov hs q hq_mem
  have h21 : ¬ e.2 = e.1 := fun h => hne h.symm
  unfold EdgeSetTopologyModifier.removeEdgeAt at hstep
  simp only [hs, if_true, he, hq, hi, hres] at hstep
  rw [getElem?_eq_some_getD _ _ e1] at hstep
  simp only at hstep
  rw [getElem?_eq_some_getD _ _ (by simpa using e2)] at hstep
  simp only [getD_set_shell, e1, and_true, h21, if_false, Bool.true_and,
    List.isEmpty_iff] at hstep
  have key : (if eraseAll (c.m_edgesAroundVertex.getD e.2 []) index = [] then
        (if eraseAll (c.m_edgesAroundVertex.getD e.1 []) index = [] then v ++ [e.1] else v)
          ++ [e.2]
      else if eraseAll (c.m_edgesAroundVertex.getD e.1 []) index = [] then v ++ [e.1] else v)
      = v1 := by
    by_cases hlt : index < last
    · simp only [hlt, if_true] at hstep
      rw [updateShell_getD _ _ _ (by simpa using q1)] at hstep
      simp only at hstep
      rw [updateShell_getD _ _ _ (by simpa using q2)] at hstep
      simp only [Option.some.injEq, Prod.mk.injEq] at hstep
      exact hstep.2
    · simp only [hlt, if_false, Option.some.injEq, Prod.mk.injEq] at hstep
      exact hstep.2
  rw [← key]
  split_ifs <;> simp

theorem eraseAll_eq_nil_iff (l : List Nat) (v : Nat) :
    eraseAll l v = [] ↔ ∀ j ∈ l, j = v := by
  unfold eraseAll
  rw [List.filter_eq_nil_iff]
  constructor
  · intro h j hj
    have := h j hj
    simpa using this
  · intro h j hj
    simp [h j hj]

theorem isolated_after_removal (c : EdgeSetTopologyContainer) (index : Nat) (q : Edge)
    (p : Nat) (hcons : ShellConsistent c) (hi : index < c.d_edge.length)
    (hq : c.d_edge[c.d_edge.length - 1]? = some q) (hp : p < c.nbPoints) :
    eraseAll (c.m_edgesAroundVertex.getD p []) index = []
      ↔ Isolated ((c.d_edge.set index q).take (c.d_edge.length - 1)) p := by
  obtain ⟨-, hmem⟩ := (ShellExact_iff _).1 hcons.1
  rw [eraseAll_eq_nil_iff]
  constructor
  · intro h x hx
    obtain ⟨j, hj⟩ := List.mem_iff_getElem?.1 hx
    rw [getElem?_swapRemove _ _ _ _ _ hi] at hj
    by_cases hjl : j < c.d_edge.length - 1
    · rw [if_pos hjl] at hj
      by_contra hcon
      have hhas : x.1 = p ∨ x.2 = p := by
        by_cases h1 : x.1 = p
        · exact Or.inl h1
        · by_cases h2 : x.2 = p
          · exact Or.inr h2
          · exact absurd ⟨h1, h2⟩ hcon
      by_cases hji : j = index
      · rw [if_pos hji] at hj
        cases hj
        have := h _ ((hmem p hp _).2 ⟨_, hq, hhas⟩)
        omega
      · rw [if_neg hji] at hj
        exact hji (h _ ((hmem p hp _).2 ⟨_, hj, hhas⟩))
    · rw [if_neg hjl] at hj
      cases hj
  · intro h j hj
    obtain ⟨x, hx, hhas⟩ := (hmem p hp j).1 hj
    by_contra hji
    have hjn : j < c.d_edge.length := (List.getElem?_eq_some.1 hx).1
    by_cases hjl : j < c.d_edge.length - 1
    · have hx1 : ((c.d_edge.set index q).take (c.d_edge.length - 1))[j]? = some x := by
        rw [getElem?_swapRemove _ _ _ _ _ hi, if_pos hjl, if_neg hji]
        exact hx
      have := h x (List.mem_iff_getElem?.2 ⟨_, hx1⟩)
      rcases hhas with h1 | h1
      · exact this.1 h1
      · exact this.2 h1
    · have hjeq : j = c.d_edge.length - 1 := by omega
      have hil : index < c.d_edge.length - 1 := by omega
      rw [hjeq, hq] at hx
      cases hx
      have hx1 : ((c.d_edge.set index q).take (c.d_edge.length - 1))[index]? = some q := by
        rw [getElem?_swapRemove _ _ _ _ _ hi, if_pos hil, if_pos rfl]
      have := h q (List.mem_iff_getElem?.2 ⟨_, hx1⟩)
      rcases hhas with h1 | h1
      · exact this.1 h1
      · exact this.2 h1

theorem removeEdgesLoop_queue :
    ∀ (ids : List Nat) (c : EdgeSetTopologyContainer) (v : List PointID),
      ids.Pairwise (fun a b => b < a) → (∀ i ∈ ids, i < c.d_edge.length) →
      ShellConsistent c → NonDegenerate c →
      v.Nodup → (∀ p ∈ v, Isolated c.d_edge p) →
      ∃ c1 v1, EdgeSetTopologyModifier.removeEdgesLoop true ids (decr c.d_edge.length) c v
          = some (c1, v1)
        ∧ v1.Nodup
        ∧ ∀ p : Nat, p ∈ v1 ↔ p ∈ v ∨ (EndpointOfListed c.d_edge ids p ∧ Isolated c1.d_edge p) := by
  intro ids
  induction ids with
  | nil =>
    intro c v _ _ _ _ hv _
    refine ⟨c, v, rfl, hv, fun p => ⟨Or.inl, ?_⟩⟩
    rintro (h | ⟨⟨i, hi, -⟩, -⟩)
    · exact h
    · cases hi
  | cons i rest ih =>
    intro c v hsorted hrange hcons hnd hv hiso
    have hi : i < c.d_edge.length := hrange i (List.mem_cons_self _ _)
    have hpos : 0 < c.d_edge.length := Nat.lt_of_le_of_lt (Nat.zero_le _) hi
    obtain ⟨hrest_lt, hrest_sorted⟩ := List.pairwise_cons.1 hsorted
    have hlast : c.d_edge.length - 1 < c.d_edge.length := by omega
    obtain ⟨e, he⟩ : ∃ e, c.d_edge[i]? = some e := ⟨_, List.getElem?_eq_getElem hi⟩
    obtain ⟨q, hq⟩ : ∃ q, c.d_edge[c.d_edge.length - 1]? = some q :=
      ⟨_, List.getElem?_eq_getElem hlast⟩
    have he_mem : e ∈ c.d_edge := List.mem_iff_getElem?.2 ⟨_, he⟩
    have hq_mem : q ∈ c.d_edge := List.mem_iff_getElem?.2 ⟨_, hq⟩
    obtain ⟨hv1, hv2⟩ := hcons.2 e he_mem
    have hbuilt : c.hasEdgesAroundVertex = true := by
      unfold EdgeSetTopologyContainer.hasEdgesAroundVertex
      cases hs : c.m_edgesAroundVertex with
      | nil =>
        have := hcons.1.1
        rw [hs] at this
        simp only [List.length_nil] at this
        rw [← this] at hv1
        exact absurd hv1 (Nat.not_lt_zero _)
      | cons a b => rfl
    obtain ⟨shells, v', hstep, hshl, -, -, -⟩ :=
      removeEdgeAt_spec true c i (c.d_edge.length - 1) v e q he hq hcons.covers
    obtain ⟨c', hc'⟩ : ∃ c' : EdgeSetTopologyContainer,
        { c with
          m_edgesAroundVertex := shells
          d_edge := (c.d_edge.set i q).take (c.d_edge.length - 1) } = c' := ⟨_, rfl⟩
    rw [hc'] at hstep
    have hc'_edges : c'.d_edge = (c.d_edge.set i q).take (c.d_edge.length - 1) := by
      rw [← hc']
    have hc'_len : c'.d_edge.length = c.d_edge.length - 1 := by
      rw [hc'_edges, List.length_take, List.length_set]
      exact Nat.min_eq_left (Nat.sub_le _ _)
    have hcons' : ShellConsistent c' := removeEdgeAt_consistent true c i v c' v' hcons hi hstep
    have hsub : ∀ x ∈ c'.d_edge, x ∈ c.d_edge := by
      intro x hx
      rw [hc'_edges] at hx
      exact mem_swapRemove _ _ _ _ _ hq_mem hx
    have hnd' : NonDegenerate c' := fun x hx => hnd x (hsub x hx)
    have hv'eq := removeEdgeAt_queue c i (c.d_edge.length - 1) v e q c' v' he hq hcons.covers
      hbuilt (hnd e he_mem) hstep
    have hk1 := isolated_after_removal c i q e.1 hcons hi hq hv1
    have hk2 := isolated_after_removal c i q e.2 hcons hi hq hv2
    rw [← hc'_edges] at hk1 hk2
    have hmem' : ∀ p : Nat, p ∈ v' ↔ p ∈ v ∨ ((p = e.1 ∨ p = e.2) ∧ Isolated c'.d_edge p) := by
      intro p
      rw [hv'eq]
      simp only [List.mem_append]
      constructor
      · rintro ((h | h) | h)
        · exact Or.inl h
        · split_ifs at h with h1
          · rw [List.mem_singleton] at h
            exact Or.inr ⟨Or.inl h, by rw [h]; exact hk1.1 h1⟩
          · cases h
        · split_ifs at h with h1
          · rw [List.mem_singleton] at h
            exact Or.inr ⟨Or.inr h, by rw [h]; exact hk2.1 h1⟩
          · cases h
      · rintro (h | ⟨h | h, hisol⟩)
        · exact Or.inl (Or.inl h)
        · rw [h] at hisol
          left; right
          rw [if_pos (hk1.2 hisol), h]
          exact List.mem_singleton_self _
        · rw [h] at hisol
          right
          rw [if_pos (hk2.2 hisol), h]
          exact List.mem_singleton_self _
    have hnotin : ∀ p : Nat, (p = e.1 ∨ p = e.2) → p ∉ v := by
      intro p hp hpv
      have := hiso p hpv e he_mem
      rcases hp with h | h
      · exact this.1 h.symm
      · exact this.2 h.symm
    have hv'nd : v'.Nodup := by
      rw [hv'eq]
      have hne12 : e.1 ≠ e.2 := hnd e he_mem
      split_ifs
      · rw [List.append_assoc]
        refine List.Nodup.append hv (by simp [hne12]) ?_
        intro p hp1 hp2
        simp only [List.cons_append, List.nil_append, List.mem_cons, List.mem_singleton,
          List.not_mem_nil, or_false] at hp2
        exact hnotin p hp2 hp1
      · rw [List.append_nil]
        refine List.Nodup.append hv (by simp) ?_
        intro p hp1 hp2
        rw [List.mem_singleton] at hp2
        exact hnotin p (Or.inl hp2) hp1
      · rw [List.append_nil]
        refine List.Nodup.append hv (by simp) ?_
        intro p hp1 hp2
        rw [List.mem_singleton] at hp2
        exact hnotin p (Or.inr hp2) hp1
      · simpa using hv
    have hiso' : ∀ p ∈ v', Isolated c'.d_edge p := by
      intro p hp
      rcases (hmem' p).1 hp with h | ⟨-, h⟩
      · exact fun x hx => hiso p h x (hsub x hx)
      · exact h
    have hrange' : ∀ j ∈ rest, j < c'.d_edge.length := by
      intro j hj
      have := hrest_lt j hj
      rw [hc'_len]
      omega
    obtain ⟨c1, v1, hloop, hv1nd, hiff⟩ := ih c' v' hrest_sorted hrange' hcons' hnd' hv'nd hiso'
    obtain ⟨c1', v1', hloop', -, hperm, -⟩ :=
      removeEdgesLoop_spec true (fun _ => True) (fun _ _ _ _ _ _ _ _ => trivial)
        rest c' v' hrest_sorted hrange' hcons'.covers trivial
    rw [hloop] at hloop'
    simp only [Option.some.injEq, Prod.mk.injEq] at hloop'
    rw [← hloop'.1] at hperm
    have hsame : ∀ j ∈ rest, c'.d_edge[j]? = c.d_edge[j]? := by
      intro j hj
      have h1 := hrest_lt j hj
      rw [hc'_edges, getElem?_swapRemove _ _ _ _ _ hi, if_pos (by omega), if_neg (by omega)]
    refine ⟨c1, v1, ?_, hv1nd, fun p => ?_⟩
    · unfold EdgeSetTopologyModifier.removeEdgesLoop
      rw [decr_of_pos _ hpos, hstep]
      simp only
      rw [← hc'_len]
      exact hloop
    · rw [hiff p, hmem' p]
      have hsub1 : ∀ x ∈ c1.d_edge, x ∈ c'.d_edge :=
        fun x hx => hperm.subset (List.mem_append_left _ hx)
      constructor
      · rintro ((h | ⟨h, hisol⟩) | ⟨⟨j, hj, x, hx, hhas⟩, hisol⟩)
        · exact Or.inl h
        · refine Or.inr ⟨⟨i, List.mem_cons_self _ _, e, he, ?_⟩,
            fun x hx => hisol x (hsub1 x hx)⟩
          rcases h with h | h
          · exact Or.inl h.symm
          · exact Or.inr h.symm
        · refine Or.inr ⟨⟨j, List.mem_cons_of_mem _ hj, x, ?_, hhas⟩, hisol⟩
          rw [← hsame j hj]
          exact hx
      · rintro (h | ⟨⟨j, hj, x, hx, hhas⟩, hisol⟩)
        · exact Or.inl (Or.inl h)
        · by_cases hrest : EndpointOfListed c'.d_edge rest p
          · exact Or.inr ⟨hrest, hisol⟩
          · left; right
            rcases List.mem_cons.1 hj with hji | hjr
            · rw [hji, he] at hx
              cases hx
              refine ⟨by rcases hhas with h | h <;> [exact Or.inl h.symm; exact Or.inr h.symm],
                fun y hy => ?_⟩
              by_contra hcon
              have hyhas : y.1 = p ∨ y.2 = p := by
                by_cases h1 : y.1 = p
                · exact Or.inl h1
                · by_cases h2 : y.2 = p
                  · exact Or.inr h2
                  · exact absurd ⟨h1, h2⟩ hcon
              rcases List.mem_append.1 (hperm.symm.subset hy) with h1 | h1
              · have := hisol y h1
                rcases hyhas with h | h
                · exact this.1 h
                · exact this.2 h
              · obtain ⟨k, hk, hky⟩ := List.mem_filterMap.1 h1
                exact hrest ⟨k, hk, y, hky, hyhas⟩
            · exact absurd ⟨j, hjr, x, by rw [hsame j hjr]; exact hx, hhas⟩ hrest

/-! ## Facts on the removal of connected components -/

theorem sortAscending_perm (l : List Nat) : (sortAscending l).Perm l :=
  List.perm_insertionSort _ l

theorem sortAscending_strict (l : List Nat) (h : l.Nodup) :
    (sortAscending l).Pairwise (fun a b => a < b) := by
  have h1 : (sortAscending l).Pairwise (fun a b => a ≤ b) := List.sorted_insertionSort _ l
  have h2 : (sortAscending l).Nodup := (sortAscending_perm l).nodup_iff.2 h
  have h3 := List.Pairwise.and h1 h2
  exact h3.imp (fun ⟨hab, hne⟩ => Nat.lt_of_le_of_ne hab hne)

theorem otherEdgeID_spec :
    ∀ (l : List Nat) (i : Nat), l.Pairwise (fun a b => a < b) → (∀ x ∈ l, i ≤ x) →
      i ≤ EdgeSetTopologyModifier.otherEdgeID l i
        ∧ EdgeSetTopologyModifier.otherEdgeID l i ≤ i + l.length
        ∧ EdgeSetTopologyModifier.otherEdgeID l i ∉ l := by
  intro l
  induction l with
  | nil =>
    intro i _ _
    exact ⟨Nat.le_refl _, Nat.le_refl _, fun h => by cases h⟩
  | cons x rest ih =>
    intro i hp hge
    obtain ⟨h1, h2⟩ := List.pairwise_cons.1 hp
    have hx : i ≤ x := hge x (List.mem_cons_self _ _)
    unfold EdgeSetTopologyModifier.otherEdgeID
    by_cases hxi : x = i
    · have hne : (x != i) = false := by simp [hxi]
      rw [hne]
      simp only [Bool.false_eq_true, if_false]
      obtain ⟨a1, a2, a3⟩ := ih (i + 1) h2 (fun y hy => by have := h1 y hy; omega)
      refine ⟨by omega, by simp only [List.length_cons]; omega, fun h => ?_⟩
      rcases List.mem_cons.1 h with h | h
      · omega
      · exact a3 h
    · have hne : (x != i) = true := by simp [hxi]
      rw [hne]
      simp only [if_true]
      refine ⟨Nat.le_refl _, by omega, fun h => ?_⟩
      rcases List.mem_cons.1 h with h | h
      · exact hxi h.symm
      · have := h1 i h
        omega

theorem mem_of_nodup_full (l : List Nat) (n : Nat) (hnd : l.Nodup) (hr : ∀ i ∈ l, i < n)
    (hlen : n ≤ l.length) : ∀ j : Nat, j < n → j ∈ l := by
  have h : l.Subperm (List.range n) :=
    List.subperm_of_subset hnd (fun i hi => List.mem_range.2 (hr i hi))
  have hp : l.Perm (List.range n) := h.perm_of_length_le (by simpa using hlen)
  intro j hj
  exact hp.mem_iff.2 (List.mem_range.2 hj)

theorem visitedInv_step (comp : EdgeID → List EdgeID) (n scaleElem : Nat)
    (hcomp : Components comp n) (elemAll elemMax elemToRemove : List EdgeID)
    (hinv : VisitedInv comp n scaleElem elemAll elemMax elemToRemove)
    (hlt : elemAll.length < n) :
    0 < (comp (EdgeSetTopologyModifier.otherEdgeID (sortAscending elemAll) 0)).length
    ∧ (elemMax.length
          < (comp (EdgeSetTopologyModifier.otherEdgeID (sortAscending elemAll) 0)).length →
        VisitedInv comp n scaleElem
          (comp (EdgeSetTopologyModifier.otherEdgeID (sortAscending elemAll) 0)
            ++ sortAscending elemAll)
          (comp (EdgeSetTopologyModifier.otherEdgeID (sortAscending elemAll) 0))
          (if elemMax.length ≤ scaleElem then elemMax ++ elemToRemove else elemToRemove))
    ∧ (¬ elemMax.length
          < (comp (EdgeSetTopologyModifier.otherEdgeID (sortAscending elemAll) 0)).length →
        VisitedInv comp n scaleElem
          (comp (EdgeSetTopologyModifier.otherEdgeID (sortAscending elemAll) 0)
            ++ sortAscending elemAll)
          elemMax
          (if (comp (EdgeSetTopologyModifier.otherEdgeID (sortAscending elemAll) 0)).length
              ≤ scaleElem
            then comp (EdgeSetTopologyModifier.otherEdgeID (sortAscending elemAll) 0)
              ++ elemToRemove
            else elemToRemove)) := by
  obtain ⟨hnd, hclosed, ⟨m, hm, hmax⟩, hle, hrnd, hrem⟩ := hinv
  have hperm := sortAscending_perm elemAll
  obtain ⟨-, ho2, ho3⟩ := otherEdgeID_spec (sortAscending elemAll) 0
    (sortAscending_strict elemAll hnd) (fun x _ => Nat.zero_le x)
  generalize EdgeSetTopologyModifier.otherEdgeID (sortAscending elemAll) 0 = o at ho2 ho3 ⊢
  generalize hsorted : sortAscending elemAll = sorted at hperm ho2 ho3 ⊢
  have hon : o < n := by
    rw [Nat.zero_add, hperm.length_eq] at ho2
    omega
  have hoall : o ∉ elemAll := fun h => ho3 (hperm.mem_iff.2 h)
  obtain ⟨ho_mem, ho_nd, ho_cl⟩ := hcomp o hon
  have hdisj : ∀ j ∈ comp o, j ∉ elemAll := by
    intro j hj hja
    have h1 := (hclosed j hja).2
    have h2 := (ho_cl j hj).2
    exact hoall (h1 o (h2.mem_iff.2 ho_mem))
  have hsnd : sorted.Nodup := hperm.nodup_iff.2 hnd
  have hall_nd : (comp o ++ sorted).Nodup :=
    List.Nodup.append ho_nd hsnd (fun j h1 h2 => hdisj j h1 (hperm.mem_iff.1 h2))
  have hall_closed : ∀ j ∈ comp o ++ sorted,
      j < n ∧ ∀ k ∈ comp j, k ∈ comp o ++ sorted := by
    intro j hj
    rcases List.mem_append.1 hj with h | h
    · exact ⟨(ho_cl j h).1,
        fun k hk => List.mem_append_left _ ((ho_cl j h).2.mem_iff.1 hk)⟩
    · have := hclosed j (hperm.mem_iff.1 h)
      exact ⟨this.1, fun k hk => List.mem_append_right _ (hperm.mem_iff.2 (this.2 k hk))⟩
  have hmn : m < n := (hclosed m hm).1
  have hmax_sub : ∀ j ∈ elemMax, j ∈ elemAll := by
    intro j hj
    rw [hmax] at hj
    exact (hclosed m hm).2 j hj
  have hmax_len : ∀ j ∈ elemMax, (comp j).length = elemMax.length := by
    intro j hj
    rw [hmax] at hj ⊢
    exact ((hcomp m hmn).2.2 j hj).2.length_eq
  have hmax_nd : elemMax.Nodup := by
    rw [hmax]
    exact (hcomp m hmn).2.1
  have helem_len : ∀ j ∈ comp o, (comp j).length = (comp o).length :=
    fun j hj => (ho_cl j hj).2.length_eq
  refine ⟨List.length_pos_of_mem ho_mem, fun hlarger => ?_, fun hsmaller => ?_⟩
  · refine ⟨hall_nd, hall_closed, ⟨o, List.mem_append_left _ ho_mem, rfl⟩, ?_, ?_, ?_⟩
    · intro j hj
      rcases List.mem_append.1 hj with h | h
      · rw [helem_len j h]
      · have := hle j (hperm.mem_iff.1 h)
        omega
    · split_ifs with hs
      · refine List.Nodup.append hmax_nd hrnd (fun j h1 h2 => ?_)
        exact ((hrem j).1 h2).2.1 h1
      · exact hrnd
    · intro j
      constructor
      · intro hj
        have hcase : j ∈ elemMax ∧ elemMax.length ≤ scaleElem ∨ j ∈ elemToRemove := by
          split_ifs at hj with hs
          · rcases List.mem_append.1 hj with h | h
            · exact Or.inl ⟨h, hs⟩
            · exact Or.inr h
          · exact Or.inr hj
        rcases hcase with ⟨h, hs⟩ | h
        · exact ⟨List.mem_append_right _ (hperm.mem_iff.2 (hmax_sub j h)),
            fun he => hdisj j he (hmax_sub j h), by rw [hmax_len j h]; exact hs⟩
        · obtain ⟨h1, -, h3⟩ := (hrem j).1 h
          exact ⟨List.mem_append_right _ (hperm.mem_iff.2 h1), fun he => hdisj j he h1, h3⟩
      · rintro ⟨h1, h2, h3⟩
        have hja : j ∈ elemAll := by
          rcases List.mem_append.1 h1 with h | h
          · exact absurd h h2
          · exact hperm.mem_iff.1 h
        by_cases hjm : j ∈ elemMax
        · have hs : elemMax.length ≤ scaleElem := by rw [← hmax_len j hjm]; exact h3
          rw [if_pos hs]
          exact List.mem_append_left _ hjm
        · have := (hrem j).2 ⟨hja, hjm, h3⟩
          split_ifs
          · exact List.mem_append_right _ this
          · exact this
  · refine ⟨hall_nd, hall_closed, ⟨m, List.mem_append_right _ (hperm.mem_iff.2 hm), hmax⟩,
      ?_, ?_, ?_⟩
    · intro j hj
      rcases List.mem_append.1 hj with h | h
      · rw [helem_len j h]
        omega
      · exact hle j (hperm.mem_iff.1 h)
    · split_ifs with hs
      · refine List.Nodup.append ho_nd hrnd (fun j h1 h2 => ?_)
        exact hdisj j h1 ((hrem j).1 h2).1
      · exact hrnd
    · intro j
      constructor
      · intro hj
        have hcase : j ∈ comp o ∧ (comp o).length ≤ scaleElem ∨ j ∈ elemToRemove := by
          split_ifs at hj with hs
          · rcases List.mem_append.1 hj with h | h
            · exact Or.inl ⟨h, hs⟩
            · exact Or.inr h
          · exact Or.inr hj
        rcases hcase with ⟨h, hs⟩ | h
        · exact ⟨List.mem_append_left _ h, fun hm1 => hdisj j h (hmax_sub j hm1),
            by rw [helem_len j h]; exact hs⟩
        · obtain ⟨h1, h2, h3⟩ := (hrem j).1 h
          exact ⟨List.mem_append_right _ (hperm.mem_iff.2 h1), h2, h3⟩
      · rintro ⟨h1, h2, h3⟩
        rcases List.mem_append.1 h1 with h | h
        · have hs : (comp o).length ≤ scaleElem := by rw [← helem_len j h]; exact h3
          rw [if_pos hs]
          exact List.mem_append_left _ h
        · have := (hrem j).2 ⟨hperm.mem_iff.1 h, h2, h3⟩
          split_ifs
          · exact List.mem_append_right _ this
          · exact this

theorem removeIsolatedLoop_spec (comp : EdgeID → List EdgeID) (n scaleElem : Nat)
    (hcomp : Components comp n) :
    ∀ (fuel : Nat) (elemAll elemMax elemToRemove : List EdgeID),
      VisitedInv comp n scaleElem elemAll elemMax elemToRemove →
      n ≤ elemAll.length + fuel →
      ∃ visited kept toRemove,
        EdgeSetTopologyModifier.removeIsolatedLoop comp n scaleElem fuel elemAll elemMax
          elemToRemove = some (kept, toRemove)
        ∧ VisitedInv comp n scaleElem visited kept toRemove
        ∧ ∀ j : Nat, j < n → j ∈ visited := by
  intro fuel
  induction fuel with
  | zero =>
    intro elemAll elemMax elemToRemove hinv hfuel
    have hge : ¬ elemAll.length < n := by omega
    refine ⟨elemAll, elemMax, elemToRemove, ?_, hinv, ?_⟩
    · unfold EdgeSetTopologyModifier.removeIsolatedLoop
      rw [if_neg hge]
    · exact mem_of_nodup_full elemAll n hinv.1 (fun i hi => (hinv.2.1 i hi).1) (by omega)
  | succ fuel ih =>
    intro elemAll elemMax elemToRemove hinv hfuel
    by_cases hlt : elemAll.length < n
    · obtain ⟨hpos, hA, hB⟩ := visitedInv_step comp n scaleElem hcomp elemAll elemMax
        elemToRemove hinv hlt
      have hlen : n ≤ (comp (EdgeSetTopologyModifier.otherEdgeID (sortAscending elemAll) 0)
          ++ sortAscending elemAll).length + fuel := by
        rw [List.length_append, (sortAscending_perm elemAll).length_eq]
        omega
      unfold EdgeSetTopologyModifier.removeIsolatedLoop
      rw [if_pos hlt]
      simp only
      by_cases hlarger : elemMax.length
          < (comp (EdgeSetTopologyModifier.otherEdgeID (sortAscending elemAll) 0)).length
      · rw [if_pos hlarger]
        exact ih _ _ _ (hA hlarger) hlen
      · rw [if_neg hlarger]
        exact ih _ _ _ (hB hlarger) hlen
    · refine ⟨elemAll, elemMax, elemToRemove, ?_, hinv, ?_⟩
      · unfold EdgeSetTopologyModifier.removeIsolatedLoop
        rw [if_neg hlt]
      · exact mem_of_nodup_full elemAll n hinv.1 (fun i hi => (hinv.2.1 i hi).1) (by omega)

/-! ## Facts on removal requests with arbitrary entries -/

theorem remaining_perm_notListed (edges remaining : List Edge) (ids : List Nat)
    (hnd : (ids.filter (fun i => decide (i < edges.length))).Nodup)
    (hperm : (remaining ++ (ids.filter (fun i => decide (i < edges.length))).filterMap
      (fun i => edges[i]?)).Perm edges) :
    remaining.Perm (edgesNotListed edges ids) := by
  have hr : ∀ i ∈ ids.filter (fun i => decide (i < edges.length)), i < edges.length := by
    intro i hi
    simpa using (List.mem_filter.1 hi).2
  have h2 := listed_append_notListed_perm edges _ hnd hr
  rw [edgesNotListed_filter] at h2
  have h3 : (remaining ++ (ids.filter (fun i => decide (i < edges.length))).filterMap
      (fun i => edges[i]?)).Perm
      (edgesNotListed edges ids ++ (ids.filter (fun i => decide (i < edges.length))).filterMap
        (fun i => edges[i]?)) :=
    hperm.trans (h2.symm.trans List.perm_append_comm)
  exact (List.perm_append_right_iff _).1 h3

/-! ## Facts on coefficient lists -/

theorem sum_replicate_rat (n : Nat) (q : ℚ) : (List.replicate n q).sum = n * q := by
  induction n with
  | zero => simp
  | succ n ih =>
    rw [List.replicate_succ, List.sum_cons, ih]
    push_cast
    ring

theorem ancestorCoefs_spec (quotient : Nat → SReal) (ancestors : List EdgeID) :
    EdgeSetTopologyModifier.ancestorCoefs quotient ancestors
      = List.replicate ancestors.length (quotient ancestors.length) := by
  unfold EdgeSetTopologyModifier.ancestorCoefs
  cases ancestors with
  | nil => rfl
  | cons a l => rfl

theorem log2Floor_two_pow (L : Nat) : ∀ fuel, L ≤ fuel → log2Floor fuel (2 ^ L) = L := by
  induction L with
  | zero =>
    intro fuel _
    cases fuel with
    | zero => rfl
    | succ f => simp [log2Floor]
  | succ L ih =>
    intro fuel hf
    cases fuel with
    | zero => omega
    | succ f =>
      have h2 : ¬ 2 ^ (L + 1) < 2 := by
        have : 0 < 2 ^ L := Nat.pow_pos (by decide)
        rw [Nat.pow_succ]
        omega
      have hdiv : 2 ^ (L + 1) / 2 = 2 ^ L := by
        rw [Nat.pow_succ]
        exact Nat.mul_div_cancel _ (by decide)
      simp only [log2Floor, h2, if_false, hdiv]
      rw [ih f (by omega)]

theorem roundedQuotient_two_pow (p L : Nat) :
    roundedQuotient p (2 ^ L) * ((2 ^ L : Nat) : ℚ) = 1 := by
  have hL : log2Floor (2 ^ L) (2 ^ L) = L :=
    log2Floor_two_pow L _ (Nat.le_of_lt (Nat.lt_two_pow L))
  unfold roundedQuotient
  simp only [hL, if_true]
  push_cast
  field_simp

theorem roundedQuotient_nonneg (p k : Nat) : 0 ≤ roundedQuotient p k := by
  unfold roundedQuotient
  simp only
  split
  · positivity
  · positivity

/-! ## Facts on movePointsProcess -/

theorem movePointsProcess_done (s : EdgeSetTopologyModifier) (id : List PointID)
    (ancestors : List (List PointID)) (coefs : List (List SReal)) (moveDOF : Bool)
    (s1 : EdgeSetTopologyModifier)
    (hmove : EdgeSetTopologyModifier.movePointsProcess s id ancestors coefs moveDOF = .done s1) :
    ∃ collected edgeArray seen moved,
      EdgeSetTopologyModifier.collectEdgesAroundVertex
        (if id.isEmpty then s.m_container
          else s.m_container.getEdgesAroundVertexArray).m_edgesAroundVertex id []
        = some collected
      ∧ EdgeSetTopologyModifier.lookupEdges s.m_container.d_edge (sortDescending collected)
        = some edgeArray
      ∧ s1.trace = s.trace ++ [Event.propagated seen, moved]
      ∧ seen.m_changeList = s.m_container.m_changeList
          ++ [TopologyChange.EdgesMoved_Removing (sortDescending collected)]
      ∧ seen.m_edgeTopologyDirty = s.m_container.m_edgeTopologyDirty
      ∧ seen.d_edge = s.m_container.d_edge
      ∧ s1.m_container.m_changeList
          = [TopologyChange.EdgesMoved_Adding (sortDescending collected) edgeArray]
      ∧ s1.m_container.m_edgeTopologyDirty = false
      ∧ s1.m_container.d_edge = s.m_container.d_edge := by
  obtain ⟨s0, hs0⟩ : ∃ s0, s0 = (if id.isEmpty then s
      else { s with m_container := s.m_container.getEdgesAroundVertexArray }) := ⟨_, rfl⟩
  have hc0 : s0.m_container = (if id.isEmpty then s.m_container
      else s.m_container.getEdgesAroundVertexArray) := by
    rw [hs0]
    split <;> rfl
  have hfacts : s0.trace = s.trace
      ∧ s0.m_container.m_changeList = s.m_container.m_changeList
      ∧ s0.m_container.m_edgeTopologyDirty = s.m_container.m_edgeTopologyDirty
      ∧ s0.m_container.d_edge = s.m_container.d_edge := by
    rw [hs0]
    split
    · exact ⟨rfl, rfl, rfl, rfl⟩
    · unfold EdgeSetTopologyContainer.getEdgesAroundVertexArray
      split
      · exact ⟨rfl, rfl, rfl, rfl⟩
      · exact ⟨rfl, rfl, rfl, rfl⟩
  obtain ⟨ht, hq, hd, he⟩ := hfacts
  unfold EdgeSetTopologyModifier.movePointsProcess at hmove
  simp only [← hs0] at hmove
  rw [← hc0]
  clear hs0 hc0
  split at hmove
  · exact absurd hmove (by simp)
  · rename_i collected hcol
    split at hmove
    · exact absurd hmove (by simp)
    · rename_i edgeArray hlook
      have hs1 := Outcome.done.inj hmove
      subst hs1
      have hp := propagate_container
        (s0.addTopologyChange (.EdgesMoved_Removing (sortDescending collected))) true
      simp only [if_true] at hp
      obtain ⟨p1, -, -, p4, -, p6⟩ := hp
      have hdirty : (EdgeSetTopologyModifier.propagateTopologicalChanges
          (s0.addTopologyChange (.EdgesMoved_Removing
            (sortDescending collected)))).m_container.m_edgeTopologyDirty = false := by
        have hne : (s0.m_container.m_changeList
            ++ [TopologyChange.EdgesMoved_Removing (sortDescending collected)]).isEmpty
            = false := by
          cases s0.m_container.m_changeList <;> rfl
        simp only [EdgeSetTopologyModifier.addTopologyChange,
          EdgeSetTopologyContainer.addTopologyChange,
          EdgeSetTopologyModifier.propagateTopologicalChanges,
          EdgeSetTopologyModifier.propagateTopologicalChangesWithoutReset,
          EdgeSetTopologyModifier.propagateTopologicalEngineChanges,
          EdgeSetTopologyContainer.resetTopologyChangeList,
          EdgeSetTopologyContainer.cleanEdgeTopologyFromDirty, hne]
        cases hdf : s0.m_container.m_edgeTopologyDirty <;> simp [hdf]
      generalize EdgeSetTopologyModifier.propagateTopologicalChanges
        (s0.addTopologyChange (.EdgesMoved_Removing (sortDescending collected))) = sp
        at p1 p4 p6 hdirty hlook
      refine ⟨collected, edgeArray,
        (s0.addTopologyChange (.EdgesMoved_Removing (sortDescending collected))).m_container,
        Event.pointsMoved id ancestors coefs sp.m_container, hcol, ?_, ?_, ?_, hd, he, ?_, ?_, ?_⟩
      · rw [← he]
        have : sp.m_container.d_edge = s0.m_container.d_edge := p1
        rw [← this]
        exact hlook
      · show sp.trace ++ _ = _
        rw [p4]
        show (s0.trace ++ _) ++ _ = _
        rw [ht]
        simp
      · show s0.m_container.m_changeList ++ _ = _
        rw [hq]
      · show sp.m_container.m_changeList ++ _ = _
        rw [p6]
        rfl
      · exact hdirty
      · rw [← he]
        exact p1

theorem foldl_pushNew_spec (sh : List Nat) : ∀ (acc : List Nat), acc.Nodup →
    (sh.foldl (fun a e => if a.contains e then a else a ++ [e]) acc).Nodup
    ∧ ∀ i, i ∈ sh.foldl (fun a e => if a.contains e then a else a ++ [e]) acc
        ↔ i ∈ acc ∨ i ∈ sh := by
  induction sh with
  | nil => intro acc h; exact ⟨h, fun i => by simp⟩
  | cons x xs ih =>
    intro acc h
    simp only [List.foldl_cons]
    by_cases hx : acc.contains x = true
    · rw [if_pos hx]
      obtain ⟨h1, h2⟩ := ih acc h
      refine ⟨h1, fun i => ?_⟩
      rw [h2 i, List.mem_cons]
      have hxm : x ∈ acc := by simpa using hx
      constructor
      · rintro (h3 | h3)
        · exact Or.inl h3
        · exact Or.inr (Or.inr h3)
      · rintro (h3 | h3 | h3)
        · exact Or.inl h3
        · exact Or.inl (h3 ▸ hxm)
        · exact Or.inr h3
    · rw [if_neg hx]
      have hxm : x ∉ acc := by simpa using hx
      have hnd : (acc ++ [x]).Nodup := by
        rw [List.nodup_append]
        refine ⟨h, List.nodup_singleton x, ?_⟩
        intro a ha hb
        rw [List.mem_singleton] at hb
        exact hxm (hb ▸ ha)
      obtain ⟨h1, h2⟩ := ih (acc ++ [x]) hnd
      refine ⟨h1, fun i => ?_⟩
      rw [h2 i, List.mem_append, List.mem_singleton, List.mem_cons, or_assoc]

theorem collectEdgesAroundVertex_exact (shells : List (List EdgeID)) :
    ∀ (id : List Nat) (acc collected : List Nat), acc.Nodup →
    EdgeSetTopologyModifier.collectEdgesAroundVertex shells id acc = some collected →
    collected.Nodup
    ∧ ∀ i, i ∈ collected ↔ i ∈ acc ∨ ∃ p ∈ id, i ∈ shells.getD p [] := by
  intro id
  induction id with
  | nil =>
    intro acc collected h hrun
    have : acc = collected := Option.some.inj hrun
    subst this
    exact ⟨h, fun i => by simp⟩
  | cons p rest ih =>
    intro acc collected h hrun
    unfold EdgeSetTopologyModifier.collectEdgesAroundVertex at hrun
    cases hp : shells[p]? with
    | none =>
      rw [hp] at hrun
      exact absurd hrun (by simp)
    | some sh =>
      rw [hp] at hrun
      simp only at hrun
      obtain ⟨f1, f2⟩ := foldl_pushNew_spec sh acc h
      obtain ⟨h1, h2⟩ := ih _ collected f1 hrun
      have hgd : shells.getD p [] = sh := by
        simp [List.getD_eq_getElem?_getD, hp]
      refine ⟨h1, fun i => ?_⟩
      rw [h2 i, f2 i]
      constructor
      · rintro ((h3 | h3) | ⟨q, hq, h3⟩)
        · exact Or.inl h3
        · exact Or.inr ⟨p, List.mem_cons_self _ _, hgd ▸ h3⟩
        · exact Or.inr ⟨q, List.mem_cons_of_mem _ hq, h3⟩
      · rintro (h3 | ⟨q, hq, h3⟩)
        · exact Or.inl (Or.inl h3)
        · rcases List.mem_cons.1 hq with h4 | h4
          · subst h4
            exact Or.inl (Or.inr (hgd ▸ h3))
          · exact Or.inr ⟨q, h4, h3⟩

theorem lookupEdges_spec (edges : List Edge) : ∀ (l : List Nat) (es : List Edge),
    EdgeSetTopologyModifier.lookupEdges edges l = some es →
    es.length = l.length
    ∧ ∀ k j : Nat, l[k]? = some j → ∃ e, edges[j]? = some e ∧ es[k]? = some e := by
  intro l
  induction l with
  | nil =>
    intro es h
    have : [] = es := Option.some.inj h
    subst this
    exact ⟨rfl, fun k j h => by simp at h⟩
  | cons i rest ih =>
    intro es h
    unfold EdgeSetTopologyModifier.lookupEdges at h
    cases hi : edges[i]? with
    | none =>
      rw [hi] at h
      exact absurd h (by simp)
    | some e =>
      cases hr : EdgeSetTopologyModifier.lookupEdges edges rest with
      | none =>
        rw [hi, hr] at h
        exact absurd h (by simp)
      | some es1 =>
        rw [hi, hr] at h
        have : e :: es1 = es := Option.some.inj h
        subst this
        obtain ⟨h1, h2⟩ := ih es1 hr
        refine ⟨by simp [h1], fun k j hk => ?_⟩
        cases k with
        | zero =>
          simp only [List.getElem?_cons_zero, Option.some.injEq] at hk
          subst hk
          exact ⟨e, hi, List.getElem?_cons_zero⟩
        | succ k =>
          simp only [List.getElem?_cons_succ] at hk ⊢
          exact h2 k j hk

theorem movePointsProcess_total (s : EdgeSetTopologyModifier) (id : List PointID)
    (ancestors : List (List PointID)) (coefs : List (List SReal)) (moveDOF : Bool)
    (collected : List EdgeID) (edgeArray : List Edge)
    (hcol : EdgeSetTopologyModifier.collectEdgesAroundVertex
        (if id.isEmpty then s.m_container
          else s.m_container.getEdgesAroundVertexArray).m_edgesAroundVertex id []
        = some collected)
    (hlook : EdgeSetTopologyModifier.lookupEdges s.m_container.d_edge
        (sortDescending collected) = some edgeArray) :
    ∃ s1, EdgeSetTopologyModifier.movePointsProcess s id ancestors coefs moveDOF = .done s1 := by
  obtain ⟨s0, hs0⟩ : ∃ s0, s0 = (if id.isEmpty then s
      else { s with m_container := s.m_container.getEdgesAroundVertexArray }) := ⟨_, rfl⟩
  have hc0 : s0.m_container = (if id.isEmpty then s.m_container
      else s.m_container.getEdgesAroundVertexArray) := by
    rw [hs0]
    split <;> rfl
  have he : s0.m_container.d_edge = s.m_container.d_edge := by
    rw [hc0]
    split
    · rfl
    · unfold EdgeSetTopologyContainer.getEdgesAroundVertexArray
      split <;> rfl
  rw [← hc0] at hcol
  have hp := propagate_container
    (s0.addTopologyChange (.EdgesMoved_Removing (sortDescending collected))) true
  simp only [if_true] at hp
  obtain ⟨p1, -⟩ := hp
  have hp1 : (EdgeSetTopologyModifier.propagateTopologicalChanges
      (s0.addTopologyChange (.EdgesMoved_Removing
        (sortDescending collected)))).m_container.d_edge = s.m_container.d_edge := by
    rw [p1]
    exact he
  unfold EdgeSetTopologyModifier.movePointsProcess
  simp only [← hs0, hcol, hp1, hlook]
  exact ⟨_, rfl⟩

/-! ## Facts on the component kept first -/

theorem otherEdgeID_least :
    ∀ (l : List Nat) (i : Nat), l.Pairwise (fun a b => a < b) → (∀ x ∈ l, i ≤ x) →
      ∀ j : Nat, i ≤ j → j < EdgeSetTopologyModifier.otherEdgeID l i → j ∈ l := by
  intro l
  induction l with
  | nil =>
    intro i _ _ j h1 h2
    unfold EdgeSetTopologyModifier.otherEdgeID at h2
    omega
  | cons x rest ih =>
    intro i hp hge j h1 h2
    obtain ⟨p1, p2⟩ := List.pairwise_cons.1 hp
    unfold EdgeSetTopologyModifier.otherEdgeID at h2
    by_cases hxi : x = i
    · have hne : (x != i) = false := by simp [hxi]
      rw [hne] at h2
      simp only [Bool.false_eq_true, if_false] at h2
      by_cases hji : j = i
      · rw [hji, ← hxi]
        exact List.mem_cons_self _ _
      · exact List.mem_cons_of_mem _
          (ih (i + 1) p2 (fun y hy => by have := p1 y hy; omega) j (by omega) h2)
    · have hne : (x != i) = true := by simp [hxi]
      rw [hne] at h2
      simp only [if_true] at h2
      omega

theorem keptFirst_step (comp : EdgeID → List EdgeID) (n scaleElem : Nat)
    (hcomp : Components comp n) (elemAll elemMax elemToRemove : List EdgeID)
    (hinv : VisitedInv comp n scaleElem elemAll elemMax elemToRemove)
    (hfirst : KeptFirst comp elemAll elemMax)
    (hlt : elemAll.length < n) :
    (elemMax.length
          < (comp (EdgeSetTopologyModifier.otherEdgeID (sortAscending elemAll) 0)).length →
        KeptFirst comp
          (comp (EdgeSetTopologyModifier.otherEdgeID (sortAscending elemAll) 0)
            ++ sortAscending elemAll)
          (comp (EdgeSetTopologyModifier.otherEdgeID (sortAscending elemAll) 0)))
    ∧ (¬ elemMax.length
          < (comp (EdgeSetTopologyModifier.otherEdgeID (sortAscending elemAll) 0)).length →
        KeptFirst comp
          (comp (EdgeSetTopologyModifier.otherEdgeID (sortAscending elemAll) 0)
            ++ sortAscending elemAll)
          elemMax) := by
  obtain ⟨hnd, hclosed, ⟨m0, hm0, hmax⟩, hle, -, -⟩ := hinv
  obtain ⟨m, hm, hmeq, hmin, hbelow, htie⟩ := hfirst
  have hperm := sortAscending_perm elemAll
  obtain ⟨-, ho2, ho3⟩ := otherEdgeID_spec (sortAscending elemAll) 0
    (sortAscending_strict elemAll hnd) (fun x _ => Nat.zero_le x)
  have hleast := otherEdgeID_least (sortAscending elemAll) 0
    (sortAscending_strict elemAll hnd) (fun x _ => Nat.zero_le x)
  generalize EdgeSetTopologyModifier.otherEdgeID (sortAscending elemAll) 0 = o
    at ho2 ho3 hleast ⊢
  generalize hsorted : sortAscending elemAll = sorted at hperm ho2 ho3 hleast ⊢
  have hon : o < n := by
    rw [Nat.zero_add, hperm.length_eq] at ho2
    omega
  have hoall : o ∉ elemAll := fun h => ho3 (hperm.mem_iff.2 h)
  obtain ⟨ho_mem, ho_nd, ho_cl⟩ := hcomp o hon
  have hdisj : ∀ j ∈ comp o, j ∉ elemAll := by
    intro j hj hja
    have h1 := (hclosed j hja).2
    have h2 := (ho_cl j hj).2
    exact hoall (h1 o (h2.mem_iff.2 ho_mem))
  have hbelow_o : ∀ k : Nat, k < o → k ∈ elemAll :=
    fun k hk => hperm.mem_iff.1 (hleast k (Nat.zero_le k) hk)
  have hge_o : ∀ k : Nat, k ∈ comp o → o ≤ k := by
    intro k hk
    by_contra hcon
    exact hdisj k hk (hbelow_o k (by omega))
  have hmo : m < o := by
    by_contra hcon
    have : o ≤ m := by omega
    exact hoall (hbelow o this)
  have helem_len : ∀ j ∈ comp o, (comp j).length = (comp o).length :=
    fun j hj => (ho_cl j hj).2.length_eq
  refine ⟨fun hlarger => ?_, fun hsmaller => ?_⟩
  · refine ⟨o, ho_mem, rfl, hge_o, fun k hk => ?_, fun j hj hlen hjo => ?_⟩
    · by_cases hko : k = o
      · rw [hko]
        exact List.mem_append_left _ ho_mem
      · exact List.mem_append_right _ (hperm.mem_iff.2 (hbelow_o k (by omega)))
    · rcases List.mem_append.1 hj with h | h
      · exact absurd h hjo
      · have := hle j (hperm.mem_iff.1 h)
        omega
  · refine ⟨m, hm, hmeq, hmin,
      fun k hk => List.mem_append_right _ (hperm.mem_iff.2 (hbelow k hk)),
      fun j hj hlen hjm => ?_⟩
    rcases List.mem_append.1 hj with h | h
    · have := hge_o j h
      omega
    · exact htie j (hperm.mem_iff.1 h) hlen hjm

theorem removeIsolatedLoop_first (comp : EdgeID → List EdgeID) (n scaleElem : Nat)
    (hcomp : Components comp n) :
    ∀ (fuel : Nat) (elemAll elemMax elemToRemove : List EdgeID),
      VisitedInv comp n scaleElem elemAll elemMax elemToRemove →
      KeptFirst comp elemAll elemMax →
      n ≤ elemAll.length + fuel →
      ∃ visited kept toRemove,
        EdgeSetTopologyModifier.removeIsolatedLoop comp n scaleElem fuel elemAll elemMax
          elemToRemove = some (kept, toRemove)
        ∧ VisitedInv comp n scaleElem visited kept toRemove
        ∧ KeptFirst comp visited kept
        ∧ ∀ j : Nat, j < n → j ∈ visited := by
  intro fuel
  induction fuel with
  | zero =>
    intro elemAll elemMax elemToRemove hinv hfirst hfuel
    have hge : ¬ elemAll.length < n := by omega
    refine ⟨elemAll, elemMax, elemToRemove, ?_, hinv, hfirst, ?_⟩
    · unfold EdgeSetTopologyModifier.removeIsolatedLoop
      rw [if_neg hge]
    · exact mem_of_nodup_full elemAll n hinv.1 (fun i hi => (hinv.2.1 i hi).1) (by omega)
  | succ fuel ih =>
    intro elemAll elemMax elemToRemove hinv hfirst hfuel
    by_cases hlt : elemAll.length < n
    · obtain ⟨hpos, hA, hB⟩ := visitedInv_step comp n scaleElem hcomp elemAll elemMax
        elemToRemove hinv hlt
      obtain ⟨hFA, hFB⟩ := keptFirst_step comp n scaleElem hcomp elemAll elemMax
        elemToRemove hinv hfirst hlt
      have hlen : n ≤ (comp (EdgeSetTopologyModifier.otherEdgeID (sortAscending elemAll) 0)
          ++ sortAscending elemAll).length + fuel := by
        rw [List.length_append, (sortAscending_perm elemAll).length_eq]
        omega
      unfold EdgeSetTopologyModifier.removeIsolatedLoop
      rw [if_pos hlt]
      simp only
      by_cases hlarger : elemMax.length
          < (comp (EdgeSetTopologyModifier.otherEdgeID (sortAscending elemAll) 0)).length
      · rw [if_pos hlarger]
        exact ih _ _ _ (hA hlarger) (hFA hlarger) hlen
      · rw [if_neg hlarger]
        exact ih _ _ _ (hB hlarger) (hFB hlarger) hlen
    · refine ⟨elemAll, elemMax, elemToRemove, ?_, hinv, hfirst, ?_⟩
      · unfold EdgeSetTopologyModifier.removeIsolatedLoop
        rw [if_neg hlt]
      · exact mem_of_nodup_full elemAll n hinv.1 (fun i hi => (hinv.2.1 i hi).1) (by omega)

/-! ## Facts on the cross-level correspondence -/

theorem swapRemove_length {α : Type} (l : List α) (i : Nat) :
    (swapRemove l i).length = l.length - 1 := by
  unfold swapRemove
  cases h : l.getLast? with
  | none =>
    have : l = [] := List.getLast?_eq_none_iff.1 h
    subst this
    rfl
  | some last =>
    simp only [List.length_take, List.length_set]
    omega

theorem swapRemove_getElem? {α : Type} (l : List α) (i j : Nat) (hi : i < l.length) :
    (swapRemove l i)[j]? =
      if j < l.length - 1 then (if j = i then l[l.length - 1]? else l[j]?) else none := by
  unfold swapRemove
  have hlast : l.getLast? = l[l.length - 1]? := List.getLast?_eq_getElem? l
  have hl : l.length - 1 < l.length := by omega
  obtain ⟨x, hsome⟩ : ∃ x, l[l.length - 1]? = some x := ⟨_, List.getElem?_eq_getElem hl⟩
  rw [hlast, hsome]
  simp only
  by_cases hj : j < l.length - 1
  · rw [if_pos hj, List.getElem?_take_of_lt hj, List.getElem?_set]
    by_cases hji : j = i
    · rw [if_pos hji, if_pos hji.symm, if_pos hi]
    · rw [if_neg hji, if_neg (Ne.symm hji)]
  · rw [if_neg hj]
    apply List.getElem?_eq_none
    rw [List.length_take, List.length_set]
    omega

theorem removeTetrahedraOf_spec (hexahedra : List Hexahedron) (h : Nat) :
    ∀ (i : Nat) (tetrahedra : List Tetrahedron) (table : List Nat),
      i ≤ table.length →
      table.length = tetrahedra.length →
      (∀ (t : Nat) (tet : Tetrahedron), tetrahedra[t]? = some tet →
        ∃ x : Nat, table[t]? = some x ∧ hexahedra[x]? = some tet.origin) →
      (∀ j : Nat, i ≤ j → table[j]? ≠ some h) →
      ((Hexa2TetraTopologicalMapping.removeTetrahedraOf h i (tetrahedra, table)).2.length
        = (Hexa2TetraTopologicalMapping.removeTetrahedraOf h i (tetrahedra, table)).1.length)
      ∧ (∀ (t : Nat) (tet : Tetrahedron),
          (Hexa2TetraTopologicalMapping.removeTetrahedraOf h i (tetrahedra, table)).1[t]?
            = some tet →
          ∃ x : Nat,
            (Hexa2TetraTopologicalMapping.removeTetrahedraOf h i (tetrahedra, table)).2[t]?
              = some x
            ∧ hexahedra[x]? = some tet.origin)
      ∧ ∀ j : Nat,
          (Hexa2TetraTopologicalMapping.removeTetrahedraOf h i (tetrahedra, table)).2[j]?
            ≠ some h := by
  intro i
  induction i with
  | zero =>
    intro tetrahedra table _ hlen hP hno
    exact ⟨hlen, hP, fun j => hno j (Nat.zero_le j)⟩
  | succ i ih =>
    intro tetrahedra table hi hlen hP hno
    unfold Hexa2TetraTopologicalMapping.removeTetrahedraOf
    by_cases hh : table[i]? = some h
    · rw [if_pos hh]
      have hit : i < tetrahedra.length := by omega
      have hib : i < table.length := by omega
      apply ih
      · rw [swapRemove_length]
        omega
      · rw [swapRemove_length, swapRemove_length, hlen]
      · intro t tet ht
        rw [swapRemove_getElem? _ _ _ hit] at ht
        rw [swapRemove_getElem? _ _ _ hib]
        by_cases h1 : t < tetrahedra.length - 1
        · rw [if_pos h1] at ht
          rw [if_pos (by omega)]
          by_cases h2 : t = i
          · rw [if_pos h2] at ht
            rw [if_pos h2, hlen]
            exact hP _ _ ht
          · rw [if_neg h2] at ht
            rw [if_neg h2]
            exact hP _ _ ht
        · rw [if_neg h1] at ht
          exact absurd ht (by simp)
      · intro j hj
        rw [swapRemove_getElem? _ _ _ hib]
        by_cases h1 : j < table.length - 1
        · rw [if_pos h1]
          by_cases h2 : j = i
          · rw [if_pos h2]
            exact hno _ (by omega)
          · rw [if_neg h2]
            exact hno _ (by omega)
        · rw [if_neg h1]
          simp
    · rw [if_neg hh]
      apply ih _ _ (by omega) hlen hP
      intro j hj
      by_cases h2 : j = i
      · rw [h2]
        exact hh
      · exact hno j (by omega)

theorem addHexahedron_integrity (slots : Nat) (m : Hexa2TetraTopologicalMapping)
    (h : Hexahedron) (hm : CorrespondenceIntegrity m) :
    CorrespondenceIntegrity (Hexa2TetraTopologicalMapping.addHexahedron slots m h) := by
  obtain ⟨hlen, hP⟩ := hm
  unfold CorrespondenceIntegrity Hexa2TetraTopologicalMapping.addHexahedron
  simp only
  refine ⟨by simp [Hexa2TetraTopologicalMapping.decompose, hlen], fun t tet ht => ?_⟩
  by_cases h1 : t < m.tetrahedra.length
  · rw [List.getElem?_append_left h1] at ht
    obtain ⟨x, hx1, hx2⟩ := hP t tet ht
    refine ⟨x, ?_, ?_⟩
    · rw [List.getElem?_append_left (by omega)]
      exact hx1
    · have hxl : x < m.hexahedra.length := (List.getElem?_eq_some.1 hx2).1
      rw [List.getElem?_append_left hxl]
      exact hx2
  · rw [List.getElem?_append_right (by omega)] at ht
    have htm := List.mem_iff_getElem?.2 ⟨_, ht⟩
    have hlt := (List.getElem?_eq_some.1 ht).1
    unfold Hexa2TetraTopologicalMapping.decompose at htm hlt
    rw [List.length_map, List.length_range] at hlt
    obtain ⟨k, -, hk⟩ := List.mem_map.1 htm
    refine ⟨m.hexahedra.length, ?_, ?_⟩
    · rw [List.getElem?_append_right (by omega), List.getElem?_replicate, if_pos (by omega)]
    · rw [List.getElem?_append_right (Nat.le_refl _), ← hk]
      simp

theorem init_integrity (slots : Nat) (hexahedra : List Hexahedron) :
    CorrespondenceIntegrity (Hexa2TetraTopologicalMapping.init slots hexahedra) := by
  unfold Hexa2TetraTopologicalMapping.init
  have hgen : ∀ (l : List Hexahedron) (m : Hexa2TetraTopologicalMapping),
      CorrespondenceIntegrity m →
      CorrespondenceIntegrity (l.foldl (Hexa2TetraTopologicalMapping.addHexahedron slots) m) := by
    intro l
    induction l with
    | nil => intro m hm; exact hm
    | cons h rest ih =>
      intro m hm
      exact ih _ (addHexahedron_integrity slots m h hm)
  apply hgen
  exact ⟨rfl, fun t tet ht => by simp at ht⟩

theorem removeHexahedron_integrity (m m1 : Hexa2TetraTopologicalMapping) (h : Nat)
    (hm : CorrespondenceIntegrity m)
    (hrun : Hexa2TetraTopologicalMapping.removeHexahedron m h = some m1) :
    CorrespondenceIntegrity m1 := by
  obtain ⟨hlen, hP⟩ := hm
  unfold Hexa2TetraTopologicalMapping.removeHexahedron at hrun
  by_cases hh : h < m.hexahedra.length
  · rw [if_pos hh] at hrun
    have hm1 := Option.some.inj hrun
    obtain ⟨q1, q2, q3⟩ := removeTetrahedraOf_spec m.hexahedra h m.correspondence.length
      m.tetrahedra m.correspondence (Nat.le_refl _) hlen hP
      (fun j hj => by rw [List.getElem?_eq_none hj]; simp)
    rw [← hm1]
    unfold CorrespondenceIntegrity
    simp only
    refine ⟨by rw [List.length_map]; exact q1, fun t tet ht => ?_⟩
    obtain ⟨x, hx1, hx2⟩ := q2 t tet ht
    have hxl : x < m.hexahedra.length := (List.getElem?_eq_some.1 hx2).1
    have hxh : x ≠ h := fun hxe => q3 t (hxe ▸ hx1)
    rw [List.getElem?_map, hx1]
    by_cases hlast : x = m.hexahedra.length - 1
    · refine ⟨h, by simp [hlast], ?_⟩
      rw [swapRemove_getElem? _ _ _ hh, if_pos (by omega), if_pos rfl, ← hlast]
      exact hx2
    · refine ⟨x, by simp [hlast], ?_⟩
      rw [swapRemove_getElem? _ _ _ hh, if_pos (by omega), if_neg hxh]
      exact hx2
  · rw [if_neg hh] at hrun
    exact absurd hrun (by simp)

theorem updateAll_integrity (slots : Nat) :
    ∀ (changes : List CoarseChange) (m m1 : Hexa2TetraTopologicalMapping),
      CorrespondenceIntegrity m →
      Hexa2TetraTopologicalMapping.updateAll slots m changes = some m1 →
      CorrespondenceIntegrity m1 := by
  intro changes
  induction changes with
  | nil =>
    intro m m1 hm hrun
    have := Option.some.inj hrun
    rw [← this]
    exact hm
  | cons c rest ih =>
    intro m m1 hm hrun
    unfold Hexa2TetraTopologicalMapping.updateAll at hrun
    cases hc : Hexa2TetraTopologicalMapping.update slots m c with
    | none =>
      rw [hc] at hrun
      exact absurd hrun (by simp)
    | some m2 =>
      rw [hc] at hrun
      simp only at hrun
      refine ih m2 m1 ?_ hrun
      cases c with
      | added h =>
        have := Option.some.inj hc
        rw [← this]
        exact addHexahedron_integrity slots m h hm
      | removed index => exact removeHexahedron_integrity m m2 index hm hc

/-! ## Facts on the removal of points -/

theorem endpointCount_of_getElem? (edges : List Edge) (j p : Nat) (e : Edge)
    (h : edges[j]? = some e) :
    endpointCount edges j p = (if e.1 = p then 1 else 0) + (if e.2 = p then 1 else 0) := by
  unfold endpointCount
  rw [h]

theorem renameEndpoint_of_not_endpoint (L idx : Nat) (e : Edge)
    (h1 : e.1 ≠ L) (h2 : e.2 ≠ L) : renameEndpoint L idx e = e := by
  unfold renameEndpoint
  rw [if_neg h1, if_neg h2]

theorem relinkEdges_spec (L idx : Nat) (hne : idx ≠ L) :
    ∀ (sh : List Nat) (edges : List Edge),
      (∀ j ∈ sh, j < edges.length) →
      (∀ j : Nat, j < edges.length → sh.count j = endpointCount edges j L) →
      EdgeSetTopologyModifier.relinkEdges L idx edges sh
        = some (edges.map (renameEndpoint L idx)) := by
  intro sh
  induction sh with
  | nil =>
    intro edges _ hcount
    unfold EdgeSetTopologyModifier.relinkEdges
    have : edges.map (renameEndpoint L idx) = edges := by
      conv_rhs => rw [← List.map_id edges]
      apply List.map_congr_left
      intro e he
      obtain ⟨j, hj⟩ := List.mem_iff_getElem?.1 he
      have hjl : j < edges.length := (List.getElem?_eq_some.1 hj).1
      have h0 := hcount j hjl
      rw [endpointCount_of_getElem? edges j L e hj, List.count_nil] at h0
      have h1 : e.1 ≠ L := by
        intro h
        rw [if_pos h] at h0
        omega
      have h2 : e.2 ≠ L := by
        intro h
        rw [if_pos h] at h0
        omega
      exact renameEndpoint_of_not_endpoint L idx e h1 h2
    rw [this]
  | cons j rest ih =>
    intro edges hrange hcount
    have hjl : j < edges.length := hrange j (List.mem_cons_self _ _)
    obtain ⟨e, he⟩ : ∃ e, edges[j]? = some e := ⟨_, List.getElem?_eq_getElem hjl⟩
    have hcj := hcount j hjl
    rw [endpointCount_of_getElem? edges j L e he, List.count_cons_self] at hcj
    unfold EdgeSetTopologyModifier.relinkEdges
    rw [he]
    simp only
    obtain ⟨e1, he1⟩ : ∃ e1 : Edge, e1 = (if e.1 = L then (idx, e.2) else (e.1, idx)) :=
      ⟨_, rfl⟩
    rw [← he1]
    have hren : renameEndpoint L idx e1 = renameEndpoint L idx e := by
      rw [he1]
      unfold renameEndpoint
      by_cases h1 : e.1 = L
      · rw [if_pos h1]
        simp only [if_neg hne, if_pos h1]
      · rw [if_neg h1]
        have h2 : e.2 = L := by
          by_contra h2
          rw [if_neg h1, if_neg h2] at hcj
          omega
        simp only [if_neg h1, if_neg hne, if_pos h2]
    have hcnt1 : (if e1.1 = L then 1 else 0) + (if e1.2 = L then 1 else 0) = rest.count j := by
      rw [he1]
      by_cases h1 : e.1 = L
      · rw [if_pos h1] at hcj ⊢
        by_cases h2 : e.2 = L
        · rw [if_pos h2] at hcj
          simp only [if_neg hne, if_pos h2]
          omega
        · rw [if_neg h2] at hcj
          simp only [if_neg hne, if_neg h2]
          omega
      · rw [if_neg h1] at hcj ⊢
        by_cases h2 : e.2 = L
        · rw [if_pos h2] at hcj
          simp only [if_neg h1, if_neg hne]
          omega
        · rw [if_neg h2] at hcj
          omega
    have hlen : (edges.set j e1).length = edges.length := List.length_set _ _ _
    rw [ih (edges.set j e1)
      (fun k hk => by rw [hlen]; exact hrange k (List.mem_cons_of_mem _ hk))
      (fun k hk => by
        rw [hlen] at hk
        by_cases hkj : k = j
        · rw [hkj]
          have : (edges.set j e1)[j]? = some e1 := by
            rw [List.getElem?_set_self hjl]
          rw [endpointCount_of_getElem? _ j L e1 this]
          exact hcnt1.symm
        · have h1 : (edges.set j e1)[k]? = edges[k]? := by
            rw [List.getElem?_set_ne (Ne.symm hkj)]
          have h2 := hcount k hk
          rw [List.count_cons_of_ne hkj] at h2
          unfold endpointCount at h2 ⊢
          rw [h1]
          exact h2)]
    congr 1
    apply List.ext_getElem?
    intro k
    rw [List.getElem?_map, List.getElem?_map]
    by_cases hkj : k = j
    · rw [hkj, List.getElem?_set_self hjl, he]
      simp only [Option.map_some']
      rw [hren]
    · rw [List.getElem?_set_ne (Ne.symm hkj)]

theorem renameEndpoint_fst_eq (L idx p : Nat) (e : Edge) (hiso : e.1 ≠ idx) (hpL : p ≠ L) :
    ((renameEndpoint L idx e).1 = p) ↔ (if p = idx then e.1 = L else e.1 = p) := by
  unfold renameEndpoint
  simp only
  by_cases h1 : e.1 = L
  · rw [if_pos h1]
    by_cases h2 : p = idx
    · rw [if_pos h2]
      exact ⟨fun _ => h1, fun _ => h2.symm⟩
    · rw [if_neg h2]
      exact ⟨fun h => absurd h.symm h2, fun h => absurd (h.symm.trans h1) hpL⟩
  · rw [if_neg h1]
    by_cases h2 : p = idx
    · rw [if_pos h2]
      exact ⟨fun h => absurd (h.trans h2) hiso, fun h => absurd h h1⟩
    · rw [if_neg h2]

theorem renameEndpoint_snd_eq (L idx p : Nat) (e : Edge) (hiso : e.2 ≠ idx) (hpL : p ≠ L) :
    ((renameEndpoint L idx e).2 = p) ↔ (if p = idx then e.2 = L else e.2 = p) := by
  unfold renameEndpoint
  simp only
  by_cases h1 : e.2 = L
  · rw [if_pos h1]
    by_cases h2 : p = idx
    · rw [if_pos h2]
      exact ⟨fun _ => h1, fun _ => h2.symm⟩
    · rw [if_neg h2]
      exact ⟨fun h => absurd h.symm h2, fun h => absurd (h.symm.trans h1) hpL⟩
  · rw [if_neg h1]
    by_cases h2 : p = idx
    · rw [if_pos h2]
      exact ⟨fun h => absurd (h.trans h2) hiso, fun h => absurd h h1⟩
    · rw [if_neg h2]

theorem endpointCount_rename (edges : List Edge) (L idx p j : Nat)
    (hiso : Isolated edges idx) (hpL : p ≠ L) :
    endpointCount (edges.map (renameEndpoint L idx)) j p
      = if p = idx then endpointCount edges j L else endpointCount edges j p := by
  unfold endpointCount
  rw [List.getElem?_map]
  cases he : edges[j]? with
  | none => simp
  | some e =>
    have hmem : e ∈ edges := List.mem_iff_getElem?.2 ⟨j, he⟩
    obtain ⟨i1, i2⟩ := hiso e hmem
    simp only [Option.map_some']
    have a1 := renameEndpoint_fst_eq L idx p e i1 hpL
    have a2 := renameEndpoint_snd_eq L idx p e i2 hpL
    by_cases h2 : p = idx
    · rw [if_pos h2] at a1 a2 ⊢
      simp only [a1, a2]
    · rw [if_neg h2] at a1 a2 ⊢
      simp only [a1, a2]

theorem removePointsLoop_spec :
    ∀ (indices : List Nat) (cnt : Nat) (c : EdgeSetTopologyContainer),
      indices.Pairwise (fun a b => b < a) → (∀ i ∈ indices, i < cnt) →
      (∀ i ∈ indices, Isolated c.d_edge i) →
      RemovalInv cnt c →
      ∃ c1, EdgeSetTopologyModifier.removePointsLoop indices (decr cnt) c = some c1
        ∧ c1.d_edge = c.d_edge.map (fun e =>
            (newPointIndex indices (cnt - 1) e.1, newPointIndex indices (cnt - 1) e.2))
        ∧ RemovalInv (cnt - indices.length) c1
        ∧ c1.nbPoints = c.nbPoints
        ∧ c1.m_edgesAroundVertex.length = c.m_edgesAroundVertex.length
        ∧ c1.m_changeList = c.m_changeList
        ∧ c1.m_edgeTopologyDirty = c.m_edgeTopologyDirty := by
  intro indices
  induction indices with
  | nil =>
    intro cnt c _ _ _ hinv
    refine ⟨c, rfl, ?_, hinv, rfl, rfl, rfl, rfl⟩
    simp [newPointIndex]
  | cons idx rest ih =>
    intro cnt c hpair hlt hiso hinv
    obtain ⟨hp1, hp2⟩ := List.pairwise_cons.1 hpair
    have hidx : idx < cnt := hlt idx (List.mem_cons_self _ _)
    have hisoidx : Isolated c.d_edge idx := hiso idx (List.mem_cons_self _ _)
    obtain ⟨hlen, hvalid, hsh⟩ := hinv
    obtain ⟨L, hL⟩ : ∃ L, L = cnt - 1 := ⟨_, rfl⟩
    have hdecr : decr cnt = L := by
      unfold decr
      rw [if_neg (by omega), hL]
    have hLc : L < cnt := by omega
    obtain ⟨shellLast, hshL⟩ : ∃ sh, c.m_edgesAroundVertex[L]? = some sh :=
      ⟨_, List.getElem?_eq_getElem (by omega)⟩
    have hgdL : c.m_edgesAroundVertex.getD L [] = shellLast := by
      simp [List.getD_eq_getElem?_getD, hshL]
    obtain ⟨hLentries, hLcount⟩ := hsh L hLc
    rw [hgdL] at hLentries hLcount
    have hrel : EdgeSetTopologyModifier.relinkEdges L idx c.d_edge shellLast
        = some (c.d_edge.map (renameEndpoint L idx)) := by
      by_cases hne : idx = L
      · have hempty : shellLast = [] := by
          apply List.eq_nil_iff_forall_not_mem.2
          intro j hj
          have hjl := hLentries j hj
          have hc := hLcount j hjl
          have hpos : 0 < shellLast.count j := List.count_pos_iff.2 hj
          obtain ⟨e, he⟩ : ∃ e, c.d_edge[j]? = some e := ⟨_, List.getElem?_eq_getElem hjl⟩
          obtain ⟨i1, i2⟩ := hisoidx e (List.mem_iff_getElem?.2 ⟨j, he⟩)
          rw [endpointCount_of_getElem? _ j L e he, ← hne, if_neg i1, if_neg i2] at hc
          omega
        rw [hempty]
        unfold EdgeSetTopologyModifier.relinkEdges
        have : c.d_edge.map (renameEndpoint L idx) = c.d_edge := by
          conv_rhs => rw [← List.map_id c.d_edge]
          apply List.map_congr_left
          intro e he
          obtain ⟨i1, i2⟩ := hisoidx e he
          exact renameEndpoint_of_not_endpoint L idx e (hne ▸ i1) (hne ▸ i2)
        rw [this]
      · exact relinkEdges_spec L idx hne shellLast c.d_edge hLentries hLcount
    have hidxlen : idx < c.m_edgesAroundVertex.length := by omega
    obtain ⟨c2, hc2⟩ : ∃ c2 : EdgeSetTopologyContainer,
        c2 = { c with d_edge := c.d_edge.map (renameEndpoint L idx),
                      m_edgesAroundVertex := c.m_edgesAroundVertex.set idx shellLast } :=
      ⟨_, rfl⟩
    have hc2e : c2.d_edge = c.d_edge.map (renameEndpoint L idx) := by rw [hc2]
    have hc2s : c2.m_edgesAroundVertex = c.m_edgesAroundVertex.set idx shellLast := by rw [hc2]
    have hrestlt : ∀ i ∈ rest, i < L := by
      intro i hi
      have := hp1 i hi
      omega
    have hiso2 : ∀ i ∈ rest, Isolated c2.d_edge i := by
      intro i hi e he
      rw [hc2e] at he
      obtain ⟨e0, he0, hr⟩ := List.mem_map.1 he
      obtain ⟨i1, i2⟩ := hiso i (List.mem_cons_of_mem _ hi) e0 he0
      have hii : i < idx := hp1 i hi
      rw [← hr]
      unfold renameEndpoint
      constructor
      · simp only
        split
        · exact Nat.ne_of_gt hii
        · exact i1
      · simp only
        split
        · exact Nat.ne_of_gt hii
        · exact i2
    have hinv2 : RemovalInv L c2 := by
      have hcnt : cnt = L + 1 := by omega
      refine ⟨?_, ?_, ?_⟩
      · rw [hc2s, List.length_set]
        omega
      · intro e he
        rw [hc2e] at he
        obtain ⟨e0, he0, hr⟩ := List.mem_map.1 he
        obtain ⟨i1, i2⟩ := hisoidx e0 he0
        obtain ⟨v1, v2⟩ := hvalid e0 he0
        rw [← hr]
        unfold renameEndpoint
        constructor
        · simp only
          split
          · rename_i h1
            have : idx ≠ L := fun h => i1 (h1.trans h.symm)
            exact Nat.lt_of_le_of_ne (by omega) this
          · rename_i h1
            exact Nat.lt_of_le_of_ne (Nat.le_of_lt_succ (Nat.lt_of_lt_of_le v1 (Nat.le_of_eq hcnt))) h1
        · simp only
          split
          · rename_i h1
            have : idx ≠ L := fun h => i2 (h1.trans h.symm)
            exact Nat.lt_of_le_of_ne (by omega) this
          · rename_i h1
            exact Nat.lt_of_le_of_ne (Nat.le_of_lt_succ (Nat.lt_of_lt_of_le v2 (Nat.le_of_eq hcnt))) h1
      · intro p hp
        have hpL : p ≠ L := by omega
        have hshell : c2.m_edgesAroundVertex.getD p []
            = if p = idx then shellLast else c.m_edgesAroundVertex.getD p [] := by
          rw [hc2s, List.getD_eq_getElem?_getD, List.getElem?_set]
          by_cases hpi : p = idx
          · rw [if_pos hpi.symm, if_pos hpi, if_pos hidxlen]
            rfl
          · rw [if_neg (Ne.symm hpi), if_neg hpi, List.getD_eq_getElem?_getD]
        obtain ⟨hpe, hpc⟩ := hsh p (by omega)
        rw [hshell, hc2e, List.length_map]
        constructor
        · intro j hj
          by_cases hpi : p = idx
          · rw [if_pos hpi] at hj
            exact hLentries j hj
          · rw [if_neg hpi] at hj
            exact hpe j hj
        · intro j hj
          rw [endpointCount_rename c.d_edge L idx p j hisoidx hpL]
          by_cases hpi : p = idx
          · rw [if_pos hpi, if_pos hpi]
            exact hLcount j hj
          · rw [if_neg hpi, if_neg hpi]
            exact hpc j hj
    obtain ⟨c1, hrun, hedges, hinv1, hn1, hl1, hq1, hd1⟩ := ih L c2 hp2 hrestlt hiso2 hinv2
    refine ⟨c1, ?_, ?_, ?_, ?_, ?_, ?_, ?_⟩
    · unfold EdgeSetTopologyModifier.removePointsLoop
      rw [hdecr, hshL]
      simp only
      rw [hrel]
      simp only
      rw [if_pos hidxlen, ← hc2]
      exact hrun
    · rw [hedges, hc2e, List.map_map, ← hL]
      apply List.map_congr_left
      intro e _
      simp only [Function.comp, renameEndpoint, newPointIndex]
    · have : cnt - (idx :: rest).length = L - rest.length := by
        simp only [List.length_cons]
        omega
      rw [this]
      exact hinv1
    · rw [hn1, hc2]
    · rw [hl1, hc2s, List.length_set]
    · rw [hq1, hc2]
    · rw [hd1, hc2]

theorem newPointIndex_below :
    ∀ (indices : List Nat) (lastPoint q : Nat), q + indices.length ≤ lastPoint →
      newPointIndex indices lastPoint q = q := by
  intro indices
  induction indices with
  | nil => intro _ _ _; rfl
  | cons idx rest ih =>
    intro lastPoint q h
    simp only [List.length_cons] at h
    unfold newPointIndex
    rw [if_neg (by omega)]
    exact ih (lastPoint - 1) q (by omega)

theorem newPointIndex_lt :
    ∀ (indices : List Nat) (cnt q : Nat), indices.Pairwise (fun a b => b < a) →
      (∀ i ∈ indices, i < cnt) → q < cnt → q ∉ indices →
      newPointIndex indices (cnt - 1) q < cnt - indices.length := by
  intro indices
  induction indices with
  | nil =>
    intro cnt q _ _ hq _
    simpa [newPointIndex] using hq
  | cons idx rest ih =>
    intro cnt q hpair hlt hq hmem
    obtain ⟨hp1, hp2⟩ := List.pairwise_cons.1 hpair
    have hidx : idx < cnt := hlt idx (List.mem_cons_self _ _)
    have hqi : q ≠ idx := fun h => hmem (h ▸ List.mem_cons_self _ _)
    have hqr : q ∉ rest := fun h => hmem (List.mem_cons_of_mem _ h)
    unfold newPointIndex
    have hrest : ∀ i ∈ rest, i < cnt - 1 := by
      intro i hi
      have := hp1 i hi
      omega
    have key : newPointIndex rest (cnt - 1 - 1) (if q = cnt - 1 then idx else q)
        < cnt - 1 - rest.length := by
      apply ih (cnt - 1) _ hp2 hrest
      · by_cases h : q = cnt - 1
        · rw [if_pos h]
          omega
        · rw [if_neg h]
          omega
      · by_cases h : q = cnt - 1
        · rw [if_pos h]
          intro hin
          have := hp1 idx hin
          omega
        · rw [if_neg h]
          exact hqr
    simp only [List.length_cons]
    omega

theorem ShellCounts.exact {c : EdgeSetTopologyContainer} (h : ShellCounts c) :
    ShellExact c := by
  obtain ⟨hlen, hc⟩ := h
  rw [ShellExact_iff]
  refine ⟨hlen, fun p hp j => ?_⟩
  obtain ⟨h1, h2⟩ := hc p hp
  constructor
  · intro hj
    have hjl := h1 j hj
    have hcount := h2 j hjl
    have hpos : 0 < (c.m_edgesAroundVertex.getD p []).count j := List.count_pos_iff.2 hj
    obtain ⟨e, he⟩ : ∃ e, c.d_edge[j]? = some e := ⟨_, List.getElem?_eq_getElem hjl⟩
    rw [endpointCount_of_getElem? _ j p e he] at hcount
    refine ⟨e, he, ?_⟩
    by_contra hcon
    rw [not_or] at hcon
    rw [if_neg hcon.1, if_neg hcon.2] at hcount
    omega
  · rintro ⟨e, he, hep⟩
    have hjl : j < c.d_edge.length := (List.getElem?_eq_some.1 he).1
    have hcount := h2 j hjl
    rw [endpointCount_of_getElem? _ j p e he] at hcount
    apply List.count_pos_iff.1
    rcases hep with h3 | h3
    · rw [if_pos h3] at hcount
      omega
    · rw [if_pos h3] at hcount
      omega

/-! ## Facts on requests that also remove the isolated points -/

theorem eraseAll_nodup (l : List Nat) (v : Nat) (h : l.Nodup) : (eraseAll l v).Nodup := by
  unfold eraseAll
  exact h.filter _

theorem replaceAll_nodup (l : List Nat) (a b : Nat) (h : l.Nodup) (hb : b ∉ l) :
    (replaceAll l a b).Nodup := by
  unfold replaceAll
  apply List.Nodup.map_on _ h
  intro x hx y hy hxy
  by_cases h1 : x = a
  · by_cases h2 : y = a
    · rw [h1, h2]
    · rw [if_pos h1, if_neg h2] at hxy
      exact absurd (hxy ▸ hy) hb
  · by_cases h2 : y = a
    · rw [if_neg h1, if_pos h2] at hxy
      exact absurd (hxy.symm ▸ hx) hb
    · rw [if_neg h1, if_neg h2] at hxy
      exact hxy

theorem removeEdgeAt_nodup (rii : Bool) (c : EdgeSetTopologyContainer) (index : Nat)
    (v : List PointID) (c1 : EdgeSetTopologyContainer) (v1 : List PointID)
    (hinv : ShellConsistent c) (hnodup : ∀ sh ∈ c.m_edgesAroundVertex, sh.Nodup)
    (hi : index < c.d_edge.length)
    (hstep : EdgeSetTopologyModifier.removeEdgeAt rii c index (c.d_edge.length - 1) v
      = some (c1, v1)) :
    ∀ sh ∈ c1.m_edgesAroundVertex, sh.Nodup := by
  obtain ⟨hcons, hvalid⟩ := hinv
  obtain ⟨hlenS, hmem⟩ := (ShellExact_iff c).1 hcons
  have hcov : ShellCovers c := by
    intro _ e he
    rw [hlenS]
    exact hvalid e he
  have hlast : c.d_edge.length - 1 < c.d_edge.length := by omega
  obtain ⟨e, he⟩ : ∃ e, c.d_edge[index]? = some e := ⟨_, List.getElem?_eq_getElem hi⟩
  obtain ⟨q, hq⟩ : ∃ q, c.d_edge[c.d_edge.length - 1]? = some q :=
    ⟨_, List.getElem?_eq_getElem hlast⟩
  obtain ⟨shells, v2, hspec, hlen, hshell, -, -⟩ :=
    removeEdgeAt_spec rii c index (c.d_edge.length - 1) v e q he hq hcov
  rw [hspec] at hstep
  have hc1 := (Prod.mk.inj (Option.some.inj hstep)).1
  subst hc1
  intro sh hsh
  simp only at hsh
  obtain ⟨p, hp⟩ := List.mem_iff_getElem?.1 hsh
  have hpl : p < shells.length := (List.getElem?_eq_some.1 hp).1
  have hgd : shells.getD p [] = sh := by
    simp [List.getD_eq_getElem?_getD, hp]
  have hpn : p < c.nbPoints := by
    rw [← hlenS, ← hlen]
    exact hpl
  have hold : (c.m_edgesAroundVertex.getD p []).Nodup := by
    have hpo : p < c.m_edgesAroundVertex.length := by rw [← hlen]; exact hpl
    have : c.m_edgesAroundVertex.getD p [] = c.m_edgesAroundVertex[p] := by
      simp [List.getD_eq_getElem?_getD, List.getElem?_eq_getElem hpo]
    rw [this]
    exact hnodup _ (List.getElem_mem _)
  rw [← hgd, hshell p]
  unfold shellAfterRemoval
  simp only
  have hb : (if p = e.1 ∨ p = e.2 then eraseAll (c.m_edgesAroundVertex.getD p []) index
      else c.m_edgesAroundVertex.getD p []).Nodup := by
    split
    · exact eraseAll_nodup _ _ hold
    · exact hold
  have hnot : index ∉ (if p = e.1 ∨ p = e.2
      then eraseAll (c.m_edgesAroundVertex.getD p []) index
      else c.m_edgesAroundVertex.getD p []) := by
    split
    · intro h
      exact ((mem_eraseAll _ _ _).1 h).2 rfl
    · rename_i hne
      intro h
      obtain ⟨e', he', hp'⟩ := (hmem p hpn index).1 h
      rw [he] at he'
      have := Option.some.inj he'
      subst this
      rcases hp' with h1 | h1
      · exact hne (Or.inl h1.symm)
      · exact hne (Or.inr h1.symm)
  split
  · exact replaceAll_nodup _ _ _ hb hnot
  · exact hb

theorem removalInv_of_consistent (c : EdgeSetTopologyContainer)
    (hcons : ShellConsistent c) (hnd : NonDegenerate c)
    (hnodup : ∀ sh ∈ c.m_edgesAroundVertex, sh.Nodup) :
    RemovalInv c.nbPoints c := by
  obtain ⟨hexact, hvalid⟩ := hcons
  obtain ⟨hlenS, hmem⟩ := (ShellExact_iff c).1 hexact
  refine ⟨by omega, hvalid, fun p hp => ⟨fun j hj => ?_, fun j hj => ?_⟩⟩
  · obtain ⟨e, he, -⟩ := (hmem p hp j).1 hj
    exact (List.getElem?_eq_some.1 he).1
  · obtain ⟨e, he⟩ : ∃ e, c.d_edge[j]? = some e := ⟨_, List.getElem?_eq_getElem hj⟩
    have hne : e.1 ≠ e.2 := hnd e (List.mem_iff_getElem?.2 ⟨j, he⟩)
    have hshnd : (c.m_edgesAroundVertex.getD p []).Nodup := by
      have hpo : p < c.m_edgesAroundVertex.length := by omega
      have : c.m_edgesAroundVertex.getD p [] = c.m_edgesAroundVertex[p] := by
        simp [List.getD_eq_getElem?_getD, List.getElem?_eq_getElem hpo]
      rw [this]
      exact hnodup _ (List.getElem_mem _)
    rw [endpointCount_of_getElem? _ j p e he]
    by_cases hin : j ∈ c.m_edgesAroundVertex.getD p []
    · rw [List.count_eq_one_of_mem hshnd hin]
      obtain ⟨e', he', hp'⟩ := (hmem p hp j).1 hin
      rw [he] at he'
      have := Option.some.inj he'
      subst this
      rcases hp' with h1 | h1
      · have h2 : e.2 ≠ p := fun h => hne (h1.trans h.symm)
        rw [if_pos h1, if_neg h2]
      · have h2 : e.1 ≠ p := fun h => hne (h.trans h1.symm)
        rw [if_neg h2, if_pos h1]
    · rw [List.count_eq_zero_of_not_mem hin]
      have h1 : e.1 ≠ p := fun h => hin ((hmem p hp j).2 ⟨e, he, Or.inl h⟩)
      have h2 : e.2 ≠ p := fun h => hin ((hmem p hp j).2 ⟨e, he, Or.inr h⟩)
      rw [if_neg h1, if_neg h2]

theorem ShellCounts.nodup {c : EdgeSetTopologyContainer} (h : ShellCounts c)
    (hnd : NonDegenerate c) : ∀ sh ∈ c.m_edgesAroundVertex, sh.Nodup := by
  obtain ⟨hlen, hc⟩ := h
  intro sh hsh
  obtain ⟨p, hp⟩ := List.mem_iff_getElem?.1 hsh
  have hpl : p < c.m_edgesAroundVertex.length := (List.getElem?_eq_some.1 hp).1
  have hgd : c.m_edgesAroundVertex.getD p [] = sh := by
    simp [List.getD_eq_getElem?_getD, hp]
  obtain ⟨h1, h2⟩ := hc p (by omega)
  rw [hgd] at h1 h2
  rw [List.nodup_iff_count_le_one]
  intro j
  by_cases hin : j ∈ sh
  · have hjl := h1 j hin
    rw [h2 j hjl]
    obtain ⟨e, he⟩ : ∃ e, c.d_edge[j]? = some e := ⟨_, List.getElem?_eq_getElem hjl⟩
    have hne : e.1 ≠ e.2 := hnd e (List.mem_iff_getElem?.2 ⟨j, he⟩)
    rw [endpointCount_of_getElem? _ j p e he]
    by_cases h3 : e.1 = p
    · have h4 : e.2 ≠ p := fun h => hne (h3.trans h.symm)
      rw [if_pos h3, if_neg h4]
    · rw [if_neg h3]
      split <;> omega
  · rw [List.count_eq_zero_of_not_mem hin]
    omega

theorem incidentEdges_nodup (edges : List Edge) (p : PointID) :
    (EdgeSetTopologyContainer.incidentEdges edges p).Nodup := by
  unfold EdgeSetTopologyContainer.incidentEdges
  exact (List.nodup_range _).filter _

theorem createEdgesAroundVertexArray_nodup (c : EdgeSetTopologyContainer) :
    ∀ sh ∈ c.createEdgesAroundVertexArray.m_edgesAroundVertex, sh.Nodup := by
  intro sh hsh
  unfold EdgeSetTopologyContainer.createEdgesAroundVertexArray at hsh
  simp only [List.mem_map] at hsh
  obtain ⟨p, -, hp⟩ := hsh
  rw [← hp]
  exact incidentEdges_nodup _ _

theorem removePointsProcess_relocates (s : EdgeSetTopologyModifier) (indices : List Nat)
    (removeDOF : Bool)
    (hslen : s.m_container.m_edgesAroundVertex.length = s.m_container.nbPoints)
    (hinv : RemovalInv s.m_container.nbPoints s.m_container)
    (hdesc : indices.Pairwise (fun a b => b < a))
    (hrange : ∀ i ∈ indices, i < s.m_container.nbPoints)
    (hiso : ∀ i ∈ indices, Isolated s.m_container.d_edge i) :
    ∃ s1, EdgeSetTopologyModifier.removePointsProcess s indices removeDOF = .done s1
      ∧ s1.m_container.d_edge = s.m_container.d_edge.map (fun e =>
          (newPointIndex indices (s.m_container.nbPoints - 1) e.1,
           newPointIndex indices (s.m_container.nbPoints - 1) e.2))
      ∧ s1.m_container.nbPoints = s.m_container.nbPoints - indices.length
      ∧ (∀ e ∈ s1.m_container.d_edge, e.1 < s.m_container.nbPoints - indices.length
          ∧ e.2 < s.m_container.nbPoints - indices.length)
      ∧ s1.trace = s.trace ∧ s1.messages = s.messages := by
  generalize hN : s.m_container.nbPoints = N at *
  by_cases hne : s.m_container.hasEdges = true
  · obtain ⟨c1, hrun, hedges, hinv1, hn1, hl1, -, -⟩ :=
      removePointsLoop_spec indices N s.m_container hdesc hrange hiso hinv
    obtain ⟨-, i2, -⟩ := hinv1
    have hklen : indices.length ≤ N :=
      nodup_length_le indices N (hdesc.imp (fun h => Nat.ne_of_gt h)) hrange
    have hNpos : 0 < N := by
      have hex : s.m_container.d_edge ≠ [] := by
        intro h
        rw [EdgeSetTopologyContainer.hasEdges, h] at hne
        exact absurd hne (by decide)
      obtain ⟨e, he⟩ := List.exists_mem_of_ne_nil _ hex
      have := (hinv.2.1 e he).1
      exact Nat.lt_of_le_of_lt (Nat.zero_le _) this
    have hbuilt : s.m_container.hasEdgesAroundVertex = true := by
      unfold EdgeSetTopologyContainer.hasEdgesAroundVertex
      cases hs : s.m_container.m_edgesAroundVertex with
      | nil =>
        rw [hs] at hslen
        simp only [List.length_nil] at hslen
        omega
      | cons a l => rfl
    refine ⟨{ s with m_container :=
        { c1 with m_edgesAroundVertex := resize c1.m_edgesAroundVertex
                    (c1.m_edgesAroundVertex.length - indices.length) [],
                  nbPoints := c1.nbPoints - indices.length } }, ?_, hedges, ?_, ?_, rfl, rfl⟩
    · unfold EdgeSetTopologyModifier.removePointsProcess
      simp only [hne, hbuilt, if_true, Bool.not_true, Bool.false_eq_true, if_false,
        EdgeSetTopologyContainer.getNbPoints, hN, hrun]
      rw [if_pos (by rw [hl1, hslen]; exact hklen)]
    · show c1.nbPoints - indices.length = N - indices.length
      rw [hn1, hN]
    · intro e he
      exact i2 e he
  · have hnil : s.m_container.d_edge = [] := by
      cases h : s.m_container.d_edge with
      | nil => rfl
      | cons a b =>
        exfalso
        apply hne
        rw [EdgeSetTopologyContainer.hasEdges, h]
        rfl
    refine ⟨{ s with m_container :=
        { s.m_container with nbPoints := s.m_container.nbPoints - indices.length } },
      ?_, ?_, ?_, ?_, rfl, rfl⟩
    · unfold EdgeSetTopologyModifier.removePointsProcess
      simp only [hne, Bool.false_eq_true, if_false]
    · show s.m_container.d_edge = _
      rw [hnil]
      rfl
    · show s.m_container.nbPoints - indices.length = N - indices.length
      rw [hN]
    · intro e he
      have : e ∈ s.m_container.d_edge := he
      rw [hnil] at this
      cases this

theorem RemovalInv_congr (n : Nat) (c c1 : EdgeSetTopologyContainer)
    (h1 : c1.d_edge = c.d_edge) (h2 : c1.m_edgesAroundVertex = c.m_edgesAroundVertex)
    (h : RemovalInv n c) : RemovalInv n c1 := by
  unfold RemovalInv at *
  rw [h1, h2]
  exact h

theorem removeEdgesProcess_isolated_spec (s : EdgeSetTopologyModifier) (ids : List Nat)
    (dof : Bool)
    (hvalid : ValidEdges s.m_container) (hnd : NonDegenerate s.m_container)
    (hshell : s.m_container.hasEdgesAroundVertex = true → ShellCounts s.m_container)
    (hids : ids.Nodup) (hr : ∀ i ∈ ids, i < s.m_container.d_edge.length) :
    ∃ (s1 : EdgeSetTopologyModifier) (remaining : List Edge) (removedPoints : List Nat),
      EdgeSetTopologyModifier.removeEdgesProcess s (sortDescending ids) true dof = .done s1
      ∧ (remaining ++ ids.filterMap (fun i => s.m_container.d_edge[i]?)).Perm
          s.m_container.d_edge
      ∧ removedPoints.Pairwise (fun a b => b < a)
      ∧ (∀ p : Nat, p ∈ removedPoints
          ↔ EndpointOfListed s.m_container.d_edge ids p ∧ Isolated remaining p)
      ∧ s1.m_container.d_edge = remaining.map (fun e =>
          (newPointIndex removedPoints (s.m_container.nbPoints - 1) e.1,
           newPointIndex removedPoints (s.m_container.nbPoints - 1) e.2))
      ∧ s1.m_container.nbPoints = s.m_container.nbPoints - removedPoints.length
      ∧ ValidEdges s1.m_container := by
  have hsorted := sortDescending_strict ids hids
  have hperm_ids := sortDescending_perm ids
  have hendp : ∀ p : Nat, EndpointOfListed s.m_container.d_edge (sortDescending ids) p
      ↔ EndpointOfListed s.m_container.d_edge ids p := by
    intro p
    unfold EndpointOfListed
    constructor
    · rintro ⟨i, hi, h⟩
      exact ⟨i, hperm_ids.mem_iff.1 hi, h⟩
    · rintro ⟨i, hi, h⟩
      exact ⟨i, hperm_ids.mem_iff.2 hi, h⟩
  by_cases hne : s.m_container.hasEdges = true
  · obtain ⟨c0, hc0⟩ : ∃ c0, c0 = (if true && !s.m_container.hasEdgesAroundVertex
      then s.m_container.createEdgesAroundVertexArray else s.m_container) := ⟨_, rfl⟩
    have h0_edges : c0.d_edge = s.m_container.d_edge := by
      rw [hc0]; split_ifs <;> rfl
    have h0_nb : c0.nbPoints = s.m_container.nbPoints := by
      rw [hc0]; split_ifs <;> rfl
    have h0 : ShellConsistent c0 ∧ ∀ sh ∈ c0.m_edgesAroundVertex, sh.Nodup := by
      rw [hc0]
      split_ifs with h
      · exact ⟨⟨createEdgesAroundVertexArray_exact _, hvalid⟩,
          createEdgesAroundVertexArray_nodup _⟩
      · have hb : s.m_container.hasEdgesAroundVertex = true := by
          cases hs : s.m_container.hasEdgesAroundVertex
          · rw [hs] at h; simp at h
          · rfl
        exact ⟨⟨(hshell hb).exact, hvalid⟩, (hshell hb).nodup hnd⟩
    have h0_nd : NonDegenerate c0 := by
      intro e he
      rw [h0_edges] at he
      exact hnd e he
    have h0_range : ∀ i ∈ sortDescending ids, i < c0.d_edge.length := by
      intro i hi
      rw [h0_edges]
      exact hr i (hperm_ids.mem_iff.1 hi)
    obtain ⟨c1, v, hloop, hvnd, hiff⟩ := removeEdgesLoop_queue (sortDescending ids) c0 []
      hsorted h0_range h0.1 h0_nd List.nodup_nil (fun p hp => by cases hp)
    obtain ⟨c1', v1', hloop', -, hperm, -, hnb1, -, -, -, -, -, hinv1⟩ :=
      removeEdgesLoop_spec true
        (fun c => ShellConsistent c ∧ ∀ sh ∈ c.m_edgesAroundVertex, sh.Nodup)
        (fun c index v c1 v1 hI hi hstep =>
          ⟨removeEdgeAt_consistent true c index v c1 v1 hI.1 hi hstep,
           removeEdgeAt_nodup true c index v c1 v1 hI.1 hI.2 hi hstep⟩)
        (sortDescending ids) c0 [] hsorted h0_range h0.1.covers h0
    rw [hloop] at hloop'
    simp only [Option.some.injEq, Prod.mk.injEq] at hloop'
    rw [← hloop'.1] at hperm hnb1 hinv1
    rw [h0_edges] at hperm hloop hiff
    rw [h0_nb] at hnb1
    have hperm1 : (c1.d_edge ++ ids.filterMap (fun i => s.m_container.d_edge[i]?)).Perm
        s.m_container.d_edge :=
      (List.Perm.append_left _ (List.Perm.filterMap _ hperm_ids).symm).trans hperm
    have h1_nd : NonDegenerate c1 := by
      intro e he
      exact hnd e (hperm1.mem_iff.1 (List.mem_append_left _ he))
    have hmem : ∀ p : Nat, p ∈ sortDescending v
        ↔ EndpointOfListed s.m_container.d_edge ids p ∧ Isolated c1.d_edge p := by
      intro p
      rw [(sortDescending_perm v).mem_iff, hiff p, hendp p]
      simp
    have hrun0 : EdgeSetTopologyModifier.removeEdgesProcess s (sortDescending ids) true dof
        = (if v.isEmpty then .done { s with m_container := c1 }
          else EdgeSetTopologyModifier.removePointsProcess
            (EdgeSetTopologyModifier.propagateTopologicalChanges
              (EdgeSetTopologyModifier.removePointsWarning { s with m_container := c1 } v).1)
            (EdgeSetTopologyModifier.removePointsWarning { s with m_container := c1 } v).2
            dof) := by
      unfold EdgeSetTopologyModifier.removeEdgesProcess
      simp only [hne, Bool.not_true, Bool.false_eq_true, if_false, ← hc0,
        EdgeSetTopologyContainer.getNumberOfEdges, h0_edges, hloop]
      cases v <;> rfl
    have hinvR : RemovalInv c1.nbPoints c1 :=
      removalInv_of_consistent c1 hinv1.1 h1_nd hinv1.2
    cases hv : v with
    | nil =>
      rw [hv] at hrun0 hmem
      refine ⟨{ s with m_container := c1 }, c1.d_edge, [], hrun0, hperm1, List.Pairwise.nil,
        ?_, ?_, ?_, ?_⟩
      · intro p
        have := hmem p
        simpa [sortDescending] using this
      · show c1.d_edge = _
        simp [newPointIndex]
      · show c1.nbPoints = _
        rw [hnb1]
        rfl
      · exact hinv1.1.2
    | cons a rest =>
      have hve : v.isEmpty = false := by rw [hv]; rfl
      rw [hve] at hrun0
      simp only [Bool.false_eq_true, if_false] at hrun0
      obtain ⟨p1, p2, p3, p4, p5, -⟩ := propagate_container
        (EdgeSetTopologyModifier.removePointsWarning { s with m_container := c1 } v).1 true
      simp only [if_true] at p1 p2 p3 p4 p5
      generalize EdgeSetTopologyModifier.propagateTopologicalChanges
        (EdgeSetTopologyModifier.removePointsWarning { s with m_container := c1 } v).1 = sp
        at hrun0 p1 p2 p3 p4 p5
      have q1 : sp.m_container.d_edge = c1.d_edge := p1
      have q2 : sp.m_container.m_edgesAroundVertex = c1.m_edgesAroundVertex := p2
      have q3 : sp.m_container.nbPoints = c1.nbPoints := p3
      have hslen : sp.m_container.m_edgesAroundVertex.length = sp.m_container.nbPoints := by
        rw [q2, q3]
        exact hinv1.1.1.1
      have hinvS : RemovalInv sp.m_container.nbPoints sp.m_container := by
        rw [q3]
        exact RemovalInv_congr _ c1 _ q1 q2 hinvR
      have hrangeP : ∀ i ∈ sortDescending v, i < sp.m_container.nbPoints := by
        intro i hi
        rw [q3, hnb1]
        obtain ⟨⟨j, -, e, he, hep⟩, -⟩ := (hmem i).1 hi
        have hem : e ∈ s.m_container.d_edge := List.mem_iff_getElem?.2 ⟨j, he⟩
        obtain ⟨v1, v2⟩ := hvalid e hem
        rcases hep with h | h
        · exact h ▸ v1
        · exact h ▸ v2
      have hisoP : ∀ i ∈ sortDescending v, Isolated sp.m_container.d_edge i := by
        intro i hi
        rw [q1]
        exact ((hmem i).1 hi).2
      obtain ⟨s1, hrun1, hedges1, hnb, hval1, -, -⟩ :=
        removePointsProcess_relocates sp (sortDescending v) dof hslen hinvS
          (sortDescending_strict v hvnd) hrangeP hisoP
      rw [q1, q3, hnb1] at hedges1
      rw [q3, hnb1] at hnb hval1
      refine ⟨s1, c1.d_edge, sortDescending v, ?_, hperm1, sortDescending_strict v hvnd, hmem,
        hedges1, hnb, ?_⟩
      · rw [hrun0]
        exact hrun1
      · intro e he
        rw [hnb]
        exact hval1 e he
  · have hnil : s.m_container.d_edge = [] := by
      cases h : s.m_container.d_edge with
      | nil => rfl
      | cons a b =>
        exfalso
        apply hne
        rw [EdgeSetTopologyContainer.hasEdges, h]
        rfl
    have hidsnil : ids = [] := by
      cases hi : ids with
      | nil => rfl
      | cons a b =>
        have := hr a (by rw [hi]; exact List.mem_cons_self _ _)
        rw [hnil] at this
        exact absurd this (Nat.not_lt_zero _)
    refine ⟨s.report .edgeArrayEmpty, [], [], ?_, ?_, List.Pairwise.nil, ?_, ?_, ?_, ?_⟩
    · unfold EdgeSetTopologyModifier.removeEdgesProcess
      simp [hne]
    · rw [hnil, hidsnil]
      exact List.Perm.refl _
    · intro p
      constructor
      · intro h; cases h
      · rintro ⟨⟨i, hi, -⟩, -⟩
        rw [hidsnil] at hi
        cases hi
    · show s.m_container.d_edge = _
      rw [hnil]
      rfl
    · show s.m_container.nbPoints = _
      simp
    · exact hvalid
/-! ## Claims -/

/-- C1. `addEdgeProcess` appends: for every edge array of length `n` and every edge `e`
that is not rejected (consistency checking off, or `e` non-degenerate and not already
present), the call being defined (a built shell array covers the endpoints of `e`), the
array after `addEdgeProcess(e)` has length `n + 1`, holds `e` at index `n` with its two
endpoints in the order given, and holds at every index below `n` the edge it held before. -/
theorem C1_addEdgeProcess_appends (CHECK_TOPOLOGY : Bool) (s : EdgeSetTopologyModifier)
    (e : Edge) (hrej : NotRejected CHECK_TOPOLOGY s.m_container e)
    (hcov : s.m_container.hasEdgesAroundVertex = true →
      e.1 < s.m_container.m_edgesAroundVertex.length ∧
      e.2 < s.m_container.m_edgesAroundVertex.length) :
    ∃ s1, EdgeSetTopologyModifier.addEdgeProcess CHECK_TOPOLOGY s e = .done s1
      ∧ s1.m_container.d_edge.length = s.m_container.d_edge.length + 1
      ∧ s1.m_container.d_edge[s.m_container.d_edge.length]? = some (e.1, e.2)
      ∧ ∀ i, i < s.m_container.d_edge.length →
          s1.m_container.d_edge[i]? = s.m_container.d_edge[i]? := by
  obtain ⟨shells, h, -, -, -⟩ := addEdgeProcess_accept CHECK_TOPOLOGY s e hrej.accepted hcov
  refine ⟨_, h, by simp, by simp, ?_⟩
  intro i hi
  simp [List.getElem?_append_left hi]

theorem C1_addEdgeProcess_appends_witness :
    NotRejected true pathMeshShell.m_container (3, 0) ∧
    ∃ s1, EdgeSetTopologyModifier.addEdgeProcess true pathMeshShell (3, 0) = .done s1
      ∧ s1.m_container.d_edge.length = pathMeshShell.m_container.d_edge.length + 1
      ∧ s1.m_container.d_edge[pathMeshShell.m_container.d_edge.length]? = some (3, 0)
      ∧ ∀ i, i < pathMeshShell.m_container.d_edge.length →
          s1.m_container.d_edge[i]? = pathMeshShell.m_container.d_edge[i]? :=
  ⟨by decide, C1_addEdgeProcess_appends true pathMeshShell (3, 0) (by decide) (by decide)⟩

/-- C2. Removal is swap-with-last: for every edge array of length `n >= 1` and every index
`i < n`, `removeEdgesProcess([i])` (isolated-item removal off, the call being defined)
yields an array of length `n - 1` in which position `i` holds the edge formerly at index
`n - 1` (when `i < n - 1`) and every other position below `n - 1` holds the edge it held
before. -/
theorem C2_removeEdgesProcess_swap_with_last (s : EdgeSetTopologyModifier) (i : Nat)
    (d_propagateToDOF : Bool) (hi : i < s.m_container.d_edge.length)
    (hcov : ShellCovers s.m_container) :
    ∃ s1, EdgeSetTopologyModifier.removeEdgesProcess s [i] false d_propagateToDOF = .done s1
      ∧ s1.m_container.d_edge.length = s.m_container.d_edge.length - 1
      ∧ (i < s.m_container.d_edge.length - 1 →
          s1.m_container.d_edge[i]? = s.m_container.d_edge[s.m_container.d_edge.length - 1]?)
      ∧ ∀ j, j < s.m_container.d_edge.length - 1 → j ≠ i →
          s1.m_container.d_edge[j]? = s.m_container.d_edge[j]? := by
  have hpos : 0 < s.m_container.d_edge.length := Nat.lt_of_le_of_lt (Nat.zero_le _) hi
  have hlast : s.m_container.d_edge.length - 1 < s.m_container.d_edge.length := by omega
  obtain ⟨e, he⟩ : ∃ e, s.m_container.d_edge[i]? = some e := ⟨_, List.getElem?_eq_getElem hi⟩
  obtain ⟨q, hq⟩ : ∃ q, s.m_container.d_edge[s.m_container.d_edge.length - 1]? = some q :=
    ⟨_, List.getElem?_eq_getElem hlast⟩
  obtain ⟨shells, v1, hstep, -, -, hvf, -⟩ :=
    removeEdgeAt_spec false s.m_container i (s.m_container.d_edge.length - 1) [] e q he hq hcov
  rw [hvf rfl] at hstep
  obtain ⟨cA, hcA⟩ : ∃ cA : EdgeSetTopologyContainer,
      { s.m_container with
        m_edgesAroundVertex := shells
        d_edge := (s.m_container.d_edge.set i q).take (s.m_container.d_edge.length - 1) } = cA :=
    ⟨_, rfl⟩
  rw [hcA] at hstep
  have hA_edges : cA.d_edge
      = (s.m_container.d_edge.set i q).take (s.m_container.d_edge.length - 1) := by
    rw [← hcA]
  have hloop : EdgeSetTopologyModifier.removeEdgesLoop false [i]
      (decr s.m_container.d_edge.length) s.m_container [] = some (cA, []) := by
    unfold EdgeSetTopologyModifier.removeEdgesLoop
    rw [decr_of_pos _ hpos, hstep]
    simp only
    unfold EdgeSetTopologyModifier.removeEdgesLoop
    rfl
  refine ⟨_, removeEdgesProcess_false s [i] d_propagateToDOF cA ((hasEdges_iff _).2 hpos) hloop,
    ?_, ?_, ?_⟩
  · show cA.d_edge.length = _
    rw [hA_edges]; simp
  · intro hlt
    show cA.d_edge[i]? = _
    rw [hA_edges, getElem?_swapRemove _ _ _ _ _ hi, hq]
    simp [hlt]
  · intro j hj hji
    show cA.d_edge[j]? = _
    rw [hA_edges, getElem?_swapRemove _ _ _ _ _ hi]
    simp [hj, hji]

theorem C2_removeEdgesProcess_swap_with_last_witness :
    ShellCovers pathMeshShell.m_container ∧
    ∃ s1, EdgeSetTopologyModifier.removeEdgesProcess pathMeshShell [0] false true = .done s1
      ∧ s1.m_container.d_edge.length = pathMeshShell.m_container.d_edge.length - 1
      ∧ (0 < pathMeshShell.m_container.d_edge.length - 1 →
          s1.m_container.d_edge[0]?
            = pathMeshShell.m_container.d_edge[pathMeshShell.m_container.d_edge.length - 1]?)
      ∧ ∀ j, j < pathMeshShell.m_container.d_edge.length - 1 → j ≠ 0 →
          s1.m_container.d_edge[j]? = pathMeshShell.m_container.d_edge[j]? :=
  ⟨by decide, C2_removeEdgesProcess_swap_with_last pathMeshShell 0 true (by decide) (by decide)⟩

/-- C3. For every mesh with `n` edges and every index list whose in-range entries are
pairwise distinct, `removeEdges` (without isolated-point removal) drops exactly the
out-of-range entries and removes the rest: the removal record that consumers see lists
the in-range entries (in descending order), afterwards the edge count is `n` minus the
number of in-range entries, and the multiset of remaining edges equals the multiset of
original edges at the indices that were not listed. -/
theorem C3_removeEdges_filters_and_removes (s : EdgeSetTopologyModifier) (ids : List Nat)
    (resetTopoChange d_propagateToDOF : Bool) (hcov : ShellCovers s.m_container)
    (hdistinct : (ids.filter (fun i => decide (i < s.m_container.d_edge.length))).Nodup) :
    ∃ s1 seen, EdgeSetTopologyModifier.removeEdges s ids false resetTopoChange d_propagateToDOF
        = .done s1
      ∧ s1.trace = s.trace ++ [Event.propagated seen]
      ∧ seen.m_changeList = s.m_container.m_changeList ++ [TopologyChange.EdgesRemoved
          (sortDescending (ids.filter (fun i => decide (i < s.m_container.d_edge.length))))]
      ∧ s1.m_container.d_edge.length = s.m_container.d_edge.length
          - (ids.filter (fun i => decide (i < s.m_container.d_edge.length))).length
      ∧ s1.m_container.d_edge.Perm (edgesNotListed s.m_container.d_edge ids) := by
  obtain ⟨hf2, hf1, hft⟩ := filterEdgeIds_spec ids s
  generalize hfl : ids.filter (fun i => decide (i < s.m_container.d_edge.length)) = fl
    at hdistinct hf2
  unfold EdgeSetTopologyModifier.removeEdges
  simp only [EdgeSetTopologyModifier.removeEdgesWarning, hf2]
  generalize hw : EdgeSetTopologyModifier.addTopologyChange
    { EdgeSetTopologyModifier.filterEdgeIds s ids |>.1 with
      m_container := (EdgeSetTopologyModifier.filterEdgeIds s ids).1.m_container.setEdgeTopologyToDirty }
    (TopologyChange.EdgesRemoved (sortDescending fl)) = w
  have hw_edges : w.m_container.d_edge = s.m_container.d_edge := by
    rw [← hw, ← hf1]; rfl
  have hw_shells : w.m_container.m_edgesAroundVertex = s.m_container.m_edgesAroundVertex := by
    rw [← hw, ← hf1]; rfl
  have hw_changes : w.m_container.m_changeList = s.m_container.m_changeList
      ++ [TopologyChange.EdgesRemoved (sortDescending fl)] := by
    rw [← hw, ← hf1]; rfl
  have hw_trace : w.trace = s.trace := by
    rw [← hw, ← hft]; rfl
  obtain ⟨p1, p2, -, p4, -, -⟩ := propagate_container w resetTopoChange
  generalize hs1 : (if resetTopoChange = true
    then EdgeSetTopologyModifier.propagateTopologicalChanges w
    else EdgeSetTopologyModifier.propagateTopologicalChangesWithoutReset w) = s1 at p1 p2 p4
  rw [hw_edges] at p1
  rw [hw_shells] at p2
  rw [hw_trace] at p4
  have hcov1 : ShellCovers s1.m_container := ShellCovers_congr _ _ p1 p2 hcov
  have hfl_range : ∀ i ∈ fl, i < s.m_container.d_edge.length := by
    intro i hi
    rw [← hfl] at hi
    simpa using (List.mem_filter.1 hi).2
  by_cases hpos : 0 < s.m_container.d_edge.length
  · have hsorted := sortDescending_strict fl hdistinct
    have hrange : ∀ i ∈ sortDescending fl, i < s1.m_container.d_edge.length := by
      intro i hi
      rw [p1]
      exact hfl_range i ((sortDescending_perm fl).mem_iff.1 hi)
    obtain ⟨c1, v1, hloop, hlen, hperm, -, -, -, -, -, -, hvf, -⟩ :=
      removeEdgesLoop_spec false (fun _ => True) (fun _ _ _ _ _ _ _ _ => trivial)
        (sortDescending fl) s1.m_container [] hsorted hrange hcov1 trivial
    rw [hvf rfl] at hloop
    refine ⟨_, w.m_container, removeEdgesProcess_false s1 _ d_propagateToDOF c1
      ((hasEdges_iff _).2 (by rw [p1]; exact hpos)) hloop, p4, hw_changes, ?_, ?_⟩
    · simp only
      rw [hlen, p1, (sortDescending_perm fl).length_eq]
    · simp only
      rw [p1] at hperm
      have h1 : ((sortDescending fl).filterMap (fun i => s.m_container.d_edge[i]?)).Perm
          (fl.filterMap (fun i => s.m_container.d_edge[i]?)) :=
        List.Perm.filterMap _ (sortDescending_perm fl)
      have h2 := listed_append_notListed_perm s.m_container.d_edge fl hdistinct hfl_range
      rw [← hfl, edgesNotListed_filter, hfl] at h2
      have h3 : (c1.d_edge ++ fl.filterMap (fun i => s.m_container.d_edge[i]?)).Perm
          (edgesNotListed s.m_container.d_edge ids
            ++ fl.filterMap (fun i => s.m_container.d_edge[i]?)) :=
        ((List.Perm.append_left _ h1.symm).trans hperm).trans
          (h2.symm.trans List.perm_append_comm)
      exact (List.perm_append_right_iff _).1 h3
  · have hnil : s.m_container.d_edge = [] := by
      cases h : s.m_container.d_edge with
      | nil => rfl
      | cons a b => rw [h] at hpos; simp at hpos
    have hne : s1.m_container.hasEdges = false := by
      unfold EdgeSetTopologyContainer.hasEdges
      rw [p1, hnil]; rfl
    refine ⟨s1.report .edgeArrayEmpty, w.m_container, ?_, p4, hw_changes, ?_, ?_⟩
    · unfold EdgeSetTopologyModifier.removeEdgesProcess
      simp [hne]
    · show s1.m_container.d_edge.length = _
      rw [p1, hnil]; simp
    · show s1.m_container.d_edge.Perm _
      rw [p1, hnil]
      simp [edgesNotListed]

theorem C3_removeEdges_filters_and_removes_witness :
    ShellCovers pathMesh.m_container ∧
    (([1, 7, 0] : List Nat).filter
      (fun i => decide (i < pathMesh.m_container.d_edge.length))).Nodup ∧
    ∃ s1 seen, EdgeSetTopologyModifier.removeEdges pathMesh [1, 7, 0] false true true = .done s1
      ∧ s1.trace = pathMesh.trace ++ [Event.propagated seen]
      ∧ seen.m_changeList = pathMesh.m_container.m_changeList ++ [TopologyChange.EdgesRemoved
          (sortDescending (([1, 7, 0] : List Nat).filter
            (fun i => decide (i < pathMesh.m_container.d_edge.length))))]
      ∧ s1.m_container.d_edge.length = pathMesh.m_container.d_edge.length
          - (([1, 7, 0] : List Nat).filter
              (fun i => decide (i < pathMesh.m_container.d_edge.length))).length
      ∧ s1.m_container.d_edge.Perm (edgesNotListed pathMesh.m_container.d_edge [1, 7, 0]) :=
  ⟨by decide, by decide,
    C3_removeEdges_filters_and_removes pathMesh [1, 7, 0] true true (by decide) (by decide)⟩

/-- C4. `removeEdgesProcess` preserves shell consistency: if before the call the shell is
built and consistent (for every point `p`, the shell of `p` is exactly the set of edge
indices having `p` as an endpoint), then after the removal loop of `removeEdgesProcess`
(lines 226-268, either setting of `removeIsolatedItems`) on any list of pairwise distinct
in-range indices in descending order the same holds for the compacted edge array; and
`removeEdgesProcess` itself, without isolated-item removal, ends in such a state. -/
theorem C4_removeEdgesProcess_preserves_shell (s : EdgeSetTopologyModifier) (ids : List Nat)
    (removeIsolatedItems d_propagateToDOF : Bool)
    (hbuilt : s.m_container.hasEdgesAroundVertex = true)
    (hcons : ShellConsistent s.m_container)
    (hdesc : ids.Pairwise (fun a b => b < a))
    (hrange : ∀ i ∈ ids, i < s.m_container.d_edge.length) :
    (∃ c1 v1, EdgeSetTopologyModifier.removeEdgesLoop removeIsolatedItems ids
          (decr s.m_container.getNumberOfEdges) s.m_container [] = some (c1, v1)
        ∧ c1.d_edge.length = s.m_container.d_edge.length - ids.length
        ∧ c1.hasEdgesAroundVertex = true ∧ ShellConsistent c1)
    ∧ ∃ s1, EdgeSetTopologyModifier.removeEdgesProcess s ids false d_propagateToDOF = .done s1
        ∧ s1.m_container.hasEdgesAroundVertex = true ∧ ShellConsistent s1.m_container := by
  have key : ∀ rii : Bool, ∃ c1 v1, EdgeSetTopologyModifier.removeEdgesLoop rii ids
        (decr s.m_container.d_edge.length) s.m_container [] = some (c1, v1)
      ∧ c1.d_edge.length = s.m_container.d_edge.length - ids.length
      ∧ c1.hasEdgesAroundVertex = true ∧ ShellConsistent c1 ∧ (rii = false → v1 = []) := by
    intro rii
    obtain ⟨c1, v1, hloop, hlen, -, -, -, -, -, hsl, -, hvf, hinv⟩ :=
      removeEdgesLoop_spec rii ShellConsistent (removeEdgeAt_consistent rii) ids s.m_container []
        hdesc hrange hcons.covers hcons
    refine ⟨c1, v1, hloop, hlen, ?_, hinv, hvf⟩
    rw [hasEdgesAroundVertex_of_length _ _ hsl]
    exact hbuilt
  constructor
  · obtain ⟨c1, v1, h1, h2, h3, h4, -⟩ := key removeIsolatedItems
    exact ⟨c1, v1, h1, h2, h3, h4⟩
  · by_cases hpos : 0 < s.m_container.d_edge.length
    · obtain ⟨c1, v1, h1, -, h3, h4, h5⟩ := key false
      rw [h5 rfl] at h1
      exact ⟨_, removeEdgesProcess_false s ids d_propagateToDOF c1 ((hasEdges_iff _).2 hpos) h1,
        h3, h4⟩
    · have hne : s.m_container.hasEdges = false := by
        cases h : s.m_container.hasEdges
        · rfl
        · exact absurd ((hasEdges_iff _).1 h) hpos
      refine ⟨s.report .edgeArrayEmpty, ?_, hbuilt, hcons⟩
      unfold EdgeSetTopologyModifier.removeEdgesProcess
      simp [hne]

theorem C4_removeEdgesProcess_preserves_shell_witness :
    ShellConsistent pathMeshShell.m_container ∧
    (∃ c1 v1, EdgeSetTopologyModifier.removeEdgesLoop true [2, 0]
          (decr pathMeshShell.m_container.getNumberOfEdges) pathMeshShell.m_container []
            = some (c1, v1)
        ∧ c1.d_edge.length = pathMeshShell.m_container.d_edge.length - ([2, 0] : List Nat).length
        ∧ c1.hasEdgesAroundVertex = true ∧ ShellConsistent c1)
    ∧ ∃ s1, EdgeSetTopologyModifier.removeEdgesProcess pathMeshShell [2, 0] false true = .done s1
        ∧ s1.m_container.hasEdgesAroundVertex = true ∧ ShellConsistent s1.m_container :=
  ⟨by decide, C4_removeEdgesProcess_preserves_shell pathMeshShell [2, 0] true true
    (by decide) (by decide) (by decide) (by decide)⟩

/-- C5. `addEdgeProcess` preserves shell consistency: if the shell is built and consistent
with the edge array, then for every edge `e` whose endpoints are valid point indices, after
`addEdgeProcess(e)` the shell is again built and consistent; either the edge was rejected
(consistency checking on) and the container is unchanged, or `e` was appended at index `n`
and `n` was added to the shells of the two endpoints of `e` and to no other shell. If no
shell is built, none is created. -/
theorem C5_addEdgeProcess_preserves_shell (CHECK_TOPOLOGY : Bool)
    (s : EdgeSetTopologyModifier) (e : Edge) :
    (s.m_container.hasEdgesAroundVertex = true → ShellConsistent s.m_container →
      e.1 < s.m_container.nbPoints → e.2 < s.m_container.nbPoints →
      ∃ s1, EdgeSetTopologyModifier.addEdgeProcess CHECK_TOPOLOGY s e = .done s1
        ∧ s1.m_container.hasEdgesAroundVertex = true ∧ ShellConsistent s1.m_container
        ∧ ((CHECK_TOPOLOGY = true ∧ s1.m_container = s.m_container) ∨
           (s1.m_container.d_edge = s.m_container.d_edge ++ [e] ∧
            ∀ p j : Nat, j ∈ s1.m_container.m_edgesAroundVertex.getD p [] ↔
              (j ∈ s.m_container.m_edgesAroundVertex.getD p [] ∨
                (j = s.m_container.d_edge.length ∧ (p = e.1 ∨ p = e.2))))))
    ∧ (s.m_container.hasEdgesAroundVertex = false →
      ∃ s1, EdgeSetTopologyModifier.addEdgeProcess CHECK_TOPOLOGY s e = .done s1
        ∧ s1.m_container.hasEdgesAroundVertex = false) := by
  constructor
  · intro hbuilt hcons h1 h2
    obtain ⟨⟨hlenS, hmem⟩, hvalid⟩ := (by
      have := hcons
      exact ⟨(ShellExact_iff _).1 this.1, this.2⟩ :
      (s.m_container.m_edgesAroundVertex.length = s.m_container.nbPoints ∧
        ∀ p : Nat, p < s.m_container.nbPoints → ∀ j : Nat,
          j ∈ s.m_container.m_edgesAroundVertex.getD p []
            ↔ ∃ e', s.m_container.d_edge[j]? = some e' ∧ (e'.1 = p ∨ e'.2 = p))
        ∧ ValidEdges s.m_container)
    by_cases hrej : NotRejected CHECK_TOPOLOGY s.m_container e
    · obtain ⟨shells, hrun, hlen, -, hshell⟩ := addEdgeProcess_accept CHECK_TOPOLOGY s e hrej.accepted
        (fun _ => by rw [hlenS]; exact ⟨h1, h2⟩)
      have hmem1 : ∀ p j : Nat, j ∈ shells.getD p [] ↔
          (j ∈ s.m_container.m_edgesAroundVertex.getD p [] ∨
            (j = s.m_container.d_edge.length ∧ (p = e.1 ∨ p = e.2))) := by
        intro p j
        rw [hshell p]
        by_cases hp : p = e.1 ∨ p = e.2
        · simp only [hbuilt, hp, and_self, if_true, List.mem_append]
          by_cases hd : p = e.1 ∧ p = e.2
          · rw [if_pos hd]; simp
          · rw [if_neg hd]; simp
        · simp [hp]
      refine ⟨_, hrun, ?_, ?_, Or.inr ⟨rfl, hmem1⟩⟩
      · show EdgeSetTopologyContainer.hasEdgesAroundVertex _ = true
        rw [← hbuilt]
        exact hasEdgesAroundVertex_of_length _ _ hlen
      · constructor
        · rw [ShellExact_iff]
          refine ⟨by simp only; rw [hlen, hlenS], ?_⟩
          intro p hp j
          simp only
          rw [hmem1 p j, getElem?_append_singleton, hmem p hp j]
          by_cases hj : j < s.m_container.d_edge.length
          · have : j ≠ s.m_container.d_edge.length := Nat.ne_of_lt hj
            simp [hj, this]
          · have hnone : s.m_container.d_edge[j]? = none :=
              List.getElem?_eq_none (Nat.le_of_not_lt hj)
            by_cases hj2 : j = s.m_container.d_edge.length
            · simp only [hj, hj2, if_false, if_true, hnone]
              simp [eq_comm]
            · simp [hj, hj2, hnone]
        · intro e' he'
          simp only [List.mem_append, List.mem_singleton] at he'
          rcases he' with h | h
          · exact hvalid e' h
          · rw [h]; exact ⟨h1, h2⟩
    · have hck : CHECK_TOPOLOGY = true := by
        cases CHECK_TOPOLOGY
        · exact absurd (Or.inl rfl) hrej
        · rfl
      have hrej' : e.1 = e.2 ∨ Joined s.m_container.d_edge e := by
        by_contra hcon
        apply hrej
        right
        exact ⟨fun h => hcon (Or.inl h), fun h => hcon (Or.inr h)⟩
      have hdone : ∃ m, EdgeSetTopologyModifier.addEdgeProcess CHECK_TOPOLOGY s e
          = .done (s.report m) := by
        unfold EdgeSetTopologyModifier.addEdgeProcess
        by_cases hdeg : e.1 = e.2
        · exact ⟨.invalidEdge e, by simp [hck, hdeg]⟩
        · have hj : Joined s.m_container.d_edge (e.1, e.2) := by
            rcases hrej' with h | h
            · exact absurd h hdeg
            · exact h
          have hidx := getEdgeIndex_ne_InvalidID s.m_container e.1 e.2 hj
          refine ⟨.edgeAlreadyExists e, ?_⟩
          simp only [hck, Bool.true_and, beq_iff_eq, hdeg, if_false, hbuilt, bne_iff_ne, ne_eq,
            hidx, not_false_eq_true, if_true]
      obtain ⟨m, hm⟩ := hdone
      exact ⟨_, hm, hbuilt, hcons, Or.inl ⟨hck, rfl⟩⟩
  · intro hno
    have hnil := (hasEdgesAroundVertex_eq_false_iff _).1 hno
    unfold EdgeSetTopologyModifier.addEdgeProcess
    simp only [hno, Bool.and_false, Bool.false_and, Bool.false_eq_true, if_false]
    by_cases h : (CHECK_TOPOLOGY && e.1 == e.2) = true
    · simp only [h, if_true]
      exact ⟨_, rfl, hno⟩
    · simp only [h, if_false]
      refine ⟨_, rfl, ?_⟩
      unfold EdgeSetTopologyContainer.hasEdgesAroundVertex
      simp [hnil]

theorem C5_addEdgeProcess_preserves_shell_witness :
    (∃ s1, EdgeSetTopologyModifier.addEdgeProcess true pathMeshShell (3, 0) = .done s1
        ∧ s1.m_container.hasEdgesAroundVertex = true ∧ ShellConsistent s1.m_container
        ∧ (((true : Bool) = true ∧ s1.m_container = pathMeshShell.m_container) ∨
           (s1.m_container.d_edge = pathMeshShell.m_container.d_edge ++ [(3, 0)] ∧
            ∀ p j : Nat, j ∈ s1.m_container.m_edgesAroundVertex.getD p [] ↔
              (j ∈ pathMeshShell.m_container.m_edgesAroundVertex.getD p [] ∨
                (j = pathMeshShell.m_container.d_edge.length ∧ (p = 3 ∨ p = 0))))))
    ∧ (∃ s1, EdgeSetTopologyModifier.addEdgeProcess true pathMesh (3, 0) = .done s1
        ∧ s1.m_container.hasEdgesAroundVertex = false) :=
  ⟨(C5_addEdgeProcess_preserves_shell true pathMeshShell (3, 0)).1
      (by decide) (by decide) (by decide) (by decide),
    (C5_addEdgeProcess_preserves_shell true pathMesh (3, 0)).2 (by decide)⟩

/-- C6. Removal warns before it mutates: in every call of `removeEdges` (also one that ends
in an access outside a vector) the removal record is enqueued and propagation runs while
the edge array, the shells and the points are still as at the start of the call: the first
event the call adds to the trace is the propagation, its consumers see the unmodified
container with the removal record queued, and every index in the record resolves to an
edge of the array they see. The process step starts only from the state reached after
that propagation, on the list the record carries. -/
theorem C6_removeEdges_warns_before_mutating (s : EdgeSetTopologyModifier)
    (edgeIds : List Nat) (removeIsolatedPoints resetTopoChange d_propagateToDOF : Bool) :
    ∃ seen rest sp indices,
      (EdgeSetTopologyModifier.removeEdges s edgeIds removeIsolatedPoints resetTopoChange
          d_propagateToDOF).state.trace = s.trace ++ Event.propagated seen :: rest
      ∧ seen.d_edge = s.m_container.d_edge
      ∧ seen.m_edgesAroundVertex = s.m_container.m_edgesAroundVertex
      ∧ seen.nbPoints = s.m_container.nbPoints
      ∧ indices = sortDescending
          (edgeIds.filter (fun i => decide (i < s.m_container.d_edge.length)))
      ∧ seen.m_changeList = s.m_container.m_changeList ++ [TopologyChange.EdgesRemoved indices]
      ∧ (∀ i ∈ indices, ∃ e, seen.d_edge[i]? = some e ∧ s.m_container.d_edge[i]? = some e)
      ∧ EdgeSetTopologyModifier.removeEdges s edgeIds removeIsolatedPoints resetTopoChange
          d_propagateToDOF
        = EdgeSetTopologyModifier.removeEdgesProcess sp indices removeIsolatedPoints
            d_propagateToDOF
      ∧ sp.trace = s.trace ++ [Event.propagated seen]
      ∧ sp.m_container.d_edge = s.m_container.d_edge
      ∧ sp.m_container.m_edgesAroundVertex = s.m_container.m_edgesAroundVertex := by
  obtain ⟨hf2, hf1, hft⟩ := filterEdgeIds_spec edgeIds s
  obtain ⟨w, hw⟩ : ∃ w, w = (EdgeSetTopologyModifier.removeEdgesWarning
    (EdgeSetTopologyModifier.filterEdgeIds s edgeIds).1
    (EdgeSetTopologyModifier.filterEdgeIds s edgeIds).2) := ⟨_, rfl⟩
  have hw_edges : w.1.m_container.d_edge = s.m_container.d_edge := by
    rw [hw, ← hf1]; rfl
  have hw_shells : w.1.m_container.m_edgesAroundVertex = s.m_container.m_edgesAroundVertex := by
    rw [hw, ← hf1]; rfl
  have hw_nb : w.1.m_container.nbPoints = s.m_container.nbPoints := by
    rw [hw, ← hf1]; rfl
  have hw_changes : w.1.m_container.m_changeList = s.m_container.m_changeList
      ++ [TopologyChange.EdgesRemoved w.2] := by
    rw [hw, ← hf1]; rfl
  have hw_trace : w.1.trace = s.trace := by
    rw [hw, ← hft]; rfl
  have hw2 : w.2 = sortDescending
      (edgeIds.filter (fun i => decide (i < s.m_container.d_edge.length))) := by
    rw [hw, ← hf2]; rfl
  obtain ⟨p1, p2, -, p4, -, -⟩ := propagate_container w.1 resetTopoChange
  obtain ⟨sp, hsp⟩ : ∃ sp, sp = (if resetTopoChange = true
    then EdgeSetTopologyModifier.propagateTopologicalChanges w.1
    else EdgeSetTopologyModifier.propagateTopologicalChangesWithoutReset w.1) := ⟨_, rfl⟩
  rw [← hsp] at p1 p2 p4
  have hrun : EdgeSetTopologyModifier.removeEdges s edgeIds removeIsolatedPoints
      resetTopoChange d_propagateToDOF
      = EdgeSetTopologyModifier.removeEdgesProcess sp w.2 removeIsolatedPoints
          d_propagateToDOF := by
    rw [hsp, hw]; rfl
  obtain ⟨rest, hrest⟩ := removeEdgesProcess_trace sp w.2 removeIsolatedPoints d_propagateToDOF
  refine ⟨w.1.m_container, rest, sp, w.2, ?_, hw_edges, hw_shells, hw_nb, hw2, hw_changes, ?_, hrun,
    ?_, ?_, ?_⟩
  · rw [hrun, hrest, p4, hw_trace]; simp
  · intro i hi
    rw [hw2] at hi
    have hmem := (sortDescending_perm _).mem_iff.1 hi
    have hlt : i < s.m_container.d_edge.length := by
      simpa using (List.mem_filter.1 hmem).2
    exact ⟨_, by rw [hw_edges]; exact List.getElem?_eq_getElem hlt, List.getElem?_eq_getElem hlt⟩
  · rw [p4, hw_trace]
  · rw [p1, hw_edges]
  · rw [p2, hw_shells]

/-- C7 (counterexample). With consistency checking on, `addEdges([(0,0)])` on the path
with three edges: the degenerate edge is rejected, yet the record that is propagated
announces one new edge at index 3. Its count, 1, is not the number of edges appended, 0,
and its index 3 is not below the edge count seen by the consumers. -/
theorem C7_addEdges_counterexample :
    ∃ s1 seen, EdgeSetTopologyModifier.addEdges true pathMesh [(0, 0)] = .done s1
      ∧ s1.trace = [Event.propagated seen]
      ∧ seen.m_changeList = [TopologyChange.EdgesAdded 1 [(0, 0)] [3] [] []]
      ∧ seen.d_edge.length - pathMesh.m_container.d_edge.length = 0
      ∧ ¬ (3 < seen.d_edge.length) :=
  ⟨_, _, rfl, rfl, rfl, by decide, by decide⟩

/-- C7 (amended). Addition mutates before it warns: for every call of `addEdges(edges)` in
which `addEdgeProcess` rejects no edge (always so with consistency checking off) and which
is defined (a built shell array covers the endpoints of the new edges), at the moment the
addition record is propagated the edges are already appended, the count of the record
equals the number of edges appended, and for every position `j` the `j`-th new index of
the record is below the current edge count and the edge stored at that index equals the
`j`-th new edge of the record. -/
theorem C7_addEdges_mutates_before_warning (CHECK_TOPOLOGY : Bool)
    (s : EdgeSetTopologyModifier) (edges : List Edge)
    (hacc : AllAccepted CHECK_TOPOLOGY s.m_container edges)
    (hcov : s.m_container.hasEdgesAroundVertex = true → ∀ e ∈ edges,
      e.1 < s.m_container.m_edgesAroundVertex.length ∧
      e.2 < s.m_container.m_edgesAroundVertex.length) :
    ∃ s1 seen nEdges edgeArray edgeIndexArray,
      EdgeSetTopologyModifier.addEdges CHECK_TOPOLOGY s edges = .done s1
      ∧ s1.trace = s.trace ++ [Event.propagated seen]
      ∧ seen.m_changeList = s.m_container.m_changeList
          ++ [TopologyChange.EdgesAdded nEdges edgeArray edgeIndexArray [] []]
      ∧ seen.d_edge = s.m_container.d_edge ++ edges
      ∧ nEdges = seen.d_edge.length - s.m_container.d_edge.length
      ∧ edgeArray = edges
      ∧ edgeIndexArray.length = nEdges
      ∧ ∀ j, j < nEdges → ∃ i e, edgeIndexArray[j]? = some i ∧ edgeArray[j]? = some e
          ∧ i < seen.d_edge.length ∧ seen.d_edge[i]? = some e := by
  obtain ⟨s1, h1, t1, c1, -, -, -, a1⟩ := addEdgesProcess_total CHECK_TOPOLOGY edges s hcov
  obtain ⟨e1, -⟩ := a1 hacc
  obtain ⟨w, hw⟩ : ∃ w, w = EdgeSetTopologyModifier.addEdgesWarning s1 edges.length edges
    ((List.range edges.length).map (fun i => s.m_container.getNumberOfEdges + i)) := ⟨_, rfl⟩
  have hw_edges : w.m_container.d_edge = s.m_container.d_edge ++ edges := by
    rw [hw, ← e1]; rfl
  have hw_changes : w.m_container.m_changeList = s.m_container.m_changeList
      ++ [TopologyChange.EdgesAdded edges.length edges
        ((List.range edges.length).map (fun i => s.m_container.d_edge.length + i)) [] []] := by
    rw [hw, ← c1]; rfl
  have hw_trace : w.trace = s.trace := by
    rw [hw, ← t1]; rfl
  refine ⟨EdgeSetTopologyModifier.propagateTopologicalChanges w, w.m_container, _, _, _,
    ?_, ?_, hw_changes, hw_edges, ?_, rfl, by simp, ?_⟩
  · unfold EdgeSetTopologyModifier.addEdges
    simp only [h1]
    rw [hw]
  · rw [propagateTopologicalChanges_trace, hw_trace]
  · rw [hw_edges]; simp
  · intro j hj
    have hje : edges[j]? = some edges[j] := List.getElem?_eq_getElem hj
    refine ⟨s.m_container.d_edge.length + j, edges[j], ?_, hje, ?_, ?_⟩
    · simp [List.getElem?_map, List.getElem?_range hj]
    · rw [hw_edges]; simp; exact hj
    · rw [hw_edges, List.getElem?_append_right (Nat.le_add_right _ _)]
      simp [hje]

theorem C7_addEdges_mutates_before_warning_witness :
    AllAccepted true pathMeshShell.m_container [(3, 0), (0, 2)] ∧
    ∃ s1 seen nEdges edgeArray edgeIndexArray,
      EdgeSetTopologyModifier.addEdges true pathMeshShell [(3, 0), (0, 2)] = .done s1
      ∧ s1.trace = pathMeshShell.trace ++ [Event.propagated seen]
      ∧ seen.m_changeList = pathMeshShell.m_container.m_changeList
          ++ [TopologyChange.EdgesAdded nEdges edgeArray edgeIndexArray [] []]
      ∧ seen.d_edge = pathMeshShell.m_container.d_edge ++ [(3, 0), (0, 2)]
      ∧ nEdges = seen.d_edge.length - pathMeshShell.m_container.d_edge.length
      ∧ edgeArray = [(3, 0), (0, 2)]
      ∧ edgeIndexArray.length = nEdges
      ∧ ∀ j, j < nEdges → ∃ i e, edgeIndexArray[j]? = some i ∧ edgeArray[j]? = some e
          ∧ i < seen.d_edge.length ∧ seen.d_edge[i]? = some e :=
  ⟨by decide, C7_addEdges_mutates_before_warning true pathMeshShell [(3, 0), (0, 2)]
    (by decide) (by decide)⟩

/-- C8. `movePointsProcess` brackets the point move with two edge-level records: for every
move of points of the mesh (the shell, when built, being consistent), an
`EdgesMoved_Removing` record is enqueued and propagated before the points are moved; at
the moment of the move the queue has been delivered and holds no `EdgesMoved_Adding`
record yet; that record is enqueued after the move and is the one pending at the end;
both records carry the same edge index list, and the edge array is the same at the
propagation, at the move and at the end as at the start. -/
theorem C8_movePointsProcess_brackets_move (s : EdgeSetTopologyModifier) (id : List Nat)
    (ancestors : List (List PointID)) (coefs : List (List SReal)) (moveDOF : Bool)
    (hid : ∀ p ∈ id, p < s.m_container.nbPoints)
    (hshell : s.m_container.hasEdgesAroundVertex = true → ShellExact s.m_container) :
    ∃ s1 indices edgeArray seen1 seen2,
      EdgeSetTopologyModifier.movePointsProcess s id ancestors coefs moveDOF = .done s1
      ∧ s1.trace = s.trace
          ++ [Event.propagated seen1, Event.pointsMoved id ancestors coefs seen2]
      ∧ seen1.m_changeList = s.m_container.m_changeList
          ++ [TopologyChange.EdgesMoved_Removing indices]
      ∧ seen1.d_edge = s.m_container.d_edge
      ∧ seen2.m_changeList = []
      ∧ seen2.d_edge = s.m_container.d_edge
      ∧ s1.m_container.m_changeList = [TopologyChange.EdgesMoved_Adding indices edgeArray]
      ∧ s1.m_container.d_edge = s.m_container.d_edge := by
  obtain ⟨s0, hs0⟩ : ∃ s0, s0 = (if id.isEmpty then s
    else { s with m_container := s.m_container.getEdgesAroundVertexArray }) := ⟨_, rfl⟩
  have h0_edges : s0.m_container.d_edge = s.m_container.d_edge := by
    rw [hs0]
    split_ifs
    · rfl
    · unfold EdgeSetTopologyContainer.getEdgesAroundVertexArray
      split_ifs <;> rfl
  have h0_changes : s0.m_container.m_changeList = s.m_container.m_changeList := by
    rw [hs0]
    split_ifs
    · rfl
    · unfold EdgeSetTopologyContainer.getEdgesAroundVertexArray
      split_ifs <;> rfl
  have h0_trace : s0.trace = s.trace := by
    rw [hs0]; split_ifs <;> rfl
  have h0_id : ∀ p ∈ id, p < s0.m_container.m_edgesAroundVertex.length := by
    intro p hp
    have hne : id.isEmpty = false := by
      cases id with
      | nil => simp at hp
      | cons _ _ => rfl
    rw [hs0]
    simp only [hne, Bool.false_eq_true, if_false]
    unfold EdgeSetTopologyContainer.getEdgesAroundVertexArray
    split_ifs with hb
    · rw [(hshell hb).1]; exact hid p hp
    · rw [(createEdgesAroundVertexArray_exact s.m_container).1]; exact hid p hp
  have h0_entries : ∀ sh ∈ s0.m_container.m_edgesAroundVertex, ∀ i ∈ sh,
      i < s.m_container.d_edge.length := by
    rw [hs0]
    split_ifs
    · intro sh hsh i hi
      by_cases hb : s.m_container.hasEdgesAroundVertex = true
      · exact (hshell hb).entries_lt sh hsh i hi
      · have hb' : s.m_container.hasEdgesAroundVertex = false := by simpa using hb
        rw [(hasEdgesAroundVertex_eq_false_iff _).1 hb'] at hsh
        simp at hsh
    · unfold EdgeSetTopologyContainer.getEdgesAroundVertexArray
      split_ifs with hb
      · exact (hshell hb).entries_lt
      · exact (createEdgesAroundVertexArray_exact s.m_container).entries_lt
  obtain ⟨collected, hcol, hcol_mem⟩ :=
    collectEdgesAroundVertex_spec s0.m_container.m_edgesAroundVertex id [] h0_id
  have hsorted_lt : ∀ i ∈ sortDescending collected, i < s.m_container.d_edge.length := by
    intro i hi
    have hi' := (sortDescending_perm collected).mem_iff.1 hi
    rcases hcol_mem i hi' with h | ⟨sh, hsh, hish⟩
    · simp at h
    · exact h0_entries sh hsh i hish
  obtain ⟨w, hw⟩ : ∃ w, w = s0.addTopologyChange
    (.EdgesMoved_Removing (sortDescending collected)) := ⟨_, rfl⟩
  obtain ⟨p1, -, -, p4, -, p6⟩ := propagate_container w true
  simp only [if_true] at p1 p4 p6
  have hw_edges : w.m_container.d_edge = s.m_container.d_edge := by
    rw [hw, ← h0_edges]; rfl
  have hw_changes : w.m_container.m_changeList = s.m_container.m_changeList
      ++ [TopologyChange.EdgesMoved_Removing (sortDescending collected)] := by
    rw [hw, ← h0_changes]; rfl
  have hw_trace : w.trace = s.trace := by
    rw [hw, ← h0_trace]; rfl
  obtain ⟨edgeArray, hlook⟩ := lookupEdges_total
    (EdgeSetTopologyModifier.propagateTopologicalChanges w).m_container.d_edge
    (sortDescending collected) (by rw [p1, hw_edges]; exact hsorted_lt)
  obtain ⟨sp, hsp⟩ : ∃ sp, sp = EdgeSetTopologyModifier.propagateTopologicalChanges w :=
    ⟨_, rfl⟩
  rw [← hsp] at p1 p4 p6 hlook
  refine ⟨EdgeSetTopologyModifier.addTopologyChange
      { sp with trace := sp.trace ++ [Event.pointsMoved id ancestors coefs sp.m_container] }
      (.EdgesMoved_Adding (sortDescending collected) edgeArray),
    sortDescending collected, edgeArray, w.m_container,
    sp.m_container, ?_, ?_, hw_changes,
    hw_edges, p6, by rw [p1, hw_edges], ?_, ?_⟩
  · unfold EdgeSetTopologyModifier.movePointsProcess
    simp only [← hs0, hcol, ← hw, ← hsp, hlook]
  · simp only [EdgeSetTopologyModifier.addTopologyChange]
    rw [p4, hw_trace]
    simp
  · simp only [EdgeSetTopologyModifier.addTopologyChange,
      EdgeSetTopologyContainer.addTopologyChange]
    rw [p6]
    rfl
  · simp only [EdgeSetTopologyModifier.addTopologyChange,
      EdgeSetTopologyContainer.addTopologyChange]
    rw [p1, hw_edges]

theorem C8_movePointsProcess_brackets_move_witness :
    (pathMeshShell.m_container.hasEdgesAroundVertex = true →
      ShellExact pathMeshShell.m_container) ∧
    ∃ s1 indices edgeArray seen1 seen2,
      EdgeSetTopologyModifier.movePointsProcess pathMeshShell [1, 2] [] [] true = .done s1
      ∧ s1.trace = pathMeshShell.trace
          ++ [Event.propagated seen1, Event.pointsMoved [1, 2] [] [] seen2]
      ∧ seen1.m_changeList = pathMeshShell.m_container.m_changeList
          ++ [TopologyChange.EdgesMoved_Removing indices]
      ∧ seen1.d_edge = pathMeshShell.m_container.d_edge
      ∧ seen2.m_changeList = []
      ∧ seen2.d_edge = pathMeshShell.m_container.d_edge
      ∧ s1.m_container.m_changeList = [TopologyChange.EdgesMoved_Adding indices edgeArray]
      ∧ s1.m_container.d_edge = pathMeshShell.m_container.d_edge :=
  ⟨by decide, C8_movePointsProcess_brackets_move pathMeshShell [1, 2] [] [] true
    (by decide) (by decide)⟩

/-- C9 (counterexample). With consistency checking on and the shell built, splitting the
degenerate edge `(0, 0)` of the mesh with one point: the second new edge `(1, 0)` joins
the same two points as the first, `(0, 1)`, and is rejected, so that one edge is left,
not two, and `(1, 0)` is not among the edges. -/
theorem C9_split_one_edge_counterexample :
    ∃ s1, EdgeSetTopologyModifier.splitEdgesProcess true loopMeshShell [0] false true = .done s1
      ∧ s1.m_container.d_edge = [(0, 1)]
      ∧ s1.m_container.d_edge.length ≠ loopMeshShell.m_container.d_edge.length + 1
      ∧ s1.m_container.d_edge[0]? ≠ some (loopMeshShell.m_container.nbPoints, 0) :=
  ⟨_, rfl, rfl, by decide, by decide⟩

/-- C9 (amended). Split of one edge: for every mesh (every endpoint a point) with `n` edges and `P`
points and every in-range index `k` with edge `(a, b)`, neither new edge being rejected
(consistency checking off, or no shell built, or `a` and `b` different),
`splitEdgesProcess([k])`, with or without isolated-point removal, leaves `P + 1` points
and `n + 1` edges, the new point having index `P`; one occurrence of the original edge
`(a, b)` is gone, the edge `(P, b)` is at index `k` and the edge `(a, P)` at index `n`,
and every other edge is unchanged at its index. -/
theorem C9_split_one_edge (CHECK_TOPOLOGY : Bool) (s : EdgeSetTopologyModifier)
    (k a b : Nat) (removeIsolatedPoints d_propagateToDOF : Bool)
    (hk : s.m_container.d_edge[k]? = some (a, b))
    (hvalid : ValidEdges s.m_container)
    (hcheck : CHECK_TOPOLOGY = false ∨ s.m_container.hasEdgesAroundVertex = false ∨ a ≠ b) :
    ∃ s1, EdgeSetTopologyModifier.splitEdgesProcess CHECK_TOPOLOGY s [k]
        removeIsolatedPoints d_propagateToDOF = .done s1
      ∧ s1.m_container.nbPoints = s.m_container.nbPoints + 1
      ∧ s1.m_container.d_edge
          = s.m_container.d_edge.set k (s.m_container.nbPoints, b)
              ++ [(a, s.m_container.nbPoints)]
      ∧ s1.m_container.d_edge.length = s.m_container.d_edge.length + 1
      ∧ s1.m_container.d_edge[k]? = some (s.m_container.nbPoints, b)
      ∧ s1.m_container.d_edge[s.m_container.d_edge.length]? = some (a, s.m_container.nbPoints)
      ∧ (∀ j, j < s.m_container.d_edge.length → j ≠ k →
          s1.m_container.d_edge[j]? = s.m_container.d_edge[j]?)
      ∧ s1.m_container.d_edge.count (a, b) + 1 = s.m_container.d_edge.count (a, b) := by
  have hkl : k < s.m_container.d_edge.length := (List.getElem?_eq_some.1 hk).1
  have hab_mem : (a, b) ∈ s.m_container.d_edge := List.mem_iff_getElem?.2 ⟨_, hk⟩
  obtain ⟨ha, hb⟩ : a < s.m_container.nbPoints ∧ b < s.m_container.nbPoints :=
    hvalid _ hab_mem
  obtain ⟨s1, hrun, hnb, hfin', -⟩ := splitEdgesProcess_single CHECK_TOPOLOGY s k a b
    removeIsolatedPoints d_propagateToDOF hk hvalid hcheck
  refine ⟨s1, hrun, hnb, hfin', ?_, ?_, ?_, ?_, ?_⟩
  · rw [hfin']; simp
  · rw [hfin', List.getElem?_append_left (by simpa using hkl)]
    simp [List.getElem?_set, hkl]
  · rw [hfin', List.getElem?_append_right (by simp)]
    simp
  · intro j hj hjk
    rw [hfin', List.getElem?_append_left (by simpa using hj)]
    have : ¬ k = j := fun h => hjk h.symm
    simp [List.getElem?_set, this]
  · rw [hfin']
    exact count_set_append _ _ (a, b) _ _ _ hk
      (fun h => Nat.ne_of_lt ha (Prod.mk.inj h).1.symm)
      (fun h => Nat.ne_of_lt hb (Prod.mk.inj h).2.symm) rfl

theorem C9_split_one_edge_witness :
    pathMeshShell.m_container.d_edge[1]? = some (1, 2) ∧
    ValidEdges pathMeshShell.m_container ∧
    ∃ s1, EdgeSetTopologyModifier.splitEdgesProcess true pathMeshShell [1]
        true true = .done s1
      ∧ s1.m_container.nbPoints = pathMeshShell.m_container.nbPoints + 1
      ∧ s1.m_container.d_edge
          = pathMeshShell.m_container.d_edge.set 1 (pathMeshShell.m_container.nbPoints, 2)
              ++ [(1, pathMeshShell.m_container.nbPoints)]
      ∧ s1.m_container.d_edge.length = pathMeshShell.m_container.d_edge.length + 1
      ∧ s1.m_container.d_edge[1]? = some (pathMeshShell.m_container.nbPoints, 2)
      ∧ s1.m_container.d_edge[pathMeshShell.m_container.d_edge.length]? = some (1, pathMeshShell.m_container.nbPoints)
      ∧ (∀ j, j < pathMeshShell.m_container.d_edge.length → j ≠ 1 →
          s1.m_container.d_edge[j]? = pathMeshShell.m_container.d_edge[j]?)
      ∧ s1.m_container.d_edge.count (1, 2) + 1 = pathMeshShell.m_container.d_edge.count (1, 2) :=
  ⟨by decide, by decide,
    C9_split_one_edge true pathMeshShell 1 1 2 true true (by decide) (by decide) (by decide)⟩

/-- C10 (counterexample). Splitting edge 1 of the path with three edges: the record of the
two added edges that is propagated has an empty ancestor list and an empty coefficient
list; the ancestors `(1, 2)` and the coefficients `(1/2, 1/2)` are those of the added
point, in the record before it. -/
theorem C10_split_edge_record_counterexample :
    ∃ s1 seen, EdgeSetTopologyModifier.splitEdgesProcess false pathMesh [1] false true = .done s1
      ∧ s1.trace = [Event.propagated seen]
      ∧ seen.m_changeList =
          [TopologyChange.PointsAdded 1 [[1, 2]] [[1 / 2, 1 / 2]],
           TopologyChange.EdgesAdded 2 [(1, 4), (4, 2)] [3, 4] [] [],
           TopologyChange.EdgesRemoved [1]] :=
  ⟨_, _, rfl, rfl, rfl⟩

/-- C10 (amended). Split records ancestry on the added points: for every split of edges of
a mesh at in-range indices `k_0..k_(m-1)`, the records propagated by `splitEdgesProcess`
are, in this order, a point-addition record that gives for the `i`-th new point the
ancestor list `(p1, p2)`, the endpoints of the split edge `k_i`, together with a
coefficient list (the default `(1/2, 1/2)`, or the list supplied by the caller); an
edge-addition record that carries the `2m` new edges `(p1, P + i)`, `(P + i, p2)` and
their indices `n, ..., n + 2m - 1`, with empty ancestor and coefficient lists; and the
removal record of the split edges. -/
theorem C10_split_records_point_ancestry (CHECK_TOPOLOGY : Bool)
    (s : EdgeSetTopologyModifier) (indices : List Nat) (baryCoefs : List (List SReal))
    (removeIsolatedPoints d_propagateToDOF : Bool)
    (hne : s.m_container.hasEdges = true)
    (hrange : ∀ k ∈ indices, k < s.m_container.d_edge.length)
    (hvalid : ValidEdges s.m_container) :
    ∃ edges : List Edge,
      edges.length = 2 * indices.length
      ∧ (∀ j k, indices[j]? = some k →
          edges[2 * j]? = some ((s.m_container.d_edge.getD k (0, 0)).1,
            s.m_container.nbPoints + (0 + j))
          ∧ edges[2 * j + 1]? = some (s.m_container.nbPoints + (0 + j),
            (s.m_container.d_edge.getD k (0, 0)).2))
      ∧ (∃ seen rest,
          (EdgeSetTopologyModifier.splitEdgesProcess CHECK_TOPOLOGY s indices
            removeIsolatedPoints d_propagateToDOF).state.trace
              = s.trace ++ Event.propagated seen :: rest
          ∧ seen.m_changeList = s.m_container.m_changeList ++
              [TopologyChange.PointsAdded indices.length
                 (indices.map (fun k => [(s.m_container.d_edge.getD k (0, 0)).1,
                   (s.m_container.d_edge.getD k (0, 0)).2]))
                 (List.replicate indices.length [1 / 2, 1 / 2]),
               TopologyChange.EdgesAdded (2 * indices.length) edges
                 (List.range' s.m_container.d_edge.length (2 * indices.length)) [] [],
               TopologyChange.EdgesRemoved (sortDescending indices)])
      ∧ (∃ seen rest,
          (EdgeSetTopologyModifier.splitEdgesProcess_baryCoefs CHECK_TOPOLOGY s indices
            baryCoefs removeIsolatedPoints d_propagateToDOF).state.trace
              = s.trace ++ Event.propagated seen :: rest
          ∧ seen.m_changeList = s.m_container.m_changeList ++
              [TopologyChange.PointsAdded indices.length
                 (indices.map (fun k => [(s.m_container.d_edge.getD k (0, 0)).1,
                   (s.m_container.d_edge.getD k (0, 0)).2]))
                 baryCoefs,
               TopologyChange.EdgesAdded (2 * indices.length) edges
                 (List.range' s.m_container.d_edge.length (2 * indices.length)) [] [],
               TopologyChange.EdgesRemoved (sortDescending indices)]) := by
  obtain ⟨v, edges, idx, hrun, hv, hlen, hidx, hedges⟩ :=
    splitEdgesLoop_spec s.m_container indices 0 s.m_container.d_edge.length hrange
  have hcov := splitEdgesLoop_bounds s.m_container indices edges hvalid hrange hlen hedges
  refine ⟨edges, hlen, hedges, ?_, ?_⟩
  · obtain ⟨seen, rest, h1, h2⟩ := splitEdgesTail_record CHECK_TOPOLOGY s indices v edges idx
      (List.replicate indices.length [1 / 2, 1 / 2]) removeIsolatedPoints d_propagateToDOF hcov
    refine ⟨seen, rest, ?_, ?_⟩
    · unfold EdgeSetTopologyModifier.splitEdgesProcess
      simp only [hne, Bool.not_true, Bool.false_eq_true, if_false,
        EdgeSetTopologyContainer.getNumberOfEdges, hrun]
      exact h1
    · rw [h2, hv, hlen, hidx]
  · obtain ⟨seen, rest, h1, h2⟩ := splitEdgesTail_record CHECK_TOPOLOGY s indices v edges idx
      baryCoefs removeIsolatedPoints d_propagateToDOF hcov
    refine ⟨seen, rest, ?_, ?_⟩
    · unfold EdgeSetTopologyModifier.splitEdgesProcess_baryCoefs
      simp only [hne, Bool.not_true, Bool.false_eq_true, if_false,
        EdgeSetTopologyContainer.getNumberOfEdges, hrun]
      exact h1
    · rw [h2, hv, hlen, hidx]

theorem C10_split_records_point_ancestry_witness :
    ValidEdges pathMesh.m_container ∧
    ∃ edges : List Edge,
      edges.length = 2 * ([1] : List Nat).length
      ∧ (∀ j k, ([1] : List Nat)[j]? = some k →
          edges[2 * j]? = some ((pathMesh.m_container.d_edge.getD k (0, 0)).1,
            pathMesh.m_container.nbPoints + (0 + j))
          ∧ edges[2 * j + 1]? = some (pathMesh.m_container.nbPoints + (0 + j),
            (pathMesh.m_container.d_edge.getD k (0, 0)).2))
      ∧ (∃ seen rest,
          (EdgeSetTopologyModifier.splitEdgesProcess false pathMesh [1]
            false true).state.trace
              = pathMesh.trace ++ Event.propagated seen :: rest
          ∧ seen.m_changeList = pathMesh.m_container.m_changeList ++
              [TopologyChange.PointsAdded ([1] : List Nat).length
                 (([1] : List Nat).map (fun k => [(pathMesh.m_container.d_edge.getD k (0, 0)).1,
                   (pathMesh.m_container.d_edge.getD k (0, 0)).2]))
                 (List.replicate ([1] : List Nat).length [1 / 2, 1 / 2]),
               TopologyChange.EdgesAdded (2 * ([1] : List Nat).length) edges
                 (List.range' pathMesh.m_container.d_edge.length (2 * ([1] : List Nat).length)) [] [],
               TopologyChange.EdgesRemoved (sortDescending [1])])
      ∧ (∃ seen rest,
          (EdgeSetTopologyModifier.splitEdgesProcess_baryCoefs false pathMesh [1]
            [[1 / 3, 2 / 3]] false true).state.trace
              = pathMesh.trace ++ Event.propagated seen :: rest
          ∧ seen.m_changeList = pathMesh.m_container.m_changeList ++
              [TopologyChange.PointsAdded ([1] : List Nat).length
                 (([1] : List Nat).map (fun k => [(pathMesh.m_container.d_edge.getD k (0, 0)).1,
                   (pathMesh.m_container.d_edge.getD k (0, 0)).2]))
                 [[1 / 3, 2 / 3]],
               TopologyChange.EdgesAdded (2 * ([1] : List Nat).length) edges
                 (List.range' pathMesh.m_container.d_edge.length (2 * ([1] : List Nat).length)) [] [],
               TopologyChange.EdgesRemoved (sortDescending [1])]) :=
  ⟨by decide, C10_split_records_point_ancestry false pathMesh [1] [[1 / 3, 2 / 3]] false true
    (by decide) (by decide) (by decide)⟩

/-- C11 (counterexample). The edges `(0, 1)` and `(2, 1)` share exactly the endpoint
`s = 1`, in the orientation `((a, s), (b, s))` with `a = 0` and `b = 2`. The edge that
`fuseEdgesProcess` builds for the pair is `(0, 1)`: the shared point is one of its
endpoints and `b = 2` is not. This is the edge of the addition record that is
propagated. -/
theorem C11_fuse_converging_counterexample :
    convergingMesh.m_container.d_edge = [(0, 1), (2, 1)]
    ∧ EdgeSetTopologyModifier.fuseEdgesLoop convergingMesh.m_container [[0, 1]] 2
        = some ([(0, 1)], [2], [[0, 1]])
    ∧ ∃ seen, (EdgeSetTopologyModifier.fuseEdgesProcess false convergingMesh [[0, 1]]
          false true).state.trace = [Event.propagated seen]
        ∧ seen.m_changeList
            = [.EdgesAdded 1 [(0, 1)] [2] [[0, 1]] [], .EdgesRemoved [1, 0]] :=
  ⟨rfl, rfl, _, rfl, rfl⟩

/-- C11 (amended). Fuse spans the non-shared endpoints of two edges met head to tail: for
every list of pairs of in-range edge indices, the loop of `fuseEdgesProcess` builds one
edge per pair, and for every pair of edges that share exactly one endpoint `s` (the other
endpoints `a` and `b` being different from `s` and from each other) in one of the
orientations `((a, s), (s, b))` and `((s, a), (b, s))`, the edge built at the position of
the pair is `(a, b)`, respectively `(b, a)`: its endpoints are the two non-shared points
and `s` is not an endpoint of it. -/
theorem C11_fuse_spans_head_to_tail (c : EdgeSetTopologyContainer)
    (pairs : List (EdgeID × EdgeID)) (n : Nat)
    (hr : ∀ p ∈ pairs, p.1 < c.d_edge.length ∧ p.2 < c.d_edge.length) :
    ∃ v edgeIndexList ancestorsArray,
      EdgeSetTopologyModifier.fuseEdgesLoop c (asVectors pairs) n
        = some (v, edgeIndexList, ancestorsArray)
      ∧ v.length = pairs.length
      ∧ ∀ (j : Nat) (i1 i2 : EdgeID) (a s b : PointID), pairs[j]? = some (i1, i2) →
          a ≠ b → a ≠ s → b ≠ s →
          ((c.getEdge i1 = some (a, s) ∧ c.getEdge i2 = some (s, b)) →
            v[j]? = some (a, b)) ∧
          ((c.getEdge i1 = some (s, a) ∧ c.getEdge i2 = some (b, s)) →
            v[j]? = some (b, a)) ∧
          (((c.getEdge i1 = some (a, s) ∧ c.getEdge i2 = some (s, b)) ∨
              (c.getEdge i1 = some (s, a) ∧ c.getEdge i2 = some (b, s))) →
            ∀ e, v[j]? = some e → e.1 ≠ s ∧ e.2 ≠ s) := by
  refine ⟨_, _, _, fuseEdgesLoop_spec c pairs n hr, by simp [fusedEdges], ?_⟩
  intro j i1 i2 a s b hj hab has hbs
  have hv : (fusedEdges c pairs)[j]?
      = some (EdgeSetTopologyModifier.fusedEdge (edgeAt c i1) (edgeAt c i2)) := by
    simp [fusedEdges, List.getElem?_map, hj]
  have h1 : (c.getEdge i1 = some (a, s) ∧ c.getEdge i2 = some (s, b)) →
      (fusedEdges c pairs)[j]? = some (a, b) := by
    rintro ⟨g1, g2⟩
    rw [hv, edgeAt_of_getElem? c i1 _ g1, edgeAt_of_getElem? c i2 _ g2]
    simp [EdgeSetTopologyModifier.fusedEdge, hab]
  have h2 : (c.getEdge i1 = some (s, a) ∧ c.getEdge i2 = some (b, s)) →
      (fusedEdges c pairs)[j]? = some (b, a) := by
    rintro ⟨g1, g2⟩
    rw [hv, edgeAt_of_getElem? c i1 _ g1, edgeAt_of_getElem? c i2 _ g2]
    simp [EdgeSetTopologyModifier.fusedEdge]
  refine ⟨h1, h2, ?_⟩
  rintro (g | g) e he
  · rw [h1 g] at he
    cases he
    exact ⟨has, hbs⟩
  · rw [h2 g] at he
    cases he
    exact ⟨hbs, has⟩

theorem C11_fuse_spans_head_to_tail_witness :
    (∀ p ∈ [((0 : EdgeID), (1 : EdgeID)), (2, 1)],
      p.1 < pathMesh.m_container.d_edge.length ∧ p.2 < pathMesh.m_container.d_edge.length) ∧
    ∃ v edgeIndexList ancestorsArray,
      EdgeSetTopologyModifier.fuseEdgesLoop pathMesh.m_container
          (asVectors [(0, 1), (2, 1)]) 3
        = some (v, edgeIndexList, ancestorsArray)
      ∧ v.length = [((0 : EdgeID), (1 : EdgeID)), (2, 1)].length
      ∧ ∀ (j : Nat) (i1 i2 : EdgeID) (a s b : PointID),
          [((0 : EdgeID), (1 : EdgeID)), (2, 1)][j]? = some (i1, i2) →
          a ≠ b → a ≠ s → b ≠ s →
          ((pathMesh.m_container.getEdge i1 = some (a, s)
              ∧ pathMesh.m_container.getEdge i2 = some (s, b)) →
            v[j]? = some (a, b)) ∧
          ((pathMesh.m_container.getEdge i1 = some (s, a)
              ∧ pathMesh.m_container.getEdge i2 = some (b, s)) →
            v[j]? = some (b, a)) ∧
          (((pathMesh.m_container.getEdge i1 = some (a, s)
                ∧ pathMesh.m_container.getEdge i2 = some (s, b)) ∨
              (pathMesh.m_container.getEdge i1 = some (s, a)
                ∧ pathMesh.m_container.getEdge i2 = some (b, s))) →
            ∀ e, v[j]? = some e → e.1 ≠ s ∧ e.2 ≠ s) :=
  ⟨by decide, C11_fuse_spans_head_to_tail pathMesh.m_container [(0, 1), (2, 1)] 3 (by decide)⟩

/-- C12 (counterexample). With consistency checking on, swapping the pair `(0, 1)` of the
edges `(0, 1)` and `(0, 2)`: the new edge `(0, 0)` is rejected as degenerate, only `(1, 2)`
is added, both old edges are removed, and one edge is left where there were two. -/
theorem C12_swap_counterexample :
    divergingMesh.m_container.d_edge = [(0, 1), (0, 2)]
    ∧ ∃ s1, EdgeSetTopologyModifier.swapEdgesProcess true divergingMesh [[0, 1]] false true
        = .done s1
      ∧ s1.m_container.d_edge = [(1, 2)]
      ∧ s1.messages = [Message.invalidEdge (0, 0)] :=
  ⟨rfl, _, rfl, rfl, rfl⟩

/-- C12 (amended). Swap recombines endpoints pairwise: for every list of pairs of edge
indices that are all in range and pairwise distinct, provided `addEdgeProcess` rejects none
of the new edges (always so with consistency checking off), `swapEdgesProcess` (the old
edges removed without isolated-item removal) leaves the edge count unchanged, and the
multiset of edges afterwards is the original multiset with, for each pair `(i1, i2)` of
edges `(p11, p12)` and `(p21, p22)`, those two edges removed and the edges `(p11, p21)`
and `(p12, p22)` added: the edges afterwards together with the edges at the listed indices
are the original edges together with the new ones. -/
theorem C12_swap_recombines_endpoints (CHECK_TOPOLOGY : Bool) (s : EdgeSetTopologyModifier)
    (pairs : List (EdgeID × EdgeID)) (d_propagateToDOF : Bool)
    (hcov : ShellCovers s.m_container)
    (hr : ∀ i ∈ flatten pairs, i < s.m_container.d_edge.length)
    (hnd : (flatten pairs).Nodup)
    (hacc : AllAccepted CHECK_TOPOLOGY s.m_container (swappedEdges s.m_container pairs)) :
    ∃ s1, EdgeSetTopologyModifier.swapEdgesProcess CHECK_TOPOLOGY s (asVectors pairs) false
        d_propagateToDOF = .done s1
      ∧ s1.m_container.d_edge.length = s.m_container.d_edge.length
      ∧ (s1.m_container.d_edge ++ (flatten pairs).map (edgeAt s.m_container)).Perm
          (s.m_container.d_edge ++ swappedEdges s.m_container pairs) := by
  have hrp : ∀ p ∈ pairs, p.1 < s.m_container.d_edge.length
      ∧ p.2 < s.m_container.d_edge.length := by
    intro p hp
    constructor
    · exact hr _ (List.mem_flatMap.2 ⟨p, hp, by simp⟩)
    · exact hr _ (List.mem_flatMap.2 ⟨p, hp, by simp⟩)
  unfold EdgeSetTopologyModifier.swapEdgesProcess
  by_cases hne : s.m_container.hasEdges = true
  · simp only [hne, Bool.not_true, Bool.false_eq_true, if_false,
      EdgeSetTopologyContainer.getNumberOfEdges, swapEdgesLoop_spec s.m_container pairs _ hrp]
    have hmem : ∀ i : Nat, i < s.m_container.d_edge.length →
        edgeAt s.m_container i ∈ s.m_container.d_edge := by
      intro i hi
      have := getEdge_eq_edgeAt s.m_container i hi
      exact List.mem_iff_getElem?.2 ⟨i, this⟩
    have hv : s.m_container.hasEdgesAroundVertex = true →
        ∀ e ∈ swappedEdges s.m_container pairs,
          e.1 < s.m_container.m_edgesAroundVertex.length ∧
          e.2 < s.m_container.m_edgesAroundVertex.length := by
      intro hb e he
      obtain ⟨p, hp, hep⟩ := List.mem_flatMap.1 he
      have h1 := hcov hb _ (hmem _ (hrp p hp).1)
      have h2 := hcov hb _ (hmem _ (hrp p hp).2)
      simp only [List.mem_cons, List.mem_singleton, List.not_mem_nil, or_false] at hep
      rcases hep with rfl | rfl
      · exact ⟨h1.1, h2.1⟩
      · exact ⟨h1.2, h2.2⟩
    obtain ⟨s1, seen, hrun, -, -, -, -, hlen, hperm, -⟩ :=
      replaceEdgesTail_spec CHECK_TOPOLOGY s pairs (swappedEdges s.m_container pairs)
        (List.range' s.m_container.d_edge.length (2 * pairs.length)) (asVectors pairs)
        d_propagateToDOF hne hcov hv hacc hnd hr
    have hl1 := length_swappedEdges s.m_container pairs
    have hl2 := length_flatten pairs
    refine ⟨s1, hrun, by omega, ?_⟩
    have e1 : (flatten pairs).filterMap (fun i => s.m_container.d_edge[i]?)
        = (flatten pairs).map (edgeAt s.m_container) := by
      rw [← List.filterMap_eq_map]
      apply List.filterMap_congr
      intro i hi
      exact getEdge_eq_edgeAt s.m_container i (hr i hi)
    rw [← e1]
    exact hperm
  · have hnil : s.m_container.d_edge = [] := by
      cases h : s.m_container.d_edge with
      | nil => rfl
      | cons a b =>
        exact absurd ((hasEdges_iff _).2 (by rw [h]; simp)) hne
    have hp : pairs = [] := by
      cases pairs with
      | nil => rfl
      | cons p rest =>
        have := (hrp p (List.mem_cons_self _ _)).1
        rw [hnil] at this
        exact absurd this (Nat.not_lt_zero _)
    have hne1 : s.m_container.hasEdges = false := by
      cases h : s.m_container.hasEdges
      · rfl
      · exact absurd h hne
    subst hp
    simp [hne1, flatten, swappedEdges]

theorem C12_swap_recombines_endpoints_witness :
    ShellCovers twoEdgesMeshShell.m_container ∧
    (∀ i ∈ flatten [(0, 1)], i < twoEdgesMeshShell.m_container.d_edge.length) ∧
    (flatten [(0, 1)]).Nodup ∧
    AllAccepted true twoEdgesMeshShell.m_container
      (swappedEdges twoEdgesMeshShell.m_container [(0, 1)]) ∧
    ∃ s1, EdgeSetTopologyModifier.swapEdgesProcess true twoEdgesMeshShell
        (asVectors [(0, 1)]) false true = .done s1
      ∧ s1.m_container.d_edge.length = twoEdgesMeshShell.m_container.d_edge.length
      ∧ (s1.m_container.d_edge
            ++ (flatten [(0, 1)]).map (edgeAt twoEdgesMeshShell.m_container)).Perm
          (twoEdgesMeshShell.m_container.d_edge
            ++ swappedEdges twoEdgesMeshShell.m_container [(0, 1)]) :=
  ⟨by decide, by decide, by decide, by decide,
    C12_swap_recombines_endpoints true twoEdgesMeshShell [(0, 1)] true
      (by decide) (by decide) (by decide) (by decide)⟩

/-- C13 (failing input). Swapping the pairs `(0, 1)` and `(2, 3)` on the mesh with the
edges `(0, 1)`, `(2, 3)`, `(4, 5)`, `(6, 7)`: the addition record that is propagated lists
the four new edges `(0, 2)`, `(1, 3)`, `(4, 6)`, `(5, 7)` with the indices 4 to 7 and only
two ancestor lists, one per pair. At position 1, the edge `(1, 3)` built from the pair
`(0, 1)` meets the ancestor list `[2, 3]` of the other pair; at positions 2 and 3 there is
no ancestor list. -/
theorem C13_swap_record_one_ancestor_list_per_pair :
    fourEdgesMesh.m_container.d_edge = [(0, 1), (2, 3), (4, 5), (6, 7)]
    ∧ ∃ seen ancestorsList,
        (EdgeSetTopologyModifier.swapEdgesProcess false fourEdgesMesh [[0, 1], [2, 3]]
          false true).state.trace = [Event.propagated seen]
        ∧ seen.m_changeList
            = [.EdgesAdded 4 [(0, 2), (1, 3), (4, 6), (5, 7)] [4, 5, 6, 7] ancestorsList [],
               .EdgesRemoved [3, 2, 1, 0]]
        ∧ ancestorsList = [[0, 1], [2, 3]]
        ∧ ancestorsList.length = 2
        ∧ ancestorsList[1]? = some [2, 3]
        ∧ ancestorsList[2]? = none :=
  ⟨rfl, _, _, rfl, rfl, rfl, rfl, rfl, rfl⟩

/-- C14 (counterexample). With consistency checking on and the shell built, on the mesh of
the two edges `(0, 1)` and `(1, 0)`: edge 0 is split into `(2, 1)` (index 0) and `(0, 2)`
(index 2); fusing the pair `(2, 0)` builds `(0, 1)`, which is rejected because `(1, 0)`
already joins the two points, and both halves are removed. One edge is left where there
were two. -/
theorem C14_split_then_fuse_counterexample :
    parallelMeshShell.m_container.d_edge = [(0, 1), (1, 0)]
    ∧ ∃ s1 s2, EdgeSetTopologyModifier.splitEdgesProcess true parallelMeshShell [0] false true
        = .done s1
      ∧ s1.m_container.d_edge = [(2, 1), (1, 0), (0, 2)]
      ∧ EdgeSetTopologyModifier.fuseEdgesProcess true s1 [[2, 0]] false true = .done s2
      ∧ s2.m_container.d_edge = [(1, 0)]
      ∧ s2.messages = [Message.edgeAlreadyExists (0, 1)] :=
  ⟨rfl, _, _, rfl, rfl, rfl, rfl, rfl⟩

/-- C14 (amended). Split then fuse is a round trip: for every mesh (every endpoint a point)
with `n` edges and every in-range edge `k = (a, b)` with `a != b`, provided the fused edge
is not rejected (consistency checking off, or no shell built when the fuse runs, or no
other edge of the mesh joining `a` and `b`), splitting `k` with `splitEdgesProcess` and
then fusing the two edges created by the split, at the indices `n` and `k`, with
`fuseEdgesProcess` (the pair given in either order, isolated-point removal off) yields a
mesh with the original number of edges that contains the edge `(a, b)`, all other edges
being those of the original mesh: the edges afterwards are the original edges up to their
order. -/
theorem C14_split_then_fuse_round_trip (CHECK_TOPOLOGY : Bool) (s : EdgeSetTopologyModifier)
    (k a b : Nat) (removeIsolatedPoints d_propagateToDOF : Bool)
    (hk : s.m_container.d_edge[k]? = some (a, b)) (hab : a ≠ b)
    (hvalid : ValidEdges s.m_container)
    (hdup : CHECK_TOPOLOGY = false
      ∨ (removeIsolatedPoints = false ∧ s.m_container.hasEdgesAroundVertex = false)
      ∨ ∀ j < s.m_container.d_edge.length, j ≠ k →
          s.m_container.d_edge[j]? ≠ some (a, b) ∧ s.m_container.d_edge[j]? ≠ some (b, a)) :
    ∃ s1, EdgeSetTopologyModifier.splitEdgesProcess CHECK_TOPOLOGY s [k]
        removeIsolatedPoints d_propagateToDOF = .done s1
      ∧ ∀ pair, pair = (s.m_container.d_edge.length, k)
          ∨ pair = (k, s.m_container.d_edge.length) →
        ∃ s2, EdgeSetTopologyModifier.fuseEdgesProcess CHECK_TOPOLOGY s1 (asVectors [pair])
            false d_propagateToDOF = .done s2
          ∧ s2.m_container.d_edge.length = s.m_container.d_edge.length
          ∧ (a, b) ∈ s2.m_container.d_edge
          ∧ s2.m_container.d_edge.Perm s.m_container.d_edge := by
  have hkl : k < s.m_container.d_edge.length := (List.getElem?_eq_some.1 hk).1
  have hab_mem : (a, b) ∈ s.m_container.d_edge := List.mem_iff_getElem?.2 ⟨_, hk⟩
  obtain ⟨ha, hb⟩ : a < s.m_container.nbPoints ∧ b < s.m_container.nbPoints :=
    hvalid _ hab_mem
  obtain ⟨s1, hrun, hnb, hfin, hsl, hsu⟩ := splitEdgesProcess_single CHECK_TOPOLOGY s k a b
    removeIsolatedPoints d_propagateToDOF hk hvalid (Or.inr (Or.inr hab))
  refine ⟨s1, hrun, ?_⟩
  generalize hn : s.m_container.d_edge.length = n at hkl
  generalize hP : s.m_container.nbPoints = P at ha hb hnb hfin hsl
  have hlen1 : s1.m_container.d_edge.length = n + 1 := by rw [hfin]; simp [hn]
  have hgk : s1.m_container.d_edge[k]? = some (P, b) := by
    rw [hfin, List.getElem?_append_left (by simpa [hn] using hkl)]
    simp [List.getElem?_set, hn, hkl]
  have hgn : s1.m_container.d_edge[n]? = some (a, P) := by
    rw [hfin, List.getElem?_append_right (by simp [hn])]
    simp [hn]
  have hne1 : s1.m_container.hasEdges = true := (hasEdges_iff _).2 (by omega)
  have hvalid1 : ∀ e ∈ s1.m_container.d_edge, e.1 < P + 1 ∧ e.2 < P + 1 := by
    intro e he
    rw [hfin] at he
    rcases List.mem_append.1 he with h | h
    · rcases List.mem_or_eq_of_mem_set h with h | h
      · have := hvalid e h
        rw [hP] at this
        exact ⟨Nat.lt_succ_of_lt this.1, Nat.lt_succ_of_lt this.2⟩
      · rw [h]; exact ⟨Nat.lt_succ_self _, Nat.lt_succ_of_lt hb⟩
    · rw [List.mem_singleton.1 h]; exact ⟨Nat.lt_succ_of_lt ha, Nat.lt_succ_self _⟩
  have hcov1 : ShellCovers s1.m_container := by
    intro hb1 e he
    rw [hsl hb1]
    exact hvalid1 e he
  have hv : s1.m_container.hasEdgesAroundVertex = true → ∀ e ∈ [((a, b) : Edge)],
      e.1 < s1.m_container.m_edgesAroundVertex.length ∧
      e.2 < s1.m_container.m_edgesAroundVertex.length := by
    intro hb1 e he
    rw [hsl hb1, List.mem_singleton.1 he]
    exact ⟨Nat.lt_succ_of_lt ha, Nat.lt_succ_of_lt hb⟩
  have hacc : AllAccepted CHECK_TOPOLOGY s1.m_container [((a, b) : Edge)] := by
    refine ⟨?_, trivial⟩
    by_cases hc : CHECK_TOPOLOGY = false
    · exact Or.inl hc
    · right
      refine ⟨hab, fun hb1 hj => ?_⟩
      have hother : ∀ j < n, j ≠ k →
          s.m_container.d_edge[j]? ≠ some (a, b) ∧ s.m_container.d_edge[j]? ≠ some (b, a) := by
        rcases hdup with h | ⟨h1, h2⟩ | h
        · exact absurd h hc
        · rw [hsu h1 h2] at hb1
          exact absurd hb1 (by decide)
        · rw [hn] at h
          exact h
      have key : ∀ x : Edge, x ∈ s1.m_container.d_edge → x ≠ (a, b) ∧ x ≠ (b, a) := by
        intro x hx
        obtain ⟨j, hj⟩ := List.mem_iff_getElem?.1 hx
        have hjl : j < n + 1 := by
          rw [← hlen1]
          exact (List.getElem?_eq_some.1 hj).1
        by_cases hjn : j = n
        · rw [hjn, hgn] at hj
          cases hj
          exact ⟨fun h => Nat.ne_of_lt hb (Prod.mk.inj h).2.symm,
            fun h => Nat.ne_of_lt ha (Prod.mk.inj h).2.symm⟩
        · by_cases hjk : j = k
          · rw [hjk, hgk] at hj
            cases hj
            exact ⟨fun h => Nat.ne_of_lt ha (Prod.mk.inj h).1.symm,
              fun h => Nat.ne_of_lt hb (Prod.mk.inj h).1.symm⟩
          · have hjl2 : j < n := by omega
            have e1 : s1.m_container.d_edge[j]? = s.m_container.d_edge[j]? := by
              rw [hfin, List.getElem?_append_left (by simpa [hn] using hjl2)]
              have : ¬ k = j := fun h => hjk h.symm
              simp [List.getElem?_set, this]
            rw [e1] at hj
            obtain ⟨h1, h2⟩ := hother j hjl2 hjk
            rw [hj] at h1 h2
            exact ⟨fun h => h1 (by rw [h]), fun h => h2 (by rw [h])⟩
      rcases hj with h | h
      · exact (key _ h).1 rfl
      · exact (key _ h).2 rfl
  intro pair hpair
  have hflat : flatten [pair] = [pair.1, pair.2] := by simp [flatten]
  have hp12 : (pair.1 = n ∧ pair.2 = k) ∨ (pair.1 = k ∧ pair.2 = n) := by
    rcases hpair with h | h
    · left; rw [h]; exact ⟨rfl, rfl⟩
    · right; rw [h]; exact ⟨rfl, rfl⟩
  have hr : ∀ i ∈ flatten [pair], i < s1.m_container.d_edge.length := by
    intro i hi
    rw [hlen1]
    rw [hflat] at hi
    simp only [List.mem_cons, List.mem_singleton, List.not_mem_nil, or_false] at hi
    rcases hp12 with ⟨h1, h2⟩ | ⟨h1, h2⟩ <;> rcases hi with h | h <;> rw [h] <;>
      first
        | (rw [h1]; exact Nat.lt_succ_self _)
        | (rw [h2]; exact Nat.lt_succ_self _)
        | (rw [h1]; exact Nat.lt_succ_of_lt hkl)
        | (rw [h2]; exact Nat.lt_succ_of_lt hkl)
  have hnd : (flatten [pair]).Nodup := by
    rw [hflat]
    rcases hp12 with ⟨h1, h2⟩ | ⟨h1, h2⟩ <;> rw [h1, h2] <;>
      simp only [List.nodup_cons, List.mem_singleton, List.not_mem_nil, not_false_eq_true,
        List.nodup_nil, and_true]
    · exact Nat.ne_of_gt hkl
    · exact Nat.ne_of_lt hkl
  have hrp : ∀ p ∈ [pair], p.1 < s1.m_container.d_edge.length
      ∧ p.2 < s1.m_container.d_edge.length := by
    intro p hp
    rw [List.mem_singleton.1 hp]
    exact ⟨hr _ (by simp [flatten]), hr _ (by simp [flatten])⟩
  have hfused : fusedEdges s1.m_container [pair] = [(a, b)] := by
    rcases hpair with h | h <;> subst h
    · simp [fusedEdges, edgeAt_of_getElem? _ _ _ hgk, edgeAt_of_getElem? _ _ _ hgn,
        EdgeSetTopologyModifier.fusedEdge, hab]
    · simp [fusedEdges, edgeAt_of_getElem? _ _ _ hgk, edgeAt_of_getElem? _ _ _ hgn,
        EdgeSetTopologyModifier.fusedEdge]
  obtain ⟨s2, seen, hrun2, -, -, -, -, hlen2, hperm2, -⟩ :=
    replaceEdgesTail_spec CHECK_TOPOLOGY s1 [pair] [(a, b)]
      (List.range' s1.m_container.d_edge.length 1) (asVectors [pair])
      d_propagateToDOF hne1 hcov1 hv hacc hnd hr
  have hfuse : EdgeSetTopologyModifier.fuseEdgesProcess CHECK_TOPOLOGY s1 (asVectors [pair])
      false d_propagateToDOF = .done s2 := by
    unfold EdgeSetTopologyModifier.fuseEdgesProcess
    simp only [hne1, Bool.not_true, Bool.false_eq_true, if_false,
      EdgeSetTopologyContainer.getNumberOfEdges,
      fuseEdgesLoop_spec s1.m_container [pair] _ hrp, hfused, List.length_singleton]
    exact hrun2
  have hperm : s2.m_container.d_edge.Perm s.m_container.d_edge := by
    have hrem : ((flatten [pair]).filterMap (fun i => s1.m_container.d_edge[i]?)).Perm
        [(a, P), (P, b)] := by
      rcases hpair with h | h <;> subst h
      · simp [flatten, hgk, hgn]
      · simp only [flatten, List.flatMap_cons, List.flatMap_nil, List.append_nil,
          List.filterMap_cons, hgk, hgn, List.filterMap_nil]
        exact List.Perm.swap _ _ _
    have h1 : (s2.m_container.d_edge ++ [(a, P), (P, b)]).Perm
        (s1.m_container.d_edge ++ [(a, b)]) :=
      (List.Perm.append_left _ hrem.symm).trans hperm2
    have h2 : (s1.m_container.d_edge ++ [((a, b) : Edge)]).Perm
        (s.m_container.d_edge ++ [(a, P), (P, b)]) := by
      rw [hfin]
      have h3 := set_append_singleton_perm s.m_container.d_edge k (P, b) (a, b) hk
      have h4 : (s.m_container.d_edge.set k (P, b) ++ [(a, P)] ++ [(a, b)]).Perm
          (s.m_container.d_edge.set k (P, b) ++ [(a, b)] ++ [(a, P)]) := by
        rw [List.append_assoc, List.append_assoc]
        exact List.Perm.append_left _ (List.Perm.swap _ _ _)
      refine h4.trans ((List.Perm.append_right _ h3).trans ?_)
      rw [List.append_assoc]
      exact List.Perm.append_left _ (List.Perm.swap _ _ _)
    exact (List.perm_append_right_iff _).1 (h1.trans h2)
  refine ⟨s2, hfuse, ?_, ?_, hperm⟩
  · rw [hperm.length_eq, hn]
  · exact hperm.mem_iff.2 hab_mem

theorem C14_split_then_fuse_round_trip_witness :
    pathMeshShell.m_container.d_edge[1]? = some (1, 2) ∧ (1 : Nat) ≠ 2 ∧
    ValidEdges pathMeshShell.m_container ∧
    (∀ j < pathMeshShell.m_container.d_edge.length, j ≠ 1 →
      pathMeshShell.m_container.d_edge[j]? ≠ some (1, 2)
        ∧ pathMeshShell.m_container.d_edge[j]? ≠ some (2, 1)) ∧
    ∃ s1, EdgeSetTopologyModifier.splitEdgesProcess true pathMeshShell [1] false true
        = .done s1
      ∧ ∀ pair, pair = (pathMeshShell.m_container.d_edge.length, 1)
          ∨ pair = (1, pathMeshShell.m_container.d_edge.length) →
        ∃ s2, EdgeSetTopologyModifier.fuseEdgesProcess true s1 (asVectors [pair])
            false true = .done s2
          ∧ s2.m_container.d_edge.length = pathMeshShell.m_container.d_edge.length
          ∧ (1, 2) ∈ s2.m_container.d_edge
          ∧ s2.m_container.d_edge.Perm pathMeshShell.m_container.d_edge :=
  ⟨by decide, by decide, by decide, by decide,
    C14_split_then_fuse_round_trip true pathMeshShell 1 1 2 false true (by decide) (by decide)
      (by decide) (Or.inr (Or.inr (by decide)))⟩

/-- C15. Renumbering rewrites endpoints without flipping: for every edge array and every
inverse-permutation array `inv_index` defined on all referenced points,
`renumberPointsProcess` replaces each edge `(p0, p1)` at index `i` by
`(inv_index[p0], inv_index[p1])` at the same index `i`, first endpoint staying first, and
leaves the number of edges unchanged. (When a shell is built, `index` is taken to fit it,
so that the copy of the shells that runs first is defined.) -/
theorem C15_renumberPointsProcess_rewrites_endpoints (s : EdgeSetTopologyModifier)
    (index inv_index : List PointID) (renumberDOF : Bool)
    (hinv : ∀ e ∈ s.m_container.d_edge, e.1 < inv_index.length ∧ e.2 < inv_index.length)
    (hshell : s.m_container.hasEdgesAroundVertex = true →
      index.length ≤ s.m_container.m_edgesAroundVertex.length ∧
      ∀ x ∈ index, x < s.m_container.m_edgesAroundVertex.length) :
    ∃ s1, EdgeSetTopologyModifier.renumberPointsProcess s index inv_index renumberDOF
        = .done s1
      ∧ s1.m_container.d_edge.length = s.m_container.d_edge.length
      ∧ s1.m_container.d_edge = s.m_container.d_edge.map (renumbered inv_index)
      ∧ ∀ (i : Nat) (p0 p1 : PointID), s.m_container.d_edge[i]? = some (p0, p1) →
          ∃ q0 q1, inv_index[p0]? = some q0 ∧ inv_index[p1]? = some q1
            ∧ s1.m_container.d_edge[i]? = some (q0, q1) := by
  have key : ∃ s1, EdgeSetTopologyModifier.renumberPointsProcess s index inv_index renumberDOF
        = .done s1
      ∧ s1.m_container.d_edge = s.m_container.d_edge.map (renumbered inv_index) := by
    unfold EdgeSetTopologyModifier.renumberPointsProcess
    by_cases hne : s.m_container.hasEdges = true
    · simp only [hne, if_true, renumberEdges_spec inv_index _ hinv]
      by_cases hb : s.m_container.hasEdgesAroundVertex = true
      · obtain ⟨shells1, hrun, -, -⟩ := renumberShells_spec s.m_container.m_edgesAroundVertex
          index 0 s.m_container.m_edgesAroundVertex
          (by rw [Nat.zero_add]; exact (hshell hb).1) (hshell hb).2
        simp only [hb, if_true, hrun]
        exact ⟨_, rfl, rfl⟩
      · simp only [hb, Bool.false_eq_true, if_false]
        exact ⟨_, rfl, rfl⟩
    · have hnil : s.m_container.d_edge = [] := by
        cases h : s.m_container.d_edge with
        | nil => rfl
        | cons a b => exact absurd ((hasEdges_iff _).2 (by rw [h]; simp)) hne
      simp only [hne, Bool.false_eq_true, if_false]
      exact ⟨s, rfl, by rw [hnil]; rfl⟩
  obtain ⟨s1, hrun, hedges⟩ := key
  refine ⟨s1, hrun, by rw [hedges, List.length_map], hedges, ?_⟩
  intro i p0 p1 hi
  obtain ⟨h0, h1⟩ := hinv _ (List.mem_iff_getElem?.2 ⟨i, hi⟩)
  refine ⟨inv_index[p0], inv_index[p1], List.getElem?_eq_getElem h0,
    List.getElem?_eq_getElem h1, ?_⟩
  rw [hedges, List.getElem?_map, hi]
  simp [renumbered, List.getD_eq_getElem?_getD, List.getElem?_eq_getElem h0,
    List.getElem?_eq_getElem h1]

theorem C15_renumberPointsProcess_rewrites_endpoints_witness :
    (∀ e ∈ pathMeshShell.m_container.d_edge,
      e.1 < [2, 0, 3, 1].length ∧ e.2 < [2, 0, 3, 1].length) ∧
    (pathMeshShell.m_container.hasEdgesAroundVertex = true →
      [1, 3, 0, 2].length ≤ pathMeshShell.m_container.m_edgesAroundVertex.length ∧
      ∀ x ∈ [1, 3, 0, 2], x < pathMeshShell.m_container.m_edgesAroundVertex.length) ∧
    ∃ s1, EdgeSetTopologyModifier.renumberPointsProcess pathMeshShell [1, 3, 0, 2]
        [2, 0, 3, 1] true = .done s1
      ∧ s1.m_container.d_edge.length = pathMeshShell.m_container.d_edge.length
      ∧ s1.m_container.d_edge
          = pathMeshShell.m_container.d_edge.map (renumbered [2, 0, 3, 1])
      ∧ ∀ (i : Nat) (p0 p1 : PointID), pathMeshShell.m_container.d_edge[i]? = some (p0, p1) →
          ∃ q0 q1, [2, 0, 3, 1][p0]? = some q0 ∧ [2, 0, 3, 1][p1]? = some q1
            ∧ s1.m_container.d_edge[i]? = some (q0, q1) :=
  ⟨by decide, by decide,
    C15_renumberPointsProcess_rewrites_endpoints pathMeshShell [1, 3, 0, 2] [2, 0, 3, 1] true
      (by decide) (by decide)⟩

/-- C16. Renumbering preserves shell consistency: if the shell is built and consistent, and
`index` and `inv_index` are mutually inverse permutations of `[0, number of points)`, then
after `renumberPointsProcess(index, inv_index)` the shell of every point `p` is exactly the
set of edge indices having `p` as an endpoint in the rewritten edge array. -/
theorem C16_renumberPointsProcess_preserves_shell (s : EdgeSetTopologyModifier)
    (index inv_index : List PointID) (renumberDOF : Bool)
    (hbuilt : s.m_container.hasEdgesAroundVertex = true)
    (hcons : ShellConsistent s.m_container)
    (hperm : MutuallyInverse index inv_index s.m_container.nbPoints) :
    ∃ s1, EdgeSetTopologyModifier.renumberPointsProcess s index inv_index renumberDOF
        = .done s1
      ∧ s1.m_container.d_edge = s.m_container.d_edge.map (renumbered inv_index)
      ∧ s1.m_container.nbPoints = s.m_container.nbPoints
      ∧ ShellConsistent s1.m_container
      ∧ ∀ p : Nat, p < s1.m_container.nbPoints → ∀ j : Nat,
          j ∈ s1.m_container.m_edgesAroundVertex.getD p []
            ↔ ∃ e, s1.m_container.d_edge[j]? = some e ∧ (e.1 = p ∨ e.2 = p) := by
  obtain ⟨hli, hlv, hpi⟩ := hperm
  obtain ⟨hexact, hvalid⟩ := hcons
  obtain ⟨hsl, hmem⟩ := (ShellExact_iff _).1 hexact
  by_cases hne : s.m_container.hasEdges = true
  · have hinv : ∀ e ∈ s.m_container.d_edge, e.1 < inv_index.length ∧ e.2 < inv_index.length := by
      intro e he
      rw [hlv]
      exact hvalid e he
    obtain ⟨shells1, hrun, hl1, hget⟩ := renumberShells_spec s.m_container.m_edgesAroundVertex
      index 0 s.m_container.m_edgesAroundVertex
      (by rw [Nat.zero_add, hli, hsl])
      (fun x hx => by
        rw [hsl]
        obtain ⟨p, hp⟩ := List.mem_iff_getElem?.1 hx
        have hpl : p < s.m_container.nbPoints := by
          rw [← hli]; exact (List.getElem?_eq_some.1 hp).1
        have := (hpi p hpl).1.1
        rw [List.getD_eq_getElem?_getD, hp] at this
        exact this)
    have hproc : EdgeSetTopologyModifier.renumberPointsProcess s index inv_index renumberDOF
        = .done { s with m_container :=
            { s.m_container with
              m_edgesAroundVertex := shells1
              d_edge := s.m_container.d_edge.map (renumbered inv_index) } } := by
      unfold EdgeSetTopologyModifier.renumberPointsProcess
      simp only [hne, if_true, renumberEdges_spec inv_index _ hinv, hbuilt, hrun]
    have hshell : ∀ p : Nat, p < s.m_container.nbPoints → ∀ j : Nat,
        j ∈ shells1.getD p [] ↔ ∃ e, (s.m_container.d_edge.map (renumbered inv_index))[j]?
          = some e ∧ (e.1 = p ∨ e.2 = p) := by
      intro p hp j
      have h1 : 0 ≤ p ∧ p < 0 + index.length := ⟨Nat.zero_le _, by rw [Nat.zero_add, hli]; exact hp⟩
      rw [hget p, if_pos h1, Nat.sub_zero, hmem _ (hpi p hp).1.1 j, List.getElem?_map]
      have hto : ∀ x : Nat, x < s.m_container.nbPoints →
          (inv_index.getD x 0 = p ↔ x = index.getD p 0) := by
        intro x hx
        constructor
        · intro h
          rw [← h, (hpi x hx).2.2]
        · intro h
          rw [h, (hpi p hp).1.2]
      constructor
      · rintro ⟨e0, he0, hep⟩
        refine ⟨renumbered inv_index e0, by rw [he0]; rfl, ?_⟩
        obtain ⟨v1, v2⟩ := hvalid e0 (List.mem_iff_getElem?.2 ⟨j, he0⟩)
        rcases hep with h | h
        · exact Or.inl ((hto _ v1).2 h)
        · exact Or.inr ((hto _ v2).2 h)
      · rintro ⟨e, he, hep⟩
        cases he0 : s.m_container.d_edge[j]? with
        | none => rw [he0] at he; cases he
        | some e0 =>
          rw [he0] at he
          cases he
          obtain ⟨v1, v2⟩ := hvalid e0 (List.mem_iff_getElem?.2 ⟨j, he0⟩)
          refine ⟨e0, rfl, ?_⟩
          rcases hep with h | h
          · exact Or.inl ((hto _ v1).1 h)
          · exact Or.inr ((hto _ v2).1 h)
    refine ⟨_, hproc, rfl, rfl, ⟨(ShellExact_iff _).2 ⟨?_, hshell⟩, ?_⟩, hshell⟩
    · show shells1.length = s.m_container.nbPoints
      rw [hl1, hsl]
    · intro e he
      obtain ⟨e0, he0, rfl⟩ := List.mem_map.1 he
      obtain ⟨v1, v2⟩ := hvalid e0 he0
      exact ⟨(hpi _ v1).2.1, (hpi _ v2).2.1⟩
  · have hnil : s.m_container.d_edge = [] := by
      cases h : s.m_container.d_edge with
      | nil => rfl
      | cons a b => exact absurd ((hasEdges_iff _).2 (by rw [h]; simp)) hne
    have hproc : EdgeSetTopologyModifier.renumberPointsProcess s index inv_index renumberDOF
        = .done s := by
      unfold EdgeSetTopologyModifier.renumberPointsProcess
      simp only [hne, Bool.false_eq_true, if_false]
    exact ⟨s, hproc, by rw [hnil]; rfl, rfl, ⟨hexact, hvalid⟩, hmem⟩

theorem C16_renumberPointsProcess_preserves_shell_witness :
    pathMeshShell.m_container.hasEdgesAroundVertex = true ∧
    ShellConsistent pathMeshShell.m_container ∧
    MutuallyInverse [1, 3, 0, 2] [2, 0, 3, 1] pathMeshShell.m_container.nbPoints ∧
    ∃ s1, EdgeSetTopologyModifier.renumberPointsProcess pathMeshShell [1, 3, 0, 2]
        [2, 0, 3, 1] true = .done s1
      ∧ s1.m_container.d_edge
          = pathMeshShell.m_container.d_edge.map (renumbered [2, 0, 3, 1])
      ∧ s1.m_container.nbPoints = pathMeshShell.m_container.nbPoints
      ∧ ShellConsistent s1.m_container
      ∧ ∀ p : Nat, p < s1.m_container.nbPoints → ∀ j : Nat,
          j ∈ s1.m_container.m_edgesAroundVertex.getD p []
            ↔ ∃ e, s1.m_container.d_edge[j]? = some e ∧ (e.1 = p ∨ e.2 = p) :=
  ⟨by decide, by decide, by decide,
    C16_renumberPointsProcess_preserves_shell pathMeshShell [1, 3, 0, 2] [2, 0, 3, 1] true
      (by decide) (by decide) (by decide)⟩

/-- C17. `removeEdgesWarning` orders the batch: for every index list, the list after
`removeEdgesWarning`, which is also the list carried by the enqueued removal record, is a
permutation of the input sorted in non-increasing order; and when its entries are pairwise
distinct and below the edge count `n`, the entry processed at step `i` of
`removeEdgesProcess` is at most `n - 1 - i`, the index of the last edge at that step. -/
theorem C17_removeEdgesWarning_orders_batch (s : EdgeSetTopologyModifier)
    (edges : List EdgeID) :
    (EdgeSetTopologyModifier.removeEdgesWarning s edges).2.Perm edges
    ∧ (EdgeSetTopologyModifier.removeEdgesWarning s edges).2.Pairwise (fun a b => b ≤ a)
    ∧ (EdgeSetTopologyModifier.removeEdgesWarning s edges).1.m_container.m_changeList
        = s.m_container.m_changeList
          ++ [.EdgesRemoved (EdgeSetTopologyModifier.removeEdgesWarning s edges).2]
    ∧ ∀ n : Nat, edges.Nodup → (∀ x ∈ edges, x < n) →
        ∀ (i x : Nat),
          (EdgeSetTopologyModifier.removeEdgesWarning s edges).2[i]? = some x →
          lastEdgeIndexAt n i = n - 1 - i ∧ x ≤ lastEdgeIndexAt n i := by
  refine ⟨sortDescending_perm edges, sortDescending_sorted edges, rfl, ?_⟩
  intro n hnd hr i x hx
  have hx1 : (sortDescending edges)[i]? = some x := hx
  have hb := strictDescending_bound (sortDescending edges) n (sortDescending_strict edges hnd)
    (fun y hy => hr y ((sortDescending_perm edges).mem_iff.1 hy)) i x hx1
  have hi : i < n := by omega
  rw [lastEdgeIndexAt_eq n i hi]
  exact ⟨rfl, by omega⟩

theorem C17_removeEdgesWarning_orders_batch_witness :
    (EdgeSetTopologyModifier.removeEdgesWarning pathMesh [0, 2, 1]).2 = [2, 1, 0]
    ∧ ([0, 2, 1] : List EdgeID).Nodup ∧ (∀ x ∈ ([0, 2, 1] : List EdgeID), x < 3)
    ∧ ∀ (i x : Nat),
        (EdgeSetTopologyModifier.removeEdgesWarning pathMesh [0, 2, 1]).2[i]? = some x →
        lastEdgeIndexAt 3 i = 3 - 1 - i ∧ x ≤ lastEdgeIndexAt 3 i :=
  ⟨rfl, by decide, by decide,
    (C17_removeEdgesWarning_orders_batch pathMesh [0, 2, 1]).2.2.2 3 (by decide) (by decide)⟩

/-- C18. Isolated points are queued exactly: for every mesh with non-degenerate edges
(every endpoint a point, a built shell consistent) and every list of pairwise distinct
in-range edge indices in descending order, the point list `vertexToBeRemoved` that
`removeEdgesProcess(indices, removeIsolatedItems = true)` hands to point removal (through
`removePointsWarning`, which sorts it) contains each point at most once and consists of
exactly the endpoints of removed edges that are an endpoint of no remaining edge; with
`removeIsolatedItems = false` no point is queued. -/
theorem C18_isolated_points_queued_exactly (s : EdgeSetTopologyModifier)
    (indices : List Nat) (d_propagateToDOF : Bool)
    (hvalid : ValidEdges s.m_container)
    (hcons : s.m_container.hasEdgesAroundVertex = true → ShellExact s.m_container)
    (hnd : NonDegenerate s.m_container)
    (hsorted : indices.Pairwise (fun a b => b < a))
    (hrange : ∀ i ∈ indices, i < s.m_container.d_edge.length) :
    (∃ c1 vertexToBeRemoved,
      EdgeSetTopologyModifier.removeEdgesLoop true indices (decr s.m_container.d_edge.length)
          (if true && !s.m_container.hasEdgesAroundVertex
            then s.m_container.createEdgesAroundVertexArray else s.m_container) []
        = some (c1, vertexToBeRemoved)
      ∧ EdgeSetTopologyModifier.removeEdgesProcess s indices true d_propagateToDOF
        = (if !s.m_container.hasEdges then .done (s.report .edgeArrayEmpty)
          else if vertexToBeRemoved.isEmpty then .done { s with m_container := c1 }
          else EdgeSetTopologyModifier.removePointsProcess
            (EdgeSetTopologyModifier.propagateTopologicalChanges
              (EdgeSetTopologyModifier.removePointsWarning { s with m_container := c1 }
                vertexToBeRemoved).1)
            (EdgeSetTopologyModifier.removePointsWarning { s with m_container := c1 }
              vertexToBeRemoved).2 d_propagateToDOF)
      ∧ (EdgeSetTopologyModifier.removePointsWarning { s with m_container := c1 }
          vertexToBeRemoved).2.Perm vertexToBeRemoved
      ∧ vertexToBeRemoved.Nodup
      ∧ (c1.d_edge ++ indices.filterMap (fun i => s.m_container.d_edge[i]?)).Perm
          s.m_container.d_edge
      ∧ ∀ p : Nat, p ∈ vertexToBeRemoved
          ↔ EndpointOfListed s.m_container.d_edge indices p ∧ Isolated c1.d_edge p)
    ∧ ∃ c2, EdgeSetTopologyModifier.removeEdgesLoop false indices
          (decr s.m_container.d_edge.length) s.m_container [] = some (c2, [])
      ∧ EdgeSetTopologyModifier.removeEdgesProcess s indices false d_propagateToDOF
        = (if !s.m_container.hasEdges then .done (s.report .edgeArrayEmpty)
          else .done { s with m_container := c2 }) := by
  constructor
  · obtain ⟨c0, hc0⟩ : ∃ c0, c0 = (if true && !s.m_container.hasEdgesAroundVertex
      then s.m_container.createEdgesAroundVertexArray else s.m_container) := ⟨_, rfl⟩
    have h0_edges : c0.d_edge = s.m_container.d_edge := by
      rw [hc0]; split_ifs <;> rfl
    have h0_cons : ShellConsistent c0 := by
      rw [hc0]
      split_ifs with h
      · exact ⟨createEdgesAroundVertexArray_exact _, hvalid⟩
      · have hb : s.m_container.hasEdgesAroundVertex = true := by
          cases hs : s.m_container.hasEdgesAroundVertex
          · rw [hs] at h; simp at h
          · rfl
        exact ⟨hcons hb, hvalid⟩
    have h0_nd : NonDegenerate c0 := by
      intro e he
      rw [h0_edges] at he
      exact hnd e he
    obtain ⟨c1, v, hloop, hvnd, hiff⟩ := removeEdgesLoop_queue indices c0 [] hsorted
      (by rw [h0_edges]; exact hrange) h0_cons h0_nd List.nodup_nil
      (fun p hp => by cases hp)
    obtain ⟨c1', v1', hloop', -, hperm, -⟩ :=
      removeEdgesLoop_spec true (fun _ => True) (fun _ _ _ _ _ _ _ _ => trivial)
        indices c0 [] hsorted (by rw [h0_edges]; exact hrange) h0_cons.covers trivial
    rw [hloop] at hloop'
    simp only [Option.some.injEq, Prod.mk.injEq] at hloop'
    rw [← hloop'.1, h0_edges] at hperm
    rw [h0_edges] at hloop hiff
    rw [← hc0]
    refine ⟨c1, v, hloop, ?_, sortDescending_perm v, hvnd, hperm, fun p => ?_⟩
    · unfold EdgeSetTopologyModifier.removeEdgesProcess
      by_cases hne : s.m_container.hasEdges = true
      · simp only [hne, Bool.not_true, Bool.false_eq_true, if_false, ← hc0,
          EdgeSetTopologyContainer.getNumberOfEdges, h0_edges, hloop]
        cases v <;> rfl
      · simp [hne]
    · rw [hiff p]
      simp
  · have hcov : ShellCovers s.m_container := by
      intro hb
      exact (ShellConsistent.covers ⟨hcons hb, hvalid⟩) hb
    obtain ⟨c2, v2, hloop, -, -, -, -, -, -, -, -, hvf, -⟩ :=
      removeEdgesLoop_spec false (fun _ => True) (fun _ _ _ _ _ _ _ _ => trivial)
        indices s.m_container [] hsorted hrange hcov trivial
    rw [hvf rfl] at hloop
    refine ⟨c2, hloop, ?_⟩
    unfold EdgeSetTopologyModifier.removeEdgesProcess
    by_cases hne : s.m_container.hasEdges = true
    · simp [hne, EdgeSetTopologyContainer.getNumberOfEdges, hloop]
    · simp [hne]

theorem C18_isolated_points_queued_exactly_witness :
    ValidEdges pathMeshShell.m_container ∧
    (pathMeshShell.m_container.hasEdgesAroundVertex = true →
      ShellExact pathMeshShell.m_container) ∧
    NonDegenerate pathMeshShell.m_container ∧
    ([2, 0] : List Nat).Pairwise (fun a b => b < a) ∧
    (∀ i ∈ ([2, 0] : List Nat), i < pathMeshShell.m_container.d_edge.length) ∧
    EdgeSetTopologyModifier.removeEdgesLoop true [2, 0]
        (decr pathMeshShell.m_container.d_edge.length) pathMeshShell.m_container []
      = some ({ pathMeshShell.m_container with
          d_edge := [(1, 2)], m_edgesAroundVertex := [[], [0], [0], []] }, [3, 0]) ∧
    ∃ c1 vertexToBeRemoved,
      EdgeSetTopologyModifier.removeEdgesLoop true [2, 0]
          (decr pathMeshShell.m_container.d_edge.length)
          (if true && !pathMeshShell.m_container.hasEdgesAroundVertex
            then pathMeshShell.m_container.createEdgesAroundVertexArray
            else pathMeshShell.m_container) []
        = some (c1, vertexToBeRemoved)
      ∧ EdgeSetTopologyModifier.removeEdgesProcess pathMeshShell [2, 0] true true
        = (if !pathMeshShell.m_container.hasEdges
            then .done (pathMeshShell.report .edgeArrayEmpty)
          else if vertexToBeRemoved.isEmpty
            then .done { pathMeshShell with m_container := c1 }
          else EdgeSetTopologyModifier.removePointsProcess
            (EdgeSetTopologyModifier.propagateTopologicalChanges
              (EdgeSetTopologyModifier.removePointsWarning
                { pathMeshShell with m_container := c1 } vertexToBeRemoved).1)
            (EdgeSetTopologyModifier.removePointsWarning
              { pathMeshShell with m_container := c1 } vertexToBeRemoved).2 true)
      ∧ (EdgeSetTopologyModifier.removePointsWarning
          { pathMeshShell with m_container := c1 } vertexToBeRemoved).2.Perm vertexToBeRemoved
      ∧ vertexToBeRemoved.Nodup
      ∧ (c1.d_edge ++ ([2, 0] : List Nat).filterMap
            (fun i => pathMeshShell.m_container.d_edge[i]?)).Perm
          pathMeshShell.m_container.d_edge
      ∧ ∀ p : Nat, p ∈ vertexToBeRemoved
          ↔ EndpointOfListed pathMeshShell.m_container.d_edge [2, 0] p
            ∧ Isolated c1.d_edge p :=
  ⟨by decide, by decide, by decide, by decide, by decide, by decide,
    (C18_isolated_points_queued_exactly pathMeshShell [2, 0] true (by decide) (by decide)
      (by decide) (by decide) (by decide)).1⟩

/-- C19. Spec scenario: on the mesh with points `{0, 1, 2, 3}` and edge array
`[(0, 1), (1, 2), (2, 3)]`, removing edge index 1 with isolated-point removal enabled
(`removeEdges`, and `removeEdgesProcess` alone; shell built beforehand or not) yields the
edge array `[(0, 1), (2, 3)]` in this order, and the list of points reported as isolated is
empty: the loop of `removeEdgesProcess` queues no point, no point-removal record is
enqueued (the only propagation carries the edge-removal record alone), and the four points
are kept; points 1 and 2 are still referenced by edges 0 and 1 of the result. -/
theorem C19_scenario_remove_middle_edge (resetTopoChange d_propagateToDOF : Bool) :
    pathMesh.m_container.nbPoints = 4
    ∧ pathMesh.m_container.d_edge = [(0, 1), (1, 2), (2, 3)]
    ∧ pathMeshShell.m_container.d_edge = pathMesh.m_container.d_edge
    ∧ (∀ s ∈ [pathMesh, pathMeshShell],
        (∃ c1, EdgeSetTopologyModifier.removeEdgesLoop true [1] 2
            (if s.m_container.hasEdgesAroundVertex then s.m_container
              else s.m_container.createEdgesAroundVertexArray) []
          = some (c1, []))
        ∧ (∃ s1, EdgeSetTopologyModifier.removeEdgesProcess s [1] true d_propagateToDOF
            = .done s1
          ∧ s1.m_container.d_edge = [(0, 1), (2, 3)]
          ∧ s1.m_container.nbPoints = 4
          ∧ s1.trace = [])
        ∧ ∃ s1 seen, EdgeSetTopologyModifier.removeEdges s [1] true resetTopoChange
            d_propagateToDOF = .done s1
          ∧ s1.m_container.d_edge = [(0, 1), (2, 3)]
          ∧ s1.m_container.nbPoints = 4
          ∧ s1.m_container.d_edge[0]? = some (0, 1)
          ∧ s1.m_container.d_edge[1]? = some (2, 3)
          ∧ s1.trace = [Event.propagated seen]
          ∧ seen.m_changeList = [.EdgesRemoved [1]]
          ∧ (∀ r ∈ s1.m_container.m_changeList, ∀ l, r ≠ .PointsRemoved l)) := by
  refine ⟨rfl, rfl, rfl, ?_⟩
  intro s hs
  simp only [List.mem_cons, List.mem_singleton, List.not_mem_nil, or_false] at hs
  have hrec : ∀ (q : List TopologyChange), q = [] ∨ q = [.EdgesRemoved [1]] →
      ∀ r ∈ q, ∀ l, r ≠ TopologyChange.PointsRemoved l := by
    intro q hq r hr l h
    rcases hq with hq | hq <;> rw [hq] at hr
    · cases hr
    · rw [List.mem_singleton.1 hr] at h
      cases h
  rcases hs with rfl | rfl <;> cases resetTopoChange <;> cases d_propagateToDOF <;>
    exact ⟨⟨_, rfl⟩, ⟨_, rfl, rfl, rfl, rfl⟩,
      ⟨_, _, rfl, rfl, rfl, rfl, rfl, rfl, rfl, hrec _ (by decide)⟩⟩

/-- C20 (counterexample). On the mesh of the two disjoint edges `(0, 1)` and `(2, 3)`, whose
connected components `{0}` and `{1}` both have size 1, `removeIsolatedElements(1)` passes
only edge 1 to removal: the component of edge 0, the largest found so far when the loop
ends, is kept although its size is at most `minSize = 1`, and the edge `(0, 1)` remains. -/
theorem C20_removeIsolatedElements_counterexample :
    twoEdgesMeshShell.m_container.d_edge = [(0, 1), (2, 3)]
    ∧ twoEdgesMeshShell.m_container.getConnectedElement 0 = [0]
    ∧ twoEdgesMeshShell.m_container.getConnectedElement 1 = [1]
    ∧ EdgeSetTopologyModifier.removeIsolatedLoop
        twoEdgesMeshShell.m_container.getConnectedElement 2 1 2 [0] [0] [] = some ([0], [1])
    ∧ EdgeSetTopologyModifier.removeIsolatedElements
        twoEdgesMeshShell.m_container.getConnectedElement twoEdgesMeshShell 1 2 false true true
        = some (EdgeSetTopologyModifier.removeItems twoEdgesMeshShell [1] false true true)
    ∧ (EdgeSetTopologyModifier.removeItems twoEdgesMeshShell [1] false true
        true).state.m_container.d_edge = [(0, 1)] := by
  refine ⟨rfl, rfl, rfl, rfl, rfl, rfl⟩

/-- C20 (amended). `removeIsolatedElements(minSize)` with `minSize >= 1` removes every small
component but one largest component: for every mesh of `n` edges on which
`getConnectedElement` returns the connected components, the loop ends (within `n`
passes), and the list of edges passed to removal (`removeItems`), which has no repetition,
is exactly the union of the connected components whose size is at most `minSize` other
than `kept`, a component of largest size, which is never passed to removal (nothing at all
is passed when the mesh is a single component). So no component larger than `minSize`
loses an edge, and every component of size at most `minSize` other than `kept` is removed
whole. -/
theorem C20_removeIsolatedElements_keeps_largest (getConnectedElement : EdgeID → List EdgeID)
    (s : EdgeSetTopologyModifier) (minSize fuel : Nat)
    (removeIsolatedPoints resetTopoChange d_propagateToDOF : Bool)
    (hcomp : Components getConnectedElement s.m_container.d_edge.length)
    (hmin : 1 ≤ minSize) (hfuel : s.m_container.d_edge.length ≤ fuel) :
    ∃ kept toRemove,
      EdgeSetTopologyModifier.removeIsolatedElements getConnectedElement s minSize fuel
          removeIsolatedPoints resetTopoChange d_propagateToDOF
        = some (if s.m_container.d_edge.length = (getConnectedElement 0).length then .done s
          else EdgeSetTopologyModifier.removeItems s toRemove removeIsolatedPoints
            resetTopoChange d_propagateToDOF)
      ∧ (s.m_container.d_edge.length = (getConnectedElement 0).length → toRemove = [])
      ∧ (0 < s.m_container.d_edge.length →
          ∃ m < s.m_container.d_edge.length, kept = getConnectedElement m)
      ∧ (∀ j < s.m_container.d_edge.length,
          (getConnectedElement j).length ≤ kept.length)
      ∧ toRemove.Nodup
      ∧ (∀ j : Nat, j ∈ toRemove ↔
          j < s.m_container.d_edge.length ∧ j ∉ kept
            ∧ (getConnectedElement j).length ≤ minSize)
      ∧ (∀ j < s.m_container.d_edge.length,
          minSize < (getConnectedElement j).length → j ∉ toRemove)
      ∧ (∀ j < s.m_container.d_edge.length,
          (getConnectedElement j).length ≤ minSize → j ∈ toRemove ∨ j ∈ kept) := by
  generalize hn : s.m_container.d_edge.length = n at hcomp hfuel
  have hscale : (if minSize = 0 then n else minSize) = minSize := by
    rw [if_neg (by omega)]
  have hcor : ∀ (kept toRemove : List EdgeID),
      (∀ j : Nat, j ∈ toRemove ↔ j < n ∧ j ∉ kept ∧ (getConnectedElement j).length ≤ minSize) →
      (∀ j < n, minSize < (getConnectedElement j).length → j ∉ toRemove)
      ∧ (∀ j < n, (getConnectedElement j).length ≤ minSize → j ∈ toRemove ∨ j ∈ kept) := by
    intro kept toRemove hiff
    constructor
    · intro j _ hlarge hj
      have := ((hiff j).1 hj).2.2
      omega
    · intro j hj hsmall
      by_cases hk : j ∈ kept
      · exact Or.inr hk
      · exact Or.inl ((hiff j).2 ⟨hj, hk, hsmall⟩)
  unfold EdgeSetTopologyModifier.removeIsolatedElements
  simp only [EdgeSetTopologyContainer.getNumberOfElements, hn, hscale]
  by_cases hone : n = (getConnectedElement 0).length
  · -- a single component
    have hiff : ∀ j : Nat, j ∈ ([] : List EdgeID) ↔
        j < n ∧ j ∉ getConnectedElement 0 ∧ (getConnectedElement j).length ≤ minSize := by
      intro j
      constructor
      · intro h; cases h
      · rintro ⟨h1, h2, -⟩
        have h0 : 0 < n := by omega
        obtain ⟨-, c2, c3⟩ := hcomp 0 h0
        exact absurd (mem_of_nodup_full _ n c2 (fun i hi => (c3 i hi).1) (by omega) j h1) h2
    refine ⟨getConnectedElement 0, [], by rw [if_pos hone, if_pos hone], fun _ => rfl,
      fun h0 => ⟨0, h0, rfl⟩, ?_, List.nodup_nil, hiff, hcor _ _ hiff⟩
    intro j hj
    have h0 : 0 < n := by omega
    obtain ⟨-, c2, c3⟩ := hcomp 0 h0
    have hj0 := mem_of_nodup_full _ n c2 (fun i hi => (c3 i hi).1) (by omega) j hj
    rw [(c3 j hj0).2.length_eq]
  · simp only [if_neg hone]
    by_cases h0 : 0 < n
    · obtain ⟨c1, c2, c3⟩ := hcomp 0 h0
      have hinit : VisitedInv getConnectedElement n minSize (getConnectedElement 0)
          (getConnectedElement 0) [] := by
        refine ⟨c2, fun j hj => ⟨(c3 j hj).1, fun k hk => (c3 j hj).2.mem_iff.1 hk⟩,
          ⟨0, c1, rfl⟩, fun j hj => by rw [(c3 j hj).2.length_eq], List.nodup_nil, fun j => ?_⟩
        constructor
        · intro h; cases h
        · rintro ⟨h1, h2, -⟩
          exact absurd h1 h2
      obtain ⟨visited, kept, toRemove, hrun, hinv, hall⟩ :=
        removeIsolatedLoop_spec getConnectedElement n minSize hcomp fuel _ _ _ hinit
          (by omega)
      obtain ⟨-, hclosed, ⟨m, hm, hkept⟩, hle, hrnd, hrem⟩ := hinv
      have hiff : ∀ j : Nat, j ∈ toRemove ↔
          j < n ∧ j ∉ kept ∧ (getConnectedElement j).length ≤ minSize := by
        intro j
        rw [hrem j]
        constructor
        · rintro ⟨h1, h2, h3⟩
          exact ⟨(hclosed j h1).1, h2, h3⟩
        · rintro ⟨h1, h2, h3⟩
          exact ⟨hall j h1, h2, h3⟩
      refine ⟨kept, toRemove, by rw [hrun], fun h => absurd h hone,
        fun _ => ⟨m, (hclosed m hm).1, hkept⟩, fun j hj => hle j (hall j hj), hrnd, hiff,
        hcor _ _ hiff⟩
    · have hn0 : n = 0 := by omega
      have hiff : ∀ j : Nat, j ∈ ([] : List EdgeID) ↔
          j < n ∧ j ∉ getConnectedElement 0 ∧ (getConnectedElement j).length ≤ minSize := by
        intro j
        constructor
        · intro h; cases h
        · rintro ⟨h1, -, -⟩
          omega
      have hrun : EdgeSetTopologyModifier.removeIsolatedLoop getConnectedElement n minSize fuel
          (getConnectedElement 0) (getConnectedElement 0) []
          = some (getConnectedElement 0, []) := by
        have hge : ¬ (getConnectedElement 0).length < n := by omega
        cases fuel <;> unfold EdgeSetTopologyModifier.removeIsolatedLoop <;> rw [if_neg hge]
      refine ⟨getConnectedElement 0, [], by rw [hrun], fun _ => rfl,
        fun h => absurd h h0, fun j hj => by omega, List.nodup_nil, hiff, hcor _ _ hiff⟩

theorem C20_removeIsolatedElements_keeps_largest_witness :
    Components threeComponentsMesh.m_container.getConnectedElement
      threeComponentsMesh.m_container.d_edge.length ∧
    threeComponentsMesh.m_container.d_edge.length ≤ 5 ∧
    EdgeSetTopologyModifier.removeIsolatedLoop
        threeComponentsMesh.m_container.getConnectedElement 5 1 5 [0, 2] [0, 2] []
      = some ([0, 2], [4]) ∧
    ∃ kept toRemove,
      EdgeSetTopologyModifier.removeIsolatedElements
          threeComponentsMesh.m_container.getConnectedElement threeComponentsMesh 1 5
          false true true
        = some (if threeComponentsMesh.m_container.d_edge.length
              = (threeComponentsMesh.m_container.getConnectedElement 0).length
            then .done threeComponentsMesh
          else EdgeSetTopologyModifier.removeItems threeComponentsMesh toRemove false true true)
      ∧ (threeComponentsMesh.m_container.d_edge.length
          = (threeComponentsMesh.m_container.getConnectedElement 0).length → toRemove = [])
      ∧ (0 < threeComponentsMesh.m_container.d_edge.length →
          ∃ m < threeComponentsMesh.m_container.d_edge.length,
            kept = threeComponentsMesh.m_container.getConnectedElement m)
      ∧ (∀ j < threeComponentsMesh.m_container.d_edge.length,
          (threeComponentsMesh.m_container.getConnectedElement j).length ≤ kept.length)
      ∧ toRemove.Nodup
      ∧ (∀ j : Nat, j ∈ toRemove ↔
          j < threeComponentsMesh.m_container.d_edge.length ∧ j ∉ kept
            ∧ (threeComponentsMesh.m_container.getConnectedElement j).length ≤ 1)
      ∧ (∀ j < threeComponentsMesh.m_container.d_edge.length,
          1 < (threeComponentsMesh.m_container.getConnectedElement j).length → j ∉ toRemove)
      ∧ (∀ j < threeComponentsMesh.m_container.d_edge.length,
          (threeComponentsMesh.m_container.getConnectedElement j).length ≤ 1 →
            j ∈ toRemove ∨ j ∈ kept) :=
  ⟨by decide, by decide, by decide,
    C20_removeIsolatedElements_keeps_largest
      threeComponentsMesh.m_container.getConnectedElement threeComponentsMesh 1 5
      false true true (by decide) (by decide) (by decide)⟩

/-- C21. `removeIsolatedElements()` with the default argument keeps only the largest
component: for every mesh of `n` edges on which `getConnectedElement` returns the
connected components, the loop ends (within `n` passes), and the list of edges passed to
removal (`removeItems`) holds, once each, exactly the edges outside `kept`, a single
connected component whose size is the maximum over all components; on a tie `kept` is the
component found first: its lowest index `m` is below every index of any other component of
that size. When the mesh is one component the method returns without passing anything to
removal. -/
theorem C21_removeIsolatedElements_default_keeps_largest
    (getConnectedElement : EdgeID → List EdgeID)
    (s : EdgeSetTopologyModifier) (fuel : Nat)
    (removeIsolatedPoints resetTopoChange d_propagateToDOF : Bool)
    (hcomp : Components getConnectedElement s.m_container.d_edge.length)
    (hfuel : s.m_container.d_edge.length ≤ fuel) :
    ∃ kept toRemove,
      EdgeSetTopologyModifier.removeIsolatedElements getConnectedElement s 0 fuel
          removeIsolatedPoints resetTopoChange d_propagateToDOF
        = some (if s.m_container.d_edge.length = (getConnectedElement 0).length then .done s
          else EdgeSetTopologyModifier.removeItems s toRemove removeIsolatedPoints
            resetTopoChange d_propagateToDOF)
      ∧ (s.m_container.d_edge.length = (getConnectedElement 0).length → toRemove = [])
      ∧ (0 < s.m_container.d_edge.length →
          ((∀ j < s.m_container.d_edge.length, j ∈ getConnectedElement 0) ↔
            s.m_container.d_edge.length = (getConnectedElement 0).length))
      ∧ (0 < s.m_container.d_edge.length →
          ∃ m < s.m_container.d_edge.length, kept = getConnectedElement m
            ∧ (∀ k : Nat, k ∈ kept → m ≤ k)
            ∧ ∀ j : Nat, j < s.m_container.d_edge.length →
                (getConnectedElement j).length = kept.length → j ∉ kept → m < j)
      ∧ (∀ j < s.m_container.d_edge.length,
          (getConnectedElement j).length ≤ kept.length)
      ∧ toRemove.Nodup
      ∧ (∀ j : Nat, j ∈ toRemove ↔ j < s.m_container.d_edge.length ∧ j ∉ kept) := by
  generalize hn : s.m_container.d_edge.length = n at hcomp hfuel
  have hsize : ∀ j < n, (getConnectedElement j).length ≤ n := by
    intro j hj
    obtain ⟨-, c2, c3⟩ := hcomp j hj
    exact nodup_length_le _ n c2 (fun i hi => (c3 i hi).1)
  have hsingle : 0 < n → ((∀ j < n, j ∈ getConnectedElement 0) ↔
      n = (getConnectedElement 0).length) := by
    intro h0
    obtain ⟨-, c2, c3⟩ := hcomp 0 h0
    constructor
    · intro hall
      have h1 := hsize 0 h0
      have h2 : (List.range n).Subperm (getConnectedElement 0) :=
        List.subperm_of_subset (List.nodup_range n)
          (fun i hi => hall i (List.mem_range.1 hi))
      have h3 := h2.length_le
      rw [List.length_range] at h3
      omega
    · intro hlen j hj
      exact mem_of_nodup_full _ n c2 (fun i hi => (c3 i hi).1) (by omega) j hj
  unfold EdgeSetTopologyModifier.removeIsolatedElements
  simp only [EdgeSetTopologyContainer.getNumberOfElements, hn, eq_self_iff_true, if_true]
  by_cases hone : n = (getConnectedElement 0).length
  · -- a single component
    by_cases h0 : 0 < n
    · obtain ⟨c1, c2, c3⟩ := hcomp 0 h0
      have hall := (hsingle h0).2 hone
      refine ⟨getConnectedElement 0, [], by rw [if_pos hone, if_pos hone], fun _ => rfl,
        hsingle, fun _ => ⟨0, h0, rfl, fun k _ => Nat.zero_le k,
          fun j hj _ hjk => absurd (hall j hj) hjk⟩, ?_, List.nodup_nil, fun j => ?_⟩
      · intro j hj
        rw [(c3 j (hall j hj)).2.length_eq]
      · constructor
        · intro h; cases h
        · rintro ⟨h1, h2⟩
          exact absurd (hall j h1) h2
    · refine ⟨getConnectedElement 0, [], by rw [if_pos hone, if_pos hone], fun _ => rfl,
        hsingle, fun h => absurd h h0, fun j hj => by omega, List.nodup_nil, fun j => ?_⟩
      constructor
      · intro h; cases h
      · rintro ⟨h1, -⟩
        omega
  · simp only [if_neg hone]
    by_cases h0 : 0 < n
    · obtain ⟨c1, c2, c3⟩ := hcomp 0 h0
      have hinit : VisitedInv getConnectedElement n n (getConnectedElement 0)
          (getConnectedElement 0) [] := by
        refine ⟨c2, fun j hj => ⟨(c3 j hj).1, fun k hk => (c3 j hj).2.mem_iff.1 hk⟩,
          ⟨0, c1, rfl⟩, fun j hj => by rw [(c3 j hj).2.length_eq], List.nodup_nil, fun j => ?_⟩
        constructor
        · intro h; cases h
        · rintro ⟨h1, h2, -⟩
          exact absurd h1 h2
      have hfirst : KeptFirst getConnectedElement (getConnectedElement 0)
          (getConnectedElement 0) := by
        refine ⟨0, c1, rfl, fun k _ => Nat.zero_le k, fun k hk => ?_,
          fun j hj _ hjk => absurd hj hjk⟩
        have : k = 0 := by omega
        rw [this]
        exact c1
      obtain ⟨visited, kept, toRemove, hrun, hinv, hkf, hall⟩ :=
        removeIsolatedLoop_first getConnectedElement n n hcomp fuel _ _ _ hinit hfirst
          (by omega)
      obtain ⟨-, hclosed, ⟨m0, hm0, hk0⟩, hle, hrnd, hrem⟩ := hinv
      obtain ⟨m, hm, hkept, hmin, -, htie⟩ := hkf
      have hmn : m < n := by
        have hmv : m ∈ visited := (hclosed m0 hm0).2 m (hk0 ▸ hm)
        exact (hclosed m hmv).1
      refine ⟨kept, toRemove, by rw [hrun], fun h => absurd h hone, hsingle,
        fun _ => ⟨m, hmn, hkept, hmin, fun j hj hlen hjk => htie j (hall j hj) hlen hjk⟩,
        fun j hj => hle j (hall j hj), hrnd, fun j => ?_⟩
      rw [hrem j]
      constructor
      · rintro ⟨h1, h2, -⟩
        exact ⟨(hclosed j h1).1, h2⟩
      · rintro ⟨h1, h2⟩
        exact ⟨hall j h1, h2, hsize j h1⟩
    · have hn0 : n = 0 := by omega
      have hrun : EdgeSetTopologyModifier.removeIsolatedLoop getConnectedElement n n fuel
          (getConnectedElement 0) (getConnectedElement 0) []
          = some (getConnectedElement 0, []) := by
        have hge : ¬ (getConnectedElement 0).length < n := by omega
        cases fuel <;> unfold EdgeSetTopologyModifier.removeIsolatedLoop <;> rw [if_neg hge]
      refine ⟨getConnectedElement 0, [], by rw [hrun], fun _ => rfl, hsingle,
        fun h => absurd h h0, fun j hj => by omega, List.nodup_nil, fun j => ?_⟩
      constructor
      · intro h; cases h
      · rintro ⟨h1, -⟩
        omega

theorem C21_removeIsolatedElements_default_keeps_largest_witness :
    Components threeComponentsMesh.m_container.getConnectedElement
      threeComponentsMesh.m_container.d_edge.length ∧
    threeComponentsMesh.m_container.d_edge.length ≤ 5 ∧
    EdgeSetTopologyModifier.removeIsolatedLoop
        threeComponentsMesh.m_container.getConnectedElement 5 5 5 [0, 2] [0, 2] []
      = some ([0, 2], [4, 1, 3]) ∧
    ∃ kept toRemove,
      EdgeSetTopologyModifier.removeIsolatedElements
          threeComponentsMesh.m_container.getConnectedElement threeComponentsMesh 0 5
          false true true
        = some (if threeComponentsMesh.m_container.d_edge.length
              = (threeComponentsMesh.m_container.getConnectedElement 0).length
            then .done threeComponentsMesh
          else EdgeSetTopologyModifier.removeItems threeComponentsMesh toRemove false true true)
      ∧ (threeComponentsMesh.m_container.d_edge.length
          = (threeComponentsMesh.m_container.getConnectedElement 0).length → toRemove = [])
      ∧ (0 < threeComponentsMesh.m_container.d_edge.length →
          ((∀ j < threeComponentsMesh.m_container.d_edge.length,
              j ∈ threeComponentsMesh.m_container.getConnectedElement 0) ↔
            threeComponentsMesh.m_container.d_edge.length
              = (threeComponentsMesh.m_container.getConnectedElement 0).length))
      ∧ (0 < threeComponentsMesh.m_container.d_edge.length →
          ∃ m < threeComponentsMesh.m_container.d_edge.length,
            kept = threeComponentsMesh.m_container.getConnectedElement m
            ∧ (∀ k : Nat, k ∈ kept → m ≤ k)
            ∧ ∀ j : Nat, j < threeComponentsMesh.m_container.d_edge.length →
                (threeComponentsMesh.m_container.getConnectedElement j).length = kept.length →
                j ∉ kept → m < j)
      ∧ (∀ j < threeComponentsMesh.m_container.d_edge.length,
          (threeComponentsMesh.m_container.getConnectedElement j).length ≤ kept.length)
      ∧ toRemove.Nodup
      ∧ (∀ j : Nat, j ∈ toRemove ↔
          j < threeComponentsMesh.m_container.d_edge.length ∧ j ∉ kept) :=
  ⟨by decide, by decide, by decide,
    C21_removeIsolatedElements_default_keeps_largest
      threeComponentsMesh.m_container.getConnectedElement threeComponentsMesh 5
      false true true (by decide) (by decide)⟩

/-- C22. Consistency-check rejections are no-ops: with consistency checking on,
`addEdgeProcess(e)` leaves the edge array and every shell exactly as they were (the whole
container is unchanged, and the failure is reported) when `e` has two equal endpoints, and
also when a shell exists and an edge joining the two endpoints of `e` is already stored; in
every other case `e` is appended (the call being defined: a built shell array covers the
endpoints of `e`). -/
theorem C22_addEdgeProcess_rejections_are_noops (s : EdgeSetTopologyModifier) (e : Edge)
    (hcov : s.m_container.hasEdgesAroundVertex = true →
      e.1 < s.m_container.m_edgesAroundVertex.length ∧
      e.2 < s.m_container.m_edgesAroundVertex.length) :
    (e.1 = e.2 →
      EdgeSetTopologyModifier.addEdgeProcess true s e = .done (s.report (.invalidEdge e))
      ∧ (s.report (.invalidEdge e)).m_container = s.m_container)
    ∧ (e.1 ≠ e.2 → s.m_container.hasEdgesAroundVertex = true → Joined s.m_container.d_edge e →
      EdgeSetTopologyModifier.addEdgeProcess true s e
        = .done (s.report (.edgeAlreadyExists e))
      ∧ (s.report (.edgeAlreadyExists e)).m_container = s.m_container)
    ∧ (e.1 ≠ e.2 →
        (s.m_container.hasEdgesAroundVertex = true → ¬ Joined s.m_container.d_edge e) →
      ∃ s1, EdgeSetTopologyModifier.addEdgeProcess true s e = .done s1
        ∧ s1.m_container.d_edge = s.m_container.d_edge ++ [e]
        ∧ s1.messages = s.messages) := by
  refine ⟨fun heq => ⟨?_, rfl⟩, fun hne hb hj => ⟨?_, rfl⟩, fun hne hj => ?_⟩
  · unfold EdgeSetTopologyModifier.addEdgeProcess
    simp [heq]
  · have hidx := getEdgeIndex_ne_InvalidID s.m_container e.1 e.2 hj
    unfold EdgeSetTopologyModifier.addEdgeProcess
    simp [hne, hb, hidx]
  · obtain ⟨s1, hrun, -, -, -, -, -, hacc, -⟩ := addEdgeProcess_total true s e hcov
    exact ⟨s1, hrun, hacc (Or.inr ⟨hne, hj⟩)⟩

theorem C22_addEdgeProcess_rejections_are_noops_witness :
    (pathMeshShell.m_container.hasEdgesAroundVertex = true →
      (2 : PointID) < pathMeshShell.m_container.m_edgesAroundVertex.length ∧
      (1 : PointID) < pathMeshShell.m_container.m_edgesAroundVertex.length) ∧
    Joined pathMeshShell.m_container.d_edge (2, 1) ∧
    EdgeSetTopologyModifier.addEdgeProcess true pathMeshShell (2, 1)
      = .done (pathMeshShell.report (.edgeAlreadyExists (2, 1))) ∧
    (pathMeshShell.report (.edgeAlreadyExists (2, 1))).m_container
      = pathMeshShell.m_container :=
  ⟨by decide, by decide,
    (C22_addEdgeProcess_rejections_are_noops pathMeshShell (2, 1) (by decide)).2.1
      (by decide) (by decide) (by decide)⟩

/-- C23 (counterexample). On the path with the edges `(0, 1)`, `(1, 2)`, `(2, 3)`:
`removeEdges([1, 1])` ends with the single edge `(0, 1)`, so that edge 2, whose index does
not occur in the list, is gone too; and `removeEdges([0, 0, 0, 0])`, four in-range entries
for three edges, reads the edge array outside its bounds in the fourth pass of the loop of
`removeEdgesProcess`. On three points carrying the degenerate edges `(0, 0)`, `(1, 1)`,
`(2, 2)` (every endpoint a point, the shell consistent, the two entries distinct and in
range), `removeEdges([1, 0])` with isolated-point removal queues the points `1` and `0`
twice each, and the removal of four points out of three reads the shell array outside
its bounds. And on the path, `removeEdges([0])` with isolated-point removal removes point
`0` and moves point `3` to its place: the edge `(2, 3)` remains as `(2, 0)`. -/
theorem C23_removeEdges_repeated_index_counterexample :
    pathMesh.m_container.d_edge = [(0, 1), (1, 2), (2, 3)]
    ∧ (∃ s1, EdgeSetTopologyModifier.removeEdges pathMesh [1, 1] false true true = .done s1
        ∧ s1.m_container.d_edge = [(0, 1)])
    ∧ edgesNotListed pathMesh.m_container.d_edge [1, 1] = [(0, 1), (2, 3)]
    ∧ (∃ s1, EdgeSetTopologyModifier.removeEdges pathMesh [0, 0, 0, 0] false true true
        = .outOfBounds s1)
    ∧ EdgeSetTopologyModifier.removeEdgesLoop false [0, 0, 0] 2 pathMesh.m_container []
        = some ({ pathMesh.m_container with d_edge := [] }, [])
    ∧ EdgeSetTopologyModifier.removeEdgeAt false { pathMesh.m_container with d_edge := [] }
        0 (decr 0) [] = none
    ∧ ValidEdges threeLoopsMesh.m_container
    ∧ ShellCounts threeLoopsMesh.m_container
    ∧ (∃ s1, EdgeSetTopologyModifier.removeEdges threeLoopsMesh [1, 0] true true true
        = .outOfBounds s1)
    ∧ (∃ c1, EdgeSetTopologyModifier.removeEdgesLoop true [1, 0] 2
        threeLoopsMesh.m_container []
        = some (c1, [1, 1, 0, 0]))
    ∧ (∃ s1, EdgeSetTopologyModifier.removeEdges pathMesh [0] true true true = .done s1
        ∧ s1.m_container.d_edge = [(2, 0), (1, 2)]
        ∧ s1.m_container.nbPoints = 3)
    ∧ edgesNotListed pathMesh.m_container.d_edge [0] = [(1, 2), (2, 3)] :=
  ⟨rfl, ⟨_, rfl, rfl⟩, rfl, ⟨_, rfl⟩, rfl, rfl, by decide, by decide, ⟨_, rfl⟩, ⟨_, rfl⟩,
    ⟨_, rfl, rfl, rfl⟩, rfl⟩

/-- C23 (amended). Out-of-range removal requests are skipped, never fatal: for every mesh
(every endpoint a point, a built shell array having one entry per point) and every index
list given to `removeEdges`, with entries of any value, whose in-range entries are pairwise
distinct, the loop of `removeEdgesProcess` runs to its end within bounds, with or without
isolated-item removal, and the edges that remain are exactly the edges whose original
index does not occur in the list; without isolated-point removal `removeEdges` ends with
these edges. With isolated-point removal, on a mesh without degenerate edges whose built
shell array is consistent, `removeEdges` also runs to its end within bounds: the points
removed are the endpoints of listed edges that are an endpoint of no remaining edge, and
the edges that remain are exactly the edges whose original index does not occur in the
list, their endpoints renumbered by the compaction of the points (`newPointIndex`). -/
theorem C23_removeEdges_skips_out_of_range (s : EdgeSetTopologyModifier) (edgeIds : List Nat)
    (removeIsolatedItems resetTopoChange d_propagateToDOF : Bool)
    (hvalid : ValidEdges s.m_container)
    (hlen : s.m_container.hasEdgesAroundVertex = true →
      s.m_container.m_edgesAroundVertex.length = s.m_container.nbPoints)
    (hdistinct : (edgeIds.filter (fun i => decide (i < s.m_container.d_edge.length))).Nodup) :
    (EdgeSetTopologyModifier.filterEdgeIds s edgeIds).2
        = edgeIds.filter (fun i => decide (i < s.m_container.d_edge.length))
    ∧ (∃ c1 vertexToBeRemoved,
        EdgeSetTopologyModifier.removeEdgesLoop removeIsolatedItems
            (sortDescending (EdgeSetTopologyModifier.filterEdgeIds s edgeIds).2)
            (decr s.m_container.d_edge.length)
            (if removeIsolatedItems && !s.m_container.hasEdgesAroundVertex
              then s.m_container.createEdgesAroundVertexArray else s.m_container) []
          = some (c1, vertexToBeRemoved)
        ∧ c1.d_edge.Perm (edgesNotListed s.m_container.d_edge edgeIds))
    ∧ (∃ s1, EdgeSetTopologyModifier.removeEdges s edgeIds false resetTopoChange
        d_propagateToDOF = .done s1
      ∧ s1.m_container.d_edge.Perm (edgesNotListed s.m_container.d_edge edgeIds)
      ∧ s1.m_container.nbPoints = s.m_container.nbPoints)
    ∧ (NonDegenerate s.m_container →
        (s.m_container.hasEdgesAroundVertex = true → ShellCounts s.m_container) →
        ∃ (s1 : EdgeSetTopologyModifier) (removedPoints : List Nat),
          EdgeSetTopologyModifier.removeEdges s edgeIds true resetTopoChange
            d_propagateToDOF = .done s1
          ∧ removedPoints.Pairwise (fun a b => b < a)
          ∧ (∀ p : Nat, p ∈ removedPoints
              ↔ EndpointOfListed s.m_container.d_edge edgeIds p
                ∧ Isolated (edgesNotListed s.m_container.d_edge edgeIds) p)
          ∧ s1.m_container.d_edge.Perm
              ((edgesNotListed s.m_container.d_edge edgeIds).map (fun e =>
                (newPointIndex removedPoints (s.m_container.nbPoints - 1) e.1,
                 newPointIndex removedPoints (s.m_container.nbPoints - 1) e.2)))
          ∧ s1.m_container.nbPoints = s.m_container.nbPoints - removedPoints.length
          ∧ ValidEdges s1.m_container) := by
  obtain ⟨hf2, hf1, hft⟩ := filterEdgeIds_spec edgeIds s
  generalize hfl : edgeIds.filter (fun i => decide (i < s.m_container.d_edge.length)) = fl
    at hf2
  have hfl_range : ∀ i ∈ fl, i < s.m_container.d_edge.length := by
    intro i hi
    rw [← hfl] at hi
    simpa using (List.mem_filter.1 hi).2
  have hnd_fl : fl.Nodup := by rw [← hfl]; exact hdistinct
  have hcov : ShellCovers s.m_container := by
    intro hb e he
    rw [hlen hb]
    exact hvalid e he
  refine ⟨hf2, ?_, ?_, ?_⟩
  · obtain ⟨c0, hc0⟩ : ∃ c0, c0 = (if removeIsolatedItems && !s.m_container.hasEdgesAroundVertex
      then s.m_container.createEdgesAroundVertexArray else s.m_container) := ⟨_, rfl⟩
    have h0_edges : c0.d_edge = s.m_container.d_edge := by
      rw [hc0]; split_ifs <;> rfl
    have h0_cov : ShellCovers c0 := by
      rw [hc0]
      split_ifs
      · intro _ e he
        rw [(createEdgesAroundVertexArray_exact s.m_container).1]
        exact hvalid e he
      · exact hcov
    obtain ⟨c1, v1, hloop, -, hperm, -⟩ :=
      removeEdgesLoop_spec removeIsolatedItems (fun _ => True)
        (fun _ _ _ _ _ _ _ _ => trivial) (sortDescending fl) c0 []
        (sortDescending_strict fl hnd_fl)
        (fun i hi => by
          rw [h0_edges]
          exact hfl_range i ((sortDescending_perm fl).mem_iff.1 hi))
        h0_cov trivial
    rw [h0_edges] at hloop hperm
    rw [hf2, ← hc0]
    refine ⟨c1, v1, hloop, ?_⟩
    apply remaining_perm_notListed
    · rw [hfl]; exact hnd_fl
    · rw [hfl]
      exact (List.Perm.append_left _
        (List.Perm.filterMap _ (sortDescending_perm fl)).symm).trans hperm
  · unfold EdgeSetTopologyModifier.removeEdges
    simp only [EdgeSetTopologyModifier.removeEdgesWarning, hf2]
    generalize hw : EdgeSetTopologyModifier.addTopologyChange
      { EdgeSetTopologyModifier.filterEdgeIds s edgeIds |>.1 with
        m_container :=
          (EdgeSetTopologyModifier.filterEdgeIds s edgeIds).1.m_container.setEdgeTopologyToDirty }
      (TopologyChange.EdgesRemoved (sortDescending fl)) = w
    have hw_edges : w.m_container.d_edge = s.m_container.d_edge := by
      rw [← hw, ← hf1]; rfl
    have hw_shells : w.m_container.m_edgesAroundVertex = s.m_container.m_edgesAroundVertex := by
      rw [← hw, ← hf1]; rfl
    have hw_nb : w.m_container.nbPoints = s.m_container.nbPoints := by
      rw [← hw, ← hf1]; rfl
    obtain ⟨p1, p2, p3, -, -, -⟩ := propagate_container w resetTopoChange
    generalize hs1 : (if resetTopoChange = true
      then EdgeSetTopologyModifier.propagateTopologicalChanges w
      else EdgeSetTopologyModifier.propagateTopologicalChangesWithoutReset w) = sp
      at p1 p2 p3
    rw [hw_edges] at p1
    rw [hw_shells] at p2
    rw [hw_nb] at p3
    have hcovp : ShellCovers sp.m_container := ShellCovers_congr _ _ p1 p2 hcov
    by_cases hpos : 0 < s.m_container.d_edge.length
    · obtain ⟨s1, hrun, -, -, -, hperm, hp, -⟩ :=
        removeEdgesProcess_sorted_spec sp fl d_propagateToDOF
          ((hasEdges_iff _).2 (by rw [p1]; exact hpos)) hcovp hnd_fl
          (fun i hi => by rw [p1]; exact hfl_range i hi)
      refine ⟨s1, hrun, ?_, by rw [hp, p3]⟩
      rw [p1] at hperm
      apply remaining_perm_notListed
      · rw [hfl]; exact hnd_fl
      · rw [hfl]; exact hperm
    · have hnil : s.m_container.d_edge = [] := by
        cases h : s.m_container.d_edge with
        | nil => rfl
        | cons a b => rw [h] at hpos; simp at hpos
      have hne : sp.m_container.hasEdges = false := by
        unfold EdgeSetTopologyContainer.hasEdges
        rw [p1, hnil]; rfl
      refine ⟨sp.report .edgeArrayEmpty, ?_, ?_, ?_⟩
      · unfold EdgeSetTopologyModifier.removeEdgesProcess
        simp [hne]
      · show sp.m_container.d_edge.Perm _
        rw [p1, hnil]
        simp [edgesNotListed]
      · show sp.m_container.nbPoints = _
        exact p3
  · intro hnd hshell
    unfold EdgeSetTopologyModifier.removeEdges
    simp only [EdgeSetTopologyModifier.removeEdgesWarning, hf2]
    generalize hw : EdgeSetTopologyModifier.addTopologyChange
      { EdgeSetTopologyModifier.filterEdgeIds s edgeIds |>.1 with
        m_container :=
          (EdgeSetTopologyModifier.filterEdgeIds s edgeIds).1.m_container.setEdgeTopologyToDirty }
      (TopologyChange.EdgesRemoved (sortDescending fl)) = w
    have hw_edges : w.m_container.d_edge = s.m_container.d_edge := by
      rw [← hw, ← hf1]; rfl
    have hw_shells : w.m_container.m_edgesAroundVertex = s.m_container.m_edgesAroundVertex := by
      rw [← hw, ← hf1]; rfl
    have hw_nb : w.m_container.nbPoints = s.m_container.nbPoints := by
      rw [← hw, ← hf1]; rfl
    obtain ⟨p1, p2, p3, -, -, -⟩ := propagate_container w resetTopoChange
    generalize hs1 : (if resetTopoChange = true
      then EdgeSetTopologyModifier.propagateTopologicalChanges w
      else EdgeSetTopologyModifier.propagateTopologicalChangesWithoutReset w) = sp
      at p1 p2 p3
    rw [hw_edges] at p1
    rw [hw_shells] at p2
    rw [hw_nb] at p3
    have hvalidp : ValidEdges sp.m_container := by
      intro e he
      rw [p1] at he
      rw [p3]
      exact hvalid e he
    have hndp : NonDegenerate sp.m_container := by
      intro e he
      rw [p1] at he
      exact hnd e he
    have hshellp : sp.m_container.hasEdgesAroundVertex = true → ShellCounts sp.m_container := by
      intro hb
      have hb0 : s.m_container.hasEdgesAroundVertex = true := by
        unfold EdgeSetTopologyContainer.hasEdgesAroundVertex at hb ⊢
        rw [← p2]
        exact hb
      have := hshell hb0
      unfold ShellCounts at this ⊢
      rw [p1, p2, p3]
      exact this
    obtain ⟨s1, remaining, removedPoints, hrun, hperm, hdesc, hmem, hedges, hnb, hval⟩ :=
      removeEdgesProcess_isolated_spec sp fl d_propagateToDOF hvalidp hndp hshellp hnd_fl
        (fun i hi => by rw [p1]; exact hfl_range i hi)
    rw [p1] at hperm hmem
    rw [p3] at hedges hnb
    have hrem : remaining.Perm (edgesNotListed s.m_container.d_edge edgeIds) := by
      apply remaining_perm_notListed
      · rw [hfl]; exact hnd_fl
      · rw [hfl]; exact hperm
    refine ⟨s1, removedPoints, hrun, hdesc, fun p => ?_, ?_, hnb, hval⟩
    · rw [hmem p]
      have h1 : EndpointOfListed s.m_container.d_edge fl p
          ↔ EndpointOfListed s.m_container.d_edge edgeIds p := by
        unfold EndpointOfListed
        constructor
        · rintro ⟨i, hi, h⟩
          rw [← hfl] at hi
          exact ⟨i, (List.mem_filter.1 hi).1, h⟩
        · rintro ⟨i, hi, e, he, hp⟩
          refine ⟨i, ?_, e, he, hp⟩
          rw [← hfl]
          exact List.mem_filter.2 ⟨hi, by simpa using (List.getElem?_eq_some.1 he).1⟩
      have h2 : Isolated remaining p
          ↔ Isolated (edgesNotListed s.m_container.d_edge edgeIds) p := by
        unfold Isolated
        exact ⟨fun h e he => h e (hrem.mem_iff.2 he), fun h e he => h e (hrem.mem_iff.1 he)⟩
      rw [h1, h2]
    · rw [hedges]
      exact hrem.map _

theorem C23_removeEdges_skips_out_of_range_witness :
    ValidEdges pathMeshShell.m_container ∧
    (pathMeshShell.m_container.hasEdgesAroundVertex = true →
      pathMeshShell.m_container.m_edgesAroundVertex.length
        = pathMeshShell.m_container.nbPoints) ∧
    (([7, 0, 5, 1] : List Nat).filter
      (fun i => decide (i < pathMeshShell.m_container.d_edge.length))).Nodup ∧
    NonDegenerate pathMeshShell.m_container ∧
    (pathMeshShell.m_container.hasEdgesAroundVertex = true →
      ShellCounts pathMeshShell.m_container) ∧
    (EdgeSetTopologyModifier.filterEdgeIds pathMeshShell [7, 0, 5, 1]).2
        = ([7, 0, 5, 1] : List Nat).filter
            (fun i => decide (i < pathMeshShell.m_container.d_edge.length))
    ∧ (∃ c1 vertexToBeRemoved,
        EdgeSetTopologyModifier.removeEdgesLoop true
            (sortDescending (EdgeSetTopologyModifier.filterEdgeIds pathMeshShell [7, 0, 5, 1]).2)
            (decr pathMeshShell.m_container.d_edge.length)
            (if true && !pathMeshShell.m_container.hasEdgesAroundVertex
              then pathMeshShell.m_container.createEdgesAroundVertexArray
              else pathMeshShell.m_container) []
          = some (c1, vertexToBeRemoved)
        ∧ c1.d_edge.Perm (edgesNotListed pathMeshShell.m_container.d_edge [7, 0, 5, 1]))
    ∧ (∃ s1, EdgeSetTopologyModifier.removeEdges pathMeshShell [7, 0, 5, 1] false true true
        = .done s1
      ∧ s1.m_container.d_edge.Perm (edgesNotListed pathMeshShell.m_container.d_edge [7, 0, 5, 1])
      ∧ s1.m_container.nbPoints = pathMeshShell.m_container.nbPoints)
    ∧ ∃ (s1 : EdgeSetTopologyModifier) (removedPoints : List Nat),
        EdgeSetTopologyModifier.removeEdges pathMeshShell [7, 0, 5, 1] true true true
          = .done s1
        ∧ removedPoints.Pairwise (fun a b => b < a)
        ∧ (∀ p : Nat, p ∈ removedPoints
            ↔ EndpointOfListed pathMeshShell.m_container.d_edge [7, 0, 5, 1] p
              ∧ Isolated (edgesNotListed pathMeshShell.m_container.d_edge [7, 0, 5, 1]) p)
        ∧ s1.m_container.d_edge.Perm
            ((edgesNotListed pathMeshShell.m_container.d_edge [7, 0, 5, 1]).map (fun e =>
              (newPointIndex removedPoints (pathMeshShell.m_container.nbPoints - 1) e.1,
               newPointIndex removedPoints (pathMeshShell.m_container.nbPoints - 1) e.2)))
        ∧ s1.m_container.nbPoints
            = pathMeshShell.m_container.nbPoints - removedPoints.length
        ∧ ValidEdges s1.m_container :=
  ⟨by decide, by decide, by decide, by decide, by decide,
    (C23_removeEdges_skips_out_of_range pathMeshShell [7, 0, 5, 1] true true true
      (by decide) (by decide) (by decide)).1,
    (C23_removeEdges_skips_out_of_range pathMeshShell [7, 0, 5, 1] true true true
      (by decide) (by decide) (by decide)).2.1,
    (C23_removeEdges_skips_out_of_range pathMeshShell [7, 0, 5, 1] true true true
      (by decide) (by decide) (by decide)).2.2.1,
    (C23_removeEdges_skips_out_of_range pathMeshShell [7, 0, 5, 1] true true true
      (by decide) (by decide) (by decide)).2.2.2 (by decide) (by decide)⟩

/-- C24 (failing input and what holds). For every mesh that has no edges and every index
list, `removeEdges` leaves the edge array, the shells and the number of points unchanged;
but before `removeEdgesProcess` finds the edge array empty, `removeEdgesWarning` has marked
the edge level dirty and enqueued the record `EdgesRemoved []`, and both are what the
consumers see at the propagation. Without reset of the queue the record is still pending
at the end. -/
theorem C24_removeEdges_on_empty_level_enqueues (s : EdgeSetTopologyModifier)
    (edgeIds : List Nat) (removeIsolatedPoints resetTopoChange d_propagateToDOF : Bool)
    (hempty : s.m_container.d_edge = []) :
    ∃ s1 seen, EdgeSetTopologyModifier.removeEdges s edgeIds removeIsolatedPoints
        resetTopoChange d_propagateToDOF = .done s1
      ∧ s1.m_container.d_edge = s.m_container.d_edge
      ∧ s1.m_container.m_edgesAroundVertex = s.m_container.m_edgesAroundVertex
      ∧ s1.m_container.nbPoints = s.m_container.nbPoints
      ∧ s1.trace = s.trace ++ [Event.propagated seen]
      ∧ seen.m_changeList = s.m_container.m_changeList ++ [TopologyChange.EdgesRemoved []]
      ∧ seen.m_edgeTopologyDirty = true
      ∧ s1.m_container.m_changeList = (if resetTopoChange then []
          else s.m_container.m_changeList ++ [TopologyChange.EdgesRemoved []]) := by
  obtain ⟨hf2, hf1, hft⟩ := filterEdgeIds_spec edgeIds s
  have hnil : edgeIds.filter (fun i => decide (i < s.m_container.d_edge.length)) = [] := by
    rw [hempty]
    simp
  rw [hnil] at hf2
  unfold EdgeSetTopologyModifier.removeEdges
  simp only [EdgeSetTopologyModifier.removeEdgesWarning, hf2]
  generalize hw : EdgeSetTopologyModifier.addTopologyChange
    { EdgeSetTopologyModifier.filterEdgeIds s edgeIds |>.1 with
      m_container :=
        (EdgeSetTopologyModifier.filterEdgeIds s edgeIds).1.m_container.setEdgeTopologyToDirty }
    (TopologyChange.EdgesRemoved (sortDescending [])) = w
  have hw_edges : w.m_container.d_edge = s.m_container.d_edge := by
    rw [← hw, ← hf1]; rfl
  have hw_shells : w.m_container.m_edgesAroundVertex = s.m_container.m_edgesAroundVertex := by
    rw [← hw, ← hf1]; rfl
  have hw_nb : w.m_container.nbPoints = s.m_container.nbPoints := by
    rw [← hw, ← hf1]; rfl
  have hw_changes : w.m_container.m_changeList = s.m_container.m_changeList
      ++ [TopologyChange.EdgesRemoved []] := by
    rw [← hw, ← hf1]; rfl
  have hw_dirty : w.m_container.m_edgeTopologyDirty = true := by
    rw [← hw]; rfl
  have hw_trace : w.trace = s.trace := by
    rw [← hw, ← hft]; rfl
  obtain ⟨p1, p2, p3, p4, -, p6⟩ := propagate_container w resetTopoChange
  generalize hs1 : (if resetTopoChange = true
    then EdgeSetTopologyModifier.propagateTopologicalChanges w
    else EdgeSetTopologyModifier.propagateTopologicalChangesWithoutReset w) = sp
    at p1 p2 p3 p4 p6
  have hne : sp.m_container.hasEdges = false := by
    unfold EdgeSetTopologyContainer.hasEdges
    rw [p1, hw_edges, hempty]
    rfl
  have hproc : EdgeSetTopologyModifier.removeEdgesProcess sp (sortDescending [])
      removeIsolatedPoints d_propagateToDOF = .done (sp.report .edgeArrayEmpty) := by
    unfold EdgeSetTopologyModifier.removeEdgesProcess
    simp [hne]
  refine ⟨_, w.m_container, hproc, ?_, ?_, ?_, ?_, hw_changes, hw_dirty, ?_⟩
  · show sp.m_container.d_edge = _
    rw [p1, hw_edges]
  · show sp.m_container.m_edgesAroundVertex = _
    rw [p2, hw_shells]
  · show sp.m_container.nbPoints = _
    rw [p3, hw_nb]
  · show sp.trace = _
    rw [p4, hw_trace]
  · show sp.m_container.m_changeList = _
    rw [p6, hw_changes]

theorem C24_removeEdges_on_empty_level_enqueues_witness :
    noEdgesMesh.m_container.d_edge = [] ∧
    ∃ s1 seen, EdgeSetTopologyModifier.removeEdges noEdgesMesh [0] false false true = .done s1
      ∧ s1.m_container.d_edge = noEdgesMesh.m_container.d_edge
      ∧ s1.m_container.m_edgesAroundVertex = noEdgesMesh.m_container.m_edgesAroundVertex
      ∧ s1.m_container.nbPoints = noEdgesMesh.m_container.nbPoints
      ∧ s1.trace = noEdgesMesh.trace ++ [Event.propagated seen]
      ∧ seen.m_changeList
          = noEdgesMesh.m_container.m_changeList ++ [TopologyChange.EdgesRemoved []]
      ∧ seen.m_edgeTopologyDirty = true
      ∧ s1.m_container.m_changeList = (if false then []
          else noEdgesMesh.m_container.m_changeList ++ [TopologyChange.EdgesRemoved []]) :=
  ⟨rfl, C24_removeEdges_on_empty_level_enqueues noEdgesMesh [0] false false true rfl⟩


/-- C25 (counterexample). For a new edge derived from ten source edges, the coefficient
list that `addEdgesWarning` stores holds ten copies of the double-precision value of
`1.0/10`, which is `3602879701896397 / 2^55` and not `1/10`: the ten entries sum to
`1 + 2^-54`, not to `1`. -/
theorem C25_tenth_coefficients_counterexample :
    EdgeSetTopologyModifier.addEdgesWarning_ancestorElems doubleQuotient 4294967295
        noEdgesMesh 1 [(0, 1)] [0] [tenAncestors]
      = .done (EdgeSetTopologyModifier.addTopologyChange
          { noEdgesMesh with m_container := noEdgesMesh.m_container.setEdgeTopologyToDirty }
          (.EdgesAdded 1 [(0, 1)] [0] [[0, 1, 2, 3, 4, 5, 6, 7, 8, 9]]
            [List.replicate 10 (3602879701896397 / 36028797018963968)]))
    ∧ (List.replicate 10 (3602879701896397 / 36028797018963968 : SReal)).sum
        = 18014398509481985 / 18014398509481984
    ∧ (List.replicate 10 (3602879701896397 / 36028797018963968 : SReal)).sum ≠ 1 := by
  have hq : doubleQuotient 10 = 3602879701896397 / 36028797018963968 := by
    simp only [doubleQuotient, roundedQuotient, log2Floor]
    norm_num
  refine ⟨?_, ?_, ?_⟩
  · have hret : EdgeSetTopologyModifier.retainedAncestors 4294967295 tenAncestors
        = [0, 1, 2, 3, 4, 5, 6, 7, 8, 9] := by decide
    simp [EdgeSetTopologyModifier.addEdgesWarning_ancestorElems, hret, ancestorCoefs_spec, hq]
  · rw [sum_replicate_rat]
    norm_num
  · rw [sum_replicate_rat]
    norm_num

/-- C25 (amended). Ancestry weight law for the coefficient lists the modifier builds
itself. The point record propagated by `splitEdgesProcess` gives every created point the
ancestors `(p1, p2)` of its split edge and the coefficients `(1/2, 1/2)`: two non-negative
entries that sum to `1`. The record that `addEdgesWarning` derives from ancestor elements
has, for each new edge, the list of its retained ancestors (the source elements of edge
type with a valid index, in order) and as many copies of the value `q` that the
floating-point division `1.0/k` yields for their number `k`, no coefficient when `k = 0`;
every such list has non-negative entries, the length of its ancestor list, and sums to
`k * q`, which is `1` exactly when the division is exact (`q * k = 1`), as it is in binary
floating point for `k` a power of two. -/
theorem C25_coefficient_lists_weight_law (quotient : Nat → SReal) (InvalidID : Nat)
    (CHECK_TOPOLOGY : Bool) (s : EdgeSetTopologyModifier) (indices : List Nat)
    (removeIsolatedPoints d_propagateToDOF : Bool)
    (nEdges : Nat) (edgesList : List Edge) (edgesIndexList : List EdgeID)
    (ancestorElems : List EdgeAncestorElem)
    (hne : s.m_container.hasEdges = true)
    (hrange : ∀ k ∈ indices, k < s.m_container.d_edge.length)
    (hvalid : ValidEdges s.m_container)
    (hn : nEdges ≤ ancestorElems.length)
    (hq : ∀ k, 0 ≤ quotient k) :
    (∃ (seen : EdgeSetTopologyContainer) (rest : List Event) (ancestors : List (List PointID))
        (coefs : List (List SReal)) (more : List TopologyChange),
        (EdgeSetTopologyModifier.splitEdgesProcess CHECK_TOPOLOGY s indices
          removeIsolatedPoints d_propagateToDOF).state.trace
            = s.trace ++ Event.propagated seen :: rest
        ∧ seen.m_changeList = s.m_container.m_changeList ++
            TopologyChange.PointsAdded indices.length ancestors coefs :: more
        ∧ ancestors.length = indices.length ∧ coefs.length = indices.length
        ∧ ∀ j k : Nat, indices[j]? = some k →
            ancestors[j]? = some [(s.m_container.d_edge.getD k (0, 0)).1,
              (s.m_container.d_edge.getD k (0, 0)).2]
            ∧ coefs[j]? = some ([1 / 2, 1 / 2] : List SReal)
            ∧ (∀ x ∈ ([1 / 2, 1 / 2] : List SReal), 0 ≤ x)
            ∧ ([1 / 2, 1 / 2] : List SReal).sum = 1)
    ∧ (∃ (ancestors : List (List EdgeID)) (baryCoefs : List (List SReal)),
        EdgeSetTopologyModifier.addEdgesWarning_ancestorElems quotient InvalidID s nEdges
            edgesList edgesIndexList ancestorElems
          = .done (EdgeSetTopologyModifier.addTopologyChange
              { s with m_container := s.m_container.setEdgeTopologyToDirty }
              (.EdgesAdded nEdges edgesList edgesIndexList ancestors baryCoefs))
        ∧ ancestors.length = nEdges ∧ baryCoefs.length = nEdges
        ∧ ∀ (i : Nat) (elem : EdgeAncestorElem), i < nEdges → ancestorElems[i]? = some elem →
            ∃ coefs : List SReal, ancestors[i]? = some (EdgeSetTopologyModifier.retainedAncestors InvalidID elem)
              ∧ baryCoefs[i]? = some coefs
              ∧ (∀ a, a ∈ EdgeSetTopologyModifier.retainedAncestors InvalidID elem ↔
                  ∃ src ∈ elem.srcElems, src.type = TopologyObjectType.EDGE
                    ∧ src.index ≠ InvalidID ∧ src.index = a)
              ∧ coefs = List.replicate
                  (EdgeSetTopologyModifier.retainedAncestors InvalidID elem).length
                  (quotient (EdgeSetTopologyModifier.retainedAncestors InvalidID elem).length)
              ∧ coefs.length = (EdgeSetTopologyModifier.retainedAncestors InvalidID elem).length
              ∧ (∀ x ∈ coefs, 0 ≤ x)
              ∧ coefs.sum = ((EdgeSetTopologyModifier.retainedAncestors InvalidID elem).length : ℚ)
                  * quotient (EdgeSetTopologyModifier.retainedAncestors InvalidID elem).length
              ∧ (quotient (EdgeSetTopologyModifier.retainedAncestors InvalidID elem).length
                  * ((EdgeSetTopologyModifier.retainedAncestors InvalidID elem).length : ℚ) = 1 →
                  coefs.sum = 1))
    ∧ ∀ p L : Nat, roundedQuotient p (2 ^ L) * ((2 ^ L : Nat) : ℚ) = 1 := by
  refine ⟨?_, ?_, roundedQuotient_two_pow⟩
  · obtain ⟨v, edges, idx, hrun, hv, hlen, hidx, hedges⟩ :=
      splitEdgesLoop_spec s.m_container indices 0 s.m_container.d_edge.length hrange
    have hcov := splitEdgesLoop_bounds s.m_container indices edges hvalid hrange hlen hedges
    obtain ⟨seen, rest, h1, h2⟩ := splitEdgesTail_record CHECK_TOPOLOGY s indices v edges idx
      (List.replicate indices.length [1 / 2, 1 / 2]) removeIsolatedPoints d_propagateToDOF hcov
    refine ⟨seen, rest, v, List.replicate indices.length [1 / 2, 1 / 2], _, ?_, h2, ?_, ?_, ?_⟩
    · unfold EdgeSetTopologyModifier.splitEdgesProcess
      simp only [hne, Bool.not_true, Bool.false_eq_true, if_false,
        EdgeSetTopologyContainer.getNumberOfEdges, hrun]
      exact h1
    · rw [hv, List.length_map]
    · exact List.length_replicate _ _
    · intro j k hjk
      have hj : j < indices.length := (List.getElem?_eq_some.1 hjk).1
      refine ⟨?_, ?_, ?_, ?_⟩
      · rw [hv, List.getElem?_map, hjk]
        rfl
      · rw [List.getElem?_replicate, if_pos hj]
      · intro x hx
        simp only [List.mem_cons, List.mem_singleton, List.not_mem_nil, or_false, or_self] at hx
        rw [hx]
        norm_num
      · norm_num
  · refine ⟨(ancestorElems.take nEdges).map (EdgeSetTopologyModifier.retainedAncestors InvalidID),
      ((ancestorElems.take nEdges).map (EdgeSetTopologyModifier.retainedAncestors InvalidID)).map
        (EdgeSetTopologyModifier.ancestorCoefs quotient), ?_, ?_, ?_, ?_⟩
    · unfold EdgeSetTopologyModifier.addEdgesWarning_ancestorElems
      rw [if_pos hn]
    · rw [List.length_map, List.length_take]
      exact Nat.min_eq_left hn
    · rw [List.length_map, List.length_map, List.length_take]
      exact Nat.min_eq_left hn
    · intro i elem hi helem
      have htake : (ancestorElems.take nEdges)[i]? = some elem := by
        rw [List.getElem?_take_of_lt hi]
        exact helem
      refine ⟨EdgeSetTopologyModifier.ancestorCoefs quotient
        (EdgeSetTopologyModifier.retainedAncestors InvalidID elem),
        ?_, ?_, ?_, ancestorCoefs_spec _ _, ?_, ?_, ?_, ?_⟩
      · rw [List.getElem?_map, htake]
        rfl
      · rw [List.getElem?_map, List.getElem?_map, htake]
        rfl
      · intro a
        unfold EdgeSetTopologyModifier.retainedAncestors
        simp only [List.mem_map, List.mem_filter, Bool.and_eq_true, beq_iff_eq, bne_iff_ne]
        constructor
        · rintro ⟨src, ⟨hs, ht, hi⟩, ha⟩
          exact ⟨src, hs, ht, hi, ha⟩
        · rintro ⟨src, hs, ht, hi, ha⟩
          exact ⟨src, ⟨hs, ht, hi⟩, ha⟩
      · rw [ancestorCoefs_spec, List.length_replicate]
      · intro x hx
        rw [ancestorCoefs_spec] at hx
        rw [List.eq_of_mem_replicate hx]
        exact hq _
      · rw [ancestorCoefs_spec, sum_replicate_rat]
      · intro hex
        rw [ancestorCoefs_spec, sum_replicate_rat, mul_comm]
        exact hex

theorem C25_coefficient_lists_weight_law_witness :
    pathMesh.m_container.hasEdges = true ∧
    (∀ k ∈ ([1] : List Nat), k < pathMesh.m_container.d_edge.length) ∧
    ValidEdges pathMesh.m_container ∧
    1 ≤ [mixedAncestors].length ∧
    (∀ k, 0 ≤ doubleQuotient k) ∧
    (∃ (ancestors : List (List EdgeID)) (baryCoefs : List (List SReal)),
        EdgeSetTopologyModifier.addEdgesWarning_ancestorElems doubleQuotient 4294967295 pathMesh 1
            [(0, 3)] [3] [mixedAncestors]
          = .done (EdgeSetTopologyModifier.addTopologyChange
              { pathMesh with m_container := pathMesh.m_container.setEdgeTopologyToDirty }
              (.EdgesAdded 1 [(0, 3)] [3] ancestors baryCoefs))
        ∧ ancestors.length = 1 ∧ baryCoefs.length = 1
        ∧ ∀ (i : Nat) (elem : EdgeAncestorElem), i < 1 → [mixedAncestors][i]? = some elem →
            ∃ coefs : List SReal, ancestors[i]? = some (EdgeSetTopologyModifier.retainedAncestors 4294967295 elem)
              ∧ baryCoefs[i]? = some coefs
              ∧ (∀ a, a ∈ EdgeSetTopologyModifier.retainedAncestors 4294967295 elem ↔
                  ∃ src ∈ elem.srcElems, src.type = TopologyObjectType.EDGE
                    ∧ src.index ≠ 4294967295 ∧ src.index = a)
              ∧ coefs = List.replicate
                  (EdgeSetTopologyModifier.retainedAncestors 4294967295 elem).length
                  (doubleQuotient (EdgeSetTopologyModifier.retainedAncestors 4294967295 elem).length)
              ∧ coefs.length = (EdgeSetTopologyModifier.retainedAncestors 4294967295 elem).length
              ∧ (∀ x ∈ coefs, 0 ≤ x)
              ∧ coefs.sum = ((EdgeSetTopologyModifier.retainedAncestors 4294967295 elem).length : ℚ)
                  * doubleQuotient (EdgeSetTopologyModifier.retainedAncestors 4294967295 elem).length
              ∧ (doubleQuotient (EdgeSetTopologyModifier.retainedAncestors 4294967295 elem).length
                  * ((EdgeSetTopologyModifier.retainedAncestors 4294967295 elem).length : ℚ) = 1 →
                  coefs.sum = 1)) :=
  ⟨by decide, by decide, by decide, by decide, roundedQuotient_nonneg 53,
    (C25_coefficient_lists_weight_law doubleQuotient 4294967295 false pathMesh [1] false true
      1 [(0, 3)] [3] [mixedAncestors] (by decide) (by decide) (by decide) (by decide)
      (roundedQuotient_nonneg 53)).2.1⟩

/-- C26 (counterexample). Moving point `1` of the path `(0, 1)`, `(1, 2)`, `(2, 3)`, edge
level clean: the record `EdgesMoved_Removing [1, 0]` is what the consumers see at the
propagation, with the dirty flag not set, and the record `EdgesMoved_Adding` is pending at
the end, with the dirty flag not set. And after `removeEdges([1])` without reset of the
queue, the record `EdgesRemoved [1]` is still pending while the propagation has cleaned
the flag. -/
theorem C26_moved_records_counterexample :
    (∃ s1 seen moved, EdgeSetTopologyModifier.movePointsProcess pathMeshShell [1] [] [] true
        = .done s1
      ∧ s1.trace = [Event.propagated seen, moved]
      ∧ seen.m_changeList = [TopologyChange.EdgesMoved_Removing [1, 0]]
      ∧ seen.m_edgeTopologyDirty = false
      ∧ s1.m_container.m_changeList
          = [TopologyChange.EdgesMoved_Adding [1, 0] [(1, 2), (0, 1)]]
      ∧ s1.m_container.m_edgeTopologyDirty = false)
    ∧ ∃ s2, EdgeSetTopologyModifier.removeEdges pathMesh [1] false false true = .done s2
      ∧ s2.m_container.m_changeList = [TopologyChange.EdgesRemoved [1]]
      ∧ s2.m_container.m_edgeTopologyDirty = false :=
  ⟨⟨_, _, _, rfl, rfl, rfl, rfl, rfl, rfl⟩, ⟨_, rfl, rfl, rfl⟩⟩

/-- C26 (amended). Every enqueue of an added or removed record marks the level dirty: each
overload of `addEdgesWarning` and `removeEdgesWarning` sets the dirty flag of the edge
level and appends its record to the queue, so that the flag is set when the step ends.
The two records of a move are appended by `addTopologyChange`, which leaves the flag as it
is; and the propagation between them cleans it: when `movePointsProcess` ends, the
moved-adding record is the one pending record and the flag is not set. -/
theorem C26_warnings_mark_dirty (quotient : Nat → SReal) (InvalidID : Nat)
    (s : EdgeSetTopologyModifier) (nEdges : Nat)
    (edgesList : List Edge) (edgesIndexList : List EdgeID) (ancestors : List (List EdgeID))
    (baryCoefs : List (List SReal)) (ancestorElems : List EdgeAncestorElem)
    (edges : List EdgeID) (r : TopologyChange)
    (id : List PointID) (pointAncestors : List (List PointID)) (coefs : List (List SReal))
    (moveDOF : Bool) (s1 : EdgeSetTopologyModifier)
    (hn : nEdges ≤ ancestorElems.length)
    (hmove : EdgeSetTopologyModifier.movePointsProcess s id pointAncestors coefs moveDOF
      = .done s1) :
    ((EdgeSetTopologyModifier.addEdgesWarning_count s nEdges).m_container.m_edgeTopologyDirty
        = true
      ∧ (EdgeSetTopologyModifier.addEdgesWarning_count s nEdges).m_container.m_changeList
        = s.m_container.m_changeList ++ [.EdgesAdded nEdges [] [] [] []])
    ∧ ((EdgeSetTopologyModifier.addEdgesWarning s nEdges edgesList
          edgesIndexList).m_container.m_edgeTopologyDirty = true
      ∧ (EdgeSetTopologyModifier.addEdgesWarning s nEdges edgesList
          edgesIndexList).m_container.m_changeList
        = s.m_container.m_changeList ++ [.EdgesAdded nEdges edgesList edgesIndexList [] []])
    ∧ ((EdgeSetTopologyModifier.addEdgesWarning_ancestors s nEdges edgesList edgesIndexList
          ancestors).m_container.m_edgeTopologyDirty = true
      ∧ (EdgeSetTopologyModifier.addEdgesWarning_ancestors s nEdges edgesList edgesIndexList
          ancestors).m_container.m_changeList
        = s.m_container.m_changeList
          ++ [.EdgesAdded nEdges edgesList edgesIndexList ancestors []])
    ∧ ((EdgeSetTopologyModifier.addEdgesWarning_baryCoefs s nEdges edgesList edgesIndexList
          ancestors baryCoefs).m_container.m_edgeTopologyDirty = true
      ∧ (EdgeSetTopologyModifier.addEdgesWarning_baryCoefs s nEdges edgesList edgesIndexList
          ancestors baryCoefs).m_container.m_changeList
        = s.m_container.m_changeList
          ++ [.EdgesAdded nEdges edgesList edgesIndexList ancestors baryCoefs])
    ∧ (∃ s2 derived derivedCoefs,
        EdgeSetTopologyModifier.addEdgesWarning_ancestorElems quotient InvalidID s nEdges
          edgesList edgesIndexList ancestorElems = .done s2
        ∧ s2.m_container.m_edgeTopologyDirty = true
        ∧ s2.m_container.m_changeList = s.m_container.m_changeList
            ++ [.EdgesAdded nEdges edgesList edgesIndexList derived derivedCoefs])
    ∧ ((EdgeSetTopologyModifier.removeEdgesWarning s edges).1.m_container.m_edgeTopologyDirty
        = true
      ∧ (EdgeSetTopologyModifier.removeEdgesWarning s edges).1.m_container.m_changeList
        = s.m_container.m_changeList ++ [.EdgesRemoved (sortDescending edges)])
    ∧ ((s.addTopologyChange r).m_container.m_edgeTopologyDirty
        = s.m_container.m_edgeTopologyDirty
      ∧ (s.addTopologyChange r).m_container.m_changeList = s.m_container.m_changeList ++ [r])
    ∧ ∃ seen moved list edgeArray,
        s1.trace = s.trace ++ [Event.propagated seen, moved]
        ∧ seen.m_changeList
            = s.m_container.m_changeList ++ [TopologyChange.EdgesMoved_Removing list]
        ∧ seen.m_edgeTopologyDirty = s.m_container.m_edgeTopologyDirty
        ∧ s1.m_container.m_changeList = [TopologyChange.EdgesMoved_Adding list edgeArray]
        ∧ s1.m_container.m_edgeTopologyDirty = false := by
  refine ⟨⟨rfl, rfl⟩, ⟨rfl, rfl⟩, ⟨rfl, rfl⟩, ⟨rfl, rfl⟩, ?_, ⟨rfl, rfl⟩, ⟨rfl, rfl⟩, ?_⟩
  · refine ⟨EdgeSetTopologyModifier.addTopologyChange
        { s with m_container := s.m_container.setEdgeTopologyToDirty }
        (.EdgesAdded nEdges edgesList edgesIndexList
          ((ancestorElems.take nEdges).map (EdgeSetTopologyModifier.retainedAncestors InvalidID))
          (((ancestorElems.take nEdges).map
            (EdgeSetTopologyModifier.retainedAncestors InvalidID)).map
              (EdgeSetTopologyModifier.ancestorCoefs quotient))), _, _, ?_, rfl, rfl⟩
    unfold EdgeSetTopologyModifier.addEdgesWarning_ancestorElems
    rw [if_pos hn]
  · obtain ⟨collected, edgeArray, seen, moved, -, -, h3, h4, h5, -, h7, h8, -⟩ :=
      movePointsProcess_done s id pointAncestors coefs moveDOF s1 hmove
    exact ⟨seen, moved, sortDescending collected, edgeArray, h3, h4, h5, h7, h8⟩

theorem C26_warnings_mark_dirty_witness :
    1 ≤ [mixedAncestors].length ∧
    EdgeSetTopologyModifier.movePointsProcess pathMeshShell [1] [] [] true
      = .done (movedPathMesh) ∧
    ∃ seen moved list edgeArray,
        movedPathMesh.trace = pathMeshShell.trace ++ [Event.propagated seen, moved]
        ∧ seen.m_changeList = pathMeshShell.m_container.m_changeList
            ++ [TopologyChange.EdgesMoved_Removing list]
        ∧ seen.m_edgeTopologyDirty = pathMeshShell.m_container.m_edgeTopologyDirty
        ∧ movedPathMesh.m_container.m_changeList
            = [TopologyChange.EdgesMoved_Adding list edgeArray]
        ∧ movedPathMesh.m_container.m_edgeTopologyDirty = false :=
  ⟨by decide, rfl,
    (C26_warnings_mark_dirty doubleQuotient 4294967295 pathMeshShell 1 [(0, 3)] [3] [[0, 2]]
      [[1 / 2, 1 / 2]] [mixedAncestors] [1] (.EdgesRemoved [1]) [1] [] [] true movedPathMesh
      (by decide) rfl).2.2.2.2.2.2.2⟩

/-- C27. Scenario of section 8: on the 10-point path graph (edges `(0,1)`, `(1,2)`, ...,
`(8,9)`), `resortCuthillMckee` returns the array `[9, 8, ..., 0]`, a permutation of
`0..9`; under it (point `v` relabelled to its position in the array) every edge joins two
points whose labels differ by `1`, so the relabelled graph has bandwidth `1`, which is
also the bandwidth the call logs; and the call leaves the edge array, with the whole
state, unchanged. -/
theorem C27_scenario_path_graph_bandwidth :
    ∃ r : EdgeSetTopologyModifier.Reordering,
      EdgeSetTopologyModifier.resortCuthillMckee pathGraph10 = some (pathGraph10, r)
      ∧ r.inverse_permutation = [9, 8, 7, 6, 5, 4, 3, 2, 1, 0]
      ∧ r.inverse_permutation.Perm (List.range 10)
      ∧ r.bandwidth = 1
      ∧ (∃ relabelled,
          EdgeSetTopologyModifier.renumberEdges
            ((List.range 10).map (positionOf r.inverse_permutation))
            pathGraph10.m_container.d_edge = some relabelled
          ∧ relabelled.length = 9
          ∧ ∀ e ∈ relabelled, (e.1 - e.2) + (e.2 - e.1) = 1)
      ∧ ∀ s1 r1, EdgeSetTopologyModifier.resortCuthillMckee pathGraph10 = some (s1, r1) →
          s1.m_container.d_edge
            = [(0, 1), (1, 2), (2, 3), (3, 4), (4, 5), (5, 6), (6, 7), (7, 8), (8, 9)] := by
  refine ⟨{ inverse_permutation := [9, 8, 7, 6, 5, 4, 3, 2, 1, 0], bandwidth := 1 },
    by decide, rfl, by decide, rfl, ⟨_, rfl, rfl, by decide⟩, ?_⟩
  intro s1 r1 h
  have hrun : EdgeSetTopologyModifier.resortCuthillMckee pathGraph10
      = some (pathGraph10,
          { inverse_permutation := [9, 8, 7, 6, 5, 4, 3, 2, 1, 0], bandwidth := 1 }) := by
    decide
  rw [hrun] at h
  have := (Prod.mk.inj (Option.some.inj h)).1
  rw [← this]
  rfl

/-- C28. `getFromIndex` of the hexahedron-to-tetrahedron mapping, on the mapping as the
specification describes it: after the initialisation and the translation of any sequence
of coarse additions and removals, `getFromIndex` returns for every live tetrahedron index
the index of a currently live hexahedron, the one the tetrahedron was generated from, and
reports the invalid index for every index at or beyond the number of live tetrahedra (in
the dense index space, the out-of-range and the stale indices). -/
theorem C28_getFromIndex_names_live_origin (slots : Nat) (hexahedra : List Hexahedron)
    (changes : List CoarseChange) (m : Hexa2TetraTopologicalMapping)
    (hrun : Hexa2TetraTopologicalMapping.updateAll slots
      (Hexa2TetraTopologicalMapping.init slots hexahedra) changes = some m) :
    (∀ (t : Nat) (tet : Tetrahedron), m.tetrahedra[t]? = some tet →
      ∃ h : Nat, m.getFromIndex t = some h ∧ h < m.hexahedra.length
        ∧ m.hexahedra[h]? = some tet.origin)
    ∧ (∀ t : Nat, t < m.tetrahedra.length → ∃ h : Nat, m.getFromIndex t = some h
        ∧ h < m.hexahedra.length)
    ∧ ∀ t : Nat, m.tetrahedra.length ≤ t → m.getFromIndex t = none := by
  obtain ⟨hlen, hP⟩ := updateAll_integrity slots changes _ m (init_integrity slots hexahedra)
    hrun
  have h1 : ∀ (t : Nat) (tet : Tetrahedron), m.tetrahedra[t]? = some tet →
      ∃ h : Nat, m.getFromIndex t = some h ∧ h < m.hexahedra.length
        ∧ m.hexahedra[h]? = some tet.origin := by
    intro t tet ht
    obtain ⟨h, hx1, hx2⟩ := hP t tet ht
    exact ⟨h, hx1, (List.getElem?_eq_some.1 hx2).1, hx2⟩
  refine ⟨h1, fun t ht => ?_, fun t ht => ?_⟩
  · obtain ⟨h, a, b, -⟩ := h1 t m.tetrahedra[t] (List.getElem?_eq_getElem ht)
    exact ⟨h, a, b⟩
  · unfold Hexa2TetraTopologicalMapping.getFromIndex
    exact List.getElem?_eq_none (by omega)

theorem C28_getFromIndex_names_live_origin_witness :
    Hexa2TetraTopologicalMapping.updateAll 2
      (Hexa2TetraTopologicalMapping.init 2 [hexaA, hexaB]) [.added hexaC, .removed 0]
      = some sampleMapping
    ∧ sampleMapping.getFromIndex 2 = some 1
    ∧ sampleMapping.getFromIndex 4 = none
    ∧ (∀ (t : Nat) (tet : Tetrahedron), sampleMapping.tetrahedra[t]? = some tet →
      ∃ h : Nat, sampleMapping.getFromIndex t = some h ∧ h < sampleMapping.hexahedra.length
        ∧ sampleMapping.hexahedra[h]? = some tet.origin)
    ∧ (∀ t : Nat, t < sampleMapping.tetrahedra.length →
        ∃ h : Nat, sampleMapping.getFromIndex t = some h
          ∧ h < sampleMapping.hexahedra.length)
    ∧ ∀ t : Nat, sampleMapping.tetrahedra.length ≤ t → sampleMapping.getFromIndex t = none :=
  ⟨by decide, by decide, by decide,
    C28_getFromIndex_names_live_origin 2 [hexaA, hexaB] [.added hexaC, .removed 0]
      sampleMapping (by decide)⟩

/-- C29 (counterexample). Three points, no edge, the shell array built (three empty
shells, consistent with the empty edge array): `removePointsProcess([2])` skips the whole
block guarded by `hasEdges()`, so two points remain and the shell array still has three
entries. -/
theorem C29_edgeless_shell_counterexample :
    ShellExact edgelessShellMesh.m_container
    ∧ ShellCounts edgelessShellMesh.m_container
    ∧ Isolated edgelessShellMesh.m_container.d_edge 2
    ∧ ∃ s1, EdgeSetTopologyModifier.removePointsProcess edgelessShellMesh [2] true = .done s1
      ∧ s1.m_container.nbPoints = 2
      ∧ s1.m_container.m_edgesAroundVertex.length = 3
      ∧ ¬ ShellExact s1.m_container :=
  ⟨by decide, by decide, by decide, _, rfl, rfl, rfl, by decide⟩

/-- C29 (amended). Point removal leaves no dangling reference: for every mesh that has at
least one edge, with every endpoint a point and a consistent shell (the shell of a point
lists an edge once for each endpoint of the edge that is the point), and every list of
in-range point indices in strictly descending order, each of which is an endpoint of no
edge, `removePointsProcess` runs to its end and rewrites every edge endpoint to the index
that the swap-with-last compaction gives its point (`newPointIndex`), which changes no
endpoint below the new point count; afterwards every edge endpoint is below the new point
count, the shell array has one entry per remaining point, and the shell is consistent
with the edge array. -/
theorem C29_removePointsProcess_no_dangling (s : EdgeSetTopologyModifier)
    (indices : List Nat) (removeDOF : Bool)
    (hne : s.m_container.hasEdges = true)
    (hvalid : ValidEdges s.m_container)
    (hshell : ShellCounts s.m_container)
    (hdesc : indices.Pairwise (fun a b => b < a))
    (hrange : ∀ i ∈ indices, i < s.m_container.nbPoints)
    (hiso : ∀ i ∈ indices, Isolated s.m_container.d_edge i) :
    ∃ s1, EdgeSetTopologyModifier.removePointsProcess s indices removeDOF = .done s1
      ∧ s1.m_container.d_edge = s.m_container.d_edge.map (fun e =>
          (newPointIndex indices (s.m_container.nbPoints - 1) e.1,
           newPointIndex indices (s.m_container.nbPoints - 1) e.2))
      ∧ (∀ q : Nat, q < s.m_container.nbPoints - indices.length →
          newPointIndex indices (s.m_container.nbPoints - 1) q = q)
      ∧ (∀ q : Nat, q < s.m_container.nbPoints → q ∉ indices →
          newPointIndex indices (s.m_container.nbPoints - 1) q
            < s.m_container.nbPoints - indices.length)
      ∧ s1.m_container.nbPoints = s.m_container.nbPoints - indices.length
      ∧ ValidEdges s1.m_container
      ∧ s1.m_container.m_edgesAroundVertex.length = s1.m_container.nbPoints
      ∧ ShellCounts s1.m_container
      ∧ ShellExact s1.m_container := by
  obtain ⟨hslen, hsc⟩ := hshell
  generalize hN : s.m_container.nbPoints = N at *
  have hinv : RemovalInv N s.m_container := by
    refine ⟨by omega, hN ▸ hvalid, fun p hp => ?_⟩
    exact hsc p hp
  obtain ⟨c1, hrun, hedges, hinv1, hn1, hl1, -, -⟩ :=
    removePointsLoop_spec indices N s.m_container hdesc hrange hiso hinv
  obtain ⟨i1, i2, i3⟩ := hinv1
  have hklen : indices.length ≤ N :=
    nodup_length_le indices N (hdesc.imp (fun h => Nat.ne_of_gt h)) hrange
  have hNpos : 0 < N := by
    have hex : s.m_container.d_edge ≠ [] := by
      intro h
      rw [EdgeSetTopologyContainer.hasEdges, h] at hne
      exact absurd hne (by decide)
    obtain ⟨e, he⟩ := List.exists_mem_of_ne_nil _ hex
    have := (hvalid e he).1
    rw [hN] at this
    exact Nat.lt_of_le_of_lt (Nat.zero_le _) this
  have hbuilt : s.m_container.hasEdgesAroundVertex = true := by
    unfold EdgeSetTopologyContainer.hasEdgesAroundVertex
    cases hs : s.m_container.m_edgesAroundVertex with
    | nil =>
      rw [hs] at hslen
      simp only [List.length_nil] at hslen
      omega
    | cons a l => rfl
  have hbelow : ∀ q : Nat, q < N - indices.length → newPointIndex indices (N - 1) q = q :=
    fun q hq => newPointIndex_below indices (N - 1) q (by omega)
  have hsc1 : ShellCounts
      { c1 with m_edgesAroundVertex := resize c1.m_edgesAroundVertex
                  (c1.m_edgesAroundVertex.length - indices.length) [],
                nbPoints := c1.nbPoints - indices.length } := by
    have hrl : (resize c1.m_edgesAroundVertex
        (c1.m_edgesAroundVertex.length - indices.length) []).length = N - indices.length := by
      unfold resize
      rw [List.length_append, List.length_take, List.length_replicate, hl1, hslen]
      omega
    refine ⟨?_, fun p hp => ?_⟩
    · show (resize _ _ _).length = c1.nbPoints - indices.length
      rw [hrl, hn1, hN]
    · have hp1 : p < N - indices.length := by
        have : c1.nbPoints - indices.length = N - indices.length := by rw [hn1, hN]
        exact this ▸ hp
      have hget : (resize c1.m_edgesAroundVertex
          (c1.m_edgesAroundVertex.length - indices.length) []).getD p []
          = c1.m_edgesAroundVertex.getD p [] := by
        unfold resize
        rw [List.getD_eq_getElem?_getD, List.getD_eq_getElem?_getD,
          List.getElem?_append_left (by rw [List.length_take, hl1, hslen]; omega),
          List.getElem?_take_of_lt (by rw [hl1, hslen]; omega)]
      show (∀ j ∈ (resize _ _ _).getD p [], j < c1.d_edge.length) ∧
        ∀ j < c1.d_edge.length, ((resize _ _ _).getD p []).count j = endpointCount c1.d_edge j p
      rw [hget]
      exact i3 p hp1
  refine ⟨{ s with m_container :=
      { c1 with m_edgesAroundVertex := resize c1.m_edgesAroundVertex
                  (c1.m_edgesAroundVertex.length - indices.length) [],
                nbPoints := c1.nbPoints - indices.length } }, ?_, hedges, hbelow,
    fun q hq hmem => newPointIndex_lt indices N q hdesc hrange hq hmem, ?_, ?_, hsc1.1, hsc1,
    hsc1.exact⟩
  · unfold EdgeSetTopologyModifier.removePointsProcess
    simp only [hne, hbuilt, if_true, Bool.not_true, Bool.false_eq_true, if_false,
      EdgeSetTopologyContainer.getNbPoints, hN, hrun]
    rw [if_pos (by rw [hl1, hslen]; exact hklen)]
  · show c1.nbPoints - indices.length = N - indices.length
    rw [hn1, hN]
  · intro e he
    have := i2 e he
    show e.1 < c1.nbPoints - indices.length ∧ e.2 < c1.nbPoints - indices.length
    rw [hn1, hN]
    exact this

theorem C29_removePointsProcess_no_dangling_witness :
    starLoopMeshShell.m_container.hasEdges = true ∧
    ValidEdges starLoopMeshShell.m_container ∧
    ShellCounts starLoopMeshShell.m_container ∧
    ([3, 1] : List Nat).Pairwise (fun a b => b < a) ∧
    (∀ i ∈ ([3, 1] : List Nat), i < starLoopMeshShell.m_container.nbPoints) ∧
    (∀ i ∈ ([3, 1] : List Nat), Isolated starLoopMeshShell.m_container.d_edge i) ∧
    (starLoopMeshShell.m_container.d_edge.map (fun e =>
        (newPointIndex [3, 1] (starLoopMeshShell.m_container.nbPoints - 1) e.1,
         newPointIndex [3, 1] (starLoopMeshShell.m_container.nbPoints - 1) e.2))
      = [(0, 1), (1, 1), (2, 0)]) ∧
    ∃ s1, EdgeSetTopologyModifier.removePointsProcess starLoopMeshShell [3, 1] true = .done s1
      ∧ s1.m_container.d_edge = starLoopMeshShell.m_container.d_edge.map (fun e =>
          (newPointIndex [3, 1] (starLoopMeshShell.m_container.nbPoints - 1) e.1,
           newPointIndex [3, 1] (starLoopMeshShell.m_container.nbPoints - 1) e.2))
      ∧ (∀ q : Nat, q < starLoopMeshShell.m_container.nbPoints - ([3, 1] : List Nat).length →
          newPointIndex [3, 1] (starLoopMeshShell.m_container.nbPoints - 1) q = q)
      ∧ (∀ q : Nat, q < starLoopMeshShell.m_container.nbPoints → q ∉ ([3, 1] : List Nat) →
          newPointIndex [3, 1] (starLoopMeshShell.m_container.nbPoints - 1) q
            < starLoopMeshShell.m_container.nbPoints - ([3, 1] : List Nat).length)
      ∧ s1.m_container.nbPoints
          = starLoopMeshShell.m_container.nbPoints - ([3, 1] : List Nat).length
      ∧ ValidEdges s1.m_container
      ∧ s1.m_container.m_edgesAroundVertex.length = s1.m_container.nbPoints
      ∧ ShellCounts s1.m_container
      ∧ ShellExact s1.m_container :=
  ⟨by decide, by decide, by decide, by decide, by decide, by decide, by decide,
    C29_removePointsProcess_no_dangling starLoopMeshShell [3, 1] true
      (by decide) (by decide) (by decide) (by decide) (by decide) (by decide)⟩

/-- C30. The edge list of a move is exact: for every mesh with a consistent shell (a built
shell array is consistent with the edge array; a shell array not yet built is built by the
call) and every list of moved points (indices of points of the mesh, repetitions allowed),
`movePointsProcess` runs to its end, and the index list carried by its two records
contains exactly the edges that have at least one moved point as an endpoint, each exactly
once, in descending order; the edge list of the adding record has the same length and
holds at each position the edge stored at the index listed at that position. -/
theorem C30_move_edge_list_exact (s : EdgeSetTopologyModifier) (id : List PointID)
    (ancestors : List (List PointID)) (coefs : List (List SReal)) (moveDOF : Bool)
    (hshell : s.m_container.hasEdgesAroundVertex = true → ShellExact s.m_container)
    (hid : ∀ p ∈ id, p < s.m_container.nbPoints) :
    ∃ (s1 : EdgeSetTopologyModifier) (seen : EdgeSetTopologyContainer) (moved : Event)
      (list : List Nat) (edgeArray : List Edge),
      EdgeSetTopologyModifier.movePointsProcess s id ancestors coefs moveDOF = .done s1
      ∧ s1.trace = s.trace ++ [Event.propagated seen, moved]
      ∧ seen.m_changeList
          = s.m_container.m_changeList ++ [TopologyChange.EdgesMoved_Removing list]
      ∧ s1.m_container.m_changeList = [TopologyChange.EdgesMoved_Adding list edgeArray]
      ∧ s1.m_container.d_edge = s.m_container.d_edge
      ∧ (∀ j : Nat, j ∈ list ↔
          ∃ e, s.m_container.d_edge[j]? = some e ∧ (e.1 ∈ id ∨ e.2 ∈ id))
      ∧ list.Nodup
      ∧ list.Pairwise (fun a b => b < a)
      ∧ edgeArray.length = list.length
      ∧ ∀ k j : Nat, list[k]? = some j →
          ∃ e, s.m_container.d_edge[j]? = some e ∧ edgeArray[k]? = some e := by
  obtain ⟨c0, hc0⟩ : ∃ c0, c0 = (if id.isEmpty then s.m_container
      else s.m_container.getEdgesAroundVertexArray) := ⟨_, rfl⟩
  have hfacts : c0.d_edge = s.m_container.d_edge
      ∧ (id ≠ [] → ShellExact c0 ∧ c0.nbPoints = s.m_container.nbPoints) := by
    rw [hc0]
    cases id with
    | nil => exact ⟨rfl, fun h => absurd rfl h⟩
    | cons p rest =>
      simp only [List.isEmpty_cons, Bool.false_eq_true, if_false]
      unfold EdgeSetTopologyContainer.getEdgesAroundVertexArray
      by_cases hb : s.m_container.hasEdgesAroundVertex = true
      · rw [if_pos hb]
        exact ⟨rfl, fun _ => ⟨hshell hb, rfl⟩⟩
      · rw [if_neg hb]
        exact ⟨rfl, fun _ => ⟨createEdgesAroundVertexArray_exact _, rfl⟩⟩
  obtain ⟨he, hex⟩ := hfacts
  have hidlen : ∀ p ∈ id, p < c0.m_edgesAroundVertex.length := by
    intro p hp
    obtain ⟨hx, hn⟩ := hex (List.ne_nil_of_mem hp)
    rw [hx.1, hn]
    exact hid p hp
  obtain ⟨collected, hcol, -⟩ :=
    collectEdgesAroundVertex_spec c0.m_edgesAroundVertex id [] hidlen
  obtain ⟨hnd, hmem⟩ := collectEdgesAroundVertex_exact c0.m_edgesAroundVertex id [] collected
    List.nodup_nil hcol
  have hchar : ∀ j : Nat, j ∈ collected ↔
      ∃ e, s.m_container.d_edge[j]? = some e ∧ (e.1 ∈ id ∨ e.2 ∈ id) := by
    intro j
    rw [hmem j]
    simp only [List.not_mem_nil, false_or]
    constructor
    · rintro ⟨p, hp, hj⟩
      obtain ⟨hx, hn⟩ := hex (List.ne_nil_of_mem hp)
      have hpn : p < c0.nbPoints := by
        rw [hn]
        exact hid p hp
      obtain ⟨e, h1, h2⟩ := (((ShellExact_iff c0).1 hx).2 p hpn j).1 hj
      rw [he] at h1
      refine ⟨e, h1, ?_⟩
      rcases h2 with h3 | h3
      · exact Or.inl (h3 ▸ hp)
      · exact Or.inr (h3 ▸ hp)
    · rintro ⟨e, h1, h2⟩
      rw [← he] at h1
      rcases h2 with h3 | h3
      · obtain ⟨hx, hn⟩ := hex (List.ne_nil_of_mem h3)
        have hpn : e.1 < c0.nbPoints := by
          rw [hn]
          exact hid _ h3
        exact ⟨e.1, h3, (((ShellExact_iff c0).1 hx).2 e.1 hpn j).2 ⟨e, h1, Or.inl rfl⟩⟩
      · obtain ⟨hx, hn⟩ := hex (List.ne_nil_of_mem h3)
        have hpn : e.2 < c0.nbPoints := by
          rw [hn]
          exact hid _ h3
        exact ⟨e.2, h3, (((ShellExact_iff c0).1 hx).2 e.2 hpn j).2 ⟨e, h1, Or.inr rfl⟩⟩
  have hrange : ∀ i ∈ sortDescending collected, i < s.m_container.d_edge.length := by
    intro i hi
    obtain ⟨e, h1, -⟩ := (hchar i).1 ((sortDescending_perm collected).mem_iff.1 hi)
    exact (List.getElem?_eq_some.1 h1).1
  obtain ⟨edgeArray, hlook⟩ := lookupEdges_total s.m_container.d_edge _ hrange
  rw [hc0] at hcol
  obtain ⟨s1, hrun⟩ := movePointsProcess_total s id ancestors coefs moveDOF collected
    edgeArray hcol hlook
  obtain ⟨collected1, edgeArray1, seen, moved, g1, g2, g3, g4, -, -, g7, -, g9⟩ :=
    movePointsProcess_done s id ancestors coefs moveDOF s1 hrun
  have e1 : collected1 = collected := Option.some.inj (g1.symm.trans hcol)
  subst e1
  have e2 : edgeArray1 = edgeArray := Option.some.inj (g2.symm.trans hlook)
  subst e2
  obtain ⟨k1, k2⟩ := lookupEdges_spec _ _ _ hlook
  refine ⟨s1, seen, moved, sortDescending collected1, edgeArray1, hrun, g3, g4, g7, g9,
    ?_, ?_, sortDescending_strict _ hnd, k1, k2⟩
  · intro j
    rw [(sortDescending_perm collected1).mem_iff]
    exact hchar j
  · exact (sortDescending_perm collected1).nodup_iff.2 hnd

theorem C30_move_edge_list_exact_witness :
    (pathMeshShell.m_container.hasEdgesAroundVertex = true →
      ShellExact pathMeshShell.m_container) ∧
    (∀ p ∈ ([2, 1, 2] : List PointID), p < pathMeshShell.m_container.nbPoints) ∧
    ∃ (s1 : EdgeSetTopologyModifier) (seen : EdgeSetTopologyContainer) (moved : Event)
      (list : List Nat) (edgeArray : List Edge),
      EdgeSetTopologyModifier.movePointsProcess pathMeshShell [2, 1, 2] [] [] true = .done s1
      ∧ s1.trace = pathMeshShell.trace ++ [Event.propagated seen, moved]
      ∧ seen.m_changeList
          = pathMeshShell.m_container.m_changeList ++ [TopologyChange.EdgesMoved_Removing list]
      ∧ s1.m_container.m_changeList = [TopologyChange.EdgesMoved_Adding list edgeArray]
      ∧ s1.m_container.d_edge = pathMeshShell.m_container.d_edge
      ∧ (∀ j : Nat, j ∈ list ↔
          ∃ e, pathMeshShell.m_container.d_edge[j]? = some e
            ∧ (e.1 ∈ ([2, 1, 2] : List PointID) ∨ e.2 ∈ ([2, 1, 2] : List PointID)))
      ∧ list.Nodup
      ∧ list.Pairwise (fun a b => b < a)
      ∧ edgeArray.length = list.length
      ∧ ∀ k j : Nat, list[k]? = some j →
          ∃ e, pathMeshShell.m_container.d_edge[j]? = some e ∧ edgeArray[k]? = some e :=
  ⟨by decide, by decide,
    C30_move_edge_list_exact pathMeshShell [2, 1, 2] [] [] true (by decide) (by decide)⟩
end Sofa
